import Mathlib

/-!
YASK stencil driver (`src/stencil_calc.cpp`, `src/stencil_calc.hpp`)

A shallow embedding of the rank-level execution engine: bounding-box discovery,
the wavefront planner, the time / region loop driver, the halo exchanger and the
set-up of the rank topology and of the MPI buffers.

Conventions of the embedding.

* `idx_t` (a signed 64-bit integer) is `Int`.  The quantities computed here are
  loop indices inside the rank domain, lengths of sub-ranges of it and point
  counts of loops that were really executed, so for domain sizes that are
  `idx_t` values no operation wraps; where the constants `idx_max` / `idx_min`
  matter the theorems carry the hypothesis that the sizes are `idx_t` values.
* C++ `/` and `%` on `idx_t` truncate toward zero: `Int.tdiv` and `Int.tmod`.
* `exit_yask(code)` ends the process: a run is either `Run.returned s` or
  `Run.exited code s`, where `s` is the state reached at that moment.
* The build-time macros `VLEN_d`, `CLEN_d`, `CPTS_T` are not part of the sources read
  here; they are the fields of `Consts`.
* The OpenMP reductions `min`, `max`, `+` are associative and commutative, so a
  parallel loop with such reductions is the sequential fold in loop order.
-/

namespace Yask

/-- Largest `idx_t` value. -/
def idx_max : Int := 9223372036854775807

/-- Smallest `idx_t` value. -/
def idx_min : Int := -9223372036854775808

/-- Build-time constants of a stencil binding: vector lengths `VLEN_d` (points
per vector), cluster lengths `CLEN_d` (vectors per cluster) and the time-cluster
`CPTS_T`. -/
structure Consts where
  VLEN_N : Int
  VLEN_X : Int
  VLEN_Y : Int
  VLEN_Z : Int
  CLEN_N : Int
  CLEN_X : Int
  CLEN_Y : Int
  CLEN_Z : Int
  CPTS_T : Int

/-- Modelled from the spec: the macro `CPTS_N`, the cluster length in points,
`CPTS_d = VLEN_d * CLEN_d`. -/
def Consts.CPTS_N (K : Consts) : Int := K.CLEN_N * K.VLEN_N

/-- Modelled from the spec: the macro `CPTS_X` (`CLEN_X * VLEN_X`). -/
def Consts.CPTS_X (K : Consts) : Int := K.CLEN_X * K.VLEN_X

/-- Modelled from the spec: the macro `CPTS_Y` (`CLEN_Y * VLEN_Y`). -/
def Consts.CPTS_Y (K : Consts) : Int := K.CLEN_Y * K.VLEN_Y

/-- Modelled from the spec: the macro `CPTS_Z` (`CLEN_Z * VLEN_Z`). -/
def Consts.CPTS_Z (K : Consts) : Int := K.CLEN_Z * K.VLEN_Z

/-- The fields of `StencilContext` used by the driver (`by_` is the field `by`). -/
structure StencilContext where
  begin_dt : Int
  dt : Int
  dn : Int
  dx : Int
  dy : Int
  dz : Int
  rt : Int
  rn : Int
  rx : Int
  ry : Int
  rz : Int
  bt : Int
  bn : Int
  bx : Int
  by_ : Int
  bz : Int
  gn : Int
  gx : Int
  gy : Int
  gz : Int
  hn : Int
  hx : Int
  hy : Int
  hz : Int
  angle_n : Int
  angle_x : Int
  angle_y : Int
  angle_z : Int
  begin_bbn : Int
  end_bbn : Int
  len_bbn : Int
  begin_bbx : Int
  end_bbx : Int
  len_bbx : Int
  begin_bby : Int
  end_bby : Int
  len_bby : Int
  begin_bbz : Int
  end_bbz : Int
  len_bbz : Int
  bb_size : Int
  bb_valid : Bool

/-- An equation group (`EqGroupBase`): its bounding box and its domain
predicate.  `addr` is the identity of the object (the pointer kept in
`eqGroups` and in an `EqGroupSet`). -/
structure EqGroupBase where
  addr : Nat
  begin_bbn : Int
  end_bbn : Int
  len_bbn : Int
  begin_bbx : Int
  end_bbx : Int
  len_bbx : Int
  begin_bby : Int
  end_bby : Int
  len_bby : Int
  begin_bbz : Int
  end_bbz : Int
  len_bbz : Int
  bb_size : Int
  bb_valid : Bool
  is_in_valid_domain : StencilContext → Int → Int → Int → Int → Int → Bool

/-- Outcome of a run that may call `exit_yask`. -/
inductive Run (σ : Type) where
  | returned (s : σ) : Run σ
  | exited (code : Int) (s : σ) : Run σ

/-- State reached when the run returned or called `exit_yask`. -/
def Run.state {σ : Type} : Run σ → σ
  | .returned s => s
  | .exited _ s => s

/-- A point `(n, x, y, z)` of the 4-D index space. -/
structure Pt where
  n : Int
  x : Int
  y : Int
  z : Int
deriving DecidableEq, Repr

/-- The values taken by `i` in `for (Int i = b; i < e; i++)`. -/
def loopRange (b e : Int) : List Int :=
  (List.range (e - b).toNat).map (fun (k : Nat) => b + Int.ofNat k)

/-- Reduction variables of the scan in `find_bounding_box`. -/
structure BBScan where
  minn : Int
  maxn : Int
  minx : Int
  maxx : Int
  miny : Int
  maxy : Int
  minz : Int
  maxz : Int
  npts : Int

/-- Initial values: "Init min vars w/max val and vice-versa." -/
def BBScan.init : BBScan :=
  { minn := idx_max, maxn := idx_min, minx := idx_max, maxx := idx_min,
    miny := idx_max, maxy := idx_min, minz := idx_max, maxz := idx_min, npts := 0 }

/-- Body of the scan loop for a point that is in the valid domain. -/
def BBScan.visit (a : BBScan) (n x y z : Int) : BBScan :=
  { minn := min a.minn n, maxn := max a.maxn n,
    minx := min a.minx x, maxx := max a.maxx x,
    miny := min a.miny y, maxy := max a.maxy y,
    minz := min a.minz z, maxz := max a.maxz z,
    npts := a.npts + 1 }

/-- The 4-D scan loop of `find_bounding_box` over `[0,dn) x [0,dx) x [0,dy) x [0,dz)`. -/
def scanDomain (valid : Int → Int → Int → Int → Bool) (dn dx dy dz : Int) : BBScan :=
  (loopRange 0 dn).foldl (fun a n =>
    (loopRange 0 dx).foldl (fun a x =>
      (loopRange 0 dy).foldl (fun a y =>
        (loopRange 0 dz).foldl (fun a z =>
          if valid n x y z then a.visit n x y z else a) a) a) a) BBScan.init

/-- Body of the scan loop at one point: "Update only if point in domain for this eq group." -/
def scanStep (valid : Int → Int → Int → Int → Bool) (a : BBScan) (p : Pt) : BBScan :=
  if valid p.n p.x p.y p.z then a.visit p.n p.x p.y p.z else a

/-- `EqGroupBase::find_bounding_box`. -/
def find_bounding_box (K : Consts) (context : StencilContext) (eg : EqGroupBase) :
    Run EqGroupBase :=
  if eg.bb_valid then .returned eg else
  let t : Int := 0
  let s := scanDomain (eg.is_in_valid_domain context t) context.dn context.dx context.dy context.dz
  let eg1 : EqGroupBase :=
    if s.npts ≠ 0 then
      { eg with begin_bbn := s.minn, end_bbn := s.maxn + 1,
                begin_bbx := s.minx, end_bbx := s.maxx + 1,
                begin_bby := s.miny, end_bby := s.maxy + 1,
                begin_bbz := s.minz, end_bbz := s.maxz + 1 }
    else
      { eg with begin_bbn := 0, end_bbn := 0, len_bbn := 0,
                begin_bbx := 0, end_bbx := 0, len_bbx := 0,
                begin_bby := 0, end_bby := 0, len_bby := 0,
                begin_bbz := 0, end_bbz := 0, len_bbz := 0 }
  let eg2 : EqGroupBase :=
    { eg1 with len_bbn := eg1.end_bbn - eg1.begin_bbn,
               len_bbx := eg1.end_bbx - eg1.begin_bbx,
               len_bby := eg1.end_bby - eg1.begin_bby,
               len_bbz := eg1.end_bbz - eg1.begin_bbz,
               bb_size := s.npts }
  let r_size := eg2.len_bbn * eg2.len_bbx * eg2.len_bby * eg2.len_bbz
  if r_size ≠ eg2.bb_size then .exited 1 eg2 else
  if eg2.len_bbn.tmod K.CLEN_N ≠ 0 ∨ eg2.len_bbx.tmod K.CLEN_X ≠ 0 ∨
     eg2.len_bby.tmod K.CLEN_Y ≠ 0 ∨ eg2.len_bbz.tmod K.CLEN_Z ≠ 0 then .exited 1 eg2 else
  .returned { eg2 with bb_valid := true }

/-- Body of the loop of `find_bounding_boxes` after `eg->find_bounding_box(context)`:
fold the group's box into the context's box. -/
def bbUnion (context : StencilContext) (eg : EqGroupBase) : StencilContext :=
  { context with
    begin_bbn := min context.begin_bbn eg.begin_bbn,
    begin_bbx := min context.begin_bbx eg.begin_bbx,
    begin_bby := min context.begin_bby eg.begin_bby,
    begin_bbz := min context.begin_bbz eg.begin_bbz,
    end_bbn := max context.end_bbn eg.end_bbn,
    end_bbx := max context.end_bbx eg.end_bbx,
    end_bby := max context.end_bby eg.end_bby,
    end_bbz := max context.end_bbz eg.end_bbz,
    bb_size := context.bb_size + eg.bb_size }

/-- The loop `for (auto eg : eqGroups)` of `find_bounding_boxes`: `done` are the groups
already processed, the third argument the groups still to do.  The groups are objects
reached through pointers, so the list of groups is part of the state. -/
def find_bounding_boxes_loop (K : Consts) :
    StencilContext → List EqGroupBase → List EqGroupBase →
      Run (StencilContext × List EqGroupBase)
  | context, done, [] => .returned (context, done)
  | context, done, eg :: rest =>
    match find_bounding_box K context eg with
    | .exited code eg2 => .exited code (context, done ++ eg2 :: rest)
    | .returned eg2 => find_bounding_boxes_loop K (bbUnion context eg2) (done ++ [eg2]) rest

/-- Start of `find_bounding_boxes`: "Init overall BB.  Init min vars w/max val and
vice-versa." -/
def bbInit (context : StencilContext) : StencilContext :=
  { context with
    begin_bbn := idx_max, end_bbn := idx_min,
    begin_bbx := idx_max, end_bbx := idx_min,
    begin_bby := idx_max, end_bby := idx_min,
    begin_bbz := idx_max, end_bbz := idx_min,
    bb_size := 0 }

/-- End of `find_bounding_boxes`: the lengths, `bb_valid`, and the special case "if
region sizes are equal to domain size (default setting), change them to the BB size". -/
def bbFinish (c1 : StencilContext) : StencilContext :=
  let c2 : StencilContext :=
    { c1 with
      len_bbn := c1.end_bbn - c1.begin_bbn,
      len_bbx := c1.end_bbx - c1.begin_bbx,
      len_bby := c1.end_bby - c1.begin_bby,
      len_bbz := c1.end_bbz - c1.begin_bbz,
      bb_valid := true }
  let c3 := if c2.rn = c2.dn then { c2 with rn := c2.len_bbn } else c2
  let c4 := if c3.rx = c3.dx then { c3 with rx := c3.len_bbx } else c3
  let c5 := if c4.ry = c4.dy then { c4 with ry := c4.len_bby } else c4
  if c5.rz = c5.dz then { c5 with rz := c5.len_bbz } else c5

/-- `StencilEqs::find_bounding_boxes`. -/
def find_bounding_boxes (K : Consts) (context : StencilContext) (eqGroups : List EqGroupBase) :
    Run (StencilContext × List EqGroupBase) :=
  if context.bb_valid then .returned (context, eqGroups) else
  match find_bounding_boxes_loop K (bbInit context) [] eqGroups with
  | .exited code s => .exited code s
  | .returned (c1, egs) => .returned (bbFinish c1, egs)

/-- The box fields of a group are `idx_t` values as far as the reductions of
`find_bounding_boxes` need it: no `begin_bbd` above `idx_max`, no `end_bbd` below
`idx_min`. -/
def BoxInRange (eg : EqGroupBase) : Prop :=
  (eg.begin_bbn ≤ idx_max ∧ idx_min ≤ eg.end_bbn) ∧
  (eg.begin_bbx ≤ idx_max ∧ idx_min ≤ eg.end_bbx) ∧
  (eg.begin_bby ≤ idx_max ∧ idx_min ≤ eg.end_bby) ∧
  (eg.begin_bbz ≤ idx_max ∧ idx_min ≤ eg.end_bbz)

/-- A 4-D window `[begin_d, end_d)`, in the argument order of `calc_region`. -/
structure Box where
  begin_n : Int
  begin_x : Int
  begin_y : Int
  begin_z : Int
  end_n : Int
  end_x : Int
  end_y : Int
  end_z : Int
deriving DecidableEq, Repr

/-- Membership of a point in a window. -/
def Box.contains (B : Box) (p : Pt) : Prop :=
  (B.begin_n ≤ p.n ∧ p.n < B.end_n) ∧ (B.begin_x ≤ p.x ∧ p.x < B.end_x) ∧
  (B.begin_y ≤ p.y ∧ p.y < B.end_y) ∧ (B.begin_z ≤ p.z ∧ p.z < B.end_z)

instance (B : Box) (p : Pt) : Decidable (B.contains p) := by
  unfold Box.contains; infer_instance

/-- The points visited by the loop nest `for n .. for x .. for y .. for z ..` over a window. -/
def Box.points (B : Box) : List Pt :=
  (loopRange B.begin_n B.end_n).flatMap fun n =>
    (loopRange B.begin_x B.end_x).flatMap fun x =>
      (loopRange B.begin_y B.end_y).flatMap fun y =>
        (loopRange B.begin_z B.end_z).map fun z => Pt.mk n x y z

/-- The rank domain `[0,dn) x [0,dx) x [0,dy) x [0,dz)`. -/
def StencilContext.domain (context : StencilContext) : Box :=
  { begin_n := 0, begin_x := 0, begin_y := 0, begin_z := 0,
    end_n := context.dn, end_x := context.dx, end_y := context.dy, end_z := context.dz }

/-- The points of the rank domain at which the group's predicate holds at `t = 0`. -/
def validPoints (context : StencilContext) (eg : EqGroupBase) : Set Pt :=
  {p | (0 ≤ p.n ∧ p.n < context.dn) ∧ (0 ≤ p.x ∧ p.x < context.dx) ∧
       (0 ≤ p.y ∧ p.y < context.dy) ∧ (0 ≤ p.z ∧ p.z < context.dz) ∧
       eg.is_in_valid_domain context 0 p.n p.x p.y p.z = true}

/-! ### Loop skeletons

The generated loop headers `stencil_rank_loops.hpp` and `stencil_region_loops.hpp` are
not among the sources.  They follow the scheme that `calc_rank_opt` and `calc_region`
write out for the time dimension:
`num = ((end - begin) + (step - 1)) / step`, and for `index` in `[0, num)`,
`start = begin + index * step`, `stop = min(start + step, end)`. -/

/-- The `(start, stop)` pairs of a loop from `begin` to `end` by `step`, as computed for
`index_dt` in `calc_rank_opt` and for `index_rt` in `calc_region`.  (A zero `step` is a
division by zero in the source; here it gives no iteration.) -/
def loopWindows (b e step : Int) : List (Int × Int) :=
  (loopRange 0 (((e - b) + (step - 1)).tdiv step)).map
    (fun index => (b + index * step, min (b + index * step + step) e))

/-- Modelled from the spec: the loop nest of `stencil_rank_loops.hpp` and of
`stencil_region_loops.hpp`, which sweeps a 4-D window by the given steps and calls its
body on every tile `[start_d, stop_d)`.  The order of the generated nest is not fixed by
the spec; `n` is outermost and `z` innermost here. -/
def tileLoops (W : Box) (step_n step_x step_y step_z : Int) : List Box :=
  (loopWindows W.begin_n W.end_n step_n).flatMap fun wn =>
    (loopWindows W.begin_x W.end_x step_x).flatMap fun wx =>
      (loopWindows W.begin_y W.end_y step_y).flatMap fun wy =>
        (loopWindows W.begin_z W.end_z step_z).map fun wz =>
          { begin_n := wn.1, begin_x := wx.1, begin_y := wy.1, begin_z := wz.1,
            end_n := wn.2, end_x := wx.2, end_y := wy.2, end_z := wz.2 }

/-- Modelled from the spec: the macro `ROUND_UP(n, mult)`, which rounds `n` up to the
next multiple of `mult` (the integer idiom `((n + mult - 1) / mult) * mult`). -/
def ROUND_UP (n mult : Int) : Int := ((n + mult - 1).tdiv mult) * mult

/-! ### `calc_region` -/

/-- "Actual region boundaries must stay within BB for this eq group":
`begin_rd = max(start_dd, eg->begin_bbd)`, `end_rd = min(stop_dd, eg->end_bbd)`. -/
def clipToGroup (W : Box) (eg : EqGroupBase) : Box :=
  { begin_n := max W.begin_n eg.begin_bbn, end_n := min W.end_n eg.end_bbn,
    begin_x := max W.begin_x eg.begin_bbx, end_x := min W.end_x eg.end_bbx,
    begin_y := max W.begin_y eg.begin_bby, end_y := min W.end_y eg.end_bby,
    begin_z := max W.begin_z eg.begin_bbz, end_z := min W.end_z eg.end_bbz }

/-- The test `end_rn > begin_rn && end_rx > begin_rx && end_ry > begin_ry && end_rz > begin_rz`. -/
def Box.nonempty (B : Box) : Bool :=
  decide (B.end_n > B.begin_n) && decide (B.end_x > B.begin_x) &&
  decide (B.end_y > B.begin_y) && decide (B.end_z > B.begin_z)

/-- "Shift spatial region boundaries for next iteration to implement temporal
wavefront": `start_dd -= angle_d; stop_dd -= angle_d`. -/
def Box.shiftBack (W : Box) (context : StencilContext) : Box :=
  { begin_n := W.begin_n - context.angle_n, end_n := W.end_n - context.angle_n,
    begin_x := W.begin_x - context.angle_x, end_x := W.end_x - context.angle_x,
    begin_y := W.begin_y - context.angle_y, end_y := W.end_y - context.angle_y,
    begin_z := W.begin_z - context.angle_z, end_z := W.end_z - context.angle_z }

/-- The region window after `k` backward shifts: `[start_dd - k*angle_d, stop_dd - k*angle_d)`. -/
def Box.shiftBy (W : Box) (context : StencilContext) (k : Nat) : Box :=
  { begin_n := W.begin_n - Int.ofNat k * context.angle_n,
    end_n := W.end_n - Int.ofNat k * context.angle_n,
    begin_x := W.begin_x - Int.ofNat k * context.angle_x,
    end_x := W.end_x - Int.ofNat k * context.angle_x,
    begin_y := W.begin_y - Int.ofNat k * context.angle_y,
    end_y := W.end_y - Int.ofNat k * context.angle_y,
    begin_z := W.begin_z - Int.ofNat k * context.angle_z,
    end_z := W.end_z - Int.ofNat k * context.angle_z }

/-- One evaluation of a group inside `calc_region` (one pass through the body of
`if (eqGroup_set.count(eg))`): the group, the time `rt`, the region window
`[start_dd, stop_dd)` at that moment, the clipped window `[begin_rd, end_rd)`, and
whether the block-level sweep ran. -/
structure RegionEval where
  eg : Nat
  rt : Int
  window : Box
  clip : Box
  ran : Bool
deriving DecidableEq, Repr

/-- The loop `for (auto eg : eqGroups)` inside `calc_region` at time `rt`, from the
region window `W`: the window after the loop and the evaluations made. -/
def calc_region_groups (context : StencilContext) (eqGroup_set : List Nat) (rt : Int) :
    List EqGroupBase → Box → Box × List RegionEval
  | [], W => (W, [])
  | eg :: rest, W =>
    if eg.addr ∈ eqGroup_set then
      let ev : RegionEval :=
        { eg := eg.addr, rt := rt, window := W, clip := clipToGroup W eg,
          ran := (clipToGroup W eg).nonempty }
      let r := calc_region_groups context eqGroup_set rt rest (W.shiftBack context)
      (r.1, ev :: r.2)
    else calc_region_groups context eqGroup_set rt rest W

/-- The loop over `index_rt` inside `calc_region`; `rt = start_rt`. -/
def calc_region_times (context : StencilContext) (eqGroups : List EqGroupBase)
    (eqGroup_set : List Nat) : List (Int × Int) → Box → List RegionEval
  | [], _ => []
  | w :: rest, W =>
    let r := calc_region_groups context eqGroup_set w.1 eqGroups W
    r.2 ++ calc_region_times context eqGroups eqGroup_set rest r.1

/-- `StencilEqs::calc_region`: the evaluations it makes, in order.  An `EqGroupSet` is
given by the addresses it holds.  With `step_rt == 1` the assertion
`stop_rt == start_rt + 1` cannot fail and is not modelled. -/
def calc_region (context : StencilContext) (eqGroups : List EqGroupBase)
    (start_dt stop_dt : Int) (eqGroup_set : List Nat) (W : Box) : Run (List RegionEval) :=
  let step_rt := context.bt
  if step_rt ≠ 1 then .exited 1 [] else
  .returned (calc_region_times context eqGroups eqGroup_set
    (loopWindows start_dt stop_dt step_rt) W)

/-! ### `calc_rank_opt` -/

/-- What `calc_rank_opt` does, as seen from outside: a halo exchange for a group, or a
call of `calc_region` (with the evaluations that call made). -/
inductive Event where
  | exchange_halos (eg : Nat) (start_dt stop_dt : Int) : Event
  | calc_region (start_dt stop_dt : Int) (eqGroup_set : List Nat) (W : Box)
      (evals : List RegionEval) : Event
deriving DecidableEq, Repr

/-- Sequencing: run `f` on the elements in order and concatenate the traces; an
`exit_yask` stops everything after it. -/
def runList {α : Type} (f : α → Run (List Event)) : List α → Run (List Event)
  | [] => .returned []
  | a :: rest =>
    match f a with
    | .exited code tr => .exited code tr
    | .returned tr =>
      match runList f rest with
      | .exited code tr2 => .exited code (tr ++ tr2)
      | .returned tr2 => .returned (tr ++ tr2)

/-- One call of `calc_region` from the rank loops, as an event. -/
def callRegion (context : StencilContext) (eqGroups : List EqGroupBase)
    (start_dt stop_dt : Int) (eqGroup_set : List Nat) (W : Box) : Run (List Event) :=
  match calc_region context eqGroups start_dt stop_dt eqGroup_set W with
  | .exited code _ => .exited code []
  | .returned evals => .returned [Event.calc_region start_dt stop_dt eqGroup_set W evals]

/-- The included rank loops: `calc_region` for each region of the sweep window `W`,
stepping by the region sizes. -/
def rank_loops (context : StencilContext) (eqGroups : List EqGroupBase)
    (start_dt stop_dt : Int) (eqGroup_set : List Nat) (W : Box) : Run (List Event) :=
  runList (callRegion context eqGroups start_dt stop_dt eqGroup_set)
    (tileLoops W context.rn context.rx context.ry context.rz)

/-- The events `pre` happen, then the run `r`. -/
def Run.after (pre : List Event) : Run (List Event) → Run (List Event)
  | .exited code tr => .exited code (pre ++ tr)
  | .returned tr => .returned (pre ++ tr)

/-- Body of the loop over `index_dt` in `calc_rank_opt` (one time super-step). -/
def super_step (context : StencilContext) (eqGroups : List EqGroupBase) (W : Box)
    (w : Int × Int) : Run (List Event) :=
  let start_dt := w.1
  let stop_dt := w.2
  let step_dt := context.rt
  if step_dt = 1 then
    runList (fun eqGroup =>
      Run.after [Event.exchange_halos eqGroup.addr start_dt stop_dt]
        (rank_loops context eqGroups start_dt stop_dt [eqGroup.addr] W))
      eqGroups
  else
    Run.after (eqGroups.map (fun eqGroup => Event.exchange_halos eqGroup.addr start_dt stop_dt))
      (rank_loops context eqGroups start_dt stop_dt (eqGroups.map EqGroupBase.addr) W)

/-- `StencilEqs::init`, as far as the state of the driver goes: the per-group `init`
and the statistics do not touch the fields kept here; what remains is
`if (context.bb_valid == true) return; find_bounding_boxes(context);`. -/
def init (K : Consts) (context : StencilContext) (eqGroups : List EqGroupBase) :
    Run (StencilContext × List EqGroupBase) :=
  find_bounding_boxes K context eqGroups

/-- The assignment of the skewing angles in `calc_rank_opt`. -/
def setAngles (K : Consts) (context : StencilContext) : StencilContext :=
  { context with
    angle_n := if context.rn < context.len_bbn then ROUND_UP context.hn K.CPTS_N else 0,
    angle_x := if context.rx < context.len_bbx then ROUND_UP context.hx K.CPTS_X else 0,
    angle_y := if context.ry < context.len_bby then ROUND_UP context.hy K.CPTS_Y else 0,
    angle_z := if context.rz < context.len_bbz then ROUND_UP context.hz K.CPTS_Z else 0 }

/-- The sweep window of the rank loops in `calc_rank_opt`: `begin_dd = begin_bbd` and
`end_dd = end_bbd + angle_d * nshifts`, `nshifts = eqGroups.size() * rt - 1`. -/
def sweepWindow (context : StencilContext) (eqGroups : List EqGroupBase) : Box :=
  let nshifts : Int := (Int.ofNat eqGroups.length) * context.rt - 1
  { begin_n := context.begin_bbn, begin_x := context.begin_bbx,
    begin_y := context.begin_bby, begin_z := context.begin_bbz,
    end_n := context.end_bbn + context.angle_n * nshifts,
    end_x := context.end_bbx + context.angle_x * nshifts,
    end_y := context.end_bby + context.angle_y * nshifts,
    end_z := context.end_bbz + context.angle_z * nshifts }

/-- State of a rank run: the context, the groups and the trace of events so far. -/
structure RankState where
  context : StencilContext
  eqGroups : List EqGroupBase
  trace : List Event

/-- `StencilEqs::calc_rank_opt`. -/
def calc_rank_opt (K : Consts) (context : StencilContext) (eqGroups : List EqGroupBase) :
    Run RankState :=
  match init K context eqGroups with
  | .exited code s => .exited code { context := s.1, eqGroups := s.2, trace := [] }
  | .returned s =>
    let begin_dt := s.1.begin_dt
    let end_dt := begin_dt + s.1.dt
    let step_dt := s.1.rt
    let c := setAngles K s.1
    match runList (super_step c s.2 (sweepWindow c s.2)) (loopWindows begin_dt end_dt step_dt) with
    | .exited code tr => .exited code { context := c, eqGroups := s.2, trace := tr }
    | .returned tr => .returned { context := c, eqGroups := s.2, trace := tr }

/-- The two contexts agree on the fields that the bounding-box code never writes. -/
structure SameParams (a b : StencilContext) : Prop where
  begin_dt : a.begin_dt = b.begin_dt
  dt : a.dt = b.dt
  dn : a.dn = b.dn
  dx : a.dx = b.dx
  dy : a.dy = b.dy
  dz : a.dz = b.dz
  rt : a.rt = b.rt
  bt : a.bt = b.bt
  bn : a.bn = b.bn
  bx : a.bx = b.bx
  by_ : a.by_ = b.by_
  bz : a.bz = b.bz
  hn : a.hn = b.hn
  hx : a.hx = b.hx
  hy : a.hy = b.hy
  hz : a.hz = b.hz

/-- The bounding-box fields of `eg` describe the point set `V`: in each dimension
`begin_bbd` is the minimum and `end_bbd - 1` the maximum coordinate over `V`,
`len_bbd = end_bbd - begin_bbd`, and `bb_size` is the number of points of `V`. -/
def IsBoundingBoxOf (V : Set Pt) (eg : EqGroupBase) : Prop :=
  (IsLeast (Pt.n '' V) eg.begin_bbn ∧ IsGreatest (Pt.n '' V) (eg.end_bbn - 1) ∧
    eg.len_bbn = eg.end_bbn - eg.begin_bbn) ∧
  (IsLeast (Pt.x '' V) eg.begin_bbx ∧ IsGreatest (Pt.x '' V) (eg.end_bbx - 1) ∧
    eg.len_bbx = eg.end_bbx - eg.begin_bbx) ∧
  (IsLeast (Pt.y '' V) eg.begin_bby ∧ IsGreatest (Pt.y '' V) (eg.end_bby - 1) ∧
    eg.len_bby = eg.end_bby - eg.begin_bby) ∧
  (IsLeast (Pt.z '' V) eg.begin_bbz ∧ IsGreatest (Pt.z '' V) (eg.end_bbz - 1) ∧
    eg.len_bbz = eg.end_bbz - eg.begin_bbz) ∧
  eg.bb_size = (V.ncard : Int)

/-- A context with the given rank sizes and every other field zero (for examples). -/
def StencilContext.ofSizes (dn dx dy dz : Int) : StencilContext :=
  { begin_dt := 0, dt := 0, dn := dn, dx := dx, dy := dy, dz := dz,
    rt := 0, rn := 0, rx := 0, ry := 0, rz := 0,
    bt := 0, bn := 0, bx := 0, by_ := 0, bz := 0,
    gn := 0, gx := 0, gy := 0, gz := 0,
    hn := 0, hx := 0, hy := 0, hz := 0,
    angle_n := 0, angle_x := 0, angle_y := 0, angle_z := 0,
    begin_bbn := 0, end_bbn := 0, len_bbn := 0,
    begin_bbx := 0, end_bbx := 0, len_bbx := 0,
    begin_bby := 0, end_bby := 0, len_bby := 0,
    begin_bbz := 0, end_bbz := 0, len_bbz := 0,
    bb_size := 0, bb_valid := false }

/-- An equation group whose box has not been computed yet (for examples). -/
def EqGroupBase.fresh (addr : Nat)
    (pred : StencilContext → Int → Int → Int → Int → Int → Bool) : EqGroupBase :=
  { addr := addr,
    begin_bbn := 0, end_bbn := 0, len_bbn := 0,
    begin_bbx := 0, end_bbx := 0, len_bbx := 0,
    begin_bby := 0, end_bby := 0, len_bby := 0,
    begin_bbz := 0, end_bbz := 0, len_bbz := 0,
    bb_size := 0, bb_valid := false, is_in_valid_domain := pred }

/-- Constants with every vector and cluster length equal to one (for examples). -/
def Consts.unit : Consts :=
  { VLEN_N := 1, VLEN_X := 1, VLEN_Y := 1, VLEN_Z := 1,
    CLEN_N := 1, CLEN_X := 1, CLEN_Y := 1, CLEN_Z := 1, CPTS_T := 1 }

/-- Predicate of the unit ball around `(1,1,1)` in a `3 x 3 x 3` grid: the sphere
inscribed in that grid (for examples). -/
def inscribedSphere : StencilContext → Int → Int → Int → Int → Int → Bool :=
  fun _ _ _ x y z => decide ((x - 1) * (x - 1) + (y - 1) * (y - 1) + (z - 1) * (z - 1) ≤ 1)

/-- Two fresh groups on a domain with `dx = 4`: the first valid where `x < 2`, the
second where `x >= 1` (for examples). -/
def twoGroups : List EqGroupBase :=
  [EqGroupBase.fresh 0 (fun _ _ _ x _ _ => decide (x < 2)),
   EqGroupBase.fresh 1 (fun _ _ _ x _ _ => decide (1 ≤ x))]

/-- A rank of `1 x 16 x 1 x 1` points with `hx = 1` and region size `rx = 8`, no time
step to do (for examples). -/
def angleContext : StencilContext :=
  { StencilContext.ofSizes 1 16 1 1 with
    rn := 1, rx := 8, ry := 1, rz := 1, hx := 1,
    rt := 1, bt := 1, bn := 1, bx := 1, by_ := 1, bz := 1 }

/-- The `k`-th evaluation of the list looks at the window shifted `j + k` times. -/
def WindowsShifted (c : StencilContext) (W : Box) (j : Nat) (evals : List RegionEval) : Prop :=
  ∀ k (hk : k < evals.length), (evals.get ⟨k, hk⟩).window = W.shiftBy c (j + k)


/-- A rank of `1 x 4 x 1 x 1` points with `hx = 1`, regions of 2 points along `x`, and
two time steps done in one super-step of `rt = 2` (for examples). -/
def waveContext : StencilContext :=
  { StencilContext.ofSizes 1 4 1 1 with
    dt := 2, rt := 2, bt := 1,
    rn := 1, rx := 2, ry := 1, rz := 1,
    bn := 1, bx := 1, by_ := 1, bz := 1, hx := 1 }

/-- Evaluations of the third `calc_region` call of the run of `calc_rank_opt` on
`waveContext` and `twoGroups` (for examples). -/
def waveEvals : List RegionEval :=
  calc_region_times
    (setAngles Consts.unit (init Consts.unit waveContext twoGroups).state.1)
    (init Consts.unit waveContext twoGroups).state.2 [0, 1] (loopWindows 0 2 1)
    { begin_n := 0, begin_x := 4, begin_y := 0, begin_z := 0,
      end_n := 1, end_x := 6, end_y := 1, end_z := 1 }

/-- The third `calc_region` call of that run: region `[4,6)` along `x` of the sweep
window `[0,7)` (for examples). -/
def waveEvent : Event :=
  Event.calc_region 0 2 [0, 1]
    { begin_n := 0, begin_x := 4, begin_y := 0, begin_z := 0,
      end_n := 1, end_x := 6, end_y := 1, end_z := 1 }
    waveEvals

/-- Ordering property of a trace: wherever a `calc_region` call for the time window
`[start_dt, stop_dt)` with group set `set` occurs, `exchange_halos` for that time window
has been invoked before it for every group of `set`. -/
def HaloFirst (tr : List Event) : Prop :=
  ∀ (pre post : List Event) (start_dt stop_dt : Int) (set : List Nat) (W : Box)
    (evals : List RegionEval),
    tr = pre ++ Event.calc_region start_dt stop_dt set W evals :: post →
    ∀ g ∈ set, Event.exchange_halos g start_dt stop_dt ∈ pre

/-- A region sweep as the claims describe it: one `calc_region` call per region of the
sweep window `WS`, all with the time window `[start_dt, stop_dt)` and the group set `set`. -/
def regionSweep (c : StencilContext) (egs : List EqGroupBase) (start_dt stop_dt : Int)
    (set : List Nat) (WS : Box) : List Event :=
  (tileLoops WS c.rn c.rx c.ry c.rz).map (fun W =>
    Event.calc_region start_dt stop_dt set W
      (calc_region_times c egs set (loopWindows start_dt stop_dt 1) W))

/-- A time super-step as the claims describe it.  When `rt == 1`: for each group `g` in
list order, `exchange_halos(g)` followed by the region sweep with group set `{g}`.
Otherwise: `exchange_halos` for every group, once each in list order, followed by one
region sweep with the set of all groups. -/
def superStepTrace (c : StencilContext) (egs : List EqGroupBase) (WS : Box)
    (w : Int × Int) : List Event :=
  if c.rt = 1 then
    egs.flatMap (fun g =>
      Event.exchange_halos g.addr w.1 w.2 :: regionSweep c egs w.1 w.2 [g.addr] WS)
  else
    egs.map (fun g => Event.exchange_halos g.addr w.1 w.2) ++
      regionSweep c egs w.1 w.2 (egs.map EqGroupBase.addr) WS

/-- The order of the evaluations of one `calc_region` call, as the claims describe it:
for each inner time step in increasing order, the groups of the `eqGroups` list that are
in the set, in list order. -/
def schedule (egs : List EqGroupBase) (set : List Nat) (ws : List (Int × Int)) :
    List (Int × EqGroupBase) :=
  ws.flatMap (fun w => (egs.filter (fun g => decide (g.addr ∈ set))).map (fun g => (w.1, g)))

/-- Evaluation number `k` of a `calc_region` call on the region `W`, for the group and
time `tg`, as the claims describe it: the region window is `W` shifted back `k` times,
clipped to the group's box. -/
def evalAt (c : StencilContext) (W : Box) (k : Nat) (tg : Int × EqGroupBase) : RegionEval :=
  { eg := tg.2.addr, rt := tg.1, window := W.shiftBy c k,
    clip := clipToGroup (W.shiftBy c k) tg.2,
    ran := (clipToGroup (W.shiftBy c k) tg.2).nonempty }

/-- The evaluations numbered `j, j+1, ...` for the scheduled groups and times. -/
def evalsFrom (c : StencilContext) (W : Box) : Nat → List (Int × EqGroupBase) → List RegionEval
  | _, [] => []
  | j, tg :: rest => evalAt c W j tg :: evalsFrom c W (j + 1) rest

/-- The bounding box of a group as a window. -/
def EqGroupBase.box (g : EqGroupBase) : Box :=
  { begin_n := g.begin_bbn, begin_x := g.begin_bbx, begin_y := g.begin_bby,
    begin_z := g.begin_bbz,
    end_n := g.end_bbn, end_x := g.end_bbx, end_y := g.end_bby, end_z := g.end_bbz }

/-- Whether the event is a `calc_region` call whose evaluation number `k` ran the
block-level sweep on a clipped window that contains `p`. -/
def Event.visits (k : Nat) (p : Pt) : Event → Bool
  | .calc_region _ _ _ _ evals =>
    match evals[k]? with
    | some ev => ev.ran && decide (ev.clip.contains p)
    | none => false
  | .exchange_halos _ _ _ => false

/-- The second group of `twoGroups` after `init` on `waveContext`: its box is `[1,4)`
along `x` (for examples). -/
def waveGroup : EqGroupBase :=
  (init Consts.unit waveContext twoGroups).state.2.getD 1
    (EqGroupBase.fresh 1 (fun _ _ _ _ _ _ => false))

/-! ### Block and cluster level, and the reference run -/

/-- `calc_block` (`stencil_calc.hpp`): "Divide indices by vector lengths":
`begin_bdv = begin_bd / VLEN_d`, `end_bdv = end_bd / VLEN_d`. -/
def vecWindow (K : Consts) (B : Box) : Box :=
  { begin_n := B.begin_n.tdiv K.VLEN_N, begin_x := B.begin_x.tdiv K.VLEN_X,
    begin_y := B.begin_y.tdiv K.VLEN_Y, begin_z := B.begin_z.tdiv K.VLEN_Z,
    end_n := B.end_n.tdiv K.VLEN_N, end_x := B.end_x.tdiv K.VLEN_X,
    end_y := B.end_y.tdiv K.VLEN_Y, end_z := B.end_z.tdiv K.VLEN_Z }

/-- Modelled from the spec: the kernel's `calc_vector`, called by `calc_cluster` with the
vector indices `begin_cdv` only ("we can ignore the end_* vars"), evaluates one cluster:
`CLEN_d` vectors of `VLEN_d` points per dimension, i.e. the points
`[begin_cdv * VLEN_d, (begin_cdv + CLEN_d) * VLEN_d)`.  `T` is the tile of vector indices
handed to `calc_cluster`. -/
def clusterBox (K : Consts) (T : Box) : Box :=
  { begin_n := T.begin_n * K.VLEN_N, begin_x := T.begin_x * K.VLEN_X,
    begin_y := T.begin_y * K.VLEN_Y, begin_z := T.begin_z * K.VLEN_Z,
    end_n := (T.begin_n + K.CLEN_N) * K.VLEN_N, end_x := (T.begin_x + K.CLEN_X) * K.VLEN_X,
    end_y := (T.begin_y + K.CLEN_Y) * K.VLEN_Y, end_z := (T.begin_z + K.CLEN_Z) * K.VLEN_Z }

/-- `calc_block` (`stencil_calc.hpp`): the points it evaluates.  The included block loops
(`stencil_block_loops.hpp`, modelled by `tileLoops`) step through the vector window by
`CLEN_d` and call `calc_cluster` on every tile.  (The assertions of `calc_cluster` are
debug checks and are not modelled.) -/
def calc_block (K : Consts) (B : Box) : List Pt :=
  (tileLoops (vecWindow K B) K.CLEN_N K.CLEN_X K.CLEN_Y K.CLEN_Z).flatMap
    (fun T => (clusterBox K T).points)

/-- The included region loops of `calc_region` (`stencil_region_loops.hpp`, modelled by
`tileLoops`): `calc_block` for each block of the clipped window, stepping by the block
sizes. -/
def region_loops (K : Consts) (context : StencilContext) (clip : Box) : List Pt :=
  (tileLoops clip context.bn context.bx context.by_ context.bz).flatMap (calc_block K)

/-- What a run does to the grids: a halo exchange for a group, or the kernel's update of
one point by a group at a time (`calc_scalar`, or one lane of `calc_vector`). -/
inductive Update where
  | exchange_halos (eg : Nat) (start_dt stop_dt : Int) : Update
  | calc_point (eg : Nat) (t : Int) (p : Pt) : Update
deriving DecidableEq, Repr

/-- The updates made by one evaluation inside `calc_region`. -/
def RegionEval.updates (K : Consts) (context : StencilContext) (ev : RegionEval) :
    List Update :=
  if ev.ran then (region_loops K context ev.clip).map (Update.calc_point ev.eg ev.rt) else []

/-- The updates behind an event of `calc_rank_opt`. -/
def Event.updates (K : Consts) (context : StencilContext) : Event → List Update
  | .exchange_halos eg start_dt stop_dt => [Update.exchange_halos eg start_dt stop_dt]
  | .calc_region _ _ _ _ evals => evals.flatMap (RegionEval.updates K context)

/-- All updates made by `calc_rank_opt`, in order. -/
def optUpdates (K : Consts) (context : StencilContext) (eqGroups : List EqGroupBase) :
    List Update :=
  (calc_rank_opt K context eqGroups).state.trace.flatMap
    (Event.updates K (calc_rank_opt K context eqGroups).state.context)

/-- The values of `t` in `for (t = b; t < e; t += step)` for a positive `step`.  (For
`step <= 0` and `b < e` the source loop does not end; the results below take
`CPTS_T = 1`.) -/
def loopStarts (b e step : Int) : List Int := (loopWindows b e step).map Prod.fst

/-- Body of the loops over `t` and `eg` in `calc_rank_ref`: the halo exchange, then
`calc_scalar` at the points of the group's box where `is_in_valid_domain` holds at `t`. -/
def calc_rank_ref_step (K : Consts) (context : StencilContext) (t : Int)
    (eg : EqGroupBase) : List Update :=
  Update.exchange_halos eg.addr t (t + K.CPTS_T) ::
    (eg.box.points.filter (fun p => eg.is_in_valid_domain context t p.n p.x p.y p.z)).map
      (Update.calc_point eg.addr t)

/-- `StencilEqs::calc_rank_ref`: the updates it makes, in order. -/
def calc_rank_ref (K : Consts) (context : StencilContext) (eqGroups : List EqGroupBase) :
    Run (List Update) :=
  match init K context eqGroups with
  | .exited code _ => .exited code []
  | .returned s =>
    .returned ((loopStarts s.1.begin_dt (s.1.begin_dt + s.1.dt) K.CPTS_T).flatMap (fun t =>
      s.2.flatMap (calc_rank_ref_step K s.1 t)))

/-- Effect of one update on the grids `γ`, for a kernel `kern` and a halo exchange `halo`
that are functions of the grids. -/
def Update.apply {γ : Type} (halo : Nat → Int → Int → γ → γ) (kern : Nat → Int → Pt → γ → γ)
    (s : γ) : Update → γ
  | .exchange_halos eg start_dt stop_dt => halo eg start_dt stop_dt s
  | .calc_point eg t p => kern eg t p s

/-- Effect of a sequence of updates on the grids. -/
def runUpdates {γ : Type} (halo : Nat → Int → Int → γ → γ) (kern : Nat → Int → Pt → γ → γ)
    (us : List Update) (s : γ) : γ :=
  us.foldl (Update.apply halo kern) s

/-- A kernel that counts its evaluations per point (the instrumented kernel of the spec). -/
def countingKernel : Nat → Int → Pt → (Pt → Nat) → (Pt → Nat) :=
  fun _ _ p grid => Function.update grid p (grid p + 1)

/-- A rank of `1 x 2 x 1 x 1` points, two time steps, `rt = 1`, one region, blocks of one
point (for examples). -/
def smallContext : StencilContext :=
  { StencilContext.ofSizes 1 2 1 1 with
    dt := 2, rt := 1, bt := 1,
    rn := 1, rx := 2, ry := 1, rz := 1,
    bn := 1, bx := 1, by_ := 1, bz := 1 }

/-- A group whose predicate holds everywhere at `t = 0` and nowhere at other times (for
examples). -/
def onlyAtStart : List EqGroupBase :=
  [EqGroupBase.fresh 0 (fun _ t _ _ _ _ => decide (t = 0))]

/-- Both ends of the window are multiples of the cluster size `CPTS_d` in every dimension. -/
def Box.Aligned (K : Consts) (B : Box) : Prop :=
  (K.CPTS_N ∣ B.begin_n ∧ K.CPTS_N ∣ B.end_n) ∧ (K.CPTS_X ∣ B.begin_x ∧ K.CPTS_X ∣ B.end_x) ∧
  (K.CPTS_Y ∣ B.begin_y ∧ K.CPTS_Y ∣ B.end_y) ∧ (K.CPTS_Z ∣ B.begin_z ∧ K.CPTS_Z ∣ B.end_z)

/-- The setting in which the sweep of the optimized run is exact: `init` computes all
boxes (nothing valid before, distinct group objects) and returns `c` and `egs`;
`rt >= 1`, `bt == 1`; vector and cluster lengths are positive; halo widths are not
negative; the region sizes (after `init`) and the block sizes are positive multiples of
the cluster sizes `CPTS_d`; and every group's box begins and ends at multiples of
`CPTS_d`. -/
structure SweepSetting (K : Consts) (context : StencilContext)
    (eqGroups : List EqGroupBase) (c : StencilContext) (egs : List EqGroupBase) : Prop where
  fresh : context.bb_valid = false
  groups_fresh : ∀ g ∈ eqGroups, g.bb_valid = false
  distinct : (eqGroups.map EqGroupBase.addr).Nodup
  init_ok : init K context eqGroups = .returned (c, egs)
  rt_pos : 1 ≤ context.rt
  bt_one : context.bt = 1
  vlen_n : 0 < K.VLEN_N
  vlen_x : 0 < K.VLEN_X
  vlen_y : 0 < K.VLEN_Y
  vlen_z : 0 < K.VLEN_Z
  clen_n : 0 < K.CLEN_N
  clen_x : 0 < K.CLEN_X
  clen_y : 0 < K.CLEN_Y
  clen_z : 0 < K.CLEN_Z
  hn_nonneg : 0 ≤ context.hn
  hx_nonneg : 0 ≤ context.hx
  hy_nonneg : 0 ≤ context.hy
  hz_nonneg : 0 ≤ context.hz
  rn_pos : 0 < c.rn
  rx_pos : 0 < c.rx
  ry_pos : 0 < c.ry
  rz_pos : 0 < c.rz
  rn_dvd : K.CPTS_N ∣ c.rn
  rx_dvd : K.CPTS_X ∣ c.rx
  ry_dvd : K.CPTS_Y ∣ c.ry
  rz_dvd : K.CPTS_Z ∣ c.rz
  bn_pos : 0 < context.bn
  bx_pos : 0 < context.bx
  by_pos : 0 < context.by_
  bz_pos : 0 < context.bz
  bn_dvd : K.CPTS_N ∣ context.bn
  bx_dvd : K.CPTS_X ∣ context.bx
  by_dvd : K.CPTS_Y ∣ context.by_
  bz_dvd : K.CPTS_Z ∣ context.bz
  aligned : ∀ g ∈ egs, g.box.Aligned K

/-- The setting in which the optimized run is compared with the reference run: the
setting of the sweep, and in addition rank sizes that are `idx_t` values, domain
predicates that depend neither on the time nor on what the box code changes in the
context, and `CPTS_T == 1`. -/
structure RefinementSetting (K : Consts) (context : StencilContext)
    (eqGroups : List EqGroupBase) (c : StencilContext) (egs : List EqGroupBase)
    extends SweepSetting K context eqGroups c egs : Prop where
  pred_static : ∀ g ∈ eqGroups, ∀ (c1 c2 : StencilContext) (t1 t2 n x y z : Int),
    SameParams c1 c2 →
      g.is_in_valid_domain c1 t1 n x y z = g.is_in_valid_domain c2 t2 n x y z
  dn_idx : context.dn ≤ idx_max
  dx_idx : context.dx ≤ idx_max
  dy_idx : context.dy ≤ idx_max
  dz_idx : context.dz ≤ idx_max
  cpts_t : K.CPTS_T = 1

/-- A group whose predicate holds everywhere (for examples). -/
def everywhere : List EqGroupBase :=
  [EqGroupBase.fresh 0 (fun _ _ _ _ _ _ => true)]

/-- A rank of `1 x 4 x 1 x 1` points, one time step, `rt = 1`, one region, blocks of one
point along `x` (for examples with `CLEN_X = 2`). -/
def clusterContext : StencilContext :=
  { StencilContext.ofSizes 1 4 1 1 with
    dt := 1, rt := 1, bt := 1,
    rn := 1, rx := 4, ry := 1, rz := 1,
    bn := 1, bx := 1, by_ := 1, bz := 1 }

/-! ### Halo exchange (`EqGroupBase::exchange_halos`, the build with `USING_DIM_N`)

Grids and buffers are storage objects that are not among the sources; they are modelled
at element level: a grid is a function of the time and the element index `(n,x,y,z)`, a
buffer (`Grid_NXYZ`) a function of the element index. -/

/-- Modelled from the spec: `MPIBufs::rank_prev`, the neighbor index of offset `-1`
("index offset +1"). -/
def rank_prev : Int := 0

/-- Modelled from the spec: `MPIBufs::rank_self`, the neighbor index of offset `0`. -/
def rank_self : Int := 1

/-- Modelled from the spec: `MPIBufs::rank_next`, the neighbor index of offset `+1`. -/
def rank_next : Int := 2

/-- The elements of the vector with vector index `v`:
`[v_d * VLEN_d, (v_d + 1) * VLEN_d)` in every dimension. -/
def vecBox (K : Consts) (v : Pt) : Box :=
  { begin_n := v.n * K.VLEN_N, begin_x := v.x * K.VLEN_X,
    begin_y := v.y * K.VLEN_Y, begin_z := v.z * K.VLEN_Z,
    end_n := (v.n + 1) * K.VLEN_N, end_x := (v.x + 1) * K.VLEN_X,
    end_y := (v.y + 1) * K.VLEN_Y, end_z := (v.z + 1) * K.VLEN_Z }

/-- Modelled from the spec: `readVecNorm` at the vector index `v`; the result is the
vector, a function of the lane `(on,ox,oy,oz)`, `0 <= o_d < VLEN_d`. -/
def readVecNorm {α : Type} (K : Consts) (g : Pt → α) (v : Pt) : Pt → α :=
  fun o => g ⟨v.n * K.VLEN_N + o.n, v.x * K.VLEN_X + o.x,
    v.y * K.VLEN_Y + o.y, v.z * K.VLEN_Z + o.z⟩

/-- Modelled from the spec: `writeVecNorm` of the vector `val` at the vector index `v`. -/
def writeVecNorm {α : Type} (K : Consts) (g : Pt → α) (v : Pt) (val : Pt → α) : Pt → α :=
  fun e => if (vecBox K v).contains e then
    val ⟨e.n - v.n * K.VLEN_N, e.x - v.x * K.VLEN_X, e.y - v.y * K.VLEN_Y, e.z - v.z * K.VLEN_Z⟩
  else g e

/-- "Determine halo sizes to be exchanged for this grid": `min(context.h_d, get_p_d())`,
where `pn .. pz` are the pads allocated in the grid. -/
def haloWidths (context : StencilContext) (pn px py pz : Int) : Int × Int × Int × Int :=
  (min context.hn pn, min context.hx px, min context.hy py, min context.hz pz)

/-- Pack phase: the part of the main grid to read from, for the neighbor at
`(nn,nx,ny,nz)` and the halo widths `h`. -/
def packWindow (context : StencilContext) (h : Int × Int × Int × Int)
    (nn nx ny nz : Int) : Box :=
  { begin_n := if nn = rank_next then context.dn - h.1 else 0,
    begin_x := if nx = rank_next then context.dx - h.2.1 else 0,
    begin_y := if ny = rank_next then context.dy - h.2.2.1 else 0,
    begin_z := if nz = rank_next then context.dz - h.2.2.2 else 0,
    end_n := if nn = rank_prev then h.1 else context.dn,
    end_x := if nx = rank_prev then h.2.1 else context.dx,
    end_y := if ny = rank_prev then h.2.2.1 else context.dy,
    end_z := if nz = rank_prev then h.2.2.2 else context.dz }

/-- Unpack phase: the part of the main grid's halo to write to. -/
def unpackWindow (context : StencilContext) (h : Int × Int × Int × Int)
    (nn nx ny nz : Int) : Box :=
  { begin_n := if nn = rank_next then context.dn else if nn = rank_prev then -h.1 else 0,
    begin_x := if nx = rank_next then context.dx else if nx = rank_prev then -h.2.1 else 0,
    begin_y := if ny = rank_next then context.dy else if ny = rank_prev then -h.2.2.1 else 0,
    begin_z := if nz = rank_next then context.dz else if nz = rank_prev then -h.2.2.2 else 0,
    end_n := if nn = rank_next then context.dn + h.1 else
      if nn = rank_prev then 0 else context.dn,
    end_x := if nx = rank_next then context.dx + h.2.1 else
      if nx = rank_prev then 0 else context.dx,
    end_y := if ny = rank_next then context.dy + h.2.2.1 else
      if ny = rank_prev then 0 else context.dy,
    end_z := if nz = rank_next then context.dz + h.2.2.2 else
      if nz = rank_prev then 0 else context.dz }

/-- One tile of the halo loops: the `index_*v`, `start_*v` and `stop_*v` variables. -/
structure HaloTile where
  index_nv : Int
  index_xv : Int
  index_yv : Int
  index_zv : Int
  start_nv : Int
  start_xv : Int
  start_yv : Int
  start_zv : Int
  stop_nv : Int
  stop_xv : Int
  stop_yv : Int
  stop_zv : Int
deriving DecidableEq, Repr

/-- The `(index, start, stop)` triples of a generated loop from `b` to `e` by `step`. -/
def indexedWindows (b e step : Int) : List (Int × Int × Int) :=
  (loopRange 0 (((e - b) + (step - 1)).tdiv step)).map
    (fun index => (index, b + index * step, min (b + index * step + step) e))

/-- Modelled from the spec: the loop nest of `stencil_halo_loops.hpp` over the vector
window `[begin_dv, end_dv)` ("inner-z stride 4 vectors; other strides 1" are the values
of `step_dv` set in `exchange_halos`). -/
def halo_loops (VW : Box) (step_nv step_xv step_yv step_zv : Int) : List HaloTile :=
  (indexedWindows VW.begin_n VW.end_n step_nv).flatMap fun wn =>
    (indexedWindows VW.begin_x VW.end_x step_xv).flatMap fun wx =>
      (indexedWindows VW.begin_y VW.end_y step_yv).flatMap fun wy =>
        (indexedWindows VW.begin_z VW.end_z step_zv).map fun wz =>
          { index_nv := wn.1, index_xv := wx.1, index_yv := wy.1, index_zv := wz.1,
            start_nv := wn.2.1, start_xv := wx.2.1, start_yv := wy.2.1, start_zv := wz.2.1,
            stop_nv := wn.2.2, stop_xv := wx.2.2, stop_yv := wy.2.2, stop_zv := wz.2.2 }

/-- The loop of the macro `calc_halo` on one tile: `nv = start_nv`, `xv = start_xv`,
`yv = start_yv`, `izv = index_zv * step_zv`, and for `zv` from `start_zv` to `stop_zv`
the buffer vector `(index_nv, index_xv, index_yv, izv++)` is paired with the grid vector
`(nv, xv, yv, zv)`.  The result lists the pairs (buffer vector, grid vector) in order. -/
def calc_halo (T : HaloTile) (step_zv : Int) : List (Pt × Pt) :=
  ((loopRange T.start_zv T.stop_zv).foldl
    (fun (st : List (Pt × Pt) × Int) zv =>
      (st.1 ++ [((⟨T.index_nv, T.index_xv, T.index_yv, st.2⟩ : Pt),
        (⟨T.start_nv, T.start_xv, T.start_yv, zv⟩ : Pt))], st.2 + 1))
    ([], T.index_zv * step_zv)).1

/-- All pairs (buffer vector, grid vector) visited by the halo loops for an element
window `W`: "Divide indices by vector lengths", then the loops with
`step_nv = step_xv = step_yv = 1`, `step_zv = 4`. -/
def haloPairs (K : Consts) (W : Box) : List (Pt × Pt) :=
  (halo_loops (vecWindow K W) 1 1 1 4).flatMap (fun T => calc_halo T 4)

/-- Pack phase of `exchange_halos` for one grid and one neighbor with a send buffer: copy
vectors from the main grid at `t = start_dt` to the send buffer. -/
def pack_halo {α : Type} (K : Consts) (context : StencilContext) (pn px py pz : Int)
    (grid : Int → Pt → α) (start_dt : Int) (nn nx ny nz : Int) (sendBuf : Pt → α) : Pt → α :=
  let h := haloWidths context pn px py pz
  let t := start_dt
  (haloPairs K (packWindow context h nn nx ny nz)).foldl
    (fun buf pr => writeVecNorm K buf pr.1 (readVecNorm K (grid t) pr.2)) sendBuf

/-- Unpack phase of `exchange_halos` for one grid and one neighbor with a receive buffer:
copy vectors from the receive buffer into the main grid's halo at `t = start_dt`. -/
def unpack_halo {α : Type} (K : Consts) (context : StencilContext) (pn px py pz : Int)
    (grid : Int → Pt → α) (start_dt : Int) (nn nx ny nz : Int) (rcvBuf : Pt → α) :
    Int → Pt → α :=
  let h := haloWidths context pn px py pz
  let t := start_dt
  fun t2 => if t2 = t then
    (haloPairs K (unpackWindow context h nn nx ny nz)).foldl
      (fun g pr => writeVecNorm K g pr.2 (readVecNorm K rcvBuf pr.1)) (grid t)
  else grid t2


/-- A rank of `1 x 4 x 1 x 1` points with the halo width `hx` along `x` (for examples). -/
def haloContext (hx : Int) : StencilContext :=
  { StencilContext.ofSizes 1 4 1 1 with hx := hx }

/-- Vectors of two elements along `x`, one element in the other dimensions (for
examples). -/
def foldX2 : Consts := { Consts.unit with VLEN_X := 2 }

/-- Grid of the sending rank in the examples: the element at `x` holds `10 + x`. -/
def sendGrid : Int → Pt → Int := fun _ p => 10 + p.x

/-- Grid of the receiving rank in the examples: zero everywhere. -/
def recvGrid : Int → Pt → Int := fun _ _ => 0

/-- A buffer filled with `-1` (for examples). -/
def freshBuf : Pt → Int := fun _ => -1

/-- The second evaluation of `waveEvals`: the second group at the first inner time step
(for examples). -/
def waveSecondEval : RegionEval :=
  waveEvals.getD 1 (evalAt waveContext waveGroup.box 0 (0, waveGroup))

/-- A rank of `1 x 4 x 1 x 1` points with region sizes `(1, 4, 1, 3)`: the sizes along
`n`, `x`, `y` are the rank sizes, the one along `z` is not (for examples). -/
def regionContext : StencilContext :=
  { StencilContext.ofSizes 1 4 1 1 with rn := 1, rx := 4, ry := 1, rz := 3 }

/-- One fresh group that is valid where `x >= 1` (for examples). -/
def aboveOne : List EqGroupBase :=
  [EqGroupBase.fresh 0 (fun _ _ _ x _ _ => decide (1 ≤ x))]

/-- The elements of the main grid that the pack phase reads for one neighbor: the
elements of the vectors handed to `readVecNorm`. -/
def packReads (K : Consts) (context : StencilContext) (pn px py pz nn nx ny nz : Int) :
    List Pt :=
  (haloPairs K (packWindow context (haloWidths context pn px py pz) nn nx ny nz)).flatMap
    (fun pr => (vecBox K pr.2).points)

/-- The elements of the main grid that the unpack phase writes for one neighbor: the
elements of the vectors handed to `writeVecNorm`. -/
def unpackWrites (K : Consts) (context : StencilContext) (pn px py pz nn nx ny nz : Int) :
    List Pt :=
  (haloPairs K (unpackWindow context (haloWidths context pn px py pz) nn nx ny nz)).flatMap
    (fun pr => (vecBox K pr.2).points)

/-- A rank of `1 x 4 x 1 x 1` points whose stencils need the halo widths `(0, 3, 0, 0)`
(for examples with grids whose allocated pad along `x` is 2). -/
def padContext : StencilContext :=
  { StencilContext.ofSizes 1 4 1 1 with hx := 3 }

/-! ### Rank topology and MPI buffers (`StencilContext::setupMPI`, `MPIBufs::allocBuf`)

The declarations of the MPI-related members of `StencilContext` and of the class `MPIBufs`
are not among the sources.  The members used by `setupMPI` are the fields of `MPIVars`;
the rank sizes `d_d` and halo widths `h_d` it reads are those of `StencilContext`. -/

/-- The sizes `(dn, dx, dy, dz)` of a buffer `Grid_NXYZ`. -/
structure BufDims where
  dn : Int
  dx : Int
  dy : Int
  dz : Int
deriving DecidableEq, Repr

/-- The MPI-related members of `StencilContext`.  `my_neighbors[nn][nx][ny][nz]` is
`my_neighbors ⟨nn, nx, ny, nz⟩`; `mpiBufs gp bd ⟨nn, nx, ny, nz⟩` is
`mpiBufs[gp].bufs[bd][nn][nx][ny][nz]`, `none` for a null pointer; a grid pointer `gp` is
a natural number. -/
structure MPIVars where
  num_ranks : Int
  my_rank : Int
  nrn : Int
  nrx : Int
  nry : Int
  nrz : Int
  rin : Int
  rix : Int
  riy : Int
  riz : Int
  my_neighbors : Pt → Int
  mpiBufs : Nat → Int → Pt → Option BufDims

/-- Modelled from the spec: `MPIBufs::nBufDirs`, the number of buffer directions (send
and receive). -/
def nBufDirs : Int := 2

/-- Modelled from the spec: `MPIBufs::bufSend`, the direction of the buffers that
`visitNeighbors` hands over as `sendBuf` (`bufs[0]`). -/
def bufSend : Int := 0

/-- Modelled from the spec: the direction of the buffers that `visitNeighbors` hands
over as `rcvBuf` (`bufs[1]`). -/
def bufRec : Int := 1

/-- `MPIBufs::allocBuf` on the buffer table `bufs` of one grid: a new `Grid_NXYZ` of the
sizes `(dn, dx, dy, dz)` is stored at `bufs[bd][nn][nx][ny][nz]`.  (The assertions are
debug checks and are not modelled; the name and the stream play no role.) -/
def allocBuf (bufs : Int → Pt → Option BufDims) (bd nn nx ny nz dn dx dy dz : Int) :
    Int → Pt → Option BufDims :=
  fun bd2 idx =>
    if bd2 = bd ∧ idx = ⟨nn, nx, ny, nz⟩ then some ⟨dn, dx, dy, dz⟩ else bufs bd2 idx

/-- Conversion of an `idx_t` value to `int` (32 bits, two's complement). -/
def toInt (v : Int) : Int := (v + 2147483648) % 4294967296 - 2147483648

/-- A loop over a list whose body may end the process (`exit_yask`); `continue` is a
body that returns. -/
def forEach {σ α : Type} (f : σ → α → Run σ) : σ → List α → Run σ
  | s, [] => .returned s
  | s, a :: rest =>
    match f s a with
    | .exited code s2 => .exited code s2
    | .returned s2 => forEach f s2 rest

/-- "Alloc MPI buffers between rn and me.  Need send and receive for each updated grid":
the loops over `eqGridPtrs` and over `bd` that call `allocBuf`. -/
def allocBufs (eqGridPtrs : List Nat) (mpiBufs : Nat → Int → Pt → Option BufDims)
    (rdn rdx rdy rdz rsn rsx rsy rsz : Int) : Nat → Int → Pt → Option BufDims :=
  eqGridPtrs.foldl (fun bufs gp =>
    (loopRange 0 nBufDirs).foldl (fun bufs bd =>
      Function.update bufs gp (allocBuf (bufs gp) bd rdn rdx rdy rdz rsn rsx rsy rsz))
      bufs) mpiBufs

/-- Body of the loop `for (int rn = 0; rn < num_ranks; rn++)` of `setupMPI`.  The state
is the context and the counter `num_neighbors`; `coords` is the table of coordinates;
`MAX_EXCH_DIST` is the build-time macro (4 unless defined otherwise). -/
def setupMPI_rank (MAX_EXCH_DIST : Int) (context : StencilContext) (eqGridPtrs : List Nat)
    (coords : Int → Pt) (st : MPIVars × Int) (rn : Int) : Run (MPIVars × Int) :=
  let m := st.1
  let rnn := (coords rn).n
  let rnx := (coords rn).x
  let rny := (coords rn).y
  let rnz := (coords rn).z
  let rdn := rnn - m.rin
  let rdx := rnx - m.rix
  let rdy := rny - m.riy
  let rdz := rnz - m.riz
  let mdist := toInt (|rdn| + |rdx| + |rdy| + |rdz|)
  if rn = m.my_rank then
    if mdist ≠ 0 then .exited 1 st else .returned st
  else if mdist = 0 then .exited 1 st
  else if |rdn| > 1 ∨ |rdx| > 1 ∨ |rdy| > 1 ∨ |rdz| > 1 then .returned st
  else if mdist > MAX_EXCH_DIST then .returned st
  else
    let num_neighbors := st.2 + 1
    let rsn := if rdn = 0 then context.dn else context.hn
    let rsx := if rdx = 0 then context.dx else context.hx
    let rsy := if rdy = 0 then context.dy else context.hy
    let rsz := if rdz = 0 then context.dz else context.hz
    if rsn * rsx * rsy * rsz = 0 then .returned (m, num_neighbors)
    else
      .returned
        ({ m with
            my_neighbors :=
              Function.update m.my_neighbors ⟨rdn + 1, rdx + 1, rdy + 1, rdz + 1⟩ rn,
            mpiBufs := allocBufs eqGridPtrs m.mpiBufs (rdn + 1) (rdx + 1) (rdy + 1) (rdz + 1)
              rsn rsx rsy rsz },
          num_neighbors)

/-- "Determine my position in 4D": with `findLocation` the coordinates are those that
`Layout_4321(nrn, nrx, nry, nrz).unlayout(my_rank, ...)` gives; the layout class is not
among the sources and `unlayout` is a parameter. -/
def setupMPI_locate (unlayout : Int → Int → Int → Int → Int → Pt) (findLocation : Bool)
    (m : MPIVars) : MPIVars :=
  if findLocation then
    { m with
      rin := (unlayout m.nrn m.nrx m.nry m.nrz m.my_rank).n,
      rix := (unlayout m.nrn m.nrx m.nry m.nrz m.my_rank).x,
      riy := (unlayout m.nrn m.nrx m.nry m.nrz m.my_rank).y,
      riz := (unlayout m.nrn m.nrx m.nry m.nrz m.my_rank).z }
  else m

/-- "A table of coordinates for everyone" after the exchange (`USE_MPI`): the entry of
`my_rank` is `(rin, rix, riy, riz)`, the entry of any other rank `rn` is what that rank
broadcast, `others rn`. -/
def coordTable (m : MPIVars) (others : Int → Pt) : Int → Pt :=
  fun rn => if rn = m.my_rank then ⟨m.rin, m.rix, m.riy, m.riz⟩ else others rn

/-- The part of `setupMPI` after the position was determined: the table of coordinates
and the loop over the ranks ("Determine who my neighbors are"). -/
def setupMPI_ranks (MAX_EXCH_DIST : Int) (context : StencilContext) (eqGridPtrs : List Nat)
    (others : Int → Pt) (m : MPIVars) : Run MPIVars :=
  let coords := coordTable m others
  match forEach (setupMPI_rank MAX_EXCH_DIST context eqGridPtrs coords) (m, 0)
      (loopRange 0 m.num_ranks) with
  | .exited code s => .exited code s.1
  | .returned s => .returned s.1

/-- `StencilContext::setupMPI`. -/
def setupMPI (unlayout : Int → Int → Int → Int → Int → Pt) (MAX_EXCH_DIST : Int)
    (context : StencilContext) (eqGridPtrs : List Nat) (others : Int → Pt)
    (findLocation : Bool) (m : MPIVars) : Run MPIVars :=
  setupMPI_ranks MAX_EXCH_DIST context eqGridPtrs others
    (setupMPI_locate unlayout findLocation m)

/-- The coordinates of the rank itself. -/
def MPIVars.own (m : MPIVars) : Pt := ⟨m.rin, m.rix, m.riy, m.riz⟩

/-- The offset of the coordinates `c` from the coordinates `own`. -/
def offsetFrom (own c : Pt) : Pt := ⟨c.n - own.n, c.x - own.x, c.y - own.y, c.z - own.z⟩

/-- The index into `my_neighbors` and into the buffer tables for the offset `D`
("index offset +1"). -/
def neighborIndex (D : Pt) : Pt := ⟨D.n + 1, D.x + 1, D.y + 1, D.z + 1⟩

/-- Sizes of the buffers for a neighbor at offset `D`, as the spec gives them:
`rs_d = (D_d == 0) ? d_d : h_d`. -/
def slabDims (context : StencilContext) (D : Pt) : BufDims :=
  { dn := if D.n = 0 then context.dn else context.hn,
    dx := if D.x = 0 then context.dx else context.hx,
    dy := if D.y = 0 then context.dy else context.hy,
    dz := if D.z = 0 then context.dz else context.hz }

/-- The slab volume `rsn * rsx * rsy * rsz`. -/
def BufDims.volume (b : BufDims) : Int := b.dn * b.dx * b.dy * b.dz

/-- The Manhattan distance of an offset. -/
def manhattan (D : Pt) : Int := |D.n| + |D.x| + |D.y| + |D.z|

/-- A rank at offset `D` is an exchange partner: every `|D_d| <= 1`, the Manhattan
distance is at most `MAX_EXCH_DIST`, and the slab volume is not zero. -/
def IsPartner (MAX_EXCH_DIST : Int) (context : StencilContext) (D : Pt) : Prop :=
  (|D.n| ≤ 1 ∧ |D.x| ≤ 1 ∧ |D.y| ≤ 1 ∧ |D.z| ≤ 1) ∧
  manhattan D ≤ MAX_EXCH_DIST ∧ (slabDims context D).volume ≠ 0

instance (MAX_EXCH_DIST : Int) (context : StencilContext) (D : Pt) :
    Decidable (IsPartner MAX_EXCH_DIST context D) := by
  unfold IsPartner; infer_instance

/-- The context after the rank `rn` at offset `D` was recorded as a neighbor and its
buffers were allocated. -/
def recordPartner (context : StencilContext) (eqGridPtrs : List Nat) (m : MPIVars)
    (rn : Int) (D : Pt) : MPIVars :=
  { m with
    my_neighbors := Function.update m.my_neighbors (neighborIndex D) rn,
    mpiBufs := allocBufs eqGridPtrs m.mpiBufs (D.n + 1) (D.x + 1) (D.y + 1) (D.z + 1)
      (slabDims context D).dn (slabDims context D).dx (slabDims context D).dy
      (slabDims context D).dz }

/-- What one iteration of the loop of `setupMPI` does to the context when it does not end
the process, for a rank `rn` whose coordinates are `coords rn`, seen from the rank
`me` at `own`. -/
def partnerStep (MAX_EXCH_DIST : Int) (context : StencilContext) (eqGridPtrs : List Nat)
    (coords : Int → Pt) (own : Pt) (me : Int) (m : MPIVars) (rn : Int) : MPIVars :=
  if rn ≠ me ∧ IsPartner MAX_EXCH_DIST context (offsetFrom own (coords rn)) then
    recordPartner context eqGridPtrs m rn (offsetFrom own (coords rn))
  else m

/-- The tables of coordinates on which `setupMPI` is meant to run: `my_rank` is one of
the ranks `0 .. num_ranks - 1`, the coordinates of the ranks are pairwise distinct, and
every Manhattan distance from the rank itself is an `int` value. -/
structure RankTable (m : MPIVars) (others : Int → Pt) : Prop where
  me : 0 ≤ m.my_rank ∧ m.my_rank < m.num_ranks
  distinct : ∀ r1 r2 : Int, (0 ≤ r1 ∧ r1 < m.num_ranks) → (0 ≤ r2 ∧ r2 < m.num_ranks) →
    coordTable m others r1 = coordTable m others r2 → r1 = r2
  int_dist : ∀ r : Int, (0 ≤ r ∧ r < m.num_ranks) →
    manhattan (offsetFrom m.own (coordTable m others r)) < 2147483648

/-- Two ranks side by side along `x`: this is rank 0 at `(0,0,0,0)`, the tables are
empty (`my_neighbors` holds `-1` everywhere), and rank 1 is at `(0,1,0,0)` (for
examples). -/
def twoRanks : MPIVars :=
  { num_ranks := 2, my_rank := 0, nrn := 1, nrx := 2, nry := 1, nrz := 1,
    rin := 0, rix := 0, riy := 0, riz := 0,
    my_neighbors := fun _ => -1, mpiBufs := fun _ _ _ => none }

/-- Coordinates broadcast by the ranks in the examples: rank `r` is at `(0, r, 0, 0)`. -/
def alongX : Int → Pt := fun r => ⟨0, r, 0, 0⟩

/-- A layout that puts every rank at `(0,0,0,0)`; not used when `findLocation` is false
(for examples). -/
def noLayout : Int → Int → Int → Int → Int → Pt := fun _ _ _ _ _ => ⟨0, 0, 0, 0⟩

/-- Coordinates broadcast by the ranks when rank 1 claims the position `(0,0,0,0)` of
rank 0 (for examples). -/
def allAtOrigin : Int → Pt := fun _ => ⟨0, 0, 0, 0⟩

/-- The second of the two ranks side by side along `x`: rank 1 at `(0,1,0,0)`, with
empty tables (for examples). -/
def secondRank : MPIVars :=
  { twoRanks with my_rank := 1, rix := 1 }

/-- Three ranks, this one rank 0 at `(0,0,0,0)`, with empty tables (for examples). -/
def threeRanks : MPIVars := { twoRanks with num_ranks := 3 }

/-- Coordinates broadcast by the ranks when the ranks 1 and 2 both claim the position
`(0,1,0,0)` (for examples). -/
def bothRight : Int → Pt := fun r => if r = 0 then ⟨0, 0, 0, 0⟩ else ⟨0, 1, 0, 0⟩

/-- A rank of `1 x 4 x 1 x 1` points with five time steps done in super-steps of
`rt = 2` (for examples). -/
def stepContext : StencilContext :=
  { StencilContext.ofSizes 1 4 1 1 with
    dt := 5, rt := 2, bt := 1,
    rn := 1, rx := 4, ry := 1, rz := 1,
    bn := 1, bx := 1, by_ := 1, bz := 1 }

/-- Two fresh groups on a domain with `dx = 4`: the first valid where `x >= 2`, the
second valid nowhere (for examples). -/
def oneEmpty : List EqGroupBase :=
  [EqGroupBase.fresh 0 (fun _ _ _ x _ _ => decide (2 ≤ x)),
   EqGroupBase.fresh 1 (fun _ _ _ _ _ _ => false)]


/-- Both ends of the window are multiples of the vector length `VLEN_d` in every
dimension. -/
def Box.VecAligned (K : Consts) (B : Box) : Prop :=
  (K.VLEN_N ∣ B.begin_n ∧ K.VLEN_N ∣ B.end_n) ∧ (K.VLEN_X ∣ B.begin_x ∧ K.VLEN_X ∣ B.end_x) ∧
  (K.VLEN_Y ∣ B.begin_y ∧ K.VLEN_Y ∣ B.end_y) ∧ (K.VLEN_Z ∣ B.begin_z ∧ K.VLEN_Z ∣ B.end_z)

/-- No begin or end index of the window is negative. -/
def Box.NonNeg (B : Box) : Prop :=
  (0 ≤ B.begin_n ∧ 0 ≤ B.end_n) ∧ (0 ≤ B.begin_x ∧ 0 ≤ B.end_x) ∧
  (0 ≤ B.begin_y ∧ 0 ≤ B.end_y) ∧ (0 ≤ B.begin_z ∧ 0 ≤ B.end_z)

/-- The element window covered by the vectors of a vector window: vector `v` along a
dimension holds the elements `[v * VLEN_d, (v + 1) * VLEN_d)`. -/
def Box.ofVectors (K : Consts) (V : Box) : Box :=
  { begin_n := V.begin_n * K.VLEN_N, begin_x := V.begin_x * K.VLEN_X,
    begin_y := V.begin_y * K.VLEN_Y, begin_z := V.begin_z * K.VLEN_Z,
    end_n := V.end_n * K.VLEN_N, end_x := V.end_x * K.VLEN_X,
    end_y := V.end_y * K.VLEN_Y, end_z := V.end_z * K.VLEN_Z }

/-- A rank of `1 x 4 x 1 x 1` points, one time step, `rt = 1`, one region, blocks of two
points along `x` (for examples with `VLEN_X = 2`). -/
def blockContext : StencilContext :=
  { StencilContext.ofSizes 1 4 1 1 with
    dt := 1, rt := 1, bt := 1,
    rn := 1, rx := 4, ry := 1, rz := 1,
    bn := 1, bx := 2, by_ := 1, bz := 1 }

/-- One fresh group that is valid where `1 <= x < 3` (for examples). -/
def innerPair : List EqGroupBase :=
  [EqGroupBase.fresh 0 (fun _ _ _ x _ _ => decide (1 ≤ x ∧ x < 3))]

/-- One fresh group that is valid where `x >= 2` (for examples). -/
def aboveTwo : List EqGroupBase :=
  [EqGroupBase.fresh 0 (fun _ _ _ x _ _ => decide (2 ≤ x))]

instance (K : Consts) (B : Box) : Decidable (B.VecAligned K) := by
  unfold Box.VecAligned; infer_instance

instance (B : Box) : Decidable B.NonNeg := by
  unfold Box.NonNeg; infer_instance


/-- Modelled from the spec: `MPIBufs::num_neighbors`, the number of neighbor indices in
each dimension (`rank_prev`, `rank_self`, `rank_next`). -/
def num_neighbors : Int := 3

/-- `MPIBufs::visitNeighbors`: the neighbor indices `(nn, nx, ny, nz)` in the order of the
four loops. -/
def visitNeighbors : List Pt :=
  (loopRange 0 num_neighbors).flatMap fun nn =>
    (loopRange 0 num_neighbors).flatMap fun nx =>
      (loopRange 0 num_neighbors).flatMap fun ny =>
        (loopRange 0 num_neighbors).map fun nz => Pt.mk nn nx ny nz

/-- The visitor of the unpack phase of `exchange_halos` for one grid: "Unpack data if
buffer exists".  `rcvBufs` is the table `bufs[1]` of the grid (`none` for a null
pointer), `content idx` what the receive buffer at `idx` holds. -/
def unpack_visit {α : Type} (K : Consts) (context : StencilContext) (pn px py pz : Int)
    (start_dt : Int) (rcvBufs : Pt → Option BufDims) (content : Pt → Pt → α)
    (grid : Int → Pt → α) (idx : Pt) : Int → Pt → α :=
  if (rcvBufs idx).isSome then
    unpack_halo K context pn px py pz grid start_dt idx.n idx.x idx.y idx.z (content idx)
  else grid

/-- The unpack phase of `exchange_halos` for one grid: `visitNeighbors` with the unpack
visitor. -/
def unpack_phase {α : Type} (K : Consts) (context : StencilContext) (pn px py pz : Int)
    (start_dt : Int) (rcvBufs : Pt → Option BufDims) (content : Pt → Pt → α)
    (grid : Int → Pt → α) : Int → Pt → α :=
  visitNeighbors.foldl (unpack_visit K context pn px py pz start_dt rcvBufs content) grid

/-- The neighbor index has the value `rank_prev` or `rank_next` in some dimension. -/
def Pt.offSelf (idx : Pt) : Prop :=
  (idx.n = rank_prev ∨ idx.n = rank_next) ∨ (idx.x = rank_prev ∨ idx.x = rank_next) ∨
  (idx.y = rank_prev ∨ idx.y = rank_next) ∨ (idx.z = rank_prev ∨ idx.z = rank_next)

instance (idx : Pt) : Decidable idx.offSelf := by
  unfold Pt.offSelf; infer_instance

/-- A rank of `1 x 3 x 1 x 1` points with the halo width `hx = 1` (for examples with
`VLEN_X = 2`). -/
def oddContext : StencilContext :=
  { StencilContext.ofSizes 1 3 1 1 with hx := 1 }


/-! ### Comparison of two contexts (`StencilContext::compare`)

The grid and parameter classes are not among the sources.  `StencilContext::compare` is
embedded with their `compare` members as parameters; the results are mismatch counts,
far below the range of `idx_t`, and the sums are taken in `Int`. -/

/-- `StencilContext::compare`: `gridPtrs` and `paramPtrs` are those of the context,
`refGridPtrs` and `refParamPtrs` those of `ref`; `gridCompare a b` is
`a->compare(*b)` and `paramCompare a b` is `a->compare(b, EPSILON)`.  The loops over
`gi` and `pi` pair the entries with the same index. -/
def StencilContext.compare {G P : Type} (gridCompare : G → G → Int)
    (paramCompare : P → P → Int) (gridPtrs : List G) (paramPtrs : List P)
    (refGridPtrs : List G) (refParamPtrs : List P) : Int :=
  if gridPtrs.length ≠ refGridPtrs.length then 1 else
  let errs := (gridPtrs.zip refGridPtrs).foldl
    (fun errs p => errs + gridCompare p.1 p.2) 0
  if paramPtrs.length ≠ refParamPtrs.length then 1 else
  (paramPtrs.zip refParamPtrs).foldl (fun errs p => errs + paramCompare p.1 p.2) errs

/-- Modelled from the spec: the `compare` member of a grid or of a parameter,
"element-wise comparison with tolerance `EPSILON`; returns mismatch count": the number of
positions at which the elements of the two objects differ by more than `EPSILON`.  The
elements of an object are given as a list. -/
def elementCompare (EPSILON : ℚ) (a ref : List ℚ) : Int :=
  Int.ofNat ((a.zip ref).countP (fun p => decide (EPSILON < |p.1 - p.2|)))


/-- Two updates commute: made in either order they give the same grids. -/
def Update.Commute {γ : Type} (halo : Nat → Int → Int → γ → γ)
    (kern : Nat → Int → Pt → γ → γ) (a b : Update) : Prop :=
  ∀ s : γ, Update.apply halo kern (Update.apply halo kern s a) b =
    Update.apply halo kern (Update.apply halo kern s b) a

/-- The two points are more than the halo width apart in some dimension: neither is in
the neighborhood of the other that a stencil with the halo widths `h_d` reaches. -/
def farApart (context : StencilContext) (p q : Pt) : Prop :=
  context.hn < |p.n - q.n| ∨ context.hx < |p.x - q.x| ∨
  context.hy < |p.y - q.y| ∨ context.hz < |p.z - q.z|

/-- The first window ends, in some dimension, where the second begins or before. -/
def Box.Before (W W2 : Box) : Prop :=
  W.end_n ≤ W2.begin_n ∨ W.end_x ≤ W2.begin_x ∨ W.end_y ≤ W2.begin_y ∨ W.end_z ≤ W2.begin_z

/-- The points at which evaluation number `k` of the `calc_region` calls of one region
sweep calls the kernel of the group `g`: for each region `W` of the sweep window `WS`, in
the order of the rank loops, the points of the region loops over the window of `W`
shifted back `k` times and clipped to the box of `g`, when that window is not empty. -/
def sweepPoints (K : Consts) (sc : StencilContext) (WS : Box) (k : Nat) (g : EqGroupBase) :
    List Pt :=
  (tileLoops WS sc.rn sc.rx sc.ry sc.rz).flatMap (fun W =>
    if (clipToGroup (W.shiftBy sc k) g).nonempty then
      region_loops K sc (clipToGroup (W.shiftBy sc k) g)
    else [])


/-- A rank of `1 x 1 x 2 x 2` points, one time step, `rt = 1`, regions of one point along
`z`, blocks of one point (for examples). -/
def planeContext : StencilContext :=
  { StencilContext.ofSizes 1 1 2 2 with
    dt := 1, rt := 1, bt := 1,
    rn := 1, rx := 1, ry := 2, rz := 1,
    bn := 1, bx := 1, by_ := 1, bz := 1 }

/-- A kernel that works in place on one grid: the new value at `(n,x,y,z)` is one more
than the value at `(n,x,y-1,z+1)` (for examples). -/
def inPlaceKernel : Nat → Int → Pt → (Pt → Int) → (Pt → Int) :=
  fun _ _ p grid => Function.update grid p (grid ⟨p.n, p.x, p.y - 1, p.z + 1⟩ + 1)

/-- A rank of `1 x 4 x 1 x 1` points with halo width zero, regions of 2 points along `x`,
and two time steps done in one super-step of `rt = 2` (for examples). -/
def reachContext : StencilContext :=
  { StencilContext.ofSizes 1 4 1 1 with
    dt := 2, rt := 2, bt := 1,
    rn := 1, rx := 2, ry := 1, rz := 1,
    bn := 1, bx := 1, by_ := 1, bz := 1 }

/-- A kernel on grids with a time index that writes, at time `t + 1`, one more than the
value of the neighbor at `x + 1` at time `t` (for examples). -/
def reachKernel : Nat → Int → Pt → (Int → Pt → Int) → (Int → Pt → Int) :=
  fun _ t p grid t2 q =>
    if t2 = t + 1 ∧ q = p then grid t ⟨p.n, p.x + 1, p.y, p.z⟩ + 1 else grid t2 q

/-- A rank of `1 x 6 x 1 x 1` points, one time step, `rt = 1`, regions of 3 points and
blocks of 2 points along `x` (for examples with `CLEN_X = 2`). -/
def oddRegionContext : StencilContext :=
  { StencilContext.ofSizes 1 6 1 1 with
    dt := 1, rt := 1, bt := 1,
    rn := 1, rx := 3, ry := 1, rz := 1,
    bn := 1, bx := 2, by_ := 1, bz := 1 }

instance (K : Consts) (B : Box) : Decidable (B.Aligned K) := by
  unfold Box.Aligned; infer_instance

/-- A rank of `1 x 4 x 1 x 1` points with `hx = 1`, regions and blocks of 2 points along
`x`, and three time steps done in super-steps of `rt = 2` (for examples with
`VLEN_X = 2`). -/
def foldContext : StencilContext :=
  { StencilContext.ofSizes 1 4 1 1 with
    dt := 3, rt := 2, bt := 1,
    rn := 1, rx := 2, ry := 1, rz := 1,
    bn := 1, bx := 2, by_ := 1, bz := 1, hx := 1 }

/-- Two fresh groups on a domain with `dx = 4`: the first valid everywhere, the second
where `x >= 2` (for examples). -/
def foldGroups : List EqGroupBase :=
  [EqGroupBase.fresh 0 (fun _ _ _ _ _ _ => true),
   EqGroupBase.fresh 1 (fun _ _ _ x _ _ => decide (2 ≤ x))]

/-- A kernel on grids with a time index: the kernel of group `g` writes, at time `t + 1`,
the sum of the values of the two neighbors along `x` at time `t` and of the number `g`
(for examples). -/
def stencilKernel : Nat → Int → Pt → (Int → Pt → Int) → (Int → Pt → Int) :=
  fun g t p grid t2 q =>
    if t2 = t + 1 ∧ q = p then
      grid t ⟨p.n, p.x - 1, p.y, p.z⟩ + grid t ⟨p.n, p.x + 1, p.y, p.z⟩ + Int.ofNat g
    else grid t2 q

/-- Grids that hold `x` at the element `(n,x,y,z)` at every time (for examples). -/
def rampGrid : Int → Pt → Int := fun _ p => p.x

/-- A rank of `1 x 4 x 1 x 1` points, blocks of two points along `x`, one region, and two
time steps done in one super-step of `rt = 2` (for examples with `VLEN_X = 2`). -/
def pairContext : StencilContext :=
  { StencilContext.ofSizes 1 4 1 1 with
    dt := 2, rt := 2, bt := 1,
    rn := 1, rx := 4, ry := 1, rz := 1,
    bn := 1, bx := 2, by_ := 1, bz := 1 }


/-- The second group of `foldGroups` after `init` on `foldContext`: its box is `[2,4)`
along `x` (for examples). -/
def foldGroup : EqGroupBase :=
  (init foldX2 foldContext foldGroups).state.2.getD 1
    (EqGroupBase.fresh 1 (fun _ _ _ _ _ _ => false))

/-! ## Loops and windows -/

theorem mem_loopRange {b e i : Int} : i ∈ loopRange b e ↔ b ≤ i ∧ i < e := by
  unfold loopRange
  simp only [List.mem_map, List.mem_range, Int.ofNat_eq_coe]
  constructor
  · rintro ⟨k, hk, rfl⟩
    omega
  · rintro ⟨h1, h2⟩
    exact ⟨(i - b).toNat, by omega, by omega⟩

theorem nodup_loopRange (b e : Int) : (loopRange b e).Nodup := by
  unfold loopRange
  refine List.Nodup.map ?_ (List.nodup_range _)
  intro i j h
  simp only [Int.ofNat_eq_coe] at h
  omega

theorem Box.mem_points {B : Box} {p : Pt} : p ∈ B.points ↔ B.contains p := by
  unfold Box.points Box.contains
  simp only [List.mem_flatMap, List.mem_map, mem_loopRange]
  constructor
  · rintro ⟨n, hn, x, hx, y, hy, z, hz, rfl⟩
    exact ⟨hn, hx, hy, hz⟩
  · rintro ⟨hn, hx, hy, hz⟩
    exact ⟨p.n, hn, p.x, hx, p.y, hy, p.z, hz, rfl⟩

theorem nodup_flatMap_of {α β : Type} (l : List α) (f : α → List β) (hl : l.Nodup)
    (hf : ∀ a ∈ l, (f a).Nodup)
    (hd : ∀ a ∈ l, ∀ b ∈ l, a ≠ b → ∀ c, c ∈ f a → c ∈ f b → False) :
    (l.flatMap f).Nodup := by
  induction l with
  | nil => simp
  | cons a l ih =>
    rw [List.flatMap_cons, List.nodup_append]
    rw [List.nodup_cons] at hl
    refine ⟨hf a (by simp), ih hl.2 (fun b hb => hf b (by simp [hb]))
      (fun b hb c hc hne => hd b (by simp [hb]) c (by simp [hc]) hne), ?_⟩
    intro c hc1 hc2
    rw [List.mem_flatMap] at hc2
    obtain ⟨b, hb, hcb⟩ := hc2
    refine hd a (by simp) b (by simp [hb]) ?_ c hc1 hcb
    rintro rfl
    exact hl.1 hb

theorem Box.nodup_points (B : Box) : B.points.Nodup := by
  unfold Box.points
  refine nodup_flatMap_of _ _ (nodup_loopRange _ _) ?_ ?_
  · intro n _
    refine nodup_flatMap_of _ _ (nodup_loopRange _ _) ?_ ?_
    · intro x _
      refine nodup_flatMap_of _ _ (nodup_loopRange _ _) ?_ ?_
      · intro y _
        refine List.Nodup.map ?_ (nodup_loopRange _ _)
        intro z1 z2 h
        simpa using h
      · intro y1 _ y2 _ hne c h1 h2
        simp only [List.mem_map] at h1 h2
        obtain ⟨_, _, rfl⟩ := h1
        obtain ⟨_, _, h⟩ := h2
        simp only [Pt.mk.injEq] at h
        exact hne h.2.2.1.symm
    · intro x1 _ x2 _ hne c h1 h2
      simp only [List.mem_flatMap, List.mem_map] at h1 h2
      obtain ⟨_, _, _, _, rfl⟩ := h1
      obtain ⟨_, _, _, _, h⟩ := h2
      simp only [Pt.mk.injEq] at h
      exact hne h.2.1.symm
  · intro n1 _ n2 _ hne c h1 h2
    simp only [List.mem_flatMap, List.mem_map] at h1 h2
    obtain ⟨_, _, _, _, _, _, rfl⟩ := h1
    obtain ⟨_, _, _, _, _, _, h⟩ := h2
    simp only [Pt.mk.injEq] at h
    exact hne h.1.symm

theorem foldl_flatMap_eq {α β γ : Type} (l : List α) (f : α → List β) (g : γ → β → γ) (c : γ) :
    (l.flatMap f).foldl g c = l.foldl (fun c a => (f a).foldl g c) c := by
  induction l generalizing c with
  | nil => rfl
  | cons a l ih => simp [List.flatMap_cons, List.foldl_append, ih]

/-! ## The bounding-box scan -/

theorem scanDomain_eq_foldl (valid : Int → Int → Int → Int → Bool) (dn dx dy dz : Int) :
    scanDomain valid dn dx dy dz =
      (Box.points ⟨0, 0, 0, 0, dn, dx, dy, dz⟩).foldl (scanStep valid) BBScan.init := by
  unfold scanDomain Box.points
  simp only [foldl_flatMap_eq, List.foldl_map, scanStep]

theorem foldl_min_spec {α : Type} (f : α → Int) (l : List α) (m0 : Int) :
    l.foldl (fun m p => min m (f p)) m0 ≤ m0 ∧
    (∀ p ∈ l, l.foldl (fun m p => min m (f p)) m0 ≤ f p) ∧
    (l.foldl (fun m p => min m (f p)) m0 = m0 ∨
      ∃ p ∈ l, f p = l.foldl (fun m p => min m (f p)) m0) := by
  induction l generalizing m0 with
  | nil => simp
  | cons a l ih =>
    simp only [List.foldl_cons, List.mem_cons, forall_eq_or_imp, exists_eq_or_imp]
    obtain ⟨h1, h2, h3⟩ := ih (min m0 (f a))
    refine ⟨le_trans h1 (min_le_left _ _), ⟨le_trans h1 (min_le_right _ _), h2⟩, ?_⟩
    rcases h3 with h3 | h3
    · rcases min_choice m0 (f a) with h | h
      · left; rw [h3, h]
      · right; left; rw [h3, h]
    · right; right; exact h3

theorem foldl_max_spec {α : Type} (f : α → Int) (l : List α) (m0 : Int) :
    m0 ≤ l.foldl (fun m p => max m (f p)) m0 ∧
    (∀ p ∈ l, f p ≤ l.foldl (fun m p => max m (f p)) m0) ∧
    (l.foldl (fun m p => max m (f p)) m0 = m0 ∨
      ∃ p ∈ l, f p = l.foldl (fun m p => max m (f p)) m0) := by
  induction l generalizing m0 with
  | nil => simp
  | cons a l ih =>
    simp only [List.foldl_cons, List.mem_cons, forall_eq_or_imp, exists_eq_or_imp]
    obtain ⟨h1, h2, h3⟩ := ih (max m0 (f a))
    refine ⟨le_trans (le_max_left _ _) h1, ⟨le_trans (le_max_right _ _) h1, h2⟩, ?_⟩
    rcases h3 with h3 | h3
    · rcases max_choice m0 (f a) with h | h
      · left; rw [h3, h]
      · right; left; rw [h3, h]
    · right; right; exact h3

theorem scan_foldl_fields (valid : Int → Int → Int → Int → Bool) (l : List Pt) (a : BBScan) :
    (l.foldl (scanStep valid) a).minn =
      (l.filter (fun p => valid p.n p.x p.y p.z)).foldl (fun m p => min m p.n) a.minn ∧
    (l.foldl (scanStep valid) a).maxn =
      (l.filter (fun p => valid p.n p.x p.y p.z)).foldl (fun m p => max m p.n) a.maxn ∧
    (l.foldl (scanStep valid) a).minx =
      (l.filter (fun p => valid p.n p.x p.y p.z)).foldl (fun m p => min m p.x) a.minx ∧
    (l.foldl (scanStep valid) a).maxx =
      (l.filter (fun p => valid p.n p.x p.y p.z)).foldl (fun m p => max m p.x) a.maxx ∧
    (l.foldl (scanStep valid) a).miny =
      (l.filter (fun p => valid p.n p.x p.y p.z)).foldl (fun m p => min m p.y) a.miny ∧
    (l.foldl (scanStep valid) a).maxy =
      (l.filter (fun p => valid p.n p.x p.y p.z)).foldl (fun m p => max m p.y) a.maxy ∧
    (l.foldl (scanStep valid) a).minz =
      (l.filter (fun p => valid p.n p.x p.y p.z)).foldl (fun m p => min m p.z) a.minz ∧
    (l.foldl (scanStep valid) a).maxz =
      (l.filter (fun p => valid p.n p.x p.y p.z)).foldl (fun m p => max m p.z) a.maxz ∧
    (l.foldl (scanStep valid) a).npts =
      a.npts + ((l.filter (fun p => valid p.n p.x p.y p.z)).length : Int) := by
  induction l generalizing a with
  | nil => simp
  | cons p l ih =>
    simp only [List.foldl_cons, List.filter_cons]
    by_cases hv : valid p.n p.x p.y p.z = true
    · simp only [scanStep, hv, if_true, List.foldl_cons, List.length_cons]
      have := ih (a.visit p.n p.x p.y p.z)
      simp only [scanStep, BBScan.visit] at this ⊢
      refine ⟨this.1, this.2.1, this.2.2.1, this.2.2.2.1, this.2.2.2.2.1, this.2.2.2.2.2.1,
        this.2.2.2.2.2.2.1, this.2.2.2.2.2.2.2.1, ?_⟩
      rw [this.2.2.2.2.2.2.2.2]
      push_cast
      ring
    · have hv2 : valid p.n p.x p.y p.z = false := by simpa using hv
      simp only [scanStep, hv2, Bool.false_eq_true, if_false]
      exact ih a

/-- The valid points of the domain, as the list the scan retains. -/
theorem validPoints_eq_list (context : StencilContext) (eg : EqGroupBase) :
    validPoints context eg =
      {p | p ∈ (context.domain.points.filter
        (fun p => eg.is_in_valid_domain context 0 p.n p.x p.y p.z))} := by
  ext p
  simp only [validPoints, Set.mem_setOf_eq, List.mem_filter, Box.mem_points, Box.contains,
    StencilContext.domain]
  tauto

theorem validPoints_ncard (context : StencilContext) (eg : EqGroupBase) :
    (validPoints context eg).ncard =
      (context.domain.points.filter
        (fun p => eg.is_in_valid_domain context 0 p.n p.x p.y p.z)).length := by
  have h : validPoints context eg =
      ((context.domain.points.filter
        (fun p => eg.is_in_valid_domain context 0 p.n p.x p.y p.z)).toFinset : Set Pt) := by
    rw [validPoints_eq_list]
    ext p
    simp
  rw [h, Set.ncard_coe_Finset, List.toFinset_card_of_nodup]
  exact (Box.nodup_points _).filter _

/-- State reached by `find_bounding_box` (at return or at `exit_yask`) when the box is
not yet valid, in terms of the reduction variables of the scan. -/
theorem find_bounding_box_state (K : Consts) (context : StencilContext) (eg : EqGroupBase)
    (hfresh : eg.bb_valid = false) :
    ((find_bounding_box K context eg).state.bb_size =
      (scanDomain (eg.is_in_valid_domain context 0)
        context.dn context.dx context.dy context.dz).npts) ∧
    ((find_bounding_box K context eg).state.len_bbn =
      (find_bounding_box K context eg).state.end_bbn -
        (find_bounding_box K context eg).state.begin_bbn) ∧
    ((find_bounding_box K context eg).state.len_bbx =
      (find_bounding_box K context eg).state.end_bbx -
        (find_bounding_box K context eg).state.begin_bbx) ∧
    ((find_bounding_box K context eg).state.len_bby =
      (find_bounding_box K context eg).state.end_bby -
        (find_bounding_box K context eg).state.begin_bby) ∧
    ((find_bounding_box K context eg).state.len_bbz =
      (find_bounding_box K context eg).state.end_bbz -
        (find_bounding_box K context eg).state.begin_bbz) ∧
    ((scanDomain (eg.is_in_valid_domain context 0)
        context.dn context.dx context.dy context.dz).npts ≠ 0 →
      (find_bounding_box K context eg).state.begin_bbn =
        (scanDomain (eg.is_in_valid_domain context 0)
          context.dn context.dx context.dy context.dz).minn ∧
      (find_bounding_box K context eg).state.end_bbn =
        (scanDomain (eg.is_in_valid_domain context 0)
          context.dn context.dx context.dy context.dz).maxn + 1 ∧
      (find_bounding_box K context eg).state.begin_bbx =
        (scanDomain (eg.is_in_valid_domain context 0)
          context.dn context.dx context.dy context.dz).minx ∧
      (find_bounding_box K context eg).state.end_bbx =
        (scanDomain (eg.is_in_valid_domain context 0)
          context.dn context.dx context.dy context.dz).maxx + 1 ∧
      (find_bounding_box K context eg).state.begin_bby =
        (scanDomain (eg.is_in_valid_domain context 0)
          context.dn context.dx context.dy context.dz).miny ∧
      (find_bounding_box K context eg).state.end_bby =
        (scanDomain (eg.is_in_valid_domain context 0)
          context.dn context.dx context.dy context.dz).maxy + 1 ∧
      (find_bounding_box K context eg).state.begin_bbz =
        (scanDomain (eg.is_in_valid_domain context 0)
          context.dn context.dx context.dy context.dz).minz ∧
      (find_bounding_box K context eg).state.end_bbz =
        (scanDomain (eg.is_in_valid_domain context 0)
          context.dn context.dx context.dy context.dz).maxz + 1) ∧
    ((scanDomain (eg.is_in_valid_domain context 0)
        context.dn context.dx context.dy context.dz).npts = 0 →
      (find_bounding_box K context eg).state.begin_bbn = 0 ∧
      (find_bounding_box K context eg).state.end_bbn = 0 ∧
      (find_bounding_box K context eg).state.begin_bbx = 0 ∧
      (find_bounding_box K context eg).state.end_bbx = 0 ∧
      (find_bounding_box K context eg).state.begin_bby = 0 ∧
      (find_bounding_box K context eg).state.end_bby = 0 ∧
      (find_bounding_box K context eg).state.begin_bbz = 0 ∧
      (find_bounding_box K context eg).state.end_bbz = 0) := by
  unfold find_bounding_box
  simp only [hfresh, Bool.false_eq_true, if_false]
  generalize scanDomain (eg.is_in_valid_domain context 0)
        context.dn context.dx context.dy context.dz = s
  by_cases h0 : s.npts = 0
  · simp only [h0, ne_eq, not_true_eq_false, if_false]
    split_ifs <;> simp [Run.state]
  · simp only [h0, ne_eq, not_false_eq_true, if_true]
    split_ifs <;> simp [Run.state]

theorem isLeast_foldl_min {α : Type} (f : α → Int) (v : List α) (m0 : Int) (p0 : α)
    (hp0 : p0 ∈ v)
    (hle : f p0 ≤ m0) :
    IsLeast (f '' {p | p ∈ v}) (v.foldl (fun m p => min m (f p)) m0) := by
  obtain ⟨h1, h2, h3⟩ := foldl_min_spec f v m0
  constructor
  · rcases h3 with h3 | ⟨p, hp, hpe⟩
    · exact ⟨p0, hp0, le_antisymm (by rw [h3]; exact hle) (h2 p0 hp0)⟩
    · exact ⟨p, hp, hpe⟩
  · rintro y ⟨p, hp, rfl⟩
    exact h2 p hp

theorem isGreatest_foldl_max {α : Type} (f : α → Int) (v : List α) (m0 : Int) (p0 : α)
    (hp0 : p0 ∈ v)
    (hle : m0 ≤ f p0) :
    IsGreatest (f '' {p | p ∈ v}) (v.foldl (fun m p => max m (f p)) m0) := by
  obtain ⟨h1, h2, h3⟩ := foldl_max_spec f v m0
  constructor
  · rcases h3 with h3 | ⟨p, hp, hpe⟩
    · exact ⟨p0, hp0, le_antisymm (h2 p0 hp0) (by rw [h3]; exact hle)⟩
    · exact ⟨p, hp, hpe⟩
  · rintro y ⟨p, hp, rfl⟩
    exact h2 p hp

/-- The reduction variables after the scan: count, minima and maxima of the valid points. -/
theorem scanDomain_spec (context : StencilContext) (eg : EqGroupBase)
    (hn : context.dn ≤ idx_max) (hx : context.dx ≤ idx_max)
    (hy : context.dy ≤ idx_max) (hz : context.dz ≤ idx_max)
    (hne : (validPoints context eg).Nonempty) :
    (scanDomain (eg.is_in_valid_domain context 0)
      context.dn context.dx context.dy context.dz).npts =
        ((validPoints context eg).ncard : Int) ∧
    (scanDomain (eg.is_in_valid_domain context 0)
      context.dn context.dx context.dy context.dz).npts ≠ 0 ∧
    IsLeast (Pt.n '' validPoints context eg)
      (scanDomain (eg.is_in_valid_domain context 0)
        context.dn context.dx context.dy context.dz).minn ∧
    IsGreatest (Pt.n '' validPoints context eg)
      (scanDomain (eg.is_in_valid_domain context 0)
        context.dn context.dx context.dy context.dz).maxn ∧
    IsLeast (Pt.x '' validPoints context eg)
      (scanDomain (eg.is_in_valid_domain context 0)
        context.dn context.dx context.dy context.dz).minx ∧
    IsGreatest (Pt.x '' validPoints context eg)
      (scanDomain (eg.is_in_valid_domain context 0)
        context.dn context.dx context.dy context.dz).maxx ∧
    IsLeast (Pt.y '' validPoints context eg)
      (scanDomain (eg.is_in_valid_domain context 0)
        context.dn context.dx context.dy context.dz).miny ∧
    IsGreatest (Pt.y '' validPoints context eg)
      (scanDomain (eg.is_in_valid_domain context 0)
        context.dn context.dx context.dy context.dz).maxy ∧
    IsLeast (Pt.z '' validPoints context eg)
      (scanDomain (eg.is_in_valid_domain context 0)
        context.dn context.dx context.dy context.dz).minz ∧
    IsGreatest (Pt.z '' validPoints context eg)
      (scanDomain (eg.is_in_valid_domain context 0)
        context.dn context.dx context.dy context.dz).maxz := by
  obtain ⟨p0, hp0⟩ := hne
  have hp0d := hp0
  simp only [validPoints, Set.mem_setOf_eq] at hp0d
  obtain ⟨⟨hn0, hn1⟩, ⟨hx0, hx1⟩, ⟨hy0, hy1⟩, ⟨hz0, hz1⟩, _⟩ := hp0d
  have hmin : idx_min ≤ 0 := by decide
  rw [scanDomain_eq_foldl]
  obtain ⟨f1, f2, f3, f4, f5, f6, f7, f8, f9⟩ :=
    scan_foldl_fields (eg.is_in_valid_domain context 0) context.domain.points BBScan.init
  have hV := validPoints_eq_list context eg
  have hc := validPoints_ncard context eg
  have hp0v : p0 ∈ context.domain.points.filter
      (fun p => eg.is_in_valid_domain context 0 p.n p.x p.y p.z) := by
    rw [hV] at hp0
    exact hp0
  have hdom : (⟨0, 0, 0, 0, context.dn, context.dx, context.dy, context.dz⟩ : Box) =
      context.domain := rfl
  rw [hdom, f1, f2, f3, f4, f5, f6, f7, f8, f9, hc, hV]
  refine ⟨by simp [BBScan.init], ?_, ?_, ?_, ?_, ?_, ?_, ?_, ?_, ?_⟩
  · have : 0 < (context.domain.points.filter
        (fun p => eg.is_in_valid_domain context 0 p.n p.x p.y p.z)).length :=
      List.length_pos_of_mem hp0v
    simp only [BBScan.init]
    omega
  · exact isLeast_foldl_min Pt.n _ _ p0 hp0v (by simp only [BBScan.init]; omega)
  · exact isGreatest_foldl_max Pt.n _ _ p0 hp0v (by simp only [BBScan.init]; omega)
  · exact isLeast_foldl_min Pt.x _ _ p0 hp0v (by simp only [BBScan.init]; omega)
  · exact isGreatest_foldl_max Pt.x _ _ p0 hp0v (by simp only [BBScan.init]; omega)
  · exact isLeast_foldl_min Pt.y _ _ p0 hp0v (by simp only [BBScan.init]; omega)
  · exact isGreatest_foldl_max Pt.y _ _ p0 hp0v (by simp only [BBScan.init]; omega)
  · exact isLeast_foldl_min Pt.z _ _ p0 hp0v (by simp only [BBScan.init]; omega)
  · exact isGreatest_foldl_max Pt.z _ _ p0 hp0v (by simp only [BBScan.init]; omega)

/-- **C1.** On a group whose box is not yet valid, for rank sizes that are `idx_t` values
and a predicate that holds at some point of the rank domain at `t = 0`,
`find_bounding_box` sets (in the state it reaches, whether it then returns or stops in a
validation) `begin_bbd` to the minimum and `end_bbd` to one more than the maximum
`d`-coordinate over the valid points, `len_bbd = end_bbd - begin_bbd`, and `bb_size` to
the number of valid points. -/
theorem find_bounding_box_sets_box (K : Consts) (context : StencilContext) (eg : EqGroupBase)
    (hfresh : eg.bb_valid = false)
    (hn : context.dn ≤ idx_max) (hx : context.dx ≤ idx_max)
    (hy : context.dy ≤ idx_max) (hz : context.dz ≤ idx_max)
    (hne : (validPoints context eg).Nonempty) :
    IsBoundingBoxOf (validPoints context eg) (find_bounding_box K context eg).state := by
  obtain ⟨s1, s2, s3, s4, s5, s6, s7, s8, s9, s10⟩ := scanDomain_spec context eg hn hx hy hz hne
  obtain ⟨e1, e2, e3, e4, e5, e6, _⟩ := find_bounding_box_state K context eg hfresh
  obtain ⟨b1, b2, b3, b4, b5, b6, b7, b8⟩ := e6 s2
  unfold IsBoundingBoxOf
  rw [e1, e2, e3, e4, e5, b1, b2, b3, b4, b5, b6, b7, b8]
  simp only [add_sub_cancel_right]
  exact ⟨⟨s3, s4, trivial⟩, ⟨s5, s6, trivial⟩, ⟨s7, s8, trivial⟩, ⟨s9, s10, trivial⟩, s1⟩

/-- Witness of C1: a `1 x 3 x 2 x 1` domain whose predicate holds where `x >= 1`. -/
theorem find_bounding_box_sets_box_witness :
    (validPoints (StencilContext.ofSizes 1 3 2 1)
      (EqGroupBase.fresh 0 (fun _ _ _ x _ _ => decide (1 ≤ x)))).Nonempty ∧
    IsBoundingBoxOf
      (validPoints (StencilContext.ofSizes 1 3 2 1)
        (EqGroupBase.fresh 0 (fun _ _ _ x _ _ => decide (1 ≤ x))))
      (find_bounding_box Consts.unit (StencilContext.ofSizes 1 3 2 1)
        (EqGroupBase.fresh 0 (fun _ _ _ x _ _ => decide (1 ≤ x)))).state :=
  have hne : (validPoints (StencilContext.ofSizes 1 3 2 1)
      (EqGroupBase.fresh 0 (fun _ _ _ x _ _ => decide (1 ≤ x)))).Nonempty :=
    ⟨⟨0, 1, 0, 0⟩, by simp [validPoints, StencilContext.ofSizes, EqGroupBase.fresh]⟩
  ⟨hne, find_bounding_box_sets_box Consts.unit (StencilContext.ofSizes 1 3 2 1)
    (EqGroupBase.fresh 0 (fun _ _ _ x _ _ => decide (1 ≤ x))) rfl
    (by decide) (by decide) (by decide) (by decide) hne⟩

theorem scanDomain_npts (context : StencilContext) (eg : EqGroupBase) :
    (scanDomain (eg.is_in_valid_domain context 0)
      context.dn context.dx context.dy context.dz).npts =
        ((validPoints context eg).ncard : Int) := by
  rw [scanDomain_eq_foldl]
  have h := (scan_foldl_fields (eg.is_in_valid_domain context 0) context.domain.points
    BBScan.init).2.2.2.2.2.2.2.2
  have hdom : (⟨0, 0, 0, 0, context.dn, context.dx, context.dy, context.dz⟩ : Box) =
      context.domain := rfl
  rw [hdom, h, validPoints_ncard]
  simp [BBScan.init]

/-- The two validations of `find_bounding_box`, on a group whose box is not yet valid. -/
theorem find_bounding_box_cases (K : Consts) (context : StencilContext) (eg : EqGroupBase)
    (hfresh : eg.bb_valid = false) :
    (find_bounding_box K context eg = .exited 1 (find_bounding_box K context eg).state ∧
      ((find_bounding_box K context eg).state.bb_size ≠
          (find_bounding_box K context eg).state.len_bbn *
          (find_bounding_box K context eg).state.len_bbx *
          (find_bounding_box K context eg).state.len_bby *
          (find_bounding_box K context eg).state.len_bbz ∨
        ((find_bounding_box K context eg).state.len_bbn.tmod K.CLEN_N ≠ 0 ∨
         (find_bounding_box K context eg).state.len_bbx.tmod K.CLEN_X ≠ 0 ∨
         (find_bounding_box K context eg).state.len_bby.tmod K.CLEN_Y ≠ 0 ∨
         (find_bounding_box K context eg).state.len_bbz.tmod K.CLEN_Z ≠ 0)) ∧
      (find_bounding_box K context eg).state.bb_valid = false) ∨
    (find_bounding_box K context eg = .returned (find_bounding_box K context eg).state ∧
      (find_bounding_box K context eg).state.bb_size =
          (find_bounding_box K context eg).state.len_bbn *
          (find_bounding_box K context eg).state.len_bbx *
          (find_bounding_box K context eg).state.len_bby *
          (find_bounding_box K context eg).state.len_bbz ∧
      (find_bounding_box K context eg).state.len_bbn.tmod K.CLEN_N = 0 ∧
      (find_bounding_box K context eg).state.len_bbx.tmod K.CLEN_X = 0 ∧
      (find_bounding_box K context eg).state.len_bby.tmod K.CLEN_Y = 0 ∧
      (find_bounding_box K context eg).state.len_bbz.tmod K.CLEN_Z = 0 ∧
      (find_bounding_box K context eg).state.bb_valid = true) := by
  unfold find_bounding_box
  simp only [hfresh, Bool.false_eq_true, if_false]
  generalize scanDomain (eg.is_in_valid_domain context 0)
        context.dn context.dx context.dy context.dz = s
  by_cases h0 : s.npts = 0
  · simp only [h0, ne_eq, not_true_eq_false, if_false]
    by_cases h1 : (0 - 0 : Int) * (0 - 0) * (0 - 0) * (0 - 0) = 0
    · by_cases h2 : ¬(0 - 0 : Int).tmod K.CLEN_N = 0 ∨ ¬(0 - 0 : Int).tmod K.CLEN_X = 0 ∨
          ¬(0 - 0 : Int).tmod K.CLEN_Y = 0 ∨ ¬(0 - 0 : Int).tmod K.CLEN_Z = 0
      · left
        rw [if_neg (not_not.mpr h1), if_pos h2]
        exact ⟨rfl, Or.inr h2, rfl⟩
      · right
        rw [if_neg (not_not.mpr h1), if_neg h2]
        simp only [not_or, not_not] at h2
        exact ⟨rfl, h1.symm, h2.1, h2.2.1, h2.2.2.1, h2.2.2.2, rfl⟩
    · left
      rw [if_pos h1]
      exact ⟨rfl, Or.inl (fun h => h1 h.symm), rfl⟩
  · simp only [h0, ne_eq, not_false_eq_true, if_true]
    by_cases h1 : (s.maxn + 1 - s.minn) * (s.maxx + 1 - s.minx) * (s.maxy + 1 - s.miny) *
        (s.maxz + 1 - s.minz) = s.npts
    · by_cases h2 : ¬(s.maxn + 1 - s.minn).tmod K.CLEN_N = 0 ∨
          ¬(s.maxx + 1 - s.minx).tmod K.CLEN_X = 0 ∨
          ¬(s.maxy + 1 - s.miny).tmod K.CLEN_Y = 0 ∨ ¬(s.maxz + 1 - s.minz).tmod K.CLEN_Z = 0
      · left
        rw [if_neg (not_not.mpr h1), if_pos h2]
        exact ⟨rfl, Or.inr h2, rfl⟩
      · right
        rw [if_neg (not_not.mpr h1), if_neg h2]
        simp only [not_or, not_not] at h2
        exact ⟨rfl, h1.symm, h2.1, h2.2.1, h2.2.2.1, h2.2.2.2, rfl⟩
    · left
      rw [if_pos h1]
      exact ⟨rfl, Or.inl (fun h => h1 h.symm), rfl⟩

/-- **C2.** `find_bounding_box` ends the process with exit status 1 whenever the number
of valid points differs from `len_bbn*len_bbx*len_bby*len_bbz` (on a group whose box is
not yet valid, i.e. when the check runs); whenever it returns normally `bb_valid` is set
and `bb_size == len_bbn*len_bbx*len_bby*len_bbz` (for a group that, if already valid,
satisfied this before); and the predicate of a sphere inscribed in a `3 x 3 x 3` grid is
rejected with exit status 1. -/
theorem find_bounding_box_rectangular (K : Consts) (context : StencilContext)
    (eg : EqGroupBase)
    (hinv : eg.bb_valid = true →
      eg.bb_size = eg.len_bbn * eg.len_bbx * eg.len_bby * eg.len_bbz) :
    (eg.bb_valid = false →
      ((validPoints context eg).ncard : Int) ≠
        (find_bounding_box K context eg).state.len_bbn *
        (find_bounding_box K context eg).state.len_bbx *
        (find_bounding_box K context eg).state.len_bby *
        (find_bounding_box K context eg).state.len_bbz →
      find_bounding_box K context eg = .exited 1 (find_bounding_box K context eg).state) ∧
    (∀ eg2, find_bounding_box K context eg = .returned eg2 →
      eg2.bb_valid = true ∧
      eg2.bb_size = eg2.len_bbn * eg2.len_bbx * eg2.len_bby * eg2.len_bbz) ∧
    (∃ s, find_bounding_box Consts.unit (StencilContext.ofSizes 1 3 3 3)
      (EqGroupBase.fresh 0 inscribedSphere) = .exited 1 s) := by
  refine ⟨?_, ?_, ⟨_, rfl⟩⟩
  · intro hfresh hne
    rcases find_bounding_box_cases K context eg hfresh with h | h
    · exact h.1
    · exfalso
      apply hne
      rw [← h.2.1, (find_bounding_box_state K context eg hfresh).1, scanDomain_npts]
  · intro eg2 hret
    by_cases hv : eg.bb_valid = true
    · have : find_bounding_box K context eg = .returned eg := by
        unfold find_bounding_box
        simp [hv]
      rw [this] at hret
      cases hret
      exact ⟨hv, hinv hv⟩
    · have hfresh : eg.bb_valid = false := by simpa using hv
      rcases find_bounding_box_cases K context eg hfresh with h | h
      · rw [h.1] at hret
        cases hret
      · have hst : (find_bounding_box K context eg).state = eg2 := by
          rw [hret]
          rfl
        rw [hst] at h
        exact ⟨h.2.2.2.2.2.2, h.2.1⟩

/-- Witness of C2: a fresh group on a `1 x 3 x 2 x 1` domain, valid where `x >= 1`. -/
theorem find_bounding_box_rectangular_witness :
    (∀ eg2, find_bounding_box Consts.unit (StencilContext.ofSizes 1 3 2 1)
        (EqGroupBase.fresh 0 (fun _ _ _ x _ _ => decide (1 ≤ x))) = .returned eg2 →
      eg2.bb_valid = true ∧
      eg2.bb_size = eg2.len_bbn * eg2.len_bbx * eg2.len_bby * eg2.len_bbz) ∧
    (find_bounding_box Consts.unit (StencilContext.ofSizes 1 3 2 1)
        (EqGroupBase.fresh 0 (fun _ _ _ x _ _ => decide (1 ≤ x)))).state.bb_size = 4 :=
  ⟨(find_bounding_box_rectangular Consts.unit (StencilContext.ofSizes 1 3 2 1)
      (EqGroupBase.fresh 0 (fun _ _ _ x _ _ => decide (1 ≤ x)))
      (fun h => absurd h (by decide))).2.1, by decide⟩

/-- **C3 (evaluation of the code).** With `CLEN_X = 1` and `VLEN_X = 2` (cluster size
`CPTS_X = 2` points), `dn = 1`, `dx = 5` and a predicate that holds everywhere,
`find_bounding_box` returns normally with `len_bbx = 5`, which is not a multiple of
`CPTS_X`: the validation tests `len_bbx % CLEN_X`, not `len_bbx % (CLEN_X * VLEN_X)`. -/
theorem find_bounding_box_accepts_partial_cluster :
    ∃ eg2, find_bounding_box { Consts.unit with VLEN_X := 2 } (StencilContext.ofSizes 1 5 1 1)
        (EqGroupBase.fresh 0 (fun _ _ _ _ _ _ => true)) = .returned eg2 ∧
      eg2.bb_valid = true ∧ eg2.len_bbx = 5 ∧
      Consts.CPTS_X { Consts.unit with VLEN_X := 2 } = 2 ∧
      ¬ (Consts.CPTS_X { Consts.unit with VLEN_X := 2 } ∣ eg2.len_bbx) :=
  ⟨_, rfl, rfl, rfl, rfl, by decide⟩

/-! ## The rank bounding box -/

theorem scanDomain_range (valid : Int → Int → Int → Int → Bool) (dn dx dy dz : Int) :
    ((scanDomain valid dn dx dy dz).minn ≤ idx_max ∧
      idx_min ≤ (scanDomain valid dn dx dy dz).maxn) ∧
    ((scanDomain valid dn dx dy dz).minx ≤ idx_max ∧
      idx_min ≤ (scanDomain valid dn dx dy dz).maxx) ∧
    ((scanDomain valid dn dx dy dz).miny ≤ idx_max ∧
      idx_min ≤ (scanDomain valid dn dx dy dz).maxy) ∧
    ((scanDomain valid dn dx dy dz).minz ≤ idx_max ∧
      idx_min ≤ (scanDomain valid dn dx dy dz).maxz) := by
  rw [scanDomain_eq_foldl]
  obtain ⟨f1, f2, f3, f4, f5, f6, f7, f8, _⟩ :=
    scan_foldl_fields valid (Box.points ⟨0, 0, 0, 0, dn, dx, dy, dz⟩) BBScan.init
  rw [f1, f2, f3, f4, f5, f6, f7, f8]
  exact ⟨⟨(foldl_min_spec _ _ _).1, (foldl_max_spec _ _ _).1⟩,
    ⟨(foldl_min_spec _ _ _).1, (foldl_max_spec _ _ _).1⟩,
    ⟨(foldl_min_spec _ _ _).1, (foldl_max_spec _ _ _).1⟩,
    ⟨(foldl_min_spec _ _ _).1, (foldl_max_spec _ _ _).1⟩⟩

theorem find_bounding_box_inRange (K : Consts) (context : StencilContext)
    (eg eg2 : EqGroupBase) (hr : BoxInRange eg)
    (hret : find_bounding_box K context eg = .returned eg2) : BoxInRange eg2 := by
  by_cases hv : eg.bb_valid = true
  · have : find_bounding_box K context eg = .returned eg := by
      unfold find_bounding_box
      simp [hv]
    rw [this] at hret
    cases hret
    exact hr
  · have hfresh : eg.bb_valid = false := by simpa using hv
    have hst : (find_bounding_box K context eg).state = eg2 := by
      rw [hret]
      rfl
    obtain ⟨_, _, _, _, _, e6, e7⟩ := find_bounding_box_state K context eg hfresh
    rw [hst] at e6 e7
    obtain ⟨⟨r1, r2⟩, ⟨r3, r4⟩, ⟨r5, r6⟩, ⟨r7, r8⟩⟩ :=
      scanDomain_range (eg.is_in_valid_domain context 0)
        context.dn context.dx context.dy context.dz
    have hmax : (0 : Int) ≤ idx_max := by decide
    have hmin : idx_min ≤ (0 : Int) := by decide
    by_cases h0 : (scanDomain (eg.is_in_valid_domain context 0)
        context.dn context.dx context.dy context.dz).npts = 0
    · obtain ⟨b1, b2, b3, b4, b5, b6, b7, b8⟩ := e7 h0
      unfold BoxInRange
      rw [b1, b2, b3, b4, b5, b6, b7, b8]
      exact ⟨⟨hmax, hmin⟩, ⟨hmax, hmin⟩, ⟨hmax, hmin⟩, ⟨hmax, hmin⟩⟩
    · obtain ⟨b1, b2, b3, b4, b5, b6, b7, b8⟩ := e6 h0
      unfold BoxInRange
      rw [b1, b2, b3, b4, b5, b6, b7, b8]
      refine ⟨⟨r1, ?_⟩, ⟨r3, ?_⟩, ⟨r5, ?_⟩, ⟨r7, ?_⟩⟩ <;> omega

theorem find_bounding_boxes_loop_returned (K : Consts) (todo : List EqGroupBase) :
    ∀ (context : StencilContext) (done : List EqGroupBase) (c1 : StencilContext)
      (egs : List EqGroupBase),
      find_bounding_boxes_loop K context done todo = .returned (c1, egs) →
      ∃ new, egs = done ++ new ∧ c1 = new.foldl bbUnion context ∧
        List.Forall₂ (fun eg eg2 => ∃ cc, find_bounding_box K cc eg = .returned eg2)
          todo new := by
  induction todo with
  | nil =>
    intro context done c1 egs h
    simp only [find_bounding_boxes_loop, Run.returned.injEq, Prod.mk.injEq] at h
    exact ⟨[], by simp [h.2], by simp [h.1], List.Forall₂.nil⟩
  | cons eg rest ih =>
    intro context done c1 egs h
    simp only [find_bounding_boxes_loop] at h
    cases hf : find_bounding_box K context eg with
    | exited code eg2 =>
      rw [hf] at h
      cases h
    | returned eg2 =>
      rw [hf] at h
      obtain ⟨new, h1, h2, h3⟩ := ih _ _ _ _ h
      refine ⟨eg2 :: new, ?_, ?_, List.Forall₂.cons ⟨context, hf⟩ h3⟩
      · rw [h1]
        simp
      · rw [h2]
        rfl

theorem foldl_bbUnion_fields (l : List EqGroupBase) (c : StencilContext) :
    (l.foldl bbUnion c).begin_bbn = l.foldl (fun m e => min m e.begin_bbn) c.begin_bbn ∧
    (l.foldl bbUnion c).end_bbn = l.foldl (fun m e => max m e.end_bbn) c.end_bbn ∧
    (l.foldl bbUnion c).begin_bbx = l.foldl (fun m e => min m e.begin_bbx) c.begin_bbx ∧
    (l.foldl bbUnion c).end_bbx = l.foldl (fun m e => max m e.end_bbx) c.end_bbx ∧
    (l.foldl bbUnion c).begin_bby = l.foldl (fun m e => min m e.begin_bby) c.begin_bby ∧
    (l.foldl bbUnion c).end_bby = l.foldl (fun m e => max m e.end_bby) c.end_bby ∧
    (l.foldl bbUnion c).begin_bbz = l.foldl (fun m e => min m e.begin_bbz) c.begin_bbz ∧
    (l.foldl bbUnion c).end_bbz = l.foldl (fun m e => max m e.end_bbz) c.end_bbz := by
  induction l generalizing c with
  | nil => simp
  | cons e l ih =>
    simp only [List.foldl_cons]
    have := ih (bbUnion c e)
    simpa [bbUnion] using this

theorem bbFinish_fields (c1 : StencilContext) :
    ((bbFinish c1).begin_bbn = c1.begin_bbn ∧ (bbFinish c1).end_bbn = c1.end_bbn ∧
      (bbFinish c1).len_bbn = c1.end_bbn - c1.begin_bbn) ∧
    ((bbFinish c1).begin_bbx = c1.begin_bbx ∧ (bbFinish c1).end_bbx = c1.end_bbx ∧
      (bbFinish c1).len_bbx = c1.end_bbx - c1.begin_bbx) ∧
    ((bbFinish c1).begin_bby = c1.begin_bby ∧ (bbFinish c1).end_bby = c1.end_bby ∧
      (bbFinish c1).len_bby = c1.end_bby - c1.begin_bby) ∧
    ((bbFinish c1).begin_bbz = c1.begin_bbz ∧ (bbFinish c1).end_bbz = c1.end_bbz ∧
      (bbFinish c1).len_bbz = c1.end_bbz - c1.begin_bbz) ∧
    (bbFinish c1).bb_valid = true := by
  unfold bbFinish
  simp only
  split_ifs <;> simp

theorem find_bounding_boxes_returned (K : Consts) (context : StencilContext)
    (eqGroups : List EqGroupBase) (c2 : StencilContext) (egs : List EqGroupBase)
    (hfresh : context.bb_valid = false)
    (hret : find_bounding_boxes K context eqGroups = .returned (c2, egs)) :
    ∃ c1, find_bounding_boxes_loop K (bbInit context) [] eqGroups = .returned (c1, egs) ∧
      c2 = bbFinish c1 := by
  unfold find_bounding_boxes at hret
  rw [if_neg (by simp [hfresh])] at hret
  cases hl : find_bounding_boxes_loop K (bbInit context) [] eqGroups with
  | exited code s =>
    rw [hl] at hret
    cases hret
  | returned r =>
    obtain ⟨c1, egs1⟩ := r
    rw [hl] at hret
    simp only [Run.returned.injEq, Prod.mk.injEq] at hret
    exact ⟨c1, by rw [hret.2], hret.1.symm⟩

/-- **C4.** For a non-empty list of equation groups with `idx_t` box fields, on a context
whose box is not yet valid: when `find_bounding_boxes` returns normally (every group's
`find_bounding_box` returned normally, giving the groups `egs`), the context's
`begin_bbd` is the minimum of the groups' `begin_bbd`, its `end_bbd` the maximum of the
groups' `end_bbd`, `len_bbd = end_bbd - begin_bbd`, and `bb_valid` is true. -/
theorem find_bounding_boxes_union (K : Consts) (context : StencilContext)
    (eqGroups : List EqGroupBase) (c2 : StencilContext) (egs : List EqGroupBase)
    (hfresh : context.bb_valid = false) (hne : eqGroups ≠ [])
    (hrange : ∀ eg ∈ eqGroups, BoxInRange eg)
    (hret : find_bounding_boxes K context eqGroups = .returned (c2, egs)) :
    List.Forall₂ (fun eg eg2 => ∃ cc, find_bounding_box K cc eg = .returned eg2)
      eqGroups egs ∧
    (IsLeast (EqGroupBase.begin_bbn '' {eg | eg ∈ egs}) c2.begin_bbn ∧
      IsGreatest (EqGroupBase.end_bbn '' {eg | eg ∈ egs}) c2.end_bbn ∧
      c2.len_bbn = c2.end_bbn - c2.begin_bbn) ∧
    (IsLeast (EqGroupBase.begin_bbx '' {eg | eg ∈ egs}) c2.begin_bbx ∧
      IsGreatest (EqGroupBase.end_bbx '' {eg | eg ∈ egs}) c2.end_bbx ∧
      c2.len_bbx = c2.end_bbx - c2.begin_bbx) ∧
    (IsLeast (EqGroupBase.begin_bby '' {eg | eg ∈ egs}) c2.begin_bby ∧
      IsGreatest (EqGroupBase.end_bby '' {eg | eg ∈ egs}) c2.end_bby ∧
      c2.len_bby = c2.end_bby - c2.begin_bby) ∧
    (IsLeast (EqGroupBase.begin_bbz '' {eg | eg ∈ egs}) c2.begin_bbz ∧
      IsGreatest (EqGroupBase.end_bbz '' {eg | eg ∈ egs}) c2.end_bbz ∧
      c2.len_bbz = c2.end_bbz - c2.begin_bbz) ∧
    c2.bb_valid = true := by
  obtain ⟨c1, hl, hc2⟩ := find_bounding_boxes_returned K context eqGroups c2 egs hfresh hret
  subst hc2
  obtain ⟨⟨n1, n2, n3⟩, ⟨x1, x2, x3⟩, ⟨y1, y2, y3⟩, ⟨z1, z2, z3⟩, hv⟩ := bbFinish_fields c1
  obtain ⟨new, h1, h2, h3⟩ := find_bounding_boxes_loop_returned K eqGroups _ _ _ _ hl
  simp only [List.nil_append] at h1
  subst h1
  have hrange2 : ∀ eg2 ∈ egs, BoxInRange eg2 := by
    intro eg2 hmem
    obtain ⟨i, hi, rfl⟩ := List.getElem_of_mem hmem
    have hlen := h3.length_eq
    obtain ⟨cc, hcc⟩ := List.Forall₂.get h3 (by omega) hi
    exact find_bounding_box_inRange K cc _ _ (hrange _ (List.get_mem _ _ _)) hcc
  obtain ⟨e0, he0⟩ : ∃ e0, e0 ∈ egs := by
    cases h3 with
    | nil => exact absurd rfl hne
    | cons _ _ => exact ⟨_, List.mem_cons_self _ _⟩
  obtain ⟨⟨r1, r2⟩, ⟨r3, r4⟩, ⟨r5, r6⟩, ⟨r7, r8⟩⟩ := hrange2 e0 he0
  obtain ⟨f1, f2, f3, f4, f5, f6, f7, f8⟩ := foldl_bbUnion_fields egs (bbInit context)
  rw [← h2] at f1 f2 f3 f4 f5 f6 f7 f8
  refine ⟨h3, ⟨?_, ?_, ?_⟩, ⟨?_, ?_, ?_⟩, ⟨?_, ?_, ?_⟩, ⟨?_, ?_, ?_⟩, hv⟩
  · rw [n1, f1]
    exact isLeast_foldl_min _ _ _ e0 he0 r1
  · rw [n2, f2]
    exact isGreatest_foldl_max _ _ _ e0 he0 r2
  · rw [n3, n2, n1]
  · rw [x1, f3]
    exact isLeast_foldl_min _ _ _ e0 he0 r3
  · rw [x2, f4]
    exact isGreatest_foldl_max _ _ _ e0 he0 r4
  · rw [x3, x2, x1]
  · rw [y1, f5]
    exact isLeast_foldl_min _ _ _ e0 he0 r5
  · rw [y2, f6]
    exact isGreatest_foldl_max _ _ _ e0 he0 r6
  · rw [y3, y2, y1]
  · rw [z1, f7]
    exact isLeast_foldl_min _ _ _ e0 he0 r7
  · rw [z2, f8]
    exact isGreatest_foldl_max _ _ _ e0 he0 r8
  · rw [z3, z2, z1]

/-- Witness of C4: two groups with boxes `[0,2)` and `[1,4)` along `x`; the rank box is
`[0,4)`. -/
theorem find_bounding_boxes_union_witness :
    twoGroups ≠ [] ∧
    find_bounding_boxes Consts.unit (StencilContext.ofSizes 1 4 1 1) twoGroups =
      .returned ((find_bounding_boxes Consts.unit (StencilContext.ofSizes 1 4 1 1)
          twoGroups).state.1,
        (find_bounding_boxes Consts.unit (StencilContext.ofSizes 1 4 1 1) twoGroups).state.2) ∧
    (IsLeast (EqGroupBase.begin_bbx '' {eg | eg ∈
        (find_bounding_boxes Consts.unit (StencilContext.ofSizes 1 4 1 1) twoGroups).state.2})
      (find_bounding_boxes Consts.unit (StencilContext.ofSizes 1 4 1 1)
        twoGroups).state.1.begin_bbx ∧
     IsGreatest (EqGroupBase.end_bbx '' {eg | eg ∈
        (find_bounding_boxes Consts.unit (StencilContext.ofSizes 1 4 1 1) twoGroups).state.2})
      (find_bounding_boxes Consts.unit (StencilContext.ofSizes 1 4 1 1)
        twoGroups).state.1.end_bbx ∧
     (find_bounding_boxes Consts.unit (StencilContext.ofSizes 1 4 1 1)
        twoGroups).state.1.len_bbx =
      (find_bounding_boxes Consts.unit (StencilContext.ofSizes 1 4 1 1)
        twoGroups).state.1.end_bbx -
      (find_bounding_boxes Consts.unit (StencilContext.ofSizes 1 4 1 1)
        twoGroups).state.1.begin_bbx) ∧
    (find_bounding_boxes Consts.unit (StencilContext.ofSizes 1 4 1 1)
        twoGroups).state.1.begin_bbx = 0 ∧
    (find_bounding_boxes Consts.unit (StencilContext.ofSizes 1 4 1 1)
        twoGroups).state.1.end_bbx = 4 :=
  ⟨by simp [twoGroups], rfl,
    (find_bounding_boxes_union Consts.unit (StencilContext.ofSizes 1 4 1 1) twoGroups _ _ rfl
      (by simp [twoGroups])
      (by
        intro eg h
        simp only [twoGroups, List.mem_cons, List.mem_singleton, List.not_mem_nil,
          or_false] at h
        rcases h with rfl | rfl <;>
          simp [BoxInRange, EqGroupBase.fresh, idx_max, idx_min])
      rfl).2.2.1,
    by decide, by decide⟩

/-! ## The wavefront planner -/

theorem ROUND_UP_isLeast (h c : Int) (hh : 0 ≤ h) (hc : 0 < c) :
    IsLeast {m | c ∣ m ∧ h ≤ m} (ROUND_UP h c) := by
  unfold ROUND_UP
  rw [Int.tdiv_eq_ediv (by omega) (by omega)]
  have h1 := Int.ediv_mul_le (h + c - 1) (ne_of_gt hc)
  have h2 := Int.lt_ediv_add_one_mul_self (h + c - 1) hc
  constructor
  · refine ⟨Dvd.intro_left _ rfl, ?_⟩
    linarith
  · rintro m ⟨⟨k, rfl⟩, hm⟩
    have : (h + c - 1) / c < k + 1 := by
      by_contra hcon
      push_neg at hcon
      have : (k + 1) * c ≤ (h + c - 1) / c * c := by
        exact Int.mul_le_mul_of_nonneg_right hcon (le_of_lt hc)
      nlinarith
    have hle : (h + c - 1) / c ≤ k := by omega
    calc (h + c - 1) / c * c ≤ k * c := Int.mul_le_mul_of_nonneg_right hle (le_of_lt hc)
      _ = c * k := by ring

theorem ROUND_UP_nonneg (h c : Int) (hh : 0 ≤ h) (hc : 0 < c) : 0 ≤ ROUND_UP h c :=
  le_trans hh (ROUND_UP_isLeast h c hh hc).1.2

theorem SameParams.rfl_ (a : StencilContext) : SameParams a a :=
  ⟨rfl, rfl, rfl, rfl, rfl, rfl, rfl, rfl, rfl, rfl, rfl, rfl, rfl, rfl, rfl, rfl⟩

theorem SameParams.trans_ {a b c : StencilContext} (h1 : SameParams a b)
    (h2 : SameParams b c) : SameParams a c :=
  ⟨h1.begin_dt.trans h2.begin_dt, h1.dt.trans h2.dt, h1.dn.trans h2.dn, h1.dx.trans h2.dx,
    h1.dy.trans h2.dy, h1.dz.trans h2.dz, h1.rt.trans h2.rt, h1.bt.trans h2.bt,
    h1.bn.trans h2.bn, h1.bx.trans h2.bx, h1.by_.trans h2.by_, h1.bz.trans h2.bz,
    h1.hn.trans h2.hn, h1.hx.trans h2.hx, h1.hy.trans h2.hy, h1.hz.trans h2.hz⟩

theorem sameParams_bbUnion (c : StencilContext) (eg : EqGroupBase) :
    SameParams (bbUnion c eg) c :=
  ⟨rfl, rfl, rfl, rfl, rfl, rfl, rfl, rfl, rfl, rfl, rfl, rfl, rfl, rfl, rfl, rfl⟩

theorem sameParams_bbInit (c : StencilContext) : SameParams (bbInit c) c :=
  ⟨rfl, rfl, rfl, rfl, rfl, rfl, rfl, rfl, rfl, rfl, rfl, rfl, rfl, rfl, rfl, rfl⟩

theorem sameParams_bbFinish (c : StencilContext) : SameParams (bbFinish c) c := by
  unfold bbFinish
  simp only
  split_ifs <;> exact ⟨rfl, rfl, rfl, rfl, rfl, rfl, rfl, rfl, rfl, rfl, rfl, rfl, rfl, rfl, rfl, rfl⟩

theorem sameParams_setAngles (K : Consts) (c : StencilContext) : SameParams (setAngles K c) c :=
  ⟨rfl, rfl, rfl, rfl, rfl, rfl, rfl, rfl, rfl, rfl, rfl, rfl, rfl, rfl, rfl, rfl⟩

theorem sameParams_foldl_bbUnion (l : List EqGroupBase) (c : StencilContext) :
    SameParams (l.foldl bbUnion c) c := by
  induction l generalizing c with
  | nil => exact SameParams.rfl_ c
  | cons e l ih => exact (ih (bbUnion c e)).trans_ (sameParams_bbUnion c e)

theorem init_sameParams (K : Consts) (context : StencilContext) (eqGroups : List EqGroupBase)
    (c : StencilContext) (egs : List EqGroupBase)
    (hinit : init K context eqGroups = .returned (c, egs)) : SameParams c context := by
  unfold init at hinit
  by_cases hv : context.bb_valid = true
  · unfold find_bounding_boxes at hinit
    rw [if_pos hv] at hinit
    cases hinit
    exact SameParams.rfl_ _
  · have hfresh : context.bb_valid = false := by simpa using hv
    obtain ⟨c1, hl, hc⟩ := find_bounding_boxes_returned K context eqGroups c egs hfresh hinit
    obtain ⟨new, _, h2, _⟩ := find_bounding_boxes_loop_returned K eqGroups _ _ _ _ hl
    subst hc
    subst h2
    exact (sameParams_bbFinish _).trans_
      ((sameParams_foldl_bbUnion _ _).trans_ (sameParams_bbInit _))

theorem calc_rank_opt_state (K : Consts) (context : StencilContext)
    (eqGroups : List EqGroupBase) (c : StencilContext) (egs : List EqGroupBase)
    (hinit : init K context eqGroups = .returned (c, egs)) :
    (calc_rank_opt K context eqGroups).state.context = setAngles K c ∧
    (calc_rank_opt K context eqGroups).state.eqGroups = egs ∧
    (calc_rank_opt K context eqGroups).state.trace =
      (runList (super_step (setAngles K c) egs (sweepWindow (setAngles K c) egs))
        (loopWindows c.begin_dt (c.begin_dt + c.dt) c.rt)).state := by
  unfold calc_rank_opt
  rw [hinit]
  simp only
  cases runList (super_step (setAngles K c) egs (sweepWindow (setAngles K c) egs))
        (loopWindows c.begin_dt (c.begin_dt + c.dt) c.rt) <;> simp [Run.state]

/-- **C8.** Once `init` has returned, `calc_rank_opt` sets, in each dimension `d`,
`angle_d` to `ROUND_UP(h_d, CPTS_d)` when the region size `r_d` is strictly less than the
rank bounding-box length `len_bbd`, and to `0` otherwise (`r_d`, `len_bbd` as they stand
after `init`, unchanged afterwards); for halo widths `h_d >= 0` and cluster sizes
`CPTS_d > 0` that value is the least multiple of `CPTS_d` that is `>= h_d`. -/
theorem calc_rank_opt_angles (K : Consts) (context : StencilContext)
    (eqGroups : List EqGroupBase) (c : StencilContext) (egs : List EqGroupBase)
    (hinit : init K context eqGroups = .returned (c, egs))
    (hhn : 0 ≤ context.hn) (hhx : 0 ≤ context.hx) (hhy : 0 ≤ context.hy)
    (hhz : 0 ≤ context.hz)
    (hcn : 0 < K.CPTS_N) (hcx : 0 < K.CPTS_X) (hcy : 0 < K.CPTS_Y) (hcz : 0 < K.CPTS_Z) :
    ((calc_rank_opt K context eqGroups).state.context.rn = c.rn ∧
      (calc_rank_opt K context eqGroups).state.context.len_bbn = c.len_bbn ∧
      (calc_rank_opt K context eqGroups).state.context.hn = context.hn ∧
      (calc_rank_opt K context eqGroups).state.context.angle_n =
        (if c.rn < c.len_bbn then ROUND_UP context.hn K.CPTS_N else 0) ∧
      IsLeast {m | K.CPTS_N ∣ m ∧ context.hn ≤ m} (ROUND_UP context.hn K.CPTS_N)) ∧
    ((calc_rank_opt K context eqGroups).state.context.rx = c.rx ∧
      (calc_rank_opt K context eqGroups).state.context.len_bbx = c.len_bbx ∧
      (calc_rank_opt K context eqGroups).state.context.hx = context.hx ∧
      (calc_rank_opt K context eqGroups).state.context.angle_x =
        (if c.rx < c.len_bbx then ROUND_UP context.hx K.CPTS_X else 0) ∧
      IsLeast {m | K.CPTS_X ∣ m ∧ context.hx ≤ m} (ROUND_UP context.hx K.CPTS_X)) ∧
    ((calc_rank_opt K context eqGroups).state.context.ry = c.ry ∧
      (calc_rank_opt K context eqGroups).state.context.len_bby = c.len_bby ∧
      (calc_rank_opt K context eqGroups).state.context.hy = context.hy ∧
      (calc_rank_opt K context eqGroups).state.context.angle_y =
        (if c.ry < c.len_bby then ROUND_UP context.hy K.CPTS_Y else 0) ∧
      IsLeast {m | K.CPTS_Y ∣ m ∧ context.hy ≤ m} (ROUND_UP context.hy K.CPTS_Y)) ∧
    ((calc_rank_opt K context eqGroups).state.context.rz = c.rz ∧
      (calc_rank_opt K context eqGroups).state.context.len_bbz = c.len_bbz ∧
      (calc_rank_opt K context eqGroups).state.context.hz = context.hz ∧
      (calc_rank_opt K context eqGroups).state.context.angle_z =
        (if c.rz < c.len_bbz then ROUND_UP context.hz K.CPTS_Z else 0) ∧
      IsLeast {m | K.CPTS_Z ∣ m ∧ context.hz ≤ m} (ROUND_UP context.hz K.CPTS_Z)) := by
  obtain ⟨hs, _, _⟩ := calc_rank_opt_state K context eqGroups c egs hinit
  have hp := init_sameParams K context eqGroups c egs hinit
  rw [hs]
  refine ⟨⟨rfl, rfl, hp.hn, ?_, ROUND_UP_isLeast _ _ hhn hcn⟩,
    ⟨rfl, rfl, hp.hx, ?_, ROUND_UP_isLeast _ _ hhx hcx⟩,
    ⟨rfl, rfl, hp.hy, ?_, ROUND_UP_isLeast _ _ hhy hcy⟩,
    ⟨rfl, rfl, hp.hz, ?_, ROUND_UP_isLeast _ _ hhz hcz⟩⟩
  · simp only [setAngles, hp.hn]
  · simp only [setAngles, hp.hx]
  · simp only [setAngles, hp.hy]
  · simp only [setAngles, hp.hz]

/-- Witness of C8: `h = 1`, `CPTS = 1`, `r = 8`, `len_bb = 16` along `x` gives angle `1`;
along `n` the region covers the box and the angle is `0`. -/
theorem calc_rank_opt_angles_witness :
    (init Consts.unit angleContext [EqGroupBase.fresh 0 (fun _ _ _ _ _ _ => true)]).state.1.rx = 8 ∧
    (init Consts.unit angleContext
      [EqGroupBase.fresh 0 (fun _ _ _ _ _ _ => true)]).state.1.len_bbx = 16 ∧
    (calc_rank_opt Consts.unit angleContext
      [EqGroupBase.fresh 0 (fun _ _ _ _ _ _ => true)]).state.context.angle_x =
      (if (init Consts.unit angleContext
            [EqGroupBase.fresh 0 (fun _ _ _ _ _ _ => true)]).state.1.rx <
          (init Consts.unit angleContext
            [EqGroupBase.fresh 0 (fun _ _ _ _ _ _ => true)]).state.1.len_bbx
        then ROUND_UP angleContext.hx Consts.unit.CPTS_X else 0) ∧
    (calc_rank_opt Consts.unit angleContext
      [EqGroupBase.fresh 0 (fun _ _ _ _ _ _ => true)]).state.context.angle_x = 1 ∧
    (calc_rank_opt Consts.unit angleContext
      [EqGroupBase.fresh 0 (fun _ _ _ _ _ _ => true)]).state.context.angle_n = 0 :=
  ⟨by decide, by decide,
    (calc_rank_opt_angles Consts.unit angleContext
      [EqGroupBase.fresh 0 (fun _ _ _ _ _ _ => true)] _ _ rfl
      (by decide) (by decide) (by decide) (by decide)
      (by decide) (by decide) (by decide) (by decide)).2.1.2.2.2.1,
    by decide, by decide⟩

/-! ## Traces -/

theorem runList_returned {α : Type} (f : α → Run (List Event)) (l : List α)
    (h : ∀ a ∈ l, f a = .returned (f a).state) :
    runList f l = .returned (l.flatMap (fun a => (f a).state)) := by
  induction l with
  | nil => rfl
  | cons a l ih =>
    have ha := h a (List.mem_cons_self _ _)
    have hl := ih (fun b hb => h b (List.mem_cons_of_mem _ hb))
    simp only [runList, List.flatMap_cons]
    rw [ha, hl]
    rfl

theorem runList_state_prefix {α : Type} (f : α → Run (List Event)) (l : List α) :
    ∃ k, (runList f l).state = (l.take k).flatMap (fun a => (f a).state) := by
  induction l with
  | nil => exact ⟨0, rfl⟩
  | cons a l ih =>
    obtain ⟨k, hk⟩ := ih
    simp only [runList]
    cases ha : f a with
    | exited code tr =>
      refine ⟨1, ?_⟩
      simp [Run.state, ha]
    | returned tr =>
      refine ⟨k + 1, ?_⟩
      simp only [List.take_succ_cons, List.flatMap_cons, ha]
      cases hl : runList f l with
      | exited code tr2 =>
        rw [hl] at hk
        simp only [Run.state] at hk ⊢
        rw [hk]
      | returned tr2 =>
        rw [hl] at hk
        simp only [Run.state] at hk ⊢
        rw [hk]

theorem runList_state_mem {α : Type} (f : α → Run (List Event)) (l : List α) (e : Event)
    (h : e ∈ (runList f l).state) : ∃ a ∈ l, e ∈ (f a).state := by
  obtain ⟨k, hk⟩ := runList_state_prefix f l
  rw [hk, List.mem_flatMap] at h
  obtain ⟨a, ha, he⟩ := h
  exact ⟨a, List.mem_of_mem_take ha, he⟩
/-! ## Evaluations inside `calc_region` -/

theorem Box.shiftBy_zero (W : Box) (c : StencilContext) : W.shiftBy c 0 = W := by
  simp [Box.shiftBy]

theorem Box.shiftBack_shiftBy (W : Box) (c : StencilContext) (k : Nat) :
    (W.shiftBy c k).shiftBack c = W.shiftBy c (k + 1) := by
  simp only [Box.shiftBy, Box.shiftBack, Int.ofNat_eq_coe, Nat.cast_add, Nat.cast_one,
    Box.mk.injEq]
  refine ⟨?_, ?_, ?_, ?_, ?_, ?_, ?_, ?_⟩ <;> ring

theorem windowsShifted_nil (c : StencilContext) (W : Box) (j : Nat) :
    WindowsShifted c W j [] := by
  intro k hk
  simp at hk

theorem windowsShifted_append {c : StencilContext} {W : Box} {j : Nat}
    {a b : List RegionEval} (ha : WindowsShifted c W j a)
    (hb : WindowsShifted c W (j + a.length) b) : WindowsShifted c W j (a ++ b) := by
  intro k hk
  by_cases hka : k < a.length
  · have := ha k hka
    simp only [List.get_eq_getElem] at this ⊢
    rw [List.getElem_append_left hka]
    exact this
  · have hkb : k - a.length < b.length := by
      simp only [List.length_append] at hk
      omega
    have := hb (k - a.length) hkb
    simp only [List.get_eq_getElem] at this ⊢
    rw [List.getElem_append_right (by omega)]
    rw [this]
    congr 1
    omega

theorem calc_region_groups_spec (c : StencilContext) (set : List Nat) (rt : Int) (W : Box)
    (egs : List EqGroupBase) :
    ∀ j : Nat,
      (calc_region_groups c set rt egs (W.shiftBy c j)).1 =
        W.shiftBy c (j + (calc_region_groups c set rt egs (W.shiftBy c j)).2.length) ∧
      (calc_region_groups c set rt egs (W.shiftBy c j)).2.length ≤ egs.length ∧
      WindowsShifted c W j (calc_region_groups c set rt egs (W.shiftBy c j)).2 := by
  induction egs with
  | nil =>
    intro j
    exact ⟨rfl, le_refl _, windowsShifted_nil c W j⟩
  | cons eg rest ih =>
    intro j
    by_cases hm : eg.addr ∈ set
    · obtain ⟨h1, h2, h3⟩ := ih (j + 1)
      simp only [calc_region_groups, hm, if_true, Box.shiftBack_shiftBy, List.length_cons]
      refine ⟨?_, by omega, ?_⟩
      · rw [h1]
        congr 1
        omega
      · intro k hk
        cases k with
        | zero => rfl
        | succ k =>
          have := h3 k (by simpa using hk)
          simp only [List.get_eq_getElem, List.getElem_cons_succ] at this ⊢
          rw [this]
          congr 1
          omega
    · obtain ⟨h1, h2, h3⟩ := ih j
      simp only [calc_region_groups, hm, if_false, List.length_cons]
      exact ⟨h1, by omega, h3⟩

theorem calc_region_times_spec (c : StencilContext) (egs : List EqGroupBase) (set : List Nat)
    (W : Box) (ws : List (Int × Int)) :
    ∀ j : Nat,
      (calc_region_times c egs set ws (W.shiftBy c j)).length ≤ ws.length * egs.length ∧
      WindowsShifted c W j (calc_region_times c egs set ws (W.shiftBy c j)) := by
  induction ws with
  | nil =>
    intro j
    exact ⟨by simp [calc_region_times], windowsShifted_nil c W j⟩
  | cons w rest ih =>
    intro j
    obtain ⟨g1, g2, g3⟩ := calc_region_groups_spec c set w.1 W egs j
    simp only [calc_region_times]
    rw [g1]
    obtain ⟨t1, t2⟩ := ih (j + (calc_region_groups c set w.1 egs (W.shiftBy c j)).2.length)
    refine ⟨?_, windowsShifted_append g3 t2⟩
    simp only [List.length_append, List.length_cons]
    calc _ ≤ egs.length + rest.length * egs.length := Nat.add_le_add g2 t1
      _ = (rest.length + 1) * egs.length := by ring

/-- Evaluation number `k` of a `calc_region` call sees the window shifted back `k` times. -/
theorem calc_region_times_windows (c : StencilContext) (egs : List EqGroupBase)
    (set : List Nat) (W : Box) (ws : List (Int × Int)) (k : Nat)
    (hk : k < (calc_region_times c egs set ws W).length) :
    ((calc_region_times c egs set ws W).get ⟨k, hk⟩).window = W.shiftBy c k := by
  have h := (calc_region_times_spec c egs set W ws 0).2
  rw [Box.shiftBy_zero] at h
  have := h k hk
  rw [Nat.zero_add] at this
  exact this

/-! ## Shape of the trace of `calc_rank_opt` -/

theorem mem_callRegion_state (c : StencilContext) (egs : List EqGroupBase)
    (start_dt stop_dt : Int) (set : List Nat) (W : Box) (e : Event)
    (h : e ∈ (callRegion c egs start_dt stop_dt set W).state) :
    c.bt = 1 ∧ e = Event.calc_region start_dt stop_dt set W
      (calc_region_times c egs set (loopWindows start_dt stop_dt 1) W) := by
  unfold callRegion calc_region at h
  by_cases hb : c.bt = 1
  · simp only [hb, ne_eq, not_true_eq_false, if_false, Run.state, List.mem_singleton] at h
    exact ⟨hb, h⟩
  · simp [hb, Run.state] at h

theorem mem_rank_loops_state (c : StencilContext) (egs : List EqGroupBase)
    (start_dt stop_dt : Int) (set : List Nat) (WS : Box) (e : Event)
    (h : e ∈ (rank_loops c egs start_dt stop_dt set WS).state) :
    ∃ W ∈ tileLoops WS c.rn c.rx c.ry c.rz, c.bt = 1 ∧
      e = Event.calc_region start_dt stop_dt set W
        (calc_region_times c egs set (loopWindows start_dt stop_dt 1) W) := by
  unfold rank_loops at h
  obtain ⟨W, hW, he⟩ := runList_state_mem _ _ _ h
  exact ⟨W, hW, mem_callRegion_state c egs start_dt stop_dt set W e he⟩

theorem Run.after_state (pre : List Event) (r : Run (List Event)) :
    (Run.after pre r).state = pre ++ r.state := by
  cases r <;> rfl

theorem mem_super_step_state (c : StencilContext) (egs : List EqGroupBase) (WS : Box)
    (w : Int × Int) (e : Event) (h : e ∈ (super_step c egs WS w).state) :
    (∃ g ∈ egs, e = Event.exchange_halos g.addr w.1 w.2) ∨
    (∃ set, ((c.rt = 1 ∧ ∃ g ∈ egs, set = [g.addr]) ∨
        (c.rt ≠ 1 ∧ set = egs.map EqGroupBase.addr)) ∧
      e ∈ (rank_loops c egs w.1 w.2 set WS).state) := by
  unfold super_step at h
  by_cases hrt : c.rt = 1
  · simp only [hrt, if_true] at h
    obtain ⟨g, hg, he⟩ := runList_state_mem _ _ _ h
    rw [Run.after_state] at he
    simp only [List.singleton_append, List.mem_cons] at he
    rcases he with he2 | he2
    · exact Or.inl ⟨g, hg, he2⟩
    · exact Or.inr ⟨[g.addr], Or.inl ⟨hrt, g, hg, rfl⟩, he2⟩
  · simp only [hrt, if_false] at h
    rw [Run.after_state, List.mem_append] at h
    rcases h with he2 | he2
    · rw [List.mem_map] at he2
      obtain ⟨g, hg, rfl⟩ := he2
      exact Or.inl ⟨g, hg, rfl⟩
    · exact Or.inr ⟨_, Or.inr ⟨hrt, rfl⟩, he2⟩

/-- Every `calc_region` call in the trace of `calc_rank_opt`: its time window is one of
the super-steps, its region one tile of the sweep window, its group set `{g}` (when
`rt == 1`) or all groups, and its evaluations those of `calc_region` with `bt == 1`. -/
theorem mem_trace_calc_region (K : Consts) (context : StencilContext)
    (eqGroups : List EqGroupBase) (c : StencilContext) (egs : List EqGroupBase)
    (hinit : init K context eqGroups = .returned (c, egs))
    (start_dt stop_dt : Int) (set : List Nat) (W : Box) (evals : List RegionEval)
    (h : Event.calc_region start_dt stop_dt set W evals ∈
      (calc_rank_opt K context eqGroups).state.trace) :
    (start_dt, stop_dt) ∈ loopWindows c.begin_dt (c.begin_dt + c.dt) c.rt ∧
    W ∈ tileLoops (sweepWindow (setAngles K c) egs) c.rn c.rx c.ry c.rz ∧
    c.bt = 1 ∧
    evals = calc_region_times (setAngles K c) egs set (loopWindows start_dt stop_dt 1) W ∧
    ((c.rt = 1 ∧ ∃ g ∈ egs, set = [g.addr]) ∨ (c.rt ≠ 1 ∧ set = egs.map EqGroupBase.addr)) := by
  rw [(calc_rank_opt_state K context eqGroups c egs hinit).2.2] at h
  obtain ⟨w, hw, he⟩ := runList_state_mem _ _ _ h
  rcases mem_super_step_state _ _ _ _ _ he with ⟨g, _, hg⟩ | ⟨set2, hset, he2⟩
  · cases hg
  · obtain ⟨W2, hW2, hbt, heq⟩ := mem_rank_loops_state _ _ _ _ _ _ _ he2
    simp only [Event.calc_region.injEq] at heq
    obtain ⟨h1, h2, h3, h4, h5⟩ := heq
    subst h1 h2 h3 h4
    exact ⟨hw, hW2, hbt, h5, hset⟩

/-! ## Loop windows -/

theorem mem_loopWindows {b e step : Int} {w : Int × Int} :
    w ∈ loopWindows b e step ↔
      ∃ i : Int, (0 ≤ i ∧ i < ((e - b) + (step - 1)).tdiv step) ∧
        w = (b + i * step, min (b + i * step + step) e) := by
  unfold loopWindows
  simp only [List.mem_map, mem_loopRange]
  constructor
  · rintro ⟨i, hi, rfl⟩
    exact ⟨i, hi, rfl⟩
  · rintro ⟨i, hi, rfl⟩
    exact ⟨i, hi, rfl⟩

theorem length_loopRange (b e : Int) : (loopRange b e).length = (e - b).toNat := by
  simp [loopRange]

theorem length_loopWindows (b e step : Int) :
    (loopWindows b e step).length = (((e - b) + (step - 1)).tdiv step).toNat := by
  simp [loopWindows, length_loopRange]

theorem length_loopWindows_one (b e : Int) : (loopWindows b e 1).length = (e - b).toNat := by
  rw [length_loopWindows]
  simp

theorem loopWindows_bounds {b e step : Int} {w : Int × Int} (hs : 0 ≤ step)
    (h : w ∈ loopWindows b e step) : b ≤ w.1 ∧ w.2 ≤ e ∧ w.2 ≤ w.1 + step := by
  obtain ⟨i, ⟨h0, _⟩, rfl⟩ := mem_loopWindows.mp h
  have : 0 ≤ i * step := mul_nonneg h0 hs
  refine ⟨by simp only; omega, min_le_right _ _, min_le_left _ _⟩

theorem loopWindows_stop_le {b e step : Int} {w : Int × Int}
    (h : w ∈ loopWindows b e step) : w.2 ≤ w.1 + step := by
  obtain ⟨i, _, rfl⟩ := mem_loopWindows.mp h
  exact min_le_left _ _

theorem mem_tileLoops {WS W : Box} {sn sx sy sz : Int} :
    W ∈ tileLoops WS sn sx sy sz ↔
      (W.begin_n, W.end_n) ∈ loopWindows WS.begin_n WS.end_n sn ∧
      (W.begin_x, W.end_x) ∈ loopWindows WS.begin_x WS.end_x sx ∧
      (W.begin_y, W.end_y) ∈ loopWindows WS.begin_y WS.end_y sy ∧
      (W.begin_z, W.end_z) ∈ loopWindows WS.begin_z WS.end_z sz := by
  unfold tileLoops
  simp only [List.mem_flatMap, List.mem_map]
  constructor
  · rintro ⟨wn, hn, wx, hx, wy, hy, wz, hz, rfl⟩
    exact ⟨hn, hx, hy, hz⟩
  · rintro ⟨hn, hx, hy, hz⟩
    exact ⟨_, hn, _, hx, _, hy, _, hz, rfl⟩

theorem setAngles_nonneg (K : Consts) (c : StencilContext)
    (hhn : 0 ≤ c.hn) (hhx : 0 ≤ c.hx) (hhy : 0 ≤ c.hy) (hhz : 0 ≤ c.hz)
    (hcn : 0 < K.CPTS_N) (hcx : 0 < K.CPTS_X) (hcy : 0 < K.CPTS_Y) (hcz : 0 < K.CPTS_Z) :
    0 ≤ (setAngles K c).angle_n ∧ 0 ≤ (setAngles K c).angle_x ∧
    0 ≤ (setAngles K c).angle_y ∧ 0 ≤ (setAngles K c).angle_z := by
  simp only [setAngles]
  refine ⟨?_, ?_, ?_, ?_⟩ <;> split_ifs
  · exact ROUND_UP_nonneg _ _ hhn hcn
  · exact le_refl _
  · exact ROUND_UP_nonneg _ _ hhx hcx
  · exact le_refl _
  · exact ROUND_UP_nonneg _ _ hhy hcy
  · exact le_refl _
  · exact ROUND_UP_nonneg _ _ hhz hcz
  · exact le_refl _

/-- Number of evaluations of one `calc_region` call of `calc_rank_opt`: an evaluation
with index `k` exists only if `k + 1 <= eqGroups.size() * rt`. -/
theorem evals_index_bound (c : StencilContext) (egs : List EqGroupBase) (set : List Nat)
    (W : Box) (begin_dt end_dt rt start_dt stop_dt : Int)
    (hw : (start_dt, stop_dt) ∈ loopWindows begin_dt end_dt rt) (k : Nat)
    (hk : k < (calc_region_times c egs set (loopWindows start_dt stop_dt 1) W).length) :
    (Int.ofNat k) + 1 ≤ (Int.ofNat egs.length) * rt := by
  have h1 := (calc_region_times_spec c egs set W (loopWindows start_dt stop_dt 1) 0).1
  rw [Box.shiftBy_zero, length_loopWindows_one] at h1
  have h2 := loopWindows_stop_le hw
  simp only at h2
  have h3 : k + 1 ≤ (stop_dt - start_dt).toNat * egs.length := by omega
  have hpos : 0 < (stop_dt - start_dt).toNat := by
    rcases Nat.eq_zero_or_pos (stop_dt - start_dt).toNat with h0 | h0
    · rw [h0] at h3
      omega
    · exact h0
  have h4 : (Int.ofNat (stop_dt - start_dt).toNat) ≤ rt := by
    simp only [Int.ofNat_eq_coe]
    omega
  have h5 : (Int.ofNat k) + 1 ≤ (Int.ofNat (stop_dt - start_dt).toNat) * (Int.ofNat egs.length) := by
    simp only [Int.ofNat_eq_coe]
    exact_mod_cast h3
  calc (Int.ofNat k) + 1 ≤ (Int.ofNat (stop_dt - start_dt).toNat) * (Int.ofNat egs.length) := h5
    _ ≤ rt * (Int.ofNat egs.length) :=
      Int.mul_le_mul_of_nonneg_right h4 (by simp)
    _ = (Int.ofNat egs.length) * rt := by ring

/-- **C9.** Once `init` has returned the context `c` (halo widths `h_d >= 0`, cluster
sizes `CPTS_d > 0`, region sizes `r_d >= 0`), every `calc_region` call made by
`calc_rank_opt` gets a region `W` that is a tile of the sweep window
`[begin_bbd, end_bbd + angle_d*(|G|*rt - 1))`: the low bound is the rank box begin, only
the high bound is extended, and `W` lies inside it.  Inside the call, evaluation number
`k` sees the window of the call shifted back `k` times, and that cumulative shift
`k*angle_d` is between `0` and `angle_d*(|G|*rt - 1)` in every dimension. -/
theorem calc_rank_opt_sweep_window (K : Consts) (context : StencilContext)
    (eqGroups : List EqGroupBase) (c : StencilContext) (egs : List EqGroupBase)
    (hinit : init K context eqGroups = .returned (c, egs))
    (hhn : 0 ≤ context.hn) (hhx : 0 ≤ context.hx) (hhy : 0 ≤ context.hy)
    (hhz : 0 ≤ context.hz)
    (hcn : 0 < K.CPTS_N) (hcx : 0 < K.CPTS_X) (hcy : 0 < K.CPTS_Y) (hcz : 0 < K.CPTS_Z)
    (hrn : 0 ≤ c.rn) (hrx : 0 ≤ c.rx) (hry : 0 ≤ c.ry) (hrz : 0 ≤ c.rz)
    (start_dt stop_dt : Int) (set : List Nat) (W : Box) (evals : List RegionEval)
    (hev : Event.calc_region start_dt stop_dt set W evals ∈
      (calc_rank_opt K context eqGroups).state.trace) :
    W ∈ tileLoops
      { begin_n := c.begin_bbn, begin_x := c.begin_bbx,
        begin_y := c.begin_bby, begin_z := c.begin_bbz,
        end_n := c.end_bbn + (calc_rank_opt K context eqGroups).state.context.angle_n *
          ((Int.ofNat egs.length) * c.rt - 1),
        end_x := c.end_bbx + (calc_rank_opt K context eqGroups).state.context.angle_x *
          ((Int.ofNat egs.length) * c.rt - 1),
        end_y := c.end_bby + (calc_rank_opt K context eqGroups).state.context.angle_y *
          ((Int.ofNat egs.length) * c.rt - 1),
        end_z := c.end_bbz + (calc_rank_opt K context eqGroups).state.context.angle_z *
          ((Int.ofNat egs.length) * c.rt - 1) }
      c.rn c.rx c.ry c.rz ∧
    (c.begin_bbn ≤ W.begin_n ∧
      W.end_n ≤ c.end_bbn + (calc_rank_opt K context eqGroups).state.context.angle_n *
        ((Int.ofNat egs.length) * c.rt - 1)) ∧
    (c.begin_bbx ≤ W.begin_x ∧
      W.end_x ≤ c.end_bbx + (calc_rank_opt K context eqGroups).state.context.angle_x *
        ((Int.ofNat egs.length) * c.rt - 1)) ∧
    (c.begin_bby ≤ W.begin_y ∧
      W.end_y ≤ c.end_bby + (calc_rank_opt K context eqGroups).state.context.angle_y *
        ((Int.ofNat egs.length) * c.rt - 1)) ∧
    (c.begin_bbz ≤ W.begin_z ∧
      W.end_z ≤ c.end_bbz + (calc_rank_opt K context eqGroups).state.context.angle_z *
        ((Int.ofNat egs.length) * c.rt - 1)) ∧
    ∀ k (hk : k < evals.length),
      (evals.get ⟨k, hk⟩).window =
        W.shiftBy (calc_rank_opt K context eqGroups).state.context k ∧
      (0 ≤ (Int.ofNat k) * (calc_rank_opt K context eqGroups).state.context.angle_n ∧
        (Int.ofNat k) * (calc_rank_opt K context eqGroups).state.context.angle_n ≤
          (calc_rank_opt K context eqGroups).state.context.angle_n *
            ((Int.ofNat egs.length) * c.rt - 1)) ∧
      (0 ≤ (Int.ofNat k) * (calc_rank_opt K context eqGroups).state.context.angle_x ∧
        (Int.ofNat k) * (calc_rank_opt K context eqGroups).state.context.angle_x ≤
          (calc_rank_opt K context eqGroups).state.context.angle_x *
            ((Int.ofNat egs.length) * c.rt - 1)) ∧
      (0 ≤ (Int.ofNat k) * (calc_rank_opt K context eqGroups).state.context.angle_y ∧
        (Int.ofNat k) * (calc_rank_opt K context eqGroups).state.context.angle_y ≤
          (calc_rank_opt K context eqGroups).state.context.angle_y *
            ((Int.ofNat egs.length) * c.rt - 1)) ∧
      (0 ≤ (Int.ofNat k) * (calc_rank_opt K context eqGroups).state.context.angle_z ∧
        (Int.ofNat k) * (calc_rank_opt K context eqGroups).state.context.angle_z ≤
          (calc_rank_opt K context eqGroups).state.context.angle_z *
            ((Int.ofNat egs.length) * c.rt - 1)) := by
  obtain ⟨hw, hW, hbt, hevals, _⟩ :=
    mem_trace_calc_region K context eqGroups c egs hinit start_dt stop_dt set W evals hev
  have hp := init_sameParams K context eqGroups c egs hinit
  obtain ⟨an, ax, ay, az⟩ := setAngles_nonneg K c (by rw [hp.hn]; exact hhn)
    (by rw [hp.hx]; exact hhx) (by rw [hp.hy]; exact hhy) (by rw [hp.hz]; exact hhz)
    hcn hcx hcy hcz
  rw [(calc_rank_opt_state K context eqGroups c egs hinit).1]
  have hW2 := hW
  rw [mem_tileLoops] at hW2
  obtain ⟨tn, tx, ty, tz⟩ := hW2
  obtain ⟨n1, n2, _⟩ := loopWindows_bounds hrn tn
  obtain ⟨x1, x2, _⟩ := loopWindows_bounds hrx tx
  obtain ⟨y1, y2, _⟩ := loopWindows_bounds hry ty
  obtain ⟨z1, z2, _⟩ := loopWindows_bounds hrz tz
  refine ⟨hW, ⟨n1, n2⟩, ⟨x1, x2⟩, ⟨y1, y2⟩, ⟨z1, z2⟩, ?_⟩
  intro k hk
  subst hevals
  have hsh := calc_region_times_windows (setAngles K c) egs set W
    (loopWindows start_dt stop_dt 1) k hk
  have hb := evals_index_bound (setAngles K c) egs set W _ _ _ _ _ hw k hk
  have hk0 : (0 : Int) ≤ Int.ofNat k := Int.ofNat_nonneg k
  refine ⟨?_, ⟨mul_nonneg hk0 an, ?_⟩, ⟨mul_nonneg hk0 ax, ?_⟩, ⟨mul_nonneg hk0 ay, ?_⟩,
    ⟨mul_nonneg hk0 az, ?_⟩⟩
  · exact hsh
  · rw [mul_comm]
    exact Int.mul_le_mul_of_nonneg_left (by omega) an
  · rw [mul_comm]
    exact Int.mul_le_mul_of_nonneg_left (by omega) ax
  · rw [mul_comm]
    exact Int.mul_le_mul_of_nonneg_left (by omega) ay
  · rw [mul_comm]
    exact Int.mul_le_mul_of_nonneg_left (by omega) az

/-- Witness of C9: two groups, `rt = 2`, angle `1` along `x`: the rank box `[0,4)` is
swept as `[0,7)`, and the region `[4,6)` lies inside it. -/
theorem calc_rank_opt_sweep_window_witness :
    waveEvent ∈ (calc_rank_opt Consts.unit waveContext twoGroups).state.trace ∧
    (calc_rank_opt Consts.unit waveContext twoGroups).state.context.angle_x = 1 ∧
    ((init Consts.unit waveContext twoGroups).state.1.begin_bbx ≤ 4 ∧
      (6 : Int) ≤ (init Consts.unit waveContext twoGroups).state.1.end_bbx +
        (calc_rank_opt Consts.unit waveContext twoGroups).state.context.angle_x *
          ((Int.ofNat (init Consts.unit waveContext twoGroups).state.2.length) *
            (init Consts.unit waveContext twoGroups).state.1.rt - 1)) :=
  ⟨by decide, by decide,
    (calc_rank_opt_sweep_window Consts.unit waveContext twoGroups
      (init Consts.unit waveContext twoGroups).state.1
      (init Consts.unit waveContext twoGroups).state.2 rfl
      (by decide) (by decide) (by decide) (by decide)
      (by decide) (by decide) (by decide) (by decide)
      (by decide) (by decide) (by decide) (by decide)
      0 2 [0, 1]
      { begin_n := 0, begin_x := 4, begin_y := 0, begin_z := 0,
        end_n := 1, end_x := 6, end_y := 1, end_z := 1 }
      waveEvals (by decide)).2.2.1⟩

/-! ## Halo exchanges come first -/

theorem haloFirst_nil : HaloFirst [] := by
  intro pre post start_dt stop_dt set W evals h
  simp at h

theorem haloFirst_append {a b : List Event} (ha : HaloFirst a) (hb : HaloFirst b) :
    HaloFirst (a ++ b) := by
  intro pre post start_dt stop_dt set W evals h g hg
  rcases List.append_eq_append_iff.mp h with ⟨a2, hpre, hb2⟩ | ⟨c2, ha2, hc2⟩
  · rw [hpre]
    exact List.mem_append_right _ (hb a2 post start_dt stop_dt set W evals hb2 g hg)
  · cases c2 with
    | nil =>
      simp only [List.nil_append] at hc2
      have := hb [] post start_dt stop_dt set W evals (by simpa using hc2.symm) g hg
      simp at this
    | cons e c3 =>
      simp only [List.cons_append, List.cons.injEq] at hc2
      rw [← hc2.1] at ha2
      exact ha pre c3 start_dt stop_dt set W evals ha2 g hg

theorem haloFirst_flatMap {α : Type} (l : List α) (f : α → List Event)
    (h : ∀ a ∈ l, HaloFirst (f a)) : HaloFirst (l.flatMap f) := by
  induction l with
  | nil => exact haloFirst_nil
  | cons a l ih =>
    rw [List.flatMap_cons]
    exact haloFirst_append (h a (List.mem_cons_self _ _))
      (ih (fun b hb => h b (List.mem_cons_of_mem _ hb)))

theorem haloFirst_halos_then_regions (H L : List Event) (start_dt stop_dt : Int)
    (set : List Nat)
    (hH : ∀ e ∈ H, ∃ g s t, e = Event.exchange_halos g s t)
    (hL : ∀ e ∈ L, ∃ W evals, e = Event.calc_region start_dt stop_dt set W evals)
    (hset : ∀ g ∈ set, Event.exchange_halos g start_dt stop_dt ∈ H) :
    HaloFirst (H ++ L) := by
  intro pre post s t set2 W evals h g hg
  rcases List.append_eq_append_iff.mp h with ⟨a2, hpre, hb2⟩ | ⟨c2, ha2, hc2⟩
  · have hmem : Event.calc_region s t set2 W evals ∈ L := by
      rw [hb2]
      simp
    obtain ⟨W2, evals2, he⟩ := hL _ hmem
    simp only [Event.calc_region.injEq] at he
    obtain ⟨h1, h2, h3, _, _⟩ := he
    subst h1 h2 h3
    rw [hpre]
    exact List.mem_append_left _ (hset g hg)
  · cases c2 with
    | nil =>
      simp only [List.nil_append] at hc2
      have hmem : Event.calc_region s t set2 W evals ∈ L := by
        rw [← hc2]
        simp
      obtain ⟨W2, evals2, he⟩ := hL _ hmem
      simp only [Event.calc_region.injEq] at he
      obtain ⟨h1, h2, h3, _, _⟩ := he
      subst h1 h2 h3
      simp only [List.append_nil] at ha2
      rw [← ha2]
      exact hset g hg
    | cons e c3 =>
      simp only [List.cons_append, List.cons.injEq] at hc2
      have hmem : Event.calc_region s t set2 W evals ∈ H := by
        rw [ha2, ← hc2.1]
        simp
      obtain ⟨g2, s2, t2, he⟩ := hH _ hmem
      cases he

theorem rank_loops_state_regions (c : StencilContext) (egs : List EqGroupBase)
    (start_dt stop_dt : Int) (set : List Nat) (WS : Box) :
    ∀ e ∈ (rank_loops c egs start_dt stop_dt set WS).state,
      ∃ W evals, e = Event.calc_region start_dt stop_dt set W evals := by
  intro e he
  obtain ⟨W, _, _, h⟩ := mem_rank_loops_state c egs start_dt stop_dt set WS e he
  exact ⟨W, _, h⟩

theorem super_step_haloFirst (c : StencilContext) (egs : List EqGroupBase) (WS : Box)
    (w : Int × Int) : HaloFirst (super_step c egs WS w).state := by
  unfold super_step
  by_cases hrt : c.rt = 1
  · simp only [hrt, if_true]
    obtain ⟨k, hk⟩ := runList_state_prefix (fun (eqGroup : EqGroupBase) =>
      Run.after [Event.exchange_halos eqGroup.addr w.1 w.2]
        (rank_loops c egs w.1 w.2 [eqGroup.addr] WS)) egs
    rw [hk]
    apply haloFirst_flatMap
    intro g _
    simp only [Run.after_state]
    apply haloFirst_halos_then_regions _ _ w.1 w.2 [g.addr]
    · intro e he
      simp only [List.mem_singleton] at he
      exact ⟨_, _, _, he⟩
    · exact rank_loops_state_regions c egs w.1 w.2 [g.addr] WS
    · intro g2 hg2
      simp only [List.mem_singleton] at hg2
      subst hg2
      simp
  · simp only [hrt, if_false]
    rw [Run.after_state]
    apply haloFirst_halos_then_regions _ _ w.1 w.2 (egs.map EqGroupBase.addr)
    · intro e he
      simp only [List.mem_map] at he
      obtain ⟨g, _, rfl⟩ := he
      exact ⟨_, _, _, rfl⟩
    · exact rank_loops_state_regions c egs w.1 w.2 _ WS
    · intro g hg
      simp only [List.mem_map] at hg ⊢
      obtain ⟨eg, heg, rfl⟩ := hg
      exact ⟨eg, heg, rfl⟩

theorem calc_rank_opt_haloFirst (K : Consts) (context : StencilContext)
    (eqGroups : List EqGroupBase) (c : StencilContext) (egs : List EqGroupBase)
    (hinit : init K context eqGroups = .returned (c, egs)) :
    HaloFirst (calc_rank_opt K context eqGroups).state.trace := by
  rw [(calc_rank_opt_state K context eqGroups c egs hinit).2.2]
  obtain ⟨k, hk⟩ := runList_state_prefix
    (super_step (setAngles K c) egs (sweepWindow (setAngles K c) egs))
    (loopWindows c.begin_dt (c.begin_dt + c.dt) c.rt)
  rw [hk]
  apply haloFirst_flatMap
  intro w _
  exact super_step_haloFirst _ _ _ _

theorem callRegion_returned (c : StencilContext) (egs : List EqGroupBase)
    (start_dt stop_dt : Int) (set : List Nat) (W : Box) (hbt : c.bt = 1) :
    callRegion c egs start_dt stop_dt set W =
      .returned [Event.calc_region start_dt stop_dt set W
        (calc_region_times c egs set (loopWindows start_dt stop_dt 1) W)] := by
  unfold callRegion calc_region
  simp [hbt]

theorem rank_loops_returned (c : StencilContext) (egs : List EqGroupBase)
    (start_dt stop_dt : Int) (set : List Nat) (WS : Box) (hbt : c.bt = 1) :
    rank_loops c egs start_dt stop_dt set WS =
      .returned (regionSweep c egs start_dt stop_dt set WS) := by
  unfold rank_loops regionSweep
  rw [runList_returned]
  · congr 1
    induction tileLoops WS c.rn c.rx c.ry c.rz with
    | nil => rfl
    | cons W l ih =>
      rw [List.flatMap_cons, List.map_cons, ih, callRegion_returned _ _ _ _ _ _ hbt]
      rfl
  · intro W _
    rw [callRegion_returned _ _ _ _ _ _ hbt]
    rfl

theorem super_step_returned (c : StencilContext) (egs : List EqGroupBase) (WS : Box)
    (w : Int × Int) (hbt : c.bt = 1) :
    super_step c egs WS w = .returned (superStepTrace c egs WS w) := by
  unfold super_step superStepTrace
  by_cases hrt : c.rt = 1
  · simp only [hrt, if_true]
    rw [runList_returned]
    · simp only [rank_loops_returned _ _ _ _ _ _ hbt, Run.after, Run.state,
        List.singleton_append]
    · intro g _
      rw [rank_loops_returned _ _ _ _ _ _ hbt]
      rfl
  · simp only [hrt, if_false]
    rw [rank_loops_returned _ _ _ _ _ _ hbt]
    rfl

theorem loopWindows_starts_nodup (b e step : Int) :
    ((loopWindows b e step).map Prod.fst).Nodup := by
  unfold loopWindows
  rw [List.map_map]
  by_cases hs : step = 0
  · subst hs
    simp [loopRange]
  · refine List.Nodup.map_on ?_ (nodup_loopRange _ _)
    intro i _ j _ h
    simp only [Function.comp_apply, add_right_inj] at h
    exact mul_right_cancel₀ hs h

theorem calc_rank_opt_returned (K : Consts) (context : StencilContext)
    (eqGroups : List EqGroupBase) (c : StencilContext) (egs : List EqGroupBase)
    (hinit : init K context eqGroups = .returned (c, egs)) (hbt : c.bt = 1) :
    calc_rank_opt K context eqGroups =
      .returned
        { context := setAngles K c, eqGroups := egs,
          trace := (loopWindows c.begin_dt (c.begin_dt + c.dt) c.rt).flatMap
            (superStepTrace (setAngles K c) egs (sweepWindow (setAngles K c) egs)) } := by
  unfold calc_rank_opt
  rw [hinit]
  simp only
  rw [runList_returned]
  · simp only [super_step_returned _ _ _ _ (show (setAngles K c).bt = 1 from hbt), Run.state]
  · intro w _
    rw [super_step_returned _ _ _ _ (show (setAngles K c).bt = 1 from hbt)]
    rfl

/-- **C10.** Once `init` has returned the context `c` and the groups `egs`: (1) in the
trace of `calc_rank_opt`, every `calc_region` call for a time window `[start_dt, stop_dt)`
whose group set contains `g` is preceded by `exchange_halos(g, start_dt, stop_dt)`; (2)
the super-steps have pairwise different `start_dt`, so the time window names the
super-step; (3) when `bt == 1` (no `calc_region` stops the process) `calc_rank_opt`
returns and its trace is, super-step after super-step, `superStepTrace`: for `rt == 1`,
for each group in list order `exchange_halos(g)` then the region sweep with set `{g}`;
for `rt != 1`, `exchange_halos` for every group in list order then one region sweep with
all groups. -/
theorem calc_rank_opt_halo_order (K : Consts) (context : StencilContext)
    (eqGroups : List EqGroupBase) (c : StencilContext) (egs : List EqGroupBase)
    (hinit : init K context eqGroups = .returned (c, egs)) :
    (∀ (pre post : List Event) (start_dt stop_dt : Int) (set : List Nat) (W : Box)
        (evals : List RegionEval),
      (calc_rank_opt K context eqGroups).state.trace =
        pre ++ Event.calc_region start_dt stop_dt set W evals :: post →
      ∀ g ∈ set, Event.exchange_halos g start_dt stop_dt ∈ pre) ∧
    ((loopWindows c.begin_dt (c.begin_dt + c.dt) c.rt).map Prod.fst).Nodup ∧
    (c.bt = 1 →
      calc_rank_opt K context eqGroups = .returned (calc_rank_opt K context eqGroups).state ∧
      (calc_rank_opt K context eqGroups).state.trace =
        (loopWindows c.begin_dt (c.begin_dt + c.dt) c.rt).flatMap
          (superStepTrace (calc_rank_opt K context eqGroups).state.context egs
            (sweepWindow (calc_rank_opt K context eqGroups).state.context egs))) := by
  refine ⟨calc_rank_opt_haloFirst K context eqGroups c egs hinit,
    loopWindows_starts_nodup _ _ _, ?_⟩
  intro hbt
  rw [calc_rank_opt_returned K context eqGroups c egs hinit hbt]
  exact ⟨rfl, rfl⟩

/-- Witness of C10: the run on `waveContext` (`rt = 2`) with `twoGroups`. -/
theorem calc_rank_opt_halo_order_witness :
    init Consts.unit waveContext twoGroups =
      .returned ((init Consts.unit waveContext twoGroups).state.1,
        (init Consts.unit waveContext twoGroups).state.2) ∧
    (calc_rank_opt Consts.unit waveContext twoGroups).state.trace =
      (loopWindows (init Consts.unit waveContext twoGroups).state.1.begin_dt
        ((init Consts.unit waveContext twoGroups).state.1.begin_dt +
          (init Consts.unit waveContext twoGroups).state.1.dt)
        (init Consts.unit waveContext twoGroups).state.1.rt).flatMap
        (superStepTrace (calc_rank_opt Consts.unit waveContext twoGroups).state.context
          (init Consts.unit waveContext twoGroups).state.2
          (sweepWindow (calc_rank_opt Consts.unit waveContext twoGroups).state.context
            (init Consts.unit waveContext twoGroups).state.2)) :=
  ⟨rfl, ((calc_rank_opt_halo_order Consts.unit waveContext twoGroups
    (init Consts.unit waveContext twoGroups).state.1
    (init Consts.unit waveContext twoGroups).state.2 rfl).2.2 (by decide)).2⟩

/-! ## Closed form of the evaluations of `calc_region` -/

theorem evalsFrom_append (c : StencilContext) (W : Box) (a b : List (Int × EqGroupBase)) :
    ∀ j, evalsFrom c W j (a ++ b) = evalsFrom c W j a ++ evalsFrom c W (j + a.length) b := by
  induction a with
  | nil =>
    intro j
    simp [evalsFrom]
  | cons x a ih =>
    intro j
    have h := ih (j + 1)
    have e : j + 1 + a.length = j + (a.length + 1) := by omega
    rw [e] at h
    show evalAt c W j x :: evalsFrom c W (j + 1) (a ++ b) =
      evalAt c W j x :: evalsFrom c W (j + 1) a ++ evalsFrom c W (j + (a.length + 1)) b
    rw [h]
    rfl

theorem evalsFrom_length (c : StencilContext) (W : Box) (l : List (Int × EqGroupBase)) :
    ∀ j, (evalsFrom c W j l).length = l.length := by
  induction l with
  | nil =>
    intro j
    rfl
  | cons x l ih =>
    intro j
    simp [evalsFrom, ih (j + 1)]

theorem evalsFrom_getElem? (c : StencilContext) (W : Box) (l : List (Int × EqGroupBase)) :
    ∀ j k, (evalsFrom c W j l)[k]? = (l[k]?).map (evalAt c W (j + k)) := by
  induction l with
  | nil =>
    intro j k
    simp [evalsFrom]
  | cons x l ih =>
    intro j k
    cases k with
    | zero => simp [evalsFrom]
    | succ k =>
      simp only [evalsFrom, List.getElem?_cons_succ, ih (j + 1) k]
      have : j + 1 + k = j + (k + 1) := by omega
      rw [this]

theorem calc_region_groups_eq (c : StencilContext) (set : List Nat) (rt : Int) (W : Box)
    (egs : List EqGroupBase) :
    ∀ j : Nat, calc_region_groups c set rt egs (W.shiftBy c j) =
      (W.shiftBy c (j + (egs.filter (fun g => decide (g.addr ∈ set))).length),
        evalsFrom c W j ((egs.filter (fun g => decide (g.addr ∈ set))).map (fun g => (rt, g)))) := by
  induction egs with
  | nil =>
    intro j
    simp [calc_region_groups, evalsFrom]
  | cons eg rest ih =>
    intro j
    by_cases hm : eg.addr ∈ set
    · simp only [calc_region_groups, hm, if_true, Box.shiftBack_shiftBy, ih (j + 1),
        List.filter_cons, decide_True, List.length_cons, List.map_cons, evalsFrom, evalAt,
        Prod.mk.injEq, and_true]
      congr 1
      omega
    · simp only [calc_region_groups, hm, if_false, ih j, List.filter_cons, decide_False,
        Bool.false_eq_true]

theorem calc_region_times_eq_from (c : StencilContext) (egs : List EqGroupBase)
    (set : List Nat) (W : Box) (ws : List (Int × Int)) :
    ∀ j : Nat, calc_region_times c egs set ws (W.shiftBy c j) =
      evalsFrom c W j (schedule egs set ws) := by
  induction ws with
  | nil =>
    intro j
    simp [calc_region_times, schedule, evalsFrom]
  | cons w rest ih =>
    intro j
    simp only [calc_region_times, calc_region_groups_eq, ih]
    have : schedule egs set (w :: rest) =
        (egs.filter (fun g => decide (g.addr ∈ set))).map (fun g => (w.1, g)) ++
          schedule egs set rest := by
      simp [schedule]
    rw [this, evalsFrom_append, List.length_map]

/-- Closed form of `calc_region_times`: evaluation number `k` is the `k`-th scheduled
(time, group) pair, on the window shifted back `k` times. -/
theorem calc_region_times_eq (c : StencilContext) (egs : List EqGroupBase)
    (set : List Nat) (W : Box) (ws : List (Int × Int)) :
    calc_region_times c egs set ws W = evalsFrom c W 0 (schedule egs set ws) := by
  have := calc_region_times_eq_from c egs set W ws 0
  rw [Box.shiftBy_zero] at this
  exact this

/-! ## Tilings -/

theorem countP_and_const {α : Type} (l : List α) (b : Bool) (P : α → Bool) :
    l.countP (fun x => b && P x) = if b then l.countP P else 0 := by
  cases b <;> simp

theorem countP_flatMap_ite {α β : Type} (l : List α) (f : α → List β) (q : β → Bool)
    (pa : α → Bool) (m : Nat)
    (h : ∀ a, (f a).countP q = if pa a then m else 0) :
    (l.flatMap f).countP q = l.countP pa * m := by
  induction l with
  | nil => simp
  | cons a l ih =>
    rw [List.flatMap_cons, List.countP_append, ih, h a, List.countP_cons]
    cases pa a <;> simp [Nat.add_mul, Nat.add_comm]

theorem countP_tileLoops (WS : Box) (sn sx sy sz : Int) (Pn Px Py Pz : Int × Int → Bool)
    (q : Box → Bool)
    (hq : ∀ W : Box, q W = (Pn (W.begin_n, W.end_n) && (Px (W.begin_x, W.end_x) &&
      (Py (W.begin_y, W.end_y) && Pz (W.begin_z, W.end_z))))) :
    (tileLoops WS sn sx sy sz).countP q =
      (loopWindows WS.begin_n WS.end_n sn).countP Pn *
        ((loopWindows WS.begin_x WS.end_x sx).countP Px *
          ((loopWindows WS.begin_y WS.end_y sy).countP Py *
            (loopWindows WS.begin_z WS.end_z sz).countP Pz)) := by
  unfold tileLoops
  apply countP_flatMap_ite
  intro wn
  rw [countP_flatMap_ite _ _ q (fun wx => Pn wn && Px wx)
    ((loopWindows WS.begin_y WS.end_y sy).countP Py *
      (loopWindows WS.begin_z WS.end_z sz).countP Pz)]
  · have := countP_and_const (loopWindows WS.begin_x WS.end_x sx) (Pn wn) Px
    rw [this]
    cases Pn wn <;> simp
  · intro wx
    rw [countP_flatMap_ite _ _ q (fun wy => Pn wn && (Px wx && Py wy))
      ((loopWindows WS.begin_z WS.end_z sz).countP Pz)]
    · have := countP_and_const (loopWindows WS.begin_y WS.end_y sy) (Pn wn && Px wx) Py
      simp only [Bool.and_assoc] at this
      rw [this]
      cases Pn wn <;> cases Px wx <;> simp
    · intro wy
      rw [List.countP_map]
      have := countP_and_const (loopWindows WS.begin_z WS.end_z sz)
        (Pn wn && (Px wx && Py wy)) Pz
      simp only [Bool.and_assoc] at this
      rw [← this]
      congr 1
      funext wz
      simp [hq]

theorem countP_loopWindows (b e r y : Int) (hr : 0 < r) (hb : b ≤ y) (he : y < e) :
    (loopWindows b e r).countP (fun w => decide (w.1 ≤ y ∧ y < w.2)) = 1 := by
  unfold loopWindows
  rw [List.countP_map]
  have hnum : ((e - b) + (r - 1)).tdiv r = ((e - b) + (r - 1)) / r :=
    Int.tdiv_eq_ediv (by omega) (by omega)
  rw [hnum]
  have h1 := Int.ediv_mul_le (e - b + (r - 1)) (ne_of_gt hr)
  have h2 := Int.lt_ediv_add_one_mul_self (e - b + (r - 1)) hr
  have h3 := Int.ediv_mul_le (y - b) (ne_of_gt hr)
  have h4 := Int.lt_ediv_add_one_mul_self (y - b) hr
  have hi0 : 0 ≤ (y - b) / r := Int.ediv_nonneg (by omega) (le_of_lt hr)
  have hi1 : (y - b) / r < (e - b + (r - 1)) / r := by
    by_contra hcon
    push_neg at hcon
    have := Int.mul_le_mul_of_nonneg_right hcon (le_of_lt hr)
    nlinarith
  have hmem : (y - b) / r ∈ loopRange 0 ((e - b + (r - 1)) / r) :=
    mem_loopRange.mpr ⟨hi0, hi1⟩
  rw [List.countP_congr (q := fun i => i == (y - b) / r)]
  · exact List.count_eq_one_of_mem (nodup_loopRange _ _) hmem
  · intro i hi
    obtain ⟨hi0', hi1'⟩ := mem_loopRange.mp hi
    simp only [Function.comp_apply, decide_eq_true_eq, beq_iff_eq]
    constructor
    · rintro ⟨ha, hb2⟩
      have hb3 : y < b + i * r + r := lt_of_lt_of_le hb2 (min_le_left _ _)
      have e1 : i ≤ (y - b) / r := (Int.le_ediv_iff_mul_le hr).mpr (by linarith)
      have e2 : (y - b) / r < i + 1 := (Int.ediv_lt_iff_lt_mul hr).mpr (by linarith)
      omega
    · rintro rfl
      refine ⟨by linarith, lt_min (by linarith) he⟩

/-! ## Wavefront coverage -/

/-- After `init` on a context whose box was not valid, every group's box lies inside the
rank box. -/
theorem init_box_contains (K : Consts) (context : StencilContext)
    (eqGroups : List EqGroupBase) (c : StencilContext) (egs : List EqGroupBase)
    (hfresh : context.bb_valid = false)
    (hinit : init K context eqGroups = .returned (c, egs)) :
    ∀ g ∈ egs,
      (c.begin_bbn ≤ g.begin_bbn ∧ g.end_bbn ≤ c.end_bbn) ∧
      (c.begin_bbx ≤ g.begin_bbx ∧ g.end_bbx ≤ c.end_bbx) ∧
      (c.begin_bby ≤ g.begin_bby ∧ g.end_bby ≤ c.end_bby) ∧
      (c.begin_bbz ≤ g.begin_bbz ∧ g.end_bbz ≤ c.end_bbz) := by
  intro g hg
  unfold init at hinit
  obtain ⟨c1, hl, hc2⟩ := find_bounding_boxes_returned K context eqGroups c egs hfresh hinit
  subst hc2
  obtain ⟨⟨n1, n2, _⟩, ⟨x1, x2, _⟩, ⟨y1, y2, _⟩, ⟨z1, z2, _⟩, _⟩ := bbFinish_fields c1
  obtain ⟨new, h1, h2, _⟩ := find_bounding_boxes_loop_returned K eqGroups _ _ _ _ hl
  simp only [List.nil_append] at h1
  subst h1
  obtain ⟨f1, f2, f3, f4, f5, f6, f7, f8⟩ := foldl_bbUnion_fields egs (bbInit context)
  rw [← h2] at f1 f2 f3 f4 f5 f6 f7 f8
  rw [n1, n2, x1, x2, y1, y2, z1, z2, f1, f2, f3, f4, f5, f6, f7, f8]
  exact ⟨⟨(foldl_min_spec _ _ _).2.1 g hg, (foldl_max_spec _ _ _).2.1 g hg⟩,
    ⟨(foldl_min_spec _ _ _).2.1 g hg, (foldl_max_spec _ _ _).2.1 g hg⟩,
    ⟨(foldl_min_spec _ _ _).2.1 g hg, (foldl_max_spec _ _ _).2.1 g hg⟩,
    ⟨(foldl_min_spec _ _ _).2.1 g hg, (foldl_max_spec _ _ _).2.1 g hg⟩⟩

theorem mem_schedule {egs : List EqGroupBase} {set : List Nat} {ws : List (Int × Int)}
    {t : Int} {g : EqGroupBase} (h : (t, g) ∈ schedule egs set ws) :
    g ∈ egs ∧ g.addr ∈ set ∧ ∃ w ∈ ws, w.1 = t := by
  unfold schedule at h
  simp only [List.mem_flatMap, List.mem_map, List.mem_filter, decide_eq_true_eq,
    Prod.mk.injEq] at h
  obtain ⟨w, hw, g2, ⟨hg, hs⟩, ht, rfl⟩ := h
  exact ⟨hg, hs, w, hw, ht⟩

/-- On a point of the group's box, the clipped and shifted window of a region contains the
point exactly when, in each dimension, the region contains the point moved forward by the
shift. -/
theorem visits_eq (sc : StencilContext) (W : Box) (k : Nat) (t : Int) (g : EqGroupBase)
    (p : Pt) (hp : g.box.contains p) :
    ((evalAt sc W k (t, g)).ran && decide ((evalAt sc W k (t, g)).clip.contains p)) =
      (decide (W.begin_n ≤ p.n + Int.ofNat k * sc.angle_n ∧
          p.n + Int.ofNat k * sc.angle_n < W.end_n) &&
        (decide (W.begin_x ≤ p.x + Int.ofNat k * sc.angle_x ∧
            p.x + Int.ofNat k * sc.angle_x < W.end_x) &&
          (decide (W.begin_y ≤ p.y + Int.ofNat k * sc.angle_y ∧
              p.y + Int.ofNat k * sc.angle_y < W.end_y) &&
            decide (W.begin_z ≤ p.z + Int.ofNat k * sc.angle_z ∧
              p.z + Int.ofNat k * sc.angle_z < W.end_z)))) := by
  simp only [Box.contains, EqGroupBase.box] at hp
  obtain ⟨⟨n1, n2⟩, ⟨x1, x2⟩, ⟨y1, y2⟩, ⟨z1, z2⟩⟩ := hp
  rw [Bool.eq_iff_iff]
  simp only [evalAt, clipToGroup, Box.shiftBy, Box.nonempty, Box.contains, Bool.and_eq_true,
    decide_eq_true_eq, max_le_iff, lt_min_iff, gt_iff_lt]
  generalize Int.ofNat k * sc.angle_n = sn
  generalize Int.ofNat k * sc.angle_x = sx
  generalize Int.ofNat k * sc.angle_y = sy
  generalize Int.ofNat k * sc.angle_z = sz
  constructor
  · rintro ⟨_, ⟨⟨a1, _⟩, ⟨a2, _⟩⟩, ⟨⟨b1, _⟩, ⟨b2, _⟩⟩, ⟨⟨c1, _⟩, ⟨c2, _⟩⟩, ⟨⟨d1, _⟩, ⟨d2, _⟩⟩⟩
    refine ⟨⟨?_, ?_⟩, ⟨?_, ?_⟩, ⟨?_, ?_⟩, ⟨?_, ?_⟩⟩ <;> omega
  · rintro ⟨⟨a1, a2⟩, ⟨b1, b2⟩, ⟨c1, c2⟩, ⟨d1, d2⟩⟩
    refine ⟨⟨⟨⟨?_, ?_⟩, ?_⟩, ?_⟩, ⟨⟨?_, ?_⟩, ⟨?_, ?_⟩⟩, ⟨⟨?_, ?_⟩, ⟨?_, ?_⟩⟩,
      ⟨⟨?_, ?_⟩, ⟨?_, ?_⟩⟩, ⟨⟨?_, ?_⟩, ⟨?_, ?_⟩⟩⟩ <;> omega

/-- Coverage by the clipped windows.  After `init` has computed the boxes (context box not
valid before), with halo widths `h_d >= 0`, cluster sizes `CPTS_d > 0` and positive region
sizes `r_d`: in any super-step `[start_dt, stop_dt)` and for any group set, let evaluation
number `k` of `calc_region` be the group `g` at inner time `t` (the `k`-th entry of the
schedule).  Then in every region of the sweep evaluation `k` is that group at that time on
the region window shifted back `k` times and clipped to the box of `g`, and every point
`p` of the box of `g` lies in the clipped window of exactly one region of the sweep. -/
theorem region_window_coverage (K : Consts) (context : StencilContext)
    (eqGroups : List EqGroupBase) (c : StencilContext) (egs : List EqGroupBase)
    (hfresh : context.bb_valid = false)
    (hinit : init K context eqGroups = .returned (c, egs))
    (hhn : 0 ≤ context.hn) (hhx : 0 ≤ context.hx) (hhy : 0 ≤ context.hy)
    (hhz : 0 ≤ context.hz)
    (hcn : 0 < K.CPTS_N) (hcx : 0 < K.CPTS_X) (hcy : 0 < K.CPTS_Y) (hcz : 0 < K.CPTS_Z)
    (hrn : 0 < c.rn) (hrx : 0 < c.rx) (hry : 0 < c.ry) (hrz : 0 < c.rz)
    (w : Int × Int) (hw : w ∈ loopWindows c.begin_dt (c.begin_dt + c.dt) c.rt)
    (set : List Nat) (k : Nat) (t : Int) (g : EqGroupBase)
    (hk : (schedule egs set (loopWindows w.1 w.2 1))[k]? = some (t, g))
    (p : Pt) (hp : g.box.contains p) :
    (∀ W : Box,
      (calc_region_times (calc_rank_opt K context eqGroups).state.context egs set
        (loopWindows w.1 w.2 1) W)[k]? =
        some (evalAt (calc_rank_opt K context eqGroups).state.context W k (t, g))) ∧
    (regionSweep (calc_rank_opt K context eqGroups).state.context egs w.1 w.2 set
      (sweepWindow (calc_rank_opt K context eqGroups).state.context egs)).countP
        (Event.visits k p) = 1 := by
  have hp' := hp
  simp only [Box.contains, EqGroupBase.box] at hp'
  obtain ⟨⟨n1, n2⟩, ⟨x1, x2⟩, ⟨y1, y2⟩, ⟨z1, z2⟩⟩ := hp'
  have hpar := init_sameParams K context eqGroups c egs hinit
  obtain ⟨an, ax, ay, az⟩ := setAngles_nonneg K c (by rw [hpar.hn]; exact hhn)
    (by rw [hpar.hx]; exact hhx) (by rw [hpar.hy]; exact hhy) (by rw [hpar.hz]; exact hhz)
    hcn hcx hcy hcz
  rw [(calc_rank_opt_state K context eqGroups c egs hinit).1]
  have hevals : ∀ W : Box,
      (calc_region_times (setAngles K c) egs set (loopWindows w.1 w.2 1) W)[k]? =
        some (evalAt (setAngles K c) W k (t, g)) := by
    intro W
    rw [calc_region_times_eq, evalsFrom_getElem?, hk]
    simp
  refine ⟨hevals, ?_⟩
  -- the group is one of the list, so its box lies in the rank box
  have hmem : (t, g) ∈ schedule egs set (loopWindows w.1 w.2 1) := List.getElem?_mem hk
  obtain ⟨hg, _, _⟩ := mem_schedule hmem
  obtain ⟨⟨bn1, bn2⟩, ⟨bx1, bx2⟩, ⟨by1, by2⟩, ⟨bz1, bz2⟩⟩ :=
    init_box_contains K context eqGroups c egs hfresh hinit g hg
  -- the evaluation index is at most the number of shifts
  have hklen : k < (calc_region_times (setAngles K c) egs set (loopWindows w.1 w.2 1)
      { begin_n := 0, begin_x := 0, begin_y := 0, begin_z := 0,
        end_n := 0, end_x := 0, end_y := 0, end_z := 0 }).length := by
    rw [calc_region_times_eq, evalsFrom_length]
    exact (List.getElem?_eq_some_iff.mp hk).1
  have hb := evals_index_bound (setAngles K c) egs set _ c.begin_dt (c.begin_dt + c.dt) c.rt
    w.1 w.2 hw k hklen
  have hk0 : (0 : Int) ≤ Int.ofNat k := Int.ofNat_nonneg k
  have sn0 := mul_nonneg hk0 an
  have sx0 := mul_nonneg hk0 ax
  have sy0 := mul_nonneg hk0 ay
  have sz0 := mul_nonneg hk0 az
  have sn1 : Int.ofNat k * (setAngles K c).angle_n ≤
      (setAngles K c).angle_n * ((Int.ofNat egs.length) * c.rt - 1) := by
    rw [mul_comm]
    exact Int.mul_le_mul_of_nonneg_left (by omega) an
  have sx1 : Int.ofNat k * (setAngles K c).angle_x ≤
      (setAngles K c).angle_x * ((Int.ofNat egs.length) * c.rt - 1) := by
    rw [mul_comm]
    exact Int.mul_le_mul_of_nonneg_left (by omega) ax
  have sy1 : Int.ofNat k * (setAngles K c).angle_y ≤
      (setAngles K c).angle_y * ((Int.ofNat egs.length) * c.rt - 1) := by
    rw [mul_comm]
    exact Int.mul_le_mul_of_nonneg_left (by omega) ay
  have sz1 : Int.ofNat k * (setAngles K c).angle_z ≤
      (setAngles K c).angle_z * ((Int.ofNat egs.length) * c.rt - 1) := by
    rw [mul_comm]
    exact Int.mul_le_mul_of_nonneg_left (by omega) az
  -- count over the regions
  unfold regionSweep
  rw [List.countP_map]
  rw [countP_tileLoops _ _ _ _ _
    (fun wn => decide (wn.1 ≤ p.n + Int.ofNat k * (setAngles K c).angle_n ∧
      p.n + Int.ofNat k * (setAngles K c).angle_n < wn.2))
    (fun wx => decide (wx.1 ≤ p.x + Int.ofNat k * (setAngles K c).angle_x ∧
      p.x + Int.ofNat k * (setAngles K c).angle_x < wx.2))
    (fun wy => decide (wy.1 ≤ p.y + Int.ofNat k * (setAngles K c).angle_y ∧
      p.y + Int.ofNat k * (setAngles K c).angle_y < wy.2))
    (fun wz => decide (wz.1 ≤ p.z + Int.ofNat k * (setAngles K c).angle_z ∧
      p.z + Int.ofNat k * (setAngles K c).angle_z < wz.2))]
  · have cn := countP_loopWindows (sweepWindow (setAngles K c) egs).begin_n
      (sweepWindow (setAngles K c) egs).end_n (setAngles K c).rn
      (p.n + Int.ofNat k * (setAngles K c).angle_n) hrn
      (by simp only [sweepWindow, setAngles] at *; omega)
      (by simp only [sweepWindow, setAngles] at *; omega)
    have cx := countP_loopWindows (sweepWindow (setAngles K c) egs).begin_x
      (sweepWindow (setAngles K c) egs).end_x (setAngles K c).rx
      (p.x + Int.ofNat k * (setAngles K c).angle_x) hrx
      (by simp only [sweepWindow, setAngles] at *; omega)
      (by simp only [sweepWindow, setAngles] at *; omega)
    have cy := countP_loopWindows (sweepWindow (setAngles K c) egs).begin_y
      (sweepWindow (setAngles K c) egs).end_y (setAngles K c).ry
      (p.y + Int.ofNat k * (setAngles K c).angle_y) hry
      (by simp only [sweepWindow, setAngles] at *; omega)
      (by simp only [sweepWindow, setAngles] at *; omega)
    have cz := countP_loopWindows (sweepWindow (setAngles K c) egs).begin_z
      (sweepWindow (setAngles K c) egs).end_z (setAngles K c).rz
      (p.z + Int.ofNat k * (setAngles K c).angle_z) hrz
      (by simp only [sweepWindow, setAngles] at *; omega)
      (by simp only [sweepWindow, setAngles] at *; omega)
    rw [cn, cx, cy, cz]
  · intro W
    simp only [Function.comp_apply, Event.visits, hevals W]
    exact visits_eq (setAngles K c) W k t g p hp

/-! ## Exact tilings by blocks and clusters -/

theorem countP_loopWindows_ite (b e r y : Int) (hr : 0 < r) :
    (loopWindows b e r).countP (fun w => decide (w.1 ≤ y ∧ y < w.2)) =
      if b ≤ y ∧ y < e then 1 else 0 := by
  by_cases h : b ≤ y ∧ y < e
  · rw [if_pos h]
    exact countP_loopWindows b e r y hr h.1 h.2
  · rw [if_neg h, List.countP_eq_zero]
    intro w hw
    obtain ⟨h1, h2, _⟩ := loopWindows_bounds (le_of_lt hr) hw
    simp only [decide_eq_true_eq, not_and, not_lt]
    intro h3
    by_contra h4
    push_neg at h4
    exact h ⟨le_trans h1 h3, lt_of_lt_of_le h4 h2⟩

theorem loopWindows_dvd {b e s c : Int} {w : Int × Int} (hb : c ∣ b) (he : c ∣ e)
    (hs : c ∣ s) (hw : w ∈ loopWindows b e s) : c ∣ w.1 ∧ c ∣ w.2 := by
  obtain ⟨i, _, rfl⟩ := mem_loopWindows.mp hw
  have h1 : c ∣ b + i * s := dvd_add hb (Dvd.dvd.mul_left hs i)
  refine ⟨h1, ?_⟩
  simp only
  rcases min_choice (b + i * s + s) e with h | h
  · rw [h]
    exact dvd_add h1 hs
  · rw [h]
    exact he

theorem tdiv_nonpos_of_nonpos {a s : Int} (ha : a ≤ 0) (hs : 0 ≤ s) : a.tdiv s ≤ 0 := by
  have h1 := Int.neg_tdiv (-a) s
  rw [neg_neg] at h1
  rw [h1]
  have := Int.tdiv_nonneg (neg_nonneg.2 ha) hs
  omega

/-- Full steps: when the step divides the length of the loop, every window has the full
length `step`. -/
theorem loopWindows_full {b e s : Int} {w : Int × Int} (hs : 0 < s) (hd : s ∣ e - b)
    (hw : w ∈ loopWindows b e s) : w.2 = w.1 + s := by
  obtain ⟨i, ⟨h0, h1⟩, rfl⟩ := mem_loopWindows.mp hw
  obtain ⟨q, hq⟩ := hd
  simp only
  apply min_eq_left
  by_cases hq0 : 0 ≤ q
  · have hnum : ((e - b) + (s - 1)).tdiv s = q := by
      rw [Int.tdiv_eq_ediv (by nlinarith) (le_of_lt hs), hq]
      have : s * q + (s - 1) = (s - 1) + s * q := by ring
      rw [this, Int.add_mul_ediv_left _ _ (ne_of_gt hs)]
      have : (s - 1) / s = 0 := Int.ediv_eq_zero_of_lt (by omega) (by omega)
      omega
    rw [hnum] at h1
    have : (i + 1) * s ≤ q * s := Int.mul_le_mul_of_nonneg_right (by omega) (le_of_lt hs)
    nlinarith
  · exfalso
    push_neg at hq0
    have hneg : (e - b) + (s - 1) < 0 := by nlinarith
    have := tdiv_nonpos_of_nonpos (le_of_lt hneg) (le_of_lt hs)
    omega

/-- Clusters tile an aligned block exactly, in one dimension: `V = VLEN_d`, `C = CLEN_d`,
block `[sb, eb)` with both ends multiples of `C * V`. -/
theorem countP_clusters (V C sb eb y : Int) (hV : 0 < V) (hC : 0 < C)
    (hsb : C * V ∣ sb) (heb : C * V ∣ eb) :
    (loopWindows (sb.tdiv V) (eb.tdiv V) C).countP
      (fun w => decide (w.1 * V ≤ y ∧ y < (w.1 + C) * V)) =
      if sb ≤ y ∧ y < eb then 1 else 0 := by
  obtain ⟨a, rfl⟩ := hsb
  obtain ⟨a2, rfl⟩ := heb
  have e1 : (C * V * a).tdiv V = C * a := by
    have : C * V * a = (C * a) * V := by ring
    rw [this, Int.mul_tdiv_cancel _ (ne_of_gt hV)]
  have e2 : (C * V * a2).tdiv V = C * a2 := by
    have : C * V * a2 = (C * a2) * V := by ring
    rw [this, Int.mul_tdiv_cancel _ (ne_of_gt hV)]
  rw [e1, e2]
  have hd : C ∣ C * a2 - C * a := ⟨a2 - a, by ring⟩
  rw [List.countP_congr (q := fun w => decide (w.1 ≤ y / V ∧ y / V < w.2))]
  · rw [countP_loopWindows_ite _ _ _ _ hC]
    have i1 : C * a ≤ y / V ↔ C * V * a ≤ y := by
      rw [Int.le_ediv_iff_mul_le hV]
      constructor <;> intro h <;> nlinarith
    have i2 : y / V < C * a2 ↔ y < C * V * a2 := by
      rw [Int.ediv_lt_iff_lt_mul hV]
      constructor <;> intro h <;> nlinarith
    simp only [i1, i2]
  · intro w hw
    have hfull := loopWindows_full hC hd hw
    simp only [decide_eq_true_eq]
    rw [hfull, Int.le_ediv_iff_mul_le hV, Int.ediv_lt_iff_lt_mul hV]

theorem countP_flatMap_ite_mem {α β : Type} (l : List α) (f : α → List β) (q : β → Bool)
    (pa : α → Bool) (m : Nat)
    (h : ∀ a ∈ l, (f a).countP q = if pa a then m else 0) :
    (l.flatMap f).countP q = l.countP pa * m := by
  induction l with
  | nil => simp
  | cons a l ih =>
    rw [List.flatMap_cons, List.countP_append, ih (fun b hb => h b (List.mem_cons_of_mem _ hb)),
      h a (List.mem_cons_self _ _), List.countP_cons]
    cases pa a <;> simp [Nat.add_mul, Nat.add_comm]

theorem Box.count_points (B : Box) (p : Pt) :
    B.points.count p = if B.contains p then 1 else 0 := by
  by_cases h : B.contains p
  · rw [if_pos h]
    exact List.count_eq_one_of_mem (Box.nodup_points B) (Box.mem_points.mpr h)
  · rw [if_neg h]
    exact List.count_eq_zero_of_not_mem (fun hm => h (Box.mem_points.mp hm))

theorem countP_tileLoops_contains (WS : Box) (sn sx sy sz : Int) (p : Pt)
    (hn : 0 < sn) (hx : 0 < sx) (hy : 0 < sy) (hz : 0 < sz) :
    (tileLoops WS sn sx sy sz).countP (fun W => decide (W.contains p)) =
      if WS.contains p then 1 else 0 := by
  rw [countP_tileLoops WS sn sx sy sz
    (fun w => decide (w.1 ≤ p.n ∧ p.n < w.2)) (fun w => decide (w.1 ≤ p.x ∧ p.x < w.2))
    (fun w => decide (w.1 ≤ p.y ∧ p.y < w.2)) (fun w => decide (w.1 ≤ p.z ∧ p.z < w.2))]
  · rw [countP_loopWindows_ite _ _ _ _ hn, countP_loopWindows_ite _ _ _ _ hx,
      countP_loopWindows_ite _ _ _ _ hy, countP_loopWindows_ite _ _ _ _ hz]
    unfold Box.contains
    split_ifs <;> simp_all
  · intro W
    rw [Bool.eq_iff_iff]
    simp only [Box.contains, Bool.and_eq_true, decide_eq_true_eq]

theorem tileLoops_aligned {K : Consts} {WS W : Box} {sn sx sy sz : Int}
    (hWS : WS.Aligned K) (hn : K.CPTS_N ∣ sn) (hx : K.CPTS_X ∣ sx) (hy : K.CPTS_Y ∣ sy)
    (hz : K.CPTS_Z ∣ sz) (hW : W ∈ tileLoops WS sn sx sy sz) : W.Aligned K := by
  obtain ⟨tn, tx, ty, tz⟩ := mem_tileLoops.mp hW
  obtain ⟨⟨a1, a2⟩, ⟨b1, b2⟩, ⟨c1, c2⟩, ⟨d1, d2⟩⟩ := hWS
  exact ⟨loopWindows_dvd a1 a2 hn tn, loopWindows_dvd b1 b2 hx tx,
    loopWindows_dvd c1 c2 hy ty, loopWindows_dvd d1 d2 hz tz⟩

/-- On a block whose ends are multiples of the cluster sizes, `calc_block` evaluates each
point of the block exactly once and no other point. -/
theorem count_calc_block (K : Consts) (B : Box) (p : Pt)
    (hVn : 0 < K.VLEN_N) (hVx : 0 < K.VLEN_X) (hVy : 0 < K.VLEN_Y) (hVz : 0 < K.VLEN_Z)
    (hCn : 0 < K.CLEN_N) (hCx : 0 < K.CLEN_X) (hCy : 0 < K.CLEN_Y) (hCz : 0 < K.CLEN_Z)
    (hB : B.Aligned K) :
    (calc_block K B).count p = if B.contains p then 1 else 0 := by
  unfold calc_block List.count
  rw [countP_flatMap_ite_mem _ _ _ (fun T => decide ((clusterBox K T).contains p)) 1]
  · rw [Nat.mul_one]
    obtain ⟨⟨a1, a2⟩, ⟨b1, b2⟩, ⟨c1, c2⟩, ⟨d1, d2⟩⟩ := hB
    rw [countP_tileLoops _ _ _ _ _
      (fun w => decide (w.1 * K.VLEN_N ≤ p.n ∧ p.n < (w.1 + K.CLEN_N) * K.VLEN_N))
      (fun w => decide (w.1 * K.VLEN_X ≤ p.x ∧ p.x < (w.1 + K.CLEN_X) * K.VLEN_X))
      (fun w => decide (w.1 * K.VLEN_Y ≤ p.y ∧ p.y < (w.1 + K.CLEN_Y) * K.VLEN_Y))
      (fun w => decide (w.1 * K.VLEN_Z ≤ p.z ∧ p.z < (w.1 + K.CLEN_Z) * K.VLEN_Z))]
    · simp only [vecWindow]
      rw [countP_clusters _ _ _ _ _ hVn hCn a1 a2, countP_clusters _ _ _ _ _ hVx hCx b1 b2,
        countP_clusters _ _ _ _ _ hVy hCy c1 c2, countP_clusters _ _ _ _ _ hVz hCz d1 d2]
      unfold Box.contains
      split_ifs <;> simp_all
    · intro T
      rw [Bool.eq_iff_iff]
      simp only [Box.contains, clusterBox, Bool.and_eq_true, decide_eq_true_eq]
  · intro T _
    have := Box.count_points (clusterBox K T) p
    unfold List.count at this
    rw [this]
    by_cases h : (clusterBox K T).contains p <;> simp [h]

/-- On a clipped window whose ends are multiples of the cluster sizes, with positive block
sizes that are multiples of the cluster sizes, the block-level sweep evaluates each point
of the window exactly once and no other point. -/
theorem count_region_loops (K : Consts) (c : StencilContext) (clip : Box) (p : Pt)
    (hVn : 0 < K.VLEN_N) (hVx : 0 < K.VLEN_X) (hVy : 0 < K.VLEN_Y) (hVz : 0 < K.VLEN_Z)
    (hCn : 0 < K.CLEN_N) (hCx : 0 < K.CLEN_X) (hCy : 0 < K.CLEN_Y) (hCz : 0 < K.CLEN_Z)
    (hbn : 0 < c.bn) (hbx : 0 < c.bx) (hby : 0 < c.by_) (hbz : 0 < c.bz)
    (dbn : K.CPTS_N ∣ c.bn) (dbx : K.CPTS_X ∣ c.bx) (dby : K.CPTS_Y ∣ c.by_)
    (dbz : K.CPTS_Z ∣ c.bz)
    (hclip : clip.Aligned K) :
    (region_loops K c clip).count p = if clip.contains p then 1 else 0 := by
  unfold region_loops List.count
  rw [countP_flatMap_ite_mem _ _ _ (fun B => decide (B.contains p)) 1]
  · rw [Nat.mul_one]
    exact countP_tileLoops_contains clip _ _ _ _ p hbn hbx hby hbz
  · intro B hB
    have := count_calc_block K B p hVn hVx hVy hVz hCn hCx hCy hCz
      (tileLoops_aligned hclip dbn dbx dby dbz hB)
    unfold List.count at this
    rw [this]
    by_cases h : B.contains p <;> simp [h]

/-! ## Solid boxes -/

theorem length_flatMap_const {α β : Type} (l : List α) (f : α → List β) (m : Nat)
    (h : ∀ a, (f a).length = m) : (l.flatMap f).length = l.length * m := by
  induction l with
  | nil => simp
  | cons a l ih =>
    rw [List.flatMap_cons, List.length_append, ih, h a, List.length_cons]
    ring

theorem Box.length_points (B : Box) :
    B.points.length = (B.end_n - B.begin_n).toNat * ((B.end_x - B.begin_x).toNat *
      ((B.end_y - B.begin_y).toNat * (B.end_z - B.begin_z).toNat)) := by
  unfold Box.points
  rw [length_flatMap_const _ _ ((B.end_x - B.begin_x).toNat *
      ((B.end_y - B.begin_y).toNat * (B.end_z - B.begin_z).toNat)), length_loopRange]
  intro n
  rw [length_flatMap_const _ _ ((B.end_y - B.begin_y).toNat * (B.end_z - B.begin_z).toNat),
    length_loopRange]
  intro x
  rw [length_flatMap_const _ _ ((B.end_z - B.begin_z).toNat), length_loopRange]
  intro y
  rw [List.length_map, length_loopRange]

/-- A box accepted by `find_bounding_box` is solid: every point of the box is a point of
the rank domain at which the predicate holds (at `t = 0`, in the context of the call). -/
theorem find_bounding_box_solid (K : Consts) (context : StencilContext)
    (eg eg2 : EqGroupBase) (hfresh : eg.bb_valid = false)
    (hn : context.dn ≤ idx_max) (hx : context.dx ≤ idx_max)
    (hy : context.dy ≤ idx_max) (hz : context.dz ≤ idx_max)
    (hret : find_bounding_box K context eg = .returned eg2) (p : Pt)
    (hp : eg2.box.contains p) :
    p ∈ validPoints context eg := by
  have hst : (find_bounding_box K context eg).state = eg2 := by
    rw [hret]
    rfl
  obtain ⟨e1, e2, e3, e4, e5, e6, e7⟩ := find_bounding_box_state K context eg hfresh
  rw [hst] at e1 e2 e3 e4 e5 e6 e7
  have hrect : eg2.bb_size = eg2.len_bbn * eg2.len_bbx * eg2.len_bby * eg2.len_bbz := by
    rcases find_bounding_box_cases K context eg hfresh with h | h
    · rw [hret] at h
      cases h.1
    · rw [hst] at h
      exact h.2.1
  have hnp := scanDomain_npts context eg
  by_cases h0 : (scanDomain (eg.is_in_valid_domain context 0)
      context.dn context.dx context.dy context.dz).npts = 0
  · obtain ⟨b1, b2, _⟩ := e7 h0
    simp only [Box.contains, EqGroupBase.box, b1, b2] at hp
    omega
  · have hne : (validPoints context eg).Nonempty := by
      by_contra hcon
      rw [Set.not_nonempty_iff_eq_empty] at hcon
      rw [hnp, hcon] at h0
      simp at h0
    obtain ⟨s1, s2, s3, s4, s5, s6, s7, s8, s9, s10⟩ :=
      scanDomain_spec context eg hn hx hy hz hne
    obtain ⟨b1, b2, b3, b4, b5, b6, b7, b8⟩ := e6 h0
    rw [← b1] at s3
    rw [← b3] at s5
    rw [← b5] at s7
    rw [← b7] at s9
    have s4' : IsGreatest (Pt.n '' validPoints context eg) (eg2.end_bbn - 1) := by
      rw [b2]; simpa using s4
    have s6' : IsGreatest (Pt.x '' validPoints context eg) (eg2.end_bbx - 1) := by
      rw [b4]; simpa using s6
    have s8' : IsGreatest (Pt.y '' validPoints context eg) (eg2.end_bby - 1) := by
      rw [b6]; simpa using s8
    have s10' : IsGreatest (Pt.z '' validPoints context eg) (eg2.end_bbz - 1) := by
      rw [b8]; simpa using s10
    -- the list of valid points is inside the box
    have hsub : (context.domain.points.filter
        (fun p => eg.is_in_valid_domain context 0 p.n p.x p.y p.z)) ⊆ eg2.box.points := by
      intro q hq
      have hqV : q ∈ validPoints context eg := by
        rw [validPoints_eq_list]
        exact hq
      rw [Box.mem_points]
      simp only [Box.contains, EqGroupBase.box]
      have a1 := s3.2 ⟨q, hqV, rfl⟩
      have a2 := s4'.2 ⟨q, hqV, rfl⟩
      have a3 := s5.2 ⟨q, hqV, rfl⟩
      have a4 := s6'.2 ⟨q, hqV, rfl⟩
      have a5 := s7.2 ⟨q, hqV, rfl⟩
      have a6 := s8'.2 ⟨q, hqV, rfl⟩
      have a7 := s9.2 ⟨q, hqV, rfl⟩
      have a8 := s10'.2 ⟨q, hqV, rfl⟩
      refine ⟨⟨a1, ?_⟩, ⟨a3, ?_⟩, ⟨a5, ?_⟩, ⟨a7, ?_⟩⟩ <;> omega
    -- both lists have the same length
    obtain ⟨q0, hq0⟩ := hne
    have c1 := s3.2 ⟨q0, hq0, rfl⟩
    have c2 := s4'.2 ⟨q0, hq0, rfl⟩
    have c3 := s5.2 ⟨q0, hq0, rfl⟩
    have c4 := s6'.2 ⟨q0, hq0, rfl⟩
    have c5 := s7.2 ⟨q0, hq0, rfl⟩
    have c6 := s8'.2 ⟨q0, hq0, rfl⟩
    have c7 := s9.2 ⟨q0, hq0, rfl⟩
    have c8 := s10'.2 ⟨q0, hq0, rfl⟩
    have hlen : eg2.box.points.length ≤ (context.domain.points.filter
        (fun p => eg.is_in_valid_domain context 0 p.n p.x p.y p.z)).length := by
      rw [← validPoints_ncard, Box.length_points]
      have : ((validPoints context eg).ncard : Int) =
          eg2.len_bbn * eg2.len_bbx * eg2.len_bby * eg2.len_bbz := by
        rw [← hrect, e1, hnp]
      simp only [EqGroupBase.box]
      rw [e2, e3, e4, e5] at this
      have t1 : ((eg2.end_bbn - eg2.begin_bbn).toNat : Int) = eg2.end_bbn - eg2.begin_bbn :=
        Int.toNat_of_nonneg (by omega)
      have t2 : ((eg2.end_bbx - eg2.begin_bbx).toNat : Int) = eg2.end_bbx - eg2.begin_bbx :=
        Int.toNat_of_nonneg (by omega)
      have t3 : ((eg2.end_bby - eg2.begin_bby).toNat : Int) = eg2.end_bby - eg2.begin_bby :=
        Int.toNat_of_nonneg (by omega)
      have t4 : ((eg2.end_bbz - eg2.begin_bbz).toNat : Int) = eg2.end_bbz - eg2.begin_bbz :=
        Int.toNat_of_nonneg (by omega)
      have : (((eg2.end_bbn - eg2.begin_bbn).toNat * ((eg2.end_bbx - eg2.begin_bbx).toNat *
          ((eg2.end_bby - eg2.begin_bby).toNat * (eg2.end_bbz - eg2.begin_bbz).toNat)) : Nat) :
            Int) = ((validPoints context eg).ncard : Int) := by
        push_cast
        rw [t1, t2, t3, t4, this]
        ring
      exact le_of_eq (by exact_mod_cast this)
    have hperm := (List.subperm_of_subset ((Box.nodup_points _).filter _) hsub).perm_of_length_le
      hlen
    have hmem : p ∈ context.domain.points.filter
        (fun p => eg.is_in_valid_domain context 0 p.n p.x p.y p.z) :=
      hperm.mem_iff.mpr (Box.mem_points.mpr hp)
    rw [validPoints_eq_list]
    exact hmem

/-! ## The groups after `init` -/

theorem find_bounding_box_frame (K : Consts) (context : StencilContext) (eg : EqGroupBase) :
    (find_bounding_box K context eg).state.addr = eg.addr ∧
    (find_bounding_box K context eg).state.is_in_valid_domain = eg.is_in_valid_domain := by
  unfold find_bounding_box
  by_cases hv : eg.bb_valid = true
  · simp [hv, Run.state]
  · simp only [hv, if_false]
    generalize scanDomain (eg.is_in_valid_domain context 0)
      context.dn context.dx context.dy context.dz = s
    by_cases h0 : s.npts = 0
    · simp only [h0, ne_eq, not_true_eq_false, if_false]
      split_ifs <;> simp [Run.state]
    · simp only [h0, ne_eq, not_false_eq_true, if_true]
      split_ifs <;> simp [Run.state]

theorem find_bounding_boxes_loop_groups (K : Consts) (context0 : StencilContext)
    (todo : List EqGroupBase) :
    ∀ (context : StencilContext) (done : List EqGroupBase) (c1 : StencilContext)
      (egs : List EqGroupBase), SameParams context context0 →
      find_bounding_boxes_loop K context done todo = .returned (c1, egs) →
      ∃ new, egs = done ++ new ∧
        List.Forall₂ (fun eg eg2 => ∃ cc, SameParams cc context0 ∧
          find_bounding_box K cc eg = .returned eg2) todo new := by
  induction todo with
  | nil =>
    intro context done c1 egs _ h
    simp only [find_bounding_boxes_loop, Run.returned.injEq, Prod.mk.injEq] at h
    exact ⟨[], by simp [h.2], List.Forall₂.nil⟩
  | cons eg rest ih =>
    intro context done c1 egs hsame h
    simp only [find_bounding_boxes_loop] at h
    cases hf : find_bounding_box K context eg with
    | exited code eg2 =>
      rw [hf] at h
      cases h
    | returned eg2 =>
      rw [hf] at h
      obtain ⟨new, h1, h3⟩ := ih _ _ _ _ ((sameParams_bbUnion context eg2).trans_ hsame) h
      refine ⟨eg2 :: new, ?_, List.Forall₂.cons ⟨context, hsame, hf⟩ h3⟩
      rw [h1]
      simp

/-- After `init` on a context whose box was not valid: each group is the result of
`find_bounding_box` on the group given, in a context with the same parameters. -/
theorem init_groups (K : Consts) (context : StencilContext)
    (eqGroups : List EqGroupBase) (c : StencilContext) (egs : List EqGroupBase)
    (hfresh : context.bb_valid = false)
    (hinit : init K context eqGroups = .returned (c, egs)) :
    List.Forall₂ (fun eg eg2 => ∃ cc, SameParams cc context ∧
      find_bounding_box K cc eg = .returned eg2) eqGroups egs := by
  unfold init at hinit
  obtain ⟨c1, hl, _⟩ := find_bounding_boxes_returned K context eqGroups c egs hfresh hinit
  obtain ⟨new, h1, h3⟩ := find_bounding_boxes_loop_groups K context eqGroups _ _ _ _
    (sameParams_bbInit context) hl
  simp only [List.nil_append] at h1
  rw [h1]
  exact h3

theorem forall₂_mem_right {α β : Type} {R : α → β → Prop} {l1 : List α} {l2 : List β}
    (h : List.Forall₂ R l1 l2) {b : β} (hb : b ∈ l2) : ∃ a ∈ l1, R a b := by
  induction h with
  | nil => simp at hb
  | cons hab _ ih =>
    rcases List.mem_cons.mp hb with rfl | hb2
    · exact ⟨_, List.mem_cons_self _ _, hab⟩
    · obtain ⟨a, ha, hr⟩ := ih hb2
      exact ⟨a, List.mem_cons_of_mem _ ha, hr⟩

theorem forall₂_map_eq {α β γ : Type} {R : α → β → Prop} {l1 : List α} {l2 : List β}
    (h : List.Forall₂ R l1 l2) (f : α → γ) (g : β → γ) (hR : ∀ a b, R a b → g b = f a) :
    l2.map g = l1.map f := by
  induction h with
  | nil => rfl
  | cons hab _ ih => simp only [List.map_cons, ih, hR _ _ hab]

theorem init_addrs (K : Consts) (context : StencilContext)
    (eqGroups : List EqGroupBase) (c : StencilContext) (egs : List EqGroupBase)
    (hfresh : context.bb_valid = false)
    (hinit : init K context eqGroups = .returned (c, egs)) :
    egs.map EqGroupBase.addr = eqGroups.map EqGroupBase.addr := by
  apply forall₂_map_eq (init_groups K context eqGroups c egs hfresh hinit)
  rintro a b ⟨cc, _, hf⟩
  have := (find_bounding_box_frame K cc a).1
  rw [hf] at this
  exact this

theorem find_bounding_box_inRange_fresh (K : Consts) (context : StencilContext)
    (eg eg2 : EqGroupBase) (hfresh : eg.bb_valid = false)
    (hret : find_bounding_box K context eg = .returned eg2) : BoxInRange eg2 := by
  have hst : (find_bounding_box K context eg).state = eg2 := by
    rw [hret]
    rfl
  obtain ⟨_, _, _, _, _, e6, e7⟩ := find_bounding_box_state K context eg hfresh
  rw [hst] at e6 e7
  obtain ⟨⟨r1, r2⟩, ⟨r3, r4⟩, ⟨r5, r6⟩, ⟨r7, r8⟩⟩ :=
    scanDomain_range (eg.is_in_valid_domain context 0)
      context.dn context.dx context.dy context.dz
  have hmax : (0 : Int) ≤ idx_max := by decide
  have hmin : idx_min ≤ (0 : Int) := by decide
  by_cases h0 : (scanDomain (eg.is_in_valid_domain context 0)
      context.dn context.dx context.dy context.dz).npts = 0
  · obtain ⟨b1, b2, b3, b4, b5, b6, b7, b8⟩ := e7 h0
    unfold BoxInRange
    rw [b1, b2, b3, b4, b5, b6, b7, b8]
    exact ⟨⟨hmax, hmin⟩, ⟨hmax, hmin⟩, ⟨hmax, hmin⟩, ⟨hmax, hmin⟩⟩
  · obtain ⟨b1, b2, b3, b4, b5, b6, b7, b8⟩ := e6 h0
    unfold BoxInRange
    rw [b1, b2, b3, b4, b5, b6, b7, b8]
    refine ⟨⟨r1, ?_⟩, ⟨r3, ?_⟩, ⟨r5, ?_⟩, ⟨r7, ?_⟩⟩ <;> omega

/-! ## The points visited by a region sweep for one group -/

theorem clipToGroup_aligned {K : Consts} {W : Box} {g : EqGroupBase} (hW : W.Aligned K)
    (hg : g.box.Aligned K) : (clipToGroup W g).Aligned K := by
  obtain ⟨⟨a1, a2⟩, ⟨b1, b2⟩, ⟨c1, c2⟩, ⟨d1, d2⟩⟩ := hW
  obtain ⟨⟨e1, e2⟩, ⟨f1, f2⟩, ⟨g1, g2⟩, ⟨h1, h2⟩⟩ := hg
  simp only [EqGroupBase.box] at e1 e2 f1 f2 g1 g2 h1 h2
  unfold Box.Aligned clipToGroup
  simp only
  refine ⟨⟨?_, ?_⟩, ⟨?_, ?_⟩, ⟨?_, ?_⟩, ⟨?_, ?_⟩⟩
  · rcases max_choice W.begin_n g.begin_bbn with h | h <;> rw [h] <;> assumption
  · rcases min_choice W.end_n g.end_bbn with h | h <;> rw [h] <;> assumption
  · rcases max_choice W.begin_x g.begin_bbx with h | h <;> rw [h] <;> assumption
  · rcases min_choice W.end_x g.end_bbx with h | h <;> rw [h] <;> assumption
  · rcases max_choice W.begin_y g.begin_bby with h | h <;> rw [h] <;> assumption
  · rcases min_choice W.end_y g.end_bby with h | h <;> rw [h] <;> assumption
  · rcases max_choice W.begin_z g.begin_bbz with h | h <;> rw [h] <;> assumption
  · rcases min_choice W.end_z g.end_bbz with h | h <;> rw [h] <;> assumption

theorem Box.nonempty_of_contains {B : Box} {p : Pt} (h : B.contains p) : B.nonempty = true := by
  obtain ⟨⟨a1, a2⟩, ⟨b1, b2⟩, ⟨c1, c2⟩, ⟨d1, d2⟩⟩ := h
  simp only [Box.nonempty, Bool.and_eq_true, decide_eq_true_eq, gt_iff_lt]
  refine ⟨⟨⟨?_, ?_⟩, ?_⟩, ?_⟩ <;> omega

theorem clipToGroup_contains {W : Box} {g : EqGroupBase} {p : Pt} :
    (clipToGroup W g).contains p ↔ W.contains p ∧ g.box.contains p := by
  simp only [Box.contains, clipToGroup, EqGroupBase.box, max_le_iff, lt_min_iff]
  tauto

/-- The points that the calls of `calc_region` of one sweep evaluate for the group `g`
(evaluation without shift), region after region. -/
theorem count_sweep_points (K : Consts) (sc : StencilContext) (WS : Box) (g : EqGroupBase)
    (p : Pt)
    (hVn : 0 < K.VLEN_N) (hVx : 0 < K.VLEN_X) (hVy : 0 < K.VLEN_Y) (hVz : 0 < K.VLEN_Z)
    (hCn : 0 < K.CLEN_N) (hCx : 0 < K.CLEN_X) (hCy : 0 < K.CLEN_Y) (hCz : 0 < K.CLEN_Z)
    (hrn : 0 < sc.rn) (hrx : 0 < sc.rx) (hry : 0 < sc.ry) (hrz : 0 < sc.rz)
    (drn : K.CPTS_N ∣ sc.rn) (drx : K.CPTS_X ∣ sc.rx) (dry : K.CPTS_Y ∣ sc.ry)
    (drz : K.CPTS_Z ∣ sc.rz)
    (hbn : 0 < sc.bn) (hbx : 0 < sc.bx) (hby : 0 < sc.by_) (hbz : 0 < sc.bz)
    (dbn : K.CPTS_N ∣ sc.bn) (dbx : K.CPTS_X ∣ sc.bx) (dby : K.CPTS_Y ∣ sc.by_)
    (dbz : K.CPTS_Z ∣ sc.bz)
    (hWS : WS.Aligned K) (hg : g.box.Aligned K)
    (hin : ∀ q, g.box.contains q → WS.contains q) :
    ((tileLoops WS sc.rn sc.rx sc.ry sc.rz).flatMap (fun W =>
      if (clipToGroup W g).nonempty then region_loops K sc (clipToGroup W g) else [])).count p =
      if g.box.contains p then 1 else 0 := by
  unfold List.count
  rw [countP_flatMap_ite_mem _ _ _ (fun W => decide ((clipToGroup W g).contains p)) 1]
  · rw [Nat.mul_one]
    by_cases hp : g.box.contains p
    · rw [if_pos hp]
      have := countP_tileLoops_contains WS sc.rn sc.rx sc.ry sc.rz p hrn hrx hry hrz
      rw [if_pos (hin p hp)] at this
      rw [← this]
      apply List.countP_congr
      intro W _
      simp only [decide_eq_true_eq, clipToGroup_contains, hp, and_true]
    · rw [if_neg hp, List.countP_eq_zero]
      intro W _
      simp only [decide_eq_true_eq, clipToGroup_contains, hp, and_false, not_false_eq_true]
  · intro W hW
    by_cases hne : (clipToGroup W g).nonempty = true
    · rw [if_pos hne]
      have := count_region_loops K sc (clipToGroup W g) p hVn hVx hVy hVz hCn hCx hCy hCz
        hbn hbx hby hbz dbn dbx dby dbz
        (clipToGroup_aligned (tileLoops_aligned hWS drn drx dry drz hW) hg)
      unfold List.count at this
      rw [this]
      by_cases h : (clipToGroup W g).contains p <;> simp [h]
    · rw [if_neg hne]
      have : ¬ (clipToGroup W g).contains p := fun h => hne (Box.nonempty_of_contains h)
      simp [this]

/-- Hence those points are the points of the group's box, in another order. -/
theorem sweep_points_perm (K : Consts) (sc : StencilContext) (WS : Box) (g : EqGroupBase)
    (hVn : 0 < K.VLEN_N) (hVx : 0 < K.VLEN_X) (hVy : 0 < K.VLEN_Y) (hVz : 0 < K.VLEN_Z)
    (hCn : 0 < K.CLEN_N) (hCx : 0 < K.CLEN_X) (hCy : 0 < K.CLEN_Y) (hCz : 0 < K.CLEN_Z)
    (hrn : 0 < sc.rn) (hrx : 0 < sc.rx) (hry : 0 < sc.ry) (hrz : 0 < sc.rz)
    (drn : K.CPTS_N ∣ sc.rn) (drx : K.CPTS_X ∣ sc.rx) (dry : K.CPTS_Y ∣ sc.ry)
    (drz : K.CPTS_Z ∣ sc.rz)
    (hbn : 0 < sc.bn) (hbx : 0 < sc.bx) (hby : 0 < sc.by_) (hbz : 0 < sc.bz)
    (dbn : K.CPTS_N ∣ sc.bn) (dbx : K.CPTS_X ∣ sc.bx) (dby : K.CPTS_Y ∣ sc.by_)
    (dbz : K.CPTS_Z ∣ sc.bz)
    (hWS : WS.Aligned K) (hg : g.box.Aligned K)
    (hin : ∀ q, g.box.contains q → WS.contains q) :
    ((tileLoops WS sc.rn sc.rx sc.ry sc.rz).flatMap (fun W =>
      if (clipToGroup W g).nonempty then region_loops K sc (clipToGroup W g) else [])).Perm
      g.box.points := by
  rw [List.perm_iff_count]
  intro p
  rw [count_sweep_points K sc WS g p hVn hVx hVy hVz hCn hCx hCy hCz hrn hrx hry hrz
    drn drx dry drz hbn hbx hby hbz dbn dbx dby dbz hWS hg hin, Box.count_points]

/-! ## Optimized run against reference run -/

theorem loopWindows_one_full {b e : Int} {w : Int × Int} (hw : w ∈ loopWindows b e 1) :
    w.2 = w.1 + 1 :=
  loopWindows_full (by decide) (one_dvd _) hw

theorem loopWindows_single (t : Int) : loopWindows t (t + 1) 1 = [(t, t + 1)] := by
  unfold loopWindows loopRange
  simp [List.range_succ]

theorem filter_addr_singleton (egs : List EqGroupBase) (g : EqGroupBase) (hg : g ∈ egs)
    (hnd : (egs.map EqGroupBase.addr).Nodup) :
    egs.filter (fun g2 => decide (g2.addr = g.addr)) = [g] := by
  induction egs with
  | nil => simp at hg
  | cons a l ih =>
    rw [List.map_cons, List.nodup_cons] at hnd
    rcases List.mem_cons.mp hg with rfl | hg2
    · have hnone : l.filter (fun g2 => decide (g2.addr = g.addr)) = [] := by
        rw [List.filter_eq_nil_iff]
        intro b hb
        simp only [decide_eq_true_eq]
        intro hba
        exact hnd.1 (by rw [← hba]; exact List.mem_map_of_mem _ hb)
      rw [List.filter_cons, hnone]
      simp
    · have hne : a.addr ≠ g.addr := by
        intro hag
        exact hnd.1 (by rw [hag]; exact List.mem_map_of_mem _ hg2)
      rw [List.filter_cons, ih hg2 hnd.2]
      simp [hne]

theorem schedule_single (egs : List EqGroupBase) (g : EqGroupBase) (hg : g ∈ egs)
    (hnd : (egs.map EqGroupBase.addr).Nodup) (t : Int) :
    schedule egs [g.addr] (loopWindows t (t + 1) 1) = [(t, g)] := by
  rw [loopWindows_single]
  simp only [schedule, List.mem_singleton, List.flatMap_cons, List.flatMap_nil,
    List.append_nil, filter_addr_singleton egs g hg hnd, List.map_cons, List.map_nil]

/-- With `rt == 1` the updates behind the region sweep for the set `{g}` are the kernel
updates, for `g` at time `t`, of the points that `count_sweep_points` counts. -/
theorem regionSweep_updates (K : Consts) (sc : StencilContext) (egs : List EqGroupBase)
    (WS : Box) (g : EqGroupBase) (hg : g ∈ egs) (hnd : (egs.map EqGroupBase.addr).Nodup)
    (t : Int) :
    (regionSweep sc egs t (t + 1) [g.addr] WS).flatMap (Event.updates K sc) =
      ((tileLoops WS sc.rn sc.rx sc.ry sc.rz).flatMap (fun W =>
        if (clipToGroup W g).nonempty then region_loops K sc (clipToGroup W g) else [])).map
        (Update.calc_point g.addr t) := by
  unfold regionSweep
  rw [List.flatMap_map, List.map_flatMap]
  apply List.flatMap_congr
  intro W _
  simp only [Event.updates, calc_region_times_eq, schedule_single egs g hg hnd, evalsFrom,
    List.flatMap_cons, List.flatMap_nil, List.append_nil, RegionEval.updates, evalAt,
    Box.shiftBy_zero]
  split_ifs <;> simp

theorem SameParams.symm_ {a b : StencilContext} (h : SameParams a b) : SameParams b a :=
  ⟨h.begin_dt.symm, h.dt.symm, h.dn.symm, h.dx.symm, h.dy.symm, h.dz.symm, h.rt.symm,
    h.bt.symm, h.bn.symm, h.bx.symm, h.by_.symm, h.bz.symm, h.hn.symm, h.hx.symm,
    h.hy.symm, h.hz.symm⟩

/-- After `init` has computed the boxes of a non-empty list of groups, each bound of the
rank box is the bound of some group. -/
theorem init_box_attained (K : Consts) (context : StencilContext)
    (eqGroups : List EqGroupBase) (c : StencilContext) (egs : List EqGroupBase)
    (hfresh : context.bb_valid = false) (hgf : ∀ g ∈ eqGroups, g.bb_valid = false)
    (hinit : init K context eqGroups = .returned (c, egs)) (g0 : EqGroupBase)
    (hg0 : g0 ∈ egs) :
    ((∃ g ∈ egs, g.begin_bbn = c.begin_bbn) ∧ (∃ g ∈ egs, g.end_bbn = c.end_bbn)) ∧
    ((∃ g ∈ egs, g.begin_bbx = c.begin_bbx) ∧ (∃ g ∈ egs, g.end_bbx = c.end_bbx)) ∧
    ((∃ g ∈ egs, g.begin_bby = c.begin_bby) ∧ (∃ g ∈ egs, g.end_bby = c.end_bby)) ∧
    ((∃ g ∈ egs, g.begin_bbz = c.begin_bbz) ∧ (∃ g ∈ egs, g.end_bbz = c.end_bbz)) := by
  have hgroups := init_groups K context eqGroups c egs hfresh hinit
  have hrange : ∀ g ∈ egs, BoxInRange g := by
    intro g hg
    obtain ⟨ga, hga, cc, _, hf⟩ := forall₂_mem_right hgroups hg
    exact find_bounding_box_inRange_fresh K cc ga g (hgf ga hga) hf
  unfold init at hinit
  obtain ⟨c1, hl, hc2⟩ := find_bounding_boxes_returned K context eqGroups c egs hfresh hinit
  subst hc2
  obtain ⟨⟨n1, n2, _⟩, ⟨x1, x2, _⟩, ⟨y1, y2, _⟩, ⟨z1, z2, _⟩, _⟩ := bbFinish_fields c1
  obtain ⟨new, h1, h2, _⟩ := find_bounding_boxes_loop_returned K eqGroups _ _ _ _ hl
  simp only [List.nil_append] at h1
  subst h1
  obtain ⟨f1, f2, f3, f4, f5, f6, f7, f8⟩ := foldl_bbUnion_fields egs (bbInit context)
  rw [← h2] at f1 f2 f3 f4 f5 f6 f7 f8
  obtain ⟨⟨r1, r2⟩, ⟨r3, r4⟩, ⟨r5, r6⟩, ⟨r7, r8⟩⟩ := hrange g0 hg0
  rw [n1, n2, x1, x2, y1, y2, z1, z2, f1, f2, f3, f4, f5, f6, f7, f8]
  refine ⟨⟨?_, ?_⟩, ⟨?_, ?_⟩, ⟨?_, ?_⟩, ⟨?_, ?_⟩⟩
  · obtain ⟨g, hg, he⟩ := (isLeast_foldl_min EqGroupBase.begin_bbn egs _ g0 hg0 r1).1
    exact ⟨g, hg, he⟩
  · obtain ⟨g, hg, he⟩ := (isGreatest_foldl_max EqGroupBase.end_bbn egs _ g0 hg0 r2).1
    exact ⟨g, hg, he⟩
  · obtain ⟨g, hg, he⟩ := (isLeast_foldl_min EqGroupBase.begin_bbx egs _ g0 hg0 r3).1
    exact ⟨g, hg, he⟩
  · obtain ⟨g, hg, he⟩ := (isGreatest_foldl_max EqGroupBase.end_bbx egs _ g0 hg0 r4).1
    exact ⟨g, hg, he⟩
  · obtain ⟨g, hg, he⟩ := (isLeast_foldl_min EqGroupBase.begin_bby egs _ g0 hg0 r5).1
    exact ⟨g, hg, he⟩
  · obtain ⟨g, hg, he⟩ := (isGreatest_foldl_max EqGroupBase.end_bby egs _ g0 hg0 r6).1
    exact ⟨g, hg, he⟩
  · obtain ⟨g, hg, he⟩ := (isLeast_foldl_min EqGroupBase.begin_bbz egs _ g0 hg0 r7).1
    exact ⟨g, hg, he⟩
  · obtain ⟨g, hg, he⟩ := (isGreatest_foldl_max EqGroupBase.end_bbz egs _ g0 hg0 r8).1
    exact ⟨g, hg, he⟩

theorem ROUND_UP_dvd (h c : Int) : c ∣ ROUND_UP h c := Dvd.intro_left _ rfl

theorem setAngles_dvd (K : Consts) (c : StencilContext) :
    K.CPTS_N ∣ (setAngles K c).angle_n ∧ K.CPTS_X ∣ (setAngles K c).angle_x ∧
    K.CPTS_Y ∣ (setAngles K c).angle_y ∧ K.CPTS_Z ∣ (setAngles K c).angle_z := by
  simp only [setAngles]
  refine ⟨?_, ?_, ?_, ?_⟩ <;> split_ifs <;> first | exact ROUND_UP_dvd _ _ | exact dvd_zero _

/-- In the setting of the sweep the sweep window is aligned and contains the box of
every group. -/
theorem sweepWindow_setting (K : Consts) (context : StencilContext)
    (eqGroups : List EqGroupBase) (c : StencilContext) (egs : List EqGroupBase)
    (S : SweepSetting K context eqGroups c egs) (g : EqGroupBase) (hg : g ∈ egs) :
    (sweepWindow (setAngles K c) egs).Aligned K ∧
    ∀ q, g.box.contains q → (sweepWindow (setAngles K c) egs).contains q := by
  have hpar := init_sameParams K context eqGroups c egs S.init_ok
  obtain ⟨⟨⟨g1, hg1, e1⟩, ⟨g2, hg2, e2⟩⟩, ⟨⟨g3, hg3, e3⟩, ⟨g4, hg4, e4⟩⟩,
    ⟨⟨g5, hg5, e5⟩, ⟨g6, hg6, e6⟩⟩, ⟨⟨g7, hg7, e7⟩, ⟨g8, hg8, e8⟩⟩⟩ :=
    init_box_attained K context eqGroups c egs S.fresh S.groups_fresh S.init_ok g hg
  obtain ⟨dn, dx, dy, dz⟩ := setAngles_dvd K c
  have hcn : 0 < K.CPTS_N := mul_pos S.clen_n S.vlen_n
  have hcx : 0 < K.CPTS_X := mul_pos S.clen_x S.vlen_x
  have hcy : 0 < K.CPTS_Y := mul_pos S.clen_y S.vlen_y
  have hcz : 0 < K.CPTS_Z := mul_pos S.clen_z S.vlen_z
  obtain ⟨an, ax, ay, az⟩ := setAngles_nonneg K c (by rw [hpar.hn]; exact S.hn_nonneg)
    (by rw [hpar.hx]; exact S.hx_nonneg) (by rw [hpar.hy]; exact S.hy_nonneg)
    (by rw [hpar.hz]; exact S.hz_nonneg) hcn hcx hcy hcz
  constructor
  · have a1 := (S.aligned g1 hg1).1.1
    have a2 := (S.aligned g2 hg2).1.2
    have a3 := (S.aligned g3 hg3).2.1.1
    have a4 := (S.aligned g4 hg4).2.1.2
    have a5 := (S.aligned g5 hg5).2.2.1.1
    have a6 := (S.aligned g6 hg6).2.2.1.2
    have a7 := (S.aligned g7 hg7).2.2.2.1
    have a8 := (S.aligned g8 hg8).2.2.2.2
    simp only [EqGroupBase.box] at a1 a2 a3 a4 a5 a6 a7 a8
    rw [e1] at a1
    rw [e2] at a2
    rw [e3] at a3
    rw [e4] at a4
    rw [e5] at a5
    rw [e6] at a6
    rw [e7] at a7
    rw [e8] at a8
    exact ⟨⟨a1, dvd_add a2 (Dvd.dvd.mul_right dn _)⟩, ⟨a3, dvd_add a4 (Dvd.dvd.mul_right dx _)⟩,
      ⟨a5, dvd_add a6 (Dvd.dvd.mul_right dy _)⟩, ⟨a7, dvd_add a8 (Dvd.dvd.mul_right dz _)⟩⟩
  · intro q hq
    obtain ⟨⟨bn1, bn2⟩, ⟨bx1, bx2⟩, ⟨by1, by2⟩, ⟨bz1, bz2⟩⟩ :=
      init_box_contains K context eqGroups c egs S.fresh S.init_ok g hg
    simp only [Box.contains, EqGroupBase.box] at hq
    obtain ⟨⟨n1, n2⟩, ⟨x1, x2⟩, ⟨y1, y2⟩, ⟨z1, z2⟩⟩ := hq
    have hlen : (1 : Int) ≤ Int.ofNat egs.length := by
      have : 0 < egs.length := List.length_pos_of_mem hg
      simp only [Int.ofNat_eq_coe]
      omega
    have hrt : 1 ≤ (setAngles K c).rt := by
      show 1 ≤ c.rt
      rw [hpar.rt]
      exact S.rt_pos
    have hsh : (0 : Int) ≤ Int.ofNat egs.length * (setAngles K c).rt - 1 := by
      have h11 : (1 : Int) * 1 ≤ Int.ofNat egs.length * (setAngles K c).rt :=
        mul_le_mul hlen hrt (by decide) (by omega)
      omega
    have pn := mul_nonneg an hsh
    have px := mul_nonneg ax hsh
    have py := mul_nonneg ay hsh
    have pz := mul_nonneg az hsh
    simp only [Box.contains, sweepWindow]
    have q1 : (setAngles K c).begin_bbn = c.begin_bbn := rfl
    have q2 : (setAngles K c).end_bbn = c.end_bbn := rfl
    have q3 : (setAngles K c).begin_bbx = c.begin_bbx := rfl
    have q4 : (setAngles K c).end_bbx = c.end_bbx := rfl
    have q5 : (setAngles K c).begin_bby = c.begin_bby := rfl
    have q6 : (setAngles K c).end_bby = c.end_bby := rfl
    have q7 : (setAngles K c).begin_bbz = c.begin_bbz := rfl
    have q8 : (setAngles K c).end_bbz = c.end_bbz := rfl
    rw [q1, q2, q3, q4, q5, q6, q7, q8]
    refine ⟨⟨?_, ?_⟩, ⟨?_, ?_⟩, ⟨?_, ?_⟩, ⟨?_, ?_⟩⟩ <;> omega

/-- In the setting of the comparison the domain check of `calc_rank_ref` holds at every
point of a group's box, at every time. -/
theorem ref_filter_all (K : Consts) (context : StencilContext)
    (eqGroups : List EqGroupBase) (c : StencilContext) (egs : List EqGroupBase)
    (S : RefinementSetting K context eqGroups c egs) (g : EqGroupBase) (hg : g ∈ egs)
    (t : Int) :
    g.box.points.filter (fun p => g.is_in_valid_domain c t p.n p.x p.y p.z) =
      g.box.points := by
  rw [List.filter_eq_self]
  intro p hp
  have hpar := init_sameParams K context eqGroups c egs S.init_ok
  obtain ⟨g0, hg0, cc, hcc, hf⟩ :=
    forall₂_mem_right (init_groups K context eqGroups c egs S.fresh S.init_ok) hg
  have hfr := (find_bounding_box_frame K cc g0).2
  rw [hf] at hfr
  simp only [Run.state] at hfr
  have hsolid := find_bounding_box_solid K cc g0 g (S.groups_fresh g0 hg0)
    (by rw [hcc.dn]; exact S.dn_idx) (by rw [hcc.dx]; exact S.dx_idx)
    (by rw [hcc.dy]; exact S.dy_idx) (by rw [hcc.dz]; exact S.dz_idx) hf p
    (Box.mem_points.mp hp)
  simp only [validPoints, Set.mem_setOf_eq] at hsolid
  rw [hfr, S.pred_static g0 hg0 c cc t 0 p.n p.x p.y p.z (hpar.trans_ hcc.symm_)]
  exact hsolid.2.2.2.2

/-- One step (one time step, one group) of the optimized run with `rt == 1`: the region
sweep makes kernel updates at the points of the group's box, each once, in some order. -/
theorem sweep_step_perm (K : Consts) (context : StencilContext)
    (eqGroups : List EqGroupBase) (c : StencilContext) (egs : List EqGroupBase)
    (S : SweepSetting K context eqGroups c egs) (w : Int × Int)
    (hw : w ∈ loopWindows c.begin_dt (c.begin_dt + c.dt) 1) (g : EqGroupBase)
    (hg : g ∈ egs) :
    ∃ P : List Pt,
      (regionSweep (setAngles K c) egs w.1 w.2 [g.addr]
          (sweepWindow (setAngles K c) egs)).flatMap (Event.updates K (setAngles K c)) =
        P.map (Update.calc_point g.addr w.1) ∧
      P.Perm g.box.points := by
  have hw2 := loopWindows_one_full hw
  have hpar := init_sameParams K context eqGroups c egs S.init_ok
  have hnd : (egs.map EqGroupBase.addr).Nodup := by
    rw [init_addrs K context eqGroups c egs S.fresh S.init_ok]
    exact S.distinct
  obtain ⟨hWS, hin⟩ := sweepWindow_setting K context eqGroups c egs S g hg
  refine ⟨(tileLoops (sweepWindow (setAngles K c) egs) (setAngles K c).rn (setAngles K c).rx
      (setAngles K c).ry (setAngles K c).rz).flatMap (fun W =>
        if (clipToGroup W g).nonempty then region_loops K (setAngles K c) (clipToGroup W g)
        else []), ?_, ?_⟩
  · rw [hw2]
    exact regionSweep_updates K (setAngles K c) egs _ g hg hnd w.1
  · exact sweep_points_perm K (setAngles K c) _ g S.vlen_n S.vlen_x S.vlen_y S.vlen_z
      S.clen_n S.clen_x S.clen_y S.clen_z S.rn_pos S.rx_pos S.ry_pos S.rz_pos
      S.rn_dvd S.rx_dvd S.ry_dvd S.rz_dvd
      (by show 0 < c.bn; rw [hpar.bn]; exact S.bn_pos)
      (by show 0 < c.bx; rw [hpar.bx]; exact S.bx_pos)
      (by show 0 < c.by_; rw [hpar.by_]; exact S.by_pos)
      (by show 0 < c.bz; rw [hpar.bz]; exact S.bz_pos)
      (by show K.CPTS_N ∣ c.bn; rw [hpar.bn]; exact S.bn_dvd)
      (by show K.CPTS_X ∣ c.bx; rw [hpar.bx]; exact S.bx_dvd)
      (by show K.CPTS_Y ∣ c.by_; rw [hpar.by_]; exact S.by_dvd)
      (by show K.CPTS_Z ∣ c.bz; rw [hpar.bz]; exact S.bz_dvd)
      hWS (S.aligned g hg) hin

/-- One step (one time step, one group) of the two runs: the same halo exchange, then
kernel updates of the same points in possibly different orders. -/
theorem step_perm (K : Consts) (context : StencilContext)
    (eqGroups : List EqGroupBase) (c : StencilContext) (egs : List EqGroupBase)
    (S : RefinementSetting K context eqGroups c egs) (w : Int × Int)
    (hw : w ∈ loopWindows c.begin_dt (c.begin_dt + c.dt) 1) (g : EqGroupBase)
    (hg : g ∈ egs) :
    ∃ P : List Pt,
      (regionSweep (setAngles K c) egs w.1 w.2 [g.addr]
          (sweepWindow (setAngles K c) egs)).flatMap (Event.updates K (setAngles K c)) =
        P.map (Update.calc_point g.addr w.1) ∧
      P.Perm g.box.points ∧
      calc_rank_ref_step K c w.1 g =
        Update.exchange_halos g.addr w.1 w.2 :: g.box.points.map (Update.calc_point g.addr w.1) := by
  have hw2 := loopWindows_one_full hw
  obtain ⟨P, h1, h2⟩ := sweep_step_perm K context eqGroups c egs S.toSweepSetting w hw g hg
  refine ⟨P, h1, h2, ?_⟩
  unfold calc_rank_ref_step
  rw [ref_filter_all K context eqGroups c egs S g hg, S.cpts_t, hw2]

theorem optUpdates_shape (K : Consts) (context : StencilContext)
    (eqGroups : List EqGroupBase) (c : StencilContext) (egs : List EqGroupBase)
    (hinit : init K context eqGroups = .returned (c, egs)) (hrt : c.rt = 1)
    (hbt : c.bt = 1) :
    optUpdates K context eqGroups =
      (loopWindows c.begin_dt (c.begin_dt + c.dt) 1).flatMap (fun w =>
        egs.flatMap (fun g =>
          Update.exchange_halos g.addr w.1 w.2 ::
            (regionSweep (setAngles K c) egs w.1 w.2 [g.addr]
              (sweepWindow (setAngles K c) egs)).flatMap (Event.updates K (setAngles K c)))) := by
  unfold optUpdates
  rw [calc_rank_opt_returned K context eqGroups c egs hinit hbt]
  simp only [Run.state]
  rw [List.flatMap_assoc, hrt]
  apply List.flatMap_congr
  intro w _
  have hrt2 : (setAngles K c).rt = 1 := hrt
  simp only [superStepTrace, hrt2, if_true]
  rw [List.flatMap_assoc]
  apply List.flatMap_congr
  intro g _
  simp [Event.updates]

theorem calc_rank_ref_shape (K : Consts) (context : StencilContext)
    (eqGroups : List EqGroupBase) (c : StencilContext) (egs : List EqGroupBase)
    (hinit : init K context eqGroups = .returned (c, egs)) (hT : K.CPTS_T = 1) :
    calc_rank_ref K context eqGroups =
      .returned ((loopWindows c.begin_dt (c.begin_dt + c.dt) 1).flatMap (fun w =>
        egs.flatMap (calc_rank_ref_step K c w.1))) := by
  unfold calc_rank_ref
  rw [hinit]
  simp only [loopStarts, hT, List.flatMap_map]

theorem runUpdates_append {γ : Type} (halo : Nat → Int → Int → γ → γ)
    (kern : Nat → Int → Pt → γ → γ) (a b : List Update) (s : γ) :
    runUpdates halo kern (a ++ b) s = runUpdates halo kern b (runUpdates halo kern a s) := by
  simp [runUpdates, List.foldl_append]

theorem runUpdates_flatMap_congr {γ α : Type} (halo : Nat → Int → Int → γ → γ)
    (kern : Nat → Int → Pt → γ → γ) (l : List α) (f g : α → List Update)
    (h : ∀ a ∈ l, ∀ s, runUpdates halo kern (f a) s = runUpdates halo kern (g a) s) :
    ∀ s, runUpdates halo kern (l.flatMap f) s = runUpdates halo kern (l.flatMap g) s := by
  induction l with
  | nil =>
    intro s
    rfl
  | cons a l ih =>
    intro s
    rw [List.flatMap_cons, List.flatMap_cons, runUpdates_append, runUpdates_append,
      h a (List.mem_cons_self _ _), ih (fun b hb => h b (List.mem_cons_of_mem _ hb))]

theorem runUpdates_points_perm {γ : Type} (halo : Nat → Int → Int → γ → γ)
    (kern : Nat → Int → Pt → γ → γ)
    (hcomm : ∀ g t p q s, kern g t p (kern g t q s) = kern g t q (kern g t p s))
    (g : Nat) (t : Int) (P Q : List Pt) (hPQ : P.Perm Q) (s : γ) :
    runUpdates halo kern (P.map (Update.calc_point g t)) s =
      runUpdates halo kern (Q.map (Update.calc_point g t)) s := by
  unfold runUpdates
  apply List.Perm.foldl_eq' (hPQ.map _)
  intro x hx y hy z
  rw [List.mem_map] at hx hy
  obtain ⟨p, _, rfl⟩ := hx
  obtain ⟨q, _, rfl⟩ := hy
  simp only [Update.apply]
  exact hcomm g t q p z

/-- **C5 (counterexample).** Counterexamples to the claim as stated.  All domains satisfy
the cluster-multiple invariant and the region and block sizes divide the domain.
(1) `dn = 1`, `dx = 2`, unit vector and cluster lengths, `rt = 1`, two time steps, one
group whose predicate holds everywhere at `t = 0` and nowhere at `t = 1`: both runs
return, but `calc_rank_opt` updates the point `(0,0,0,0)` at `t = 1` and `calc_rank_ref`
does not, so the kernel that counts its evaluations per point gives `2` against `1`.
(2) Block size not a multiple of the cluster size (`dx = 4`, `CLEN_X = 2`, `bx = 1`): the
optimized run updates `x = 4`, outside the domain.
(3) A deterministic kernel that works in place (`rt = 1`, `1 x 1 x 2 x 2` points, regions
of one point along `z`): the value at `(0,0,1,0)` is `1` after the optimized run and `2`
after the reference run, because the two runs visit the points in different orders.
(4) `rt = 2` and a halo exchange that changes the grids (it counts its calls): `2` after
the optimized run, `4` after the reference run.
(5) `rt = 2`, halo width `0` and a kernel that reads the neighbor at `x + 1`: the value at
`x = 1`, time `2`, is `1` after the optimized run and `2` after the reference run.
(6) A box that does not begin at a multiple of the cluster size (`VLEN_X = 2`, box
`[1,3)`): the optimized run updates `x = 0` and not `x = 2`, the reference run `x = 2`
and not `x = 0`.
(7) Region size not a multiple of the cluster size (`dx = 6`, `rx = 3`, `CLEN_X = 2`,
`bx = 2`): the optimized run updates `x = 3` twice.
(8) `bt = 2`: the optimized run ends the process with exit status 1, the reference run
returns. -/
theorem calc_rank_opt_differs_from_ref :
    (calc_rank_opt Consts.unit smallContext onlyAtStart =
      .returned (calc_rank_opt Consts.unit smallContext onlyAtStart).state ∧
    calc_rank_ref Consts.unit smallContext onlyAtStart =
      .returned (calc_rank_ref Consts.unit smallContext onlyAtStart).state ∧
    Update.calc_point 0 1 ⟨0, 0, 0, 0⟩ ∈ optUpdates Consts.unit smallContext onlyAtStart ∧
    Update.calc_point 0 1 ⟨0, 0, 0, 0⟩ ∉
      (calc_rank_ref Consts.unit smallContext onlyAtStart).state ∧
    runUpdates (fun _ _ _ s => s) countingKernel
      (optUpdates Consts.unit smallContext onlyAtStart) (fun _ => 0) ⟨0, 0, 0, 0⟩ = 2 ∧
    runUpdates (fun _ _ _ s => s) countingKernel
      (calc_rank_ref Consts.unit smallContext onlyAtStart).state (fun _ => 0) ⟨0, 0, 0, 0⟩ = 1 ∧
    runUpdates (fun _ _ _ s => s) countingKernel
      (optUpdates Consts.unit smallContext onlyAtStart) (fun _ => 0) ≠
    runUpdates (fun _ _ _ s => s) countingKernel
      (calc_rank_ref Consts.unit smallContext onlyAtStart).state (fun _ => 0)) ∧
    (calc_rank_opt { Consts.unit with CLEN_X := 2 } clusterContext everywhere =
      .returned (calc_rank_opt { Consts.unit with CLEN_X := 2 } clusterContext everywhere).state ∧
    Update.calc_point 0 0 ⟨0, 4, 0, 0⟩ ∈
      optUpdates { Consts.unit with CLEN_X := 2 } clusterContext everywhere ∧
    Update.calc_point 0 0 ⟨0, 4, 0, 0⟩ ∉
      (calc_rank_ref { Consts.unit with CLEN_X := 2 } clusterContext everywhere).state) ∧
    (calc_rank_opt Consts.unit planeContext everywhere =
      .returned (calc_rank_opt Consts.unit planeContext everywhere).state ∧
    calc_rank_ref Consts.unit planeContext everywhere =
      .returned (calc_rank_ref Consts.unit planeContext everywhere).state ∧
    runUpdates (fun _ _ _ s => s) inPlaceKernel
      (optUpdates Consts.unit planeContext everywhere) (fun _ => 0) ⟨0, 0, 1, 0⟩ = 1 ∧
    runUpdates (fun _ _ _ s => s) inPlaceKernel
      (calc_rank_ref Consts.unit planeContext everywhere).state (fun _ => 0)
        ⟨0, 0, 1, 0⟩ = 2) ∧
    (calc_rank_opt Consts.unit waveContext twoGroups =
      .returned (calc_rank_opt Consts.unit waveContext twoGroups).state ∧
    calc_rank_ref Consts.unit waveContext twoGroups =
      .returned (calc_rank_ref Consts.unit waveContext twoGroups).state ∧
    runUpdates (fun _ _ _ (s : Nat) => s + 1) (fun _ _ _ s => s)
      (optUpdates Consts.unit waveContext twoGroups) 0 = 2 ∧
    runUpdates (fun _ _ _ (s : Nat) => s + 1) (fun _ _ _ s => s)
      (calc_rank_ref Consts.unit waveContext twoGroups).state 0 = 4) ∧
    (calc_rank_opt Consts.unit reachContext everywhere =
      .returned (calc_rank_opt Consts.unit reachContext everywhere).state ∧
    calc_rank_ref Consts.unit reachContext everywhere =
      .returned (calc_rank_ref Consts.unit reachContext everywhere).state ∧
    runUpdates (fun _ _ _ s => s) reachKernel
      (optUpdates Consts.unit reachContext everywhere) (fun _ _ => 0) 2 ⟨0, 1, 0, 0⟩ = 1 ∧
    runUpdates (fun _ _ _ s => s) reachKernel
      (calc_rank_ref Consts.unit reachContext everywhere).state (fun _ _ => 0) 2
        ⟨0, 1, 0, 0⟩ = 2) ∧
    (calc_rank_opt foldX2 blockContext innerPair =
      .returned (calc_rank_opt foldX2 blockContext innerPair).state ∧
    calc_rank_ref foldX2 blockContext innerPair =
      .returned (calc_rank_ref foldX2 blockContext innerPair).state ∧
    Update.calc_point 0 0 ⟨0, 0, 0, 0⟩ ∈ optUpdates foldX2 blockContext innerPair ∧
    Update.calc_point 0 0 ⟨0, 2, 0, 0⟩ ∉ optUpdates foldX2 blockContext innerPair ∧
    Update.calc_point 0 0 ⟨0, 0, 0, 0⟩ ∉ (calc_rank_ref foldX2 blockContext innerPair).state ∧
    Update.calc_point 0 0 ⟨0, 2, 0, 0⟩ ∈ (calc_rank_ref foldX2 blockContext innerPair).state) ∧
    (calc_rank_opt { Consts.unit with CLEN_X := 2 } oddRegionContext everywhere =
      .returned
        (calc_rank_opt { Consts.unit with CLEN_X := 2 } oddRegionContext everywhere).state ∧
    (optUpdates { Consts.unit with CLEN_X := 2 } oddRegionContext everywhere).count
      (Update.calc_point 0 0 ⟨0, 3, 0, 0⟩) = 2 ∧
    (calc_rank_ref { Consts.unit with CLEN_X := 2 } oddRegionContext everywhere).state.count
      (Update.calc_point 0 0 ⟨0, 3, 0, 0⟩) = 1) ∧
    (calc_rank_opt Consts.unit { smallContext with bt := 2 } everywhere =
      .exited 1 (calc_rank_opt Consts.unit { smallContext with bt := 2 } everywhere).state ∧
    calc_rank_ref Consts.unit { smallContext with bt := 2 } everywhere =
      .returned (calc_rank_ref Consts.unit { smallContext with bt := 2 } everywhere).state) := by
  refine ⟨⟨rfl, rfl, by decide, by decide, by decide, by decide, ?_⟩,
    ⟨rfl, by decide, by decide⟩,
    ⟨rfl, rfl, by decide, by decide⟩,
    ⟨rfl, rfl, by decide, by decide⟩,
    ⟨rfl, rfl, by decide, by decide⟩,
    ⟨rfl, rfl, by decide, by decide, by decide, by decide⟩,
    ⟨rfl, by decide, by decide⟩,
    ⟨rfl, rfl⟩⟩
  intro h
  have h2 := congrFun h ⟨0, 0, 0, 0⟩
  revert h2
  decide

/-- With `rt == 1` in the setting of the comparison: both runs return, their update lists
are permutations of each other, and for every kernel whose updates of two points by the
same group at the same time commute they produce the same grids. -/
theorem refines_ref_rt_one (K : Consts) (context : StencilContext)
    (eqGroups : List EqGroupBase) (c : StencilContext) (egs : List EqGroupBase)
    (S : RefinementSetting K context eqGroups c egs) (hone : context.rt = 1) :
    calc_rank_opt K context eqGroups = .returned (calc_rank_opt K context eqGroups).state ∧
    calc_rank_ref K context eqGroups = .returned (calc_rank_ref K context eqGroups).state ∧
    (optUpdates K context eqGroups).Perm (calc_rank_ref K context eqGroups).state ∧
    ∀ (γ : Type) (halo : Nat → Int → Int → γ → γ) (kern : Nat → Int → Pt → γ → γ),
      (∀ g t p q s, kern g t p (kern g t q s) = kern g t q (kern g t p s)) →
      ∀ s0 : γ, runUpdates halo kern (optUpdates K context eqGroups) s0 =
        runUpdates halo kern (calc_rank_ref K context eqGroups).state s0 := by
  have hpar := init_sameParams K context eqGroups c egs S.init_ok
  have hrt : c.rt = 1 := by rw [hpar.rt]; exact hone
  have hbt : c.bt = 1 := by rw [hpar.bt]; exact S.bt_one
  have hopt := calc_rank_opt_returned K context eqGroups c egs S.init_ok hbt
  have href := calc_rank_ref_shape K context eqGroups c egs S.init_ok S.cpts_t
  refine ⟨by rw [hopt]; rfl, by rw [href]; rfl, ?_, ?_⟩
  · rw [optUpdates_shape K context eqGroups c egs S.init_ok hrt hbt, href]
    simp only [Run.state]
    apply List.Perm.flatMap_left
    intro w hw
    apply List.Perm.flatMap_left
    intro g hg
    obtain ⟨P, h1, h2, h3⟩ := step_perm K context eqGroups c egs S w hw g hg
    rw [h1, h3]
    exact List.Perm.cons _ (h2.map _)
  · intro γ halo kern hcomm s0
    rw [optUpdates_shape K context eqGroups c egs S.init_ok hrt hbt, href]
    simp only [Run.state]
    apply runUpdates_flatMap_congr
    intro w hw
    apply runUpdates_flatMap_congr
    intro g hg s
    obtain ⟨P, h1, h2, h3⟩ := step_perm K context eqGroups c egs S w hw g hg
    rw [h1, h3]
    show runUpdates halo kern (P.map (Update.calc_point g.addr w.1))
        (halo g.addr w.1 w.2 s) =
      runUpdates halo kern (g.box.points.map (Update.calc_point g.addr w.1))
        (halo g.addr w.1 w.2 s)
    exact runUpdates_points_perm halo kern hcomm _ _ _ _ h2 _

/-! ## Halo exchange -/

theorem calc_halo_fold (T : HaloTile) (b c0 : Int) (n : Nat) :
    ((List.range n).map (fun (k : Nat) => b + Int.ofNat k)).foldl
      (fun (st : List (Pt × Pt) × Int) zv =>
        (st.1 ++ [((⟨T.index_nv, T.index_xv, T.index_yv, st.2⟩ : Pt),
          (⟨T.start_nv, T.start_xv, T.start_yv, zv⟩ : Pt))], st.2 + 1))
      ([], c0) =
    ((List.range n).map (fun (k : Nat) =>
        ((⟨T.index_nv, T.index_xv, T.index_yv, c0 + Int.ofNat k⟩ : Pt),
          (⟨T.start_nv, T.start_xv, T.start_yv, b + Int.ofNat k⟩ : Pt))),
      c0 + Int.ofNat n) := by
  induction n with
  | zero => simp
  | succ n ih =>
    rw [List.range_succ, List.map_append, List.foldl_append, ih]
    simp only [List.map_cons, List.map_nil, List.foldl_cons, List.foldl_nil, List.map_append,
      Int.ofNat_eq_coe, Nat.cast_add, Nat.cast_one, Prod.mk.injEq, true_and]
    omega

theorem mem_calc_halo {T : HaloTile} {s : Int} {p : Pt × Pt} :
    p ∈ calc_halo T s ↔
      ∃ zv : Int, (T.start_zv ≤ zv ∧ zv < T.stop_zv) ∧
        p = (⟨T.index_nv, T.index_xv, T.index_yv, T.index_zv * s + (zv - T.start_zv)⟩,
          ⟨T.start_nv, T.start_xv, T.start_yv, zv⟩) := by
  unfold calc_halo loopRange
  rw [calc_halo_fold]
  simp only [List.mem_map, List.mem_range, Int.ofNat_eq_coe]
  constructor
  · rintro ⟨k, hk, rfl⟩
    refine ⟨T.start_zv + k, by omega, ?_⟩
    simp
  · rintro ⟨zv, ⟨h1, h2⟩, rfl⟩
    refine ⟨(zv - T.start_zv).toNat, by omega, ?_⟩
    have : ((zv - T.start_zv).toNat : Int) = zv - T.start_zv := by omega
    rw [this]
    simp

theorem mem_indexedWindows {b e step : Int} {w : Int × Int × Int} :
    w ∈ indexedWindows b e step ↔
      ∃ i : Int, (0 ≤ i ∧ i < ((e - b) + (step - 1)).tdiv step) ∧
        w = (i, b + i * step, min (b + i * step + step) e) := by
  unfold indexedWindows
  simp only [List.mem_map, mem_loopRange]
  constructor
  · rintro ⟨i, hi, rfl⟩
    exact ⟨i, hi, rfl⟩
  · rintro ⟨i, hi, rfl⟩
    exact ⟨i, hi, rfl⟩

theorem mem_indexedWindows_one {b e : Int} {w : Int × Int × Int} :
    w ∈ indexedWindows b e 1 ↔
      (b ≤ w.2.1 ∧ w.2.1 < e) ∧ w.1 = w.2.1 - b ∧ w.2.2 = w.2.1 + 1 := by
  rw [mem_indexedWindows]
  simp only [sub_self, add_zero, Int.tdiv_one, mul_one]
  constructor
  · rintro ⟨i, ⟨h0, h1⟩, rfl⟩
    simp only
    refine ⟨by omega, by omega, ?_⟩
    rw [min_eq_left (by omega)]
  · rintro ⟨⟨h0, h1⟩, h2, h3⟩
    refine ⟨w.1, by omega, ?_⟩
    obtain ⟨a, b2, c⟩ := w
    simp only at h0 h1 h2 h3
    subst h2 h3
    simp only [Prod.mk.injEq, true_and]
    refine ⟨by omega, ?_⟩
    rw [min_eq_left (by omega)]
    omega

/-- The tile of a generated loop that holds `y`. -/
theorem exists_indexedWindow (b e r y : Int) (hr : 0 < r) (hb : b ≤ y) (he : y < e) :
    ∃ w ∈ indexedWindows b e r, (w.2.1 ≤ y ∧ y < w.2.2) ∧ w.2.1 = b + w.1 * r := by
  have hnum : ((e - b) + (r - 1)).tdiv r = ((e - b) + (r - 1)) / r :=
    Int.tdiv_eq_ediv (by omega) (by omega)
  have h3 := Int.ediv_mul_le (y - b) (ne_of_gt hr)
  have h4 := Int.lt_ediv_add_one_mul_self (y - b) hr
  have hi0 : 0 ≤ (y - b) / r := Int.ediv_nonneg (by omega) (le_of_lt hr)
  have h1 := Int.ediv_mul_le (e - b + (r - 1)) (ne_of_gt hr)
  have h2 := Int.lt_ediv_add_one_mul_self (e - b + (r - 1)) hr
  have hi1 : (y - b) / r < (e - b + (r - 1)) / r := by
    by_contra hcon
    push_neg at hcon
    have := Int.mul_le_mul_of_nonneg_right hcon (le_of_lt hr)
    nlinarith
  refine ⟨((y - b) / r, b + (y - b) / r * r, min (b + (y - b) / r * r + r) e), ?_, ?_, rfl⟩
  · rw [mem_indexedWindows, hnum]
    exact ⟨_, ⟨hi0, hi1⟩, rfl⟩
  · simp only
    exact ⟨by linarith, lt_min (by linarith) he⟩

theorem mem_halo_loops {VW : Box} {sn sx sy sz : Int} {T : HaloTile} :
    T ∈ halo_loops VW sn sx sy sz ↔
      (T.index_nv, T.start_nv, T.stop_nv) ∈ indexedWindows VW.begin_n VW.end_n sn ∧
      (T.index_xv, T.start_xv, T.stop_xv) ∈ indexedWindows VW.begin_x VW.end_x sx ∧
      (T.index_yv, T.start_yv, T.stop_yv) ∈ indexedWindows VW.begin_y VW.end_y sy ∧
      (T.index_zv, T.start_zv, T.stop_zv) ∈ indexedWindows VW.begin_z VW.end_z sz := by
  unfold halo_loops
  simp only [List.mem_flatMap, List.mem_map]
  constructor
  · rintro ⟨wn, hn, wx, hx, wy, hy, wz, hz, rfl⟩
    exact ⟨hn, hx, hy, hz⟩
  · rintro ⟨hn, hx, hy, hz⟩
    exact ⟨_, hn, _, hx, _, hy, _, hz, rfl⟩

/-- The halo loops pair every vector of the vector window, and nothing else, with the
buffer vector at its zero-based position. -/
theorem mem_haloPairs {K : Consts} {W : Box} {p : Pt × Pt} :
    p ∈ haloPairs K W ↔
      (vecWindow K W).contains p.2 ∧
        p.1 = ⟨p.2.n - (vecWindow K W).begin_n, p.2.x - (vecWindow K W).begin_x,
          p.2.y - (vecWindow K W).begin_y, p.2.z - (vecWindow K W).begin_z⟩ := by
  unfold haloPairs
  simp only [List.mem_flatMap, mem_halo_loops, mem_calc_halo, mem_indexedWindows_one]
  constructor
  · rintro ⟨T, ⟨⟨hn, hn1, hn2⟩, ⟨hx, hx1, hx2⟩, ⟨hy, hy1, hy2⟩, hz⟩, zv, ⟨hz1, hz2⟩, rfl⟩
    obtain ⟨i, ⟨hi0, hi1⟩, hi⟩ := mem_indexedWindows.mp hz
    simp only [Prod.mk.injEq] at hi
    obtain ⟨e1, e2, e3⟩ := hi
    have hzle : T.stop_zv ≤ (vecWindow K W).end_z := by
      rw [e3]
      exact min_le_right _ _
    refine ⟨⟨hn, hx, ⟨hy, ?_, ?_⟩⟩, ?_⟩
    · show (vecWindow K W).begin_z ≤ zv
      omega
    · show zv < (vecWindow K W).end_z
      omega
    · simp only [Pt.mk.injEq]
      refine ⟨hn1, hx1, hy1, ?_⟩
      omega
  · rintro ⟨⟨hn, hx, hy, hz⟩, hp⟩
    obtain ⟨w, hw, ⟨hw1, hw2⟩, hw3⟩ :=
      exists_indexedWindow (vecWindow K W).begin_z (vecWindow K W).end_z 4 p.2.z
        (by norm_num) hz.1 hz.2
    refine ⟨{ index_nv := p.2.n - (vecWindow K W).begin_n,
              index_xv := p.2.x - (vecWindow K W).begin_x,
              index_yv := p.2.y - (vecWindow K W).begin_y,
              index_zv := w.1,
              start_nv := p.2.n, start_xv := p.2.x, start_yv := p.2.y, start_zv := w.2.1,
              stop_nv := p.2.n + 1, stop_xv := p.2.x + 1, stop_yv := p.2.y + 1,
              stop_zv := w.2.2 }, ⟨⟨hn, rfl, rfl⟩, ⟨hx, rfl, rfl⟩, ⟨hy, rfl, rfl⟩, hw⟩,
            p.2.z, ⟨hw1, hw2⟩, ?_⟩
    obtain ⟨p1, p2⟩ := p
    simp only at hp hw3 ⊢
    rw [hp]
    simp only [Prod.mk.injEq, Pt.mk.injEq, true_and, and_true]
    omega

/-- A run of vector copies whose source is the destination moved by `o` vectors: an
element covered by a destination vector holds the source element `o_d * VLEN_d` further,
any other element is left as it was. -/
theorem foldl_writeVecNorm {α : Type} (K : Consts) (src : Pt → α) (o : Pt)
    (dstOf srcOf : Pt × Pt → Pt) (L : List (Pt × Pt))
    (h : ∀ p ∈ L, srcOf p = ⟨(dstOf p).n + o.n, (dstOf p).x + o.x, (dstOf p).y + o.y,
      (dstOf p).z + o.z⟩) (buf : Pt → α) (e : Pt) :
    (L.foldl (fun g p => writeVecNorm K g (dstOf p) (readVecNorm K src (srcOf p))) buf) e =
      if ∃ p ∈ L, (vecBox K (dstOf p)).contains e then
        src ⟨e.n + o.n * K.VLEN_N, e.x + o.x * K.VLEN_X, e.y + o.y * K.VLEN_Y,
          e.z + o.z * K.VLEN_Z⟩
      else buf e := by
  induction L generalizing buf with
  | nil => simp
  | cons p L ih =>
    rw [List.foldl_cons, ih (fun q hq => h q (List.mem_cons_of_mem _ hq))]
    by_cases h1 : ∃ q ∈ L, (vecBox K (dstOf q)).contains e
    · rw [if_pos h1, if_pos]
      obtain ⟨q, hq, hc⟩ := h1
      exact ⟨q, List.mem_cons_of_mem _ hq, hc⟩
    · rw [if_neg h1]
      by_cases h2 : (vecBox K (dstOf p)).contains e
      · rw [if_pos ⟨p, List.mem_cons_self _ _, h2⟩]
        unfold writeVecNorm readVecNorm
        rw [if_pos h2, h p (List.mem_cons_self _ _)]
        congr 1
        simp only [Pt.mk.injEq]
        refine ⟨by ring, by ring, by ring, by ring⟩
      · rw [if_neg]
        · unfold writeVecNorm
          rw [if_neg h2]
        · rintro ⟨q, hq, hc⟩
          rcases List.mem_cons.mp hq with rfl | hq
          · exact h2 hc
          · exact h1 ⟨q, hq, hc⟩

/-- The vector that holds the element `e` of an aligned window `[a, b)`. -/
theorem vec_index {V a b e : Int} (hV : 0 < V) (ha : V ∣ a) (hb : V ∣ b) (h1 : a ≤ e)
    (h2 : e < b) :
    (a.tdiv V ≤ e / V ∧ e / V < b.tdiv V) ∧ (e / V * V ≤ e ∧ e < (e / V + 1) * V) ∧
      a.tdiv V * V = a := by
  obtain ⟨q, rfl⟩ := ha
  obtain ⟨r, rfl⟩ := hb
  rw [Int.mul_tdiv_cancel_left _ (ne_of_gt hV), Int.mul_tdiv_cancel_left _ (ne_of_gt hV)]
  have h3 := Int.ediv_mul_le e (ne_of_gt hV)
  have h4 := Int.lt_ediv_add_one_mul_self e hV
  refine ⟨⟨?_, ?_⟩, ⟨h3, h4⟩, by ring⟩
  · exact (Int.le_ediv_iff_mul_le hV).mpr (by linarith)
  · exact (Int.ediv_lt_iff_lt_mul hV).mpr (by linarith)

/-- Packing a window that begins and ends at multiples of the vector lengths: the buffer
element at the zero-based position `e` holds the grid element `e + begin`. -/
theorem pack_fold_spec {α : Type} (K : Consts) (W : Box)
    (hV : 0 < K.VLEN_N ∧ 0 < K.VLEN_X ∧ 0 < K.VLEN_Y ∧ 0 < K.VLEN_Z)
    (hb : K.VLEN_N ∣ W.begin_n ∧ K.VLEN_X ∣ W.begin_x ∧ K.VLEN_Y ∣ W.begin_y ∧
      K.VLEN_Z ∣ W.begin_z)
    (he : K.VLEN_N ∣ W.end_n ∧ K.VLEN_X ∣ W.end_x ∧ K.VLEN_Y ∣ W.end_y ∧ K.VLEN_Z ∣ W.end_z)
    (src buf : Pt → α) (e : Pt)
    (hin : W.contains ⟨e.n + W.begin_n, e.x + W.begin_x, e.y + W.begin_y, e.z + W.begin_z⟩) :
    ((haloPairs K W).foldl
      (fun buf pr => writeVecNorm K buf pr.1 (readVecNorm K src pr.2)) buf) e =
      src ⟨e.n + W.begin_n, e.x + W.begin_x, e.y + W.begin_y, e.z + W.begin_z⟩ := by
  obtain ⟨⟨n1, n2⟩, ⟨x1, x2⟩, ⟨y1, y2⟩, ⟨z1, z2⟩⟩ := hin
  simp only at n1 n2 x1 x2 y1 y2 z1 z2
  obtain ⟨⟨an, bn⟩, ⟨cn, dn⟩, en⟩ := vec_index hV.1 hb.1 he.1 n1 n2
  obtain ⟨⟨ax, bx⟩, ⟨cx, dx⟩, ex⟩ := vec_index hV.2.1 hb.2.1 he.2.1 x1 x2
  obtain ⟨⟨ay, by2⟩, ⟨cy, dy⟩, ey⟩ := vec_index hV.2.2.1 hb.2.2.1 he.2.2.1 y1 y2
  obtain ⟨⟨az, bz⟩, ⟨cz, dz⟩, ez⟩ := vec_index hV.2.2.2 hb.2.2.2 he.2.2.2 z1 z2
  have key := foldl_writeVecNorm K src
    ⟨(vecWindow K W).begin_n, (vecWindow K W).begin_x, (vecWindow K W).begin_y,
      (vecWindow K W).begin_z⟩ Prod.fst Prod.snd (haloPairs K W)
    (by
      intro p hp
      obtain ⟨_, h2⟩ := mem_haloPairs.mp hp
      rw [h2]
      simp) buf e
  rw [key, if_pos]
  · simp only [vecWindow]
    rw [en, ex, ey, ez]
  · refine ⟨(⟨(e.n + W.begin_n) / K.VLEN_N - (vecWindow K W).begin_n,
        (e.x + W.begin_x) / K.VLEN_X - (vecWindow K W).begin_x,
        (e.y + W.begin_y) / K.VLEN_Y - (vecWindow K W).begin_y,
        (e.z + W.begin_z) / K.VLEN_Z - (vecWindow K W).begin_z⟩,
      ⟨(e.n + W.begin_n) / K.VLEN_N, (e.x + W.begin_x) / K.VLEN_X,
        (e.y + W.begin_y) / K.VLEN_Y, (e.z + W.begin_z) / K.VLEN_Z⟩), ?_, ?_⟩
    · rw [mem_haloPairs]
      exact ⟨⟨⟨an, bn⟩, ⟨ax, bx⟩, ⟨ay, by2⟩, ⟨az, bz⟩⟩, rfl⟩
    · simp only [vecBox, Box.contains, vecWindow]
      refine ⟨⟨?_, ?_⟩, ⟨?_, ?_⟩, ⟨?_, ?_⟩, ⟨?_, ?_⟩⟩ <;> linarith

/-- Unpacking into a window that begins and ends at multiples of the vector lengths: the
grid element `e` of the window holds the buffer element at the zero-based position
`e - begin`. -/
theorem unpack_fold_spec {α : Type} (K : Consts) (W : Box)
    (hV : 0 < K.VLEN_N ∧ 0 < K.VLEN_X ∧ 0 < K.VLEN_Y ∧ 0 < K.VLEN_Z)
    (hb : K.VLEN_N ∣ W.begin_n ∧ K.VLEN_X ∣ W.begin_x ∧ K.VLEN_Y ∣ W.begin_y ∧
      K.VLEN_Z ∣ W.begin_z)
    (he : K.VLEN_N ∣ W.end_n ∧ K.VLEN_X ∣ W.end_x ∧ K.VLEN_Y ∣ W.end_y ∧ K.VLEN_Z ∣ W.end_z)
    (rcv g : Pt → α) (e : Pt) (hin : W.contains e) :
    ((haloPairs K W).foldl
      (fun g pr => writeVecNorm K g pr.2 (readVecNorm K rcv pr.1)) g) e =
      rcv ⟨e.n - W.begin_n, e.x - W.begin_x, e.y - W.begin_y, e.z - W.begin_z⟩ := by
  obtain ⟨⟨n1, n2⟩, ⟨x1, x2⟩, ⟨y1, y2⟩, ⟨z1, z2⟩⟩ := hin
  obtain ⟨⟨an, bn⟩, ⟨cn, dn⟩, en⟩ := vec_index hV.1 hb.1 he.1 n1 n2
  obtain ⟨⟨ax, bx⟩, ⟨cx, dx⟩, ex⟩ := vec_index hV.2.1 hb.2.1 he.2.1 x1 x2
  obtain ⟨⟨ay, by2⟩, ⟨cy, dy⟩, ey⟩ := vec_index hV.2.2.1 hb.2.2.1 he.2.2.1 y1 y2
  obtain ⟨⟨az, bz⟩, ⟨cz, dz⟩, ez⟩ := vec_index hV.2.2.2 hb.2.2.2 he.2.2.2 z1 z2
  have key := foldl_writeVecNorm K rcv
    ⟨-(vecWindow K W).begin_n, -(vecWindow K W).begin_x, -(vecWindow K W).begin_y,
      -(vecWindow K W).begin_z⟩ Prod.snd Prod.fst (haloPairs K W)
    (by
      intro p hp
      obtain ⟨_, h2⟩ := mem_haloPairs.mp hp
      rw [h2]
      simp only [Pt.mk.injEq]
      refine ⟨by ring, by ring, by ring, by ring⟩) g e
  rw [key, if_pos]
  · simp only [vecWindow, neg_mul]
    rw [en, ex, ey, ez]
    rfl
  · refine ⟨(⟨e.n / K.VLEN_N - (vecWindow K W).begin_n,
        e.x / K.VLEN_X - (vecWindow K W).begin_x,
        e.y / K.VLEN_Y - (vecWindow K W).begin_y,
        e.z / K.VLEN_Z - (vecWindow K W).begin_z⟩,
      ⟨e.n / K.VLEN_N, e.x / K.VLEN_X, e.y / K.VLEN_Y, e.z / K.VLEN_Z⟩), ?_, ?_⟩
    · rw [mem_haloPairs]
      exact ⟨⟨⟨an, bn⟩, ⟨ax, bx⟩, ⟨ay, by2⟩, ⟨az, bz⟩⟩, rfl⟩
    · exact ⟨⟨cn, dn⟩, ⟨cx, dx⟩, ⟨cy, dy⟩, ⟨cz, dz⟩⟩

/-- One dimension of the pack window of a rank for its neighbor `nn`, and of the unpack
window of that neighbor for the rank (its neighbor `2 - nn`): both are aligned when `d`
and `h` are, and the first is the second moved by `(nn - 1) * d`. -/
theorem halo_window_dim {V d h nn : Int}
    (hdir : nn = rank_prev ∨ nn = rank_self ∨ nn = rank_next) (hd : V ∣ d) (hh : V ∣ h) :
    (V ∣ (if nn = rank_next then d - h else 0) ∧ V ∣ (if nn = rank_prev then h else d)) ∧
    (V ∣ (if 2 - nn = rank_next then d else if 2 - nn = rank_prev then -h else 0) ∧
      V ∣ (if 2 - nn = rank_next then d + h else if 2 - nn = rank_prev then 0 else d)) ∧
    (if nn = rank_next then d - h else 0) =
      (if 2 - nn = rank_next then d else if 2 - nn = rank_prev then -h else 0) +
        (nn - 1) * d ∧
    (if nn = rank_prev then h else d) =
      (if 2 - nn = rank_next then d + h else if 2 - nn = rank_prev then 0 else d) +
        (nn - 1) * d := by
  unfold rank_prev rank_self rank_next at *
  rcases hdir with rfl | rfl | rfl
  · norm_num
    exact ⟨hh, hd, dvd_add hd hh⟩
  · norm_num
    exact hd
  · norm_num
    exact ⟨⟨dvd_sub hd hh, hd⟩, hh, by ring⟩

/-- **C7 (counterexample).** Vectors of two elements along `x`, rank size `dx = 4`, halo
width `hx = 1` on both ranks, B at offset `+1` along `x` from A.  A packs for its
neighbor `rank_next` the window `[3,4)`, divided by `VLEN_X` the vectors `[1,2)`; B
unpacks for its neighbor `rank_prev` the window `[-1,0)`, divided by `VLEN_X` with C++
truncation the vectors `[0,0)`: no vector is written.  The ghost element `x = -1` of B
keeps its old value `0`, while the element of A at the same global position, `x = 3`,
holds `13`. -/
theorem exchange_halos_drops_partial_vector :
    haloWidths (haloContext 1) 0 1 0 0 = (0, 1, 0, 0) ∧
    (unpackWindow (haloContext 1) (haloWidths (haloContext 1) 0 1 0 0) 1 0 1 1).contains
      ⟨0, -1, 0, 0⟩ ∧
    haloPairs foldX2
      (packWindow (haloContext 1) (haloWidths (haloContext 1) 0 1 0 0) 1 2 1 1) =
      [(⟨0, 0, 0, 0⟩, ⟨0, 1, 0, 0⟩)] ∧
    haloPairs foldX2
      (unpackWindow (haloContext 1) (haloWidths (haloContext 1) 0 1 0 0) 1 0 1 1) = [] ∧
    unpack_halo foldX2 (haloContext 1) 0 1 0 0 recvGrid 0 1 0 1 1
      (pack_halo foldX2 (haloContext 1) 0 1 0 0 sendGrid 0 1 2 1 1 freshBuf)
      0 ⟨0, -1, 0, 0⟩ = 0 ∧
    sendGrid 0 ⟨0, 3, 0, 0⟩ = 13 ∧
    unpack_halo foldX2 (haloContext 1) 0 1 0 0 recvGrid 0 1 0 1 1
      (pack_halo foldX2 (haloContext 1) 0 1 0 0 sendGrid 0 1 2 1 1 freshBuf)
      0 ⟨0, -1, 0, 0⟩ ≠ sendGrid 0 ⟨0, -1 + (2 - 1) * (haloContext 1).dx, 0, 0⟩ :=
  ⟨by decide, by decide, by decide, by decide, by decide, by decide, by decide⟩

/-- **C7 (amended).** Two ranks A and B with the same rank sizes `d` and the same halo
widths `h_d = min(context.h_d, get_p_d())`, every vector length `VLEN_d` positive and
dividing both `d_d` and `h_d`; B is the neighbor `(nn,nx,ny,nz)` of A (offset
`D_d = n_d - 1`), so A is the neighbor `2 - n_d` of B.  If the send buffer packed by A
for B is delivered unchanged into the receive buffer of B, then after the unpack of B at
`start_dt` every element `e` of the unpack window of B (`[-h_d, 0)` for `D_d = +1`,
`[d_d, d_d + h_d)` for `D_d = -1`, `[0, d_d)` for `D_d = 0`) equals the element of A at
the same global position, `e_d + D_d * d_d`, at `start_dt`. -/
theorem exchange_halos_completeness {α : Type} (K : Consts)
    (contextA contextB : StencilContext) (pn px py pz qn qx qy qz : Int)
    (gridA gridB : Int → Pt → α) (start_dt nn nx ny nz : Int) (sendBuf rcvBuf : Pt → α)
    (hV : 0 < K.VLEN_N ∧ 0 < K.VLEN_X ∧ 0 < K.VLEN_Y ∧ 0 < K.VLEN_Z)
    (hd : contextB.dn = contextA.dn ∧ contextB.dx = contextA.dx ∧
      contextB.dy = contextA.dy ∧ contextB.dz = contextA.dz)
    (hh : haloWidths contextB qn qx qy qz = haloWidths contextA pn px py pz)
    (hdir : (nn = rank_prev ∨ nn = rank_self ∨ nn = rank_next) ∧
      (nx = rank_prev ∨ nx = rank_self ∨ nx = rank_next) ∧
      (ny = rank_prev ∨ ny = rank_self ∨ ny = rank_next) ∧
      (nz = rank_prev ∨ nz = rank_self ∨ nz = rank_next))
    (hdd : K.VLEN_N ∣ contextA.dn ∧ K.VLEN_X ∣ contextA.dx ∧ K.VLEN_Y ∣ contextA.dy ∧
      K.VLEN_Z ∣ contextA.dz)
    (hhd : K.VLEN_N ∣ (haloWidths contextA pn px py pz).1 ∧
      K.VLEN_X ∣ (haloWidths contextA pn px py pz).2.1 ∧
      K.VLEN_Y ∣ (haloWidths contextA pn px py pz).2.2.1 ∧
      K.VLEN_Z ∣ (haloWidths contextA pn px py pz).2.2.2)
    (hdeliver : rcvBuf = pack_halo K contextA pn px py pz gridA start_dt nn nx ny nz sendBuf)
    (e : Pt)
    (he : (unpackWindow contextB (haloWidths contextB qn qx qy qz)
      (2 - nn) (2 - nx) (2 - ny) (2 - nz)).contains e) :
    unpack_halo K contextB qn qx qy qz gridB start_dt (2 - nn) (2 - nx) (2 - ny) (2 - nz)
        rcvBuf start_dt e =
      gridA start_dt ⟨e.n + (nn - 1) * contextA.dn, e.x + (nx - 1) * contextA.dx,
        e.y + (ny - 1) * contextA.dy, e.z + (nz - 1) * contextA.dz⟩ := by
  obtain ⟨⟨n1, n2⟩, ⟨n3, n4⟩, n5, n6⟩ := halo_window_dim hdir.1 hdd.1 hhd.1
  obtain ⟨⟨x1, x2⟩, ⟨x3, x4⟩, x5, x6⟩ := halo_window_dim hdir.2.1 hdd.2.1 hhd.2.1
  obtain ⟨⟨y1, y2⟩, ⟨y3, y4⟩, y5, y6⟩ := halo_window_dim hdir.2.2.1 hdd.2.2.1 hhd.2.2.1
  obtain ⟨⟨z1, z2⟩, ⟨z3, z4⟩, z5, z6⟩ := halo_window_dim hdir.2.2.2 hdd.2.2.2 hhd.2.2.2
  have hWB : unpackWindow contextB (haloWidths contextB qn qx qy qz)
      (2 - nn) (2 - nx) (2 - ny) (2 - nz) =
      unpackWindow contextA (haloWidths contextA pn px py pz)
        (2 - nn) (2 - nx) (2 - ny) (2 - nz) := by
    rw [hh]
    unfold unpackWindow
    rw [hd.1, hd.2.1, hd.2.2.1, hd.2.2.2]
  rw [hWB] at he
  simp only [unpack_halo, eq_self_iff_true, if_true]
  rw [hWB, unpack_fold_spec K _ hV ⟨n3, x3, y3, z3⟩ ⟨n4, x4, y4, z4⟩ _ _ e he, hdeliver]
  unfold pack_halo
  obtain ⟨⟨e1, e2⟩, ⟨e3, e4⟩, ⟨e5, e6⟩, ⟨e7, e8⟩⟩ := he
  have hb : ∀ a b c : Int, a - b + (b + c) = a + c := fun a b c => by ring
  rw [pack_fold_spec K _ hV ⟨n1, x1, y1, z1⟩ ⟨n2, x2, y2, z2⟩]
  · congr 1
    simp only [packWindow, unpackWindow, Pt.mk.injEq] at n5 x5 y5 z5 ⊢
    rw [n5, x5, y5, z5]
    exact ⟨hb _ _ _, hb _ _ _, hb _ _ _, hb _ _ _⟩
  · simp only [packWindow, unpackWindow, Box.contains] at e1 e2 e3 e4 e5 e6 e7 e8 ⊢
    rw [n5, x5, y5, z5, n6, x6, y6, z6]
    refine ⟨⟨?_, ?_⟩, ⟨?_, ?_⟩, ⟨?_, ?_⟩, ⟨?_, ?_⟩⟩ <;> linarith

/-- Witness of C7: vectors of two elements along `x`, `dx = 4`, `hx = 2`; the ghost
element `x = -1` of B gets the value `13` of the element `x = 3` of A. -/
theorem exchange_halos_completeness_witness :
    (unpackWindow (haloContext 2) (haloWidths (haloContext 2) 0 2 0 0)
      (2 - 1) (2 - 2) (2 - 1) (2 - 1)).contains ⟨0, -1, 0, 0⟩ ∧
    unpack_halo foldX2 (haloContext 2) 0 2 0 0 recvGrid 0 (2 - 1) (2 - 2) (2 - 1) (2 - 1)
        (pack_halo foldX2 (haloContext 2) 0 2 0 0 sendGrid 0 1 2 1 1 freshBuf)
        0 ⟨0, -1, 0, 0⟩ =
      sendGrid 0 ⟨0 + (1 - 1) * (haloContext 2).dn, -1 + (2 - 1) * (haloContext 2).dx,
        0 + (1 - 1) * (haloContext 2).dy, 0 + (1 - 1) * (haloContext 2).dz⟩ ∧
    sendGrid 0 ⟨0 + (1 - 1) * (haloContext 2).dn, -1 + (2 - 1) * (haloContext 2).dx,
        0 + (1 - 1) * (haloContext 2).dy, 0 + (1 - 1) * (haloContext 2).dz⟩ = 13 :=
  ⟨by decide,
    exchange_halos_completeness foldX2 (haloContext 2) (haloContext 2) 0 2 0 0 0 2 0 0
      sendGrid recvGrid 0 1 2 1 1 freshBuf _ (by decide) (by decide) rfl (by decide)
      (by decide) (by decide) rfl ⟨0, -1, 0, 0⟩ (by decide),
    by decide⟩


/-! ## Evaluations of `calc_region` -/

theorem mem_evalsFrom {c : StencilContext} {W : Box} {ev : RegionEval}
    (l : List (Int × EqGroupBase)) :
    ∀ j, ev ∈ evalsFrom c W j l → ∃ k tg, tg ∈ l ∧ ev = evalAt c W k tg := by
  induction l with
  | nil =>
    intro j h
    simp [evalsFrom] at h
  | cons x l ih =>
    intro j h
    simp only [evalsFrom, List.mem_cons] at h
    rcases h with h | h
    · exact ⟨j, x, List.mem_cons_self _ _, h⟩
    · obtain ⟨k, tg, h1, h2⟩ := ih (j + 1) h
      exact ⟨k, tg, List.mem_cons_of_mem _ h1, h2⟩

theorem calc_region_returned (context : StencilContext) (eqGroups : List EqGroupBase)
    (start_dt stop_dt : Int) (set : List Nat) (W : Box) (hbt : context.bt = 1) :
    calc_region context eqGroups start_dt stop_dt set W =
      .returned (evalsFrom context W 0 (schedule eqGroups set (loopWindows start_dt stop_dt 1))) := by
  unfold calc_region
  simp only [hbt, ne_eq, not_true_eq_false, if_false]
  rw [calc_region_times_eq]

theorem calc_region_bt (context : StencilContext) (eqGroups : List EqGroupBase)
    (start_dt stop_dt : Int) (set : List Nat) (W : Box) (evals : List RegionEval)
    (hret : calc_region context eqGroups start_dt stop_dt set W = .returned evals) :
    context.bt = 1 := by
  unfold calc_region at hret
  by_contra h
  simp only [ne_eq, h, not_false_eq_true, if_true] at hret
  cases hret

/-- **C11.** Every evaluation `ev` made by a `calc_region` call that returns is the
evaluation of a group `eg` of `eqGroups` that is in the given set; the window handed to
the block-level sweep (the region loops) is
`[max(start_dd, eg.begin_bbd), min(stop_dd, eg.end_bbd))` in every dimension, where
`[start_dd, stop_dd)` is the region window at that moment; and the sweep runs if and only
if this window is non-empty in all four dimensions: the updates of the evaluation are
those of the region loops over the window in that case and none otherwise. -/
theorem calc_region_clip (K : Consts) (context : StencilContext)
    (eqGroups : List EqGroupBase) (start_dt stop_dt : Int) (set : List Nat) (W : Box)
    (evals : List RegionEval) (ev : RegionEval)
    (hret : calc_region context eqGroups start_dt stop_dt set W = .returned evals)
    (hev : ev ∈ evals) :
    ∃ eg ∈ eqGroups, eg.addr ∈ set ∧ ev.eg = eg.addr ∧
      ev.clip =
        { begin_n := max ev.window.begin_n eg.begin_bbn,
          begin_x := max ev.window.begin_x eg.begin_bbx,
          begin_y := max ev.window.begin_y eg.begin_bby,
          begin_z := max ev.window.begin_z eg.begin_bbz,
          end_n := min ev.window.end_n eg.end_bbn,
          end_x := min ev.window.end_x eg.end_bbx,
          end_y := min ev.window.end_y eg.end_bby,
          end_z := min ev.window.end_z eg.end_bbz } ∧
      (ev.ran = true ↔
        (ev.clip.begin_n < ev.clip.end_n ∧ ev.clip.begin_x < ev.clip.end_x ∧
          ev.clip.begin_y < ev.clip.end_y ∧ ev.clip.begin_z < ev.clip.end_z)) ∧
      ev.updates K context =
        if ev.clip.begin_n < ev.clip.end_n ∧ ev.clip.begin_x < ev.clip.end_x ∧
            ev.clip.begin_y < ev.clip.end_y ∧ ev.clip.begin_z < ev.clip.end_z then
          (region_loops K context ev.clip).map (Update.calc_point ev.eg ev.rt)
        else [] := by
  have hbt := calc_region_bt context eqGroups start_dt stop_dt set W evals hret
  rw [calc_region_returned context eqGroups start_dt stop_dt set W hbt] at hret
  cases hret
  obtain ⟨k, tg, htg, rfl⟩ := mem_evalsFrom _ 0 hev
  obtain ⟨t, g⟩ := tg
  obtain ⟨hg, hset, _⟩ := mem_schedule htg
  have hran : ((evalAt context W k (t, g)).ran = true ↔
      ((evalAt context W k (t, g)).clip.begin_n < (evalAt context W k (t, g)).clip.end_n ∧
        (evalAt context W k (t, g)).clip.begin_x < (evalAt context W k (t, g)).clip.end_x ∧
        (evalAt context W k (t, g)).clip.begin_y < (evalAt context W k (t, g)).clip.end_y ∧
        (evalAt context W k (t, g)).clip.begin_z < (evalAt context W k (t, g)).clip.end_z)) := by
    simp only [evalAt, Box.nonempty, Bool.and_eq_true, decide_eq_true_eq, gt_iff_lt, and_assoc]
  refine ⟨g, hg, hset, rfl, rfl, hran, ?_⟩
  unfold RegionEval.updates
  by_cases h : (evalAt context W k (t, g)).ran = true
  · rw [if_pos h, if_pos (hran.mp h)]
  · rw [if_neg h, if_neg (fun h2 => h (hran.mpr h2))]

/-- Witness of C11: the third `calc_region` call of the run on `waveContext` and
`twoGroups`, region `[4,6)` along `x`; its second evaluation is the second group on the
window `[3,5)`, clipped to `[3,4)`, and the sweep runs. -/
theorem calc_region_clip_witness :
    waveSecondEval ∈ waveEvals ∧
    (∃ eg ∈ (init Consts.unit waveContext twoGroups).state.2,
      eg.addr ∈ [0, 1] ∧ waveSecondEval.eg = eg.addr ∧
      waveSecondEval.clip =
        { begin_n := max waveSecondEval.window.begin_n eg.begin_bbn,
          begin_x := max waveSecondEval.window.begin_x eg.begin_bbx,
          begin_y := max waveSecondEval.window.begin_y eg.begin_bby,
          begin_z := max waveSecondEval.window.begin_z eg.begin_bbz,
          end_n := min waveSecondEval.window.end_n eg.end_bbn,
          end_x := min waveSecondEval.window.end_x eg.end_bbx,
          end_y := min waveSecondEval.window.end_y eg.end_bby,
          end_z := min waveSecondEval.window.end_z eg.end_bbz } ∧
      (waveSecondEval.ran = true ↔
        (waveSecondEval.clip.begin_n < waveSecondEval.clip.end_n ∧
          waveSecondEval.clip.begin_x < waveSecondEval.clip.end_x ∧
          waveSecondEval.clip.begin_y < waveSecondEval.clip.end_y ∧
          waveSecondEval.clip.begin_z < waveSecondEval.clip.end_z)) ∧
      waveSecondEval.updates Consts.unit
          (setAngles Consts.unit (init Consts.unit waveContext twoGroups).state.1) =
        if waveSecondEval.clip.begin_n < waveSecondEval.clip.end_n ∧
            waveSecondEval.clip.begin_x < waveSecondEval.clip.end_x ∧
            waveSecondEval.clip.begin_y < waveSecondEval.clip.end_y ∧
            waveSecondEval.clip.begin_z < waveSecondEval.clip.end_z then
          (region_loops Consts.unit
            (setAngles Consts.unit (init Consts.unit waveContext twoGroups).state.1)
            waveSecondEval.clip).map (Update.calc_point waveSecondEval.eg waveSecondEval.rt)
        else []) ∧
    waveSecondEval.window.begin_x = 3 ∧ waveSecondEval.window.end_x = 5 ∧
    waveSecondEval.clip.begin_x = 3 ∧ waveSecondEval.clip.end_x = 4 ∧
    waveSecondEval.ran = true :=
  ⟨by decide,
    calc_region_clip Consts.unit
      (setAngles Consts.unit (init Consts.unit waveContext twoGroups).state.1)
      (init Consts.unit waveContext twoGroups).state.2 0 2 [0, 1]
      { begin_n := 0, begin_x := 4, begin_y := 0, begin_z := 0,
        end_n := 1, end_x := 6, end_y := 1, end_z := 1 }
      waveEvals waveSecondEval rfl (by decide),
    by decide, by decide, by decide, by decide, by decide⟩

theorem schedule_times (egs : List EqGroupBase) (set : List Nat) (s e : Int) :
    schedule egs set (loopWindows s e 1) =
      (loopRange s e).flatMap (fun t =>
        (egs.filter (fun g => decide (g.addr ∈ set))).map (fun g => (t, g))) := by
  unfold schedule loopWindows loopRange
  simp only [List.flatMap_map, List.map_map, sub_self, add_zero, Int.tdiv_one, sub_zero,
    mul_one, zero_add, Function.comp_def]

/-- **C12.** With `bt == 1` a `calc_region` call returns, and its evaluations are, for each
inner time step `t` of `[start_dt, stop_dt)` in increasing order, the groups of the list
`eqGroups` that are in the given set, in list order: `(stop_dt - start_dt)` times the
number of such groups, whatever the clipped windows are.  The `k`-th evaluation
(`k = 0, 1, ...`) is made on the region window `[start_dd - k*angle_d, stop_dd - k*angle_d)`,
clipped to the box of its group. -/
theorem calc_region_order (context : StencilContext) (eqGroups : List EqGroupBase)
    (start_dt stop_dt : Int) (set : List Nat) (W : Box) (hbt : context.bt = 1) :
    ∃ evals, calc_region context eqGroups start_dt stop_dt set W = .returned evals ∧
      evals.length = (stop_dt - start_dt).toNat *
        (eqGroups.filter (fun g => decide (g.addr ∈ set))).length ∧
      ∀ (k : Nat) (t : Int) (g : EqGroupBase),
        ((loopRange start_dt stop_dt).flatMap (fun t =>
          (eqGroups.filter (fun g => decide (g.addr ∈ set))).map (fun g => (t, g))))[k]? =
            some (t, g) →
        evals[k]? = some
          { eg := g.addr, rt := t,
            window :=
              { begin_n := W.begin_n - Int.ofNat k * context.angle_n,
                begin_x := W.begin_x - Int.ofNat k * context.angle_x,
                begin_y := W.begin_y - Int.ofNat k * context.angle_y,
                begin_z := W.begin_z - Int.ofNat k * context.angle_z,
                end_n := W.end_n - Int.ofNat k * context.angle_n,
                end_x := W.end_x - Int.ofNat k * context.angle_x,
                end_y := W.end_y - Int.ofNat k * context.angle_y,
                end_z := W.end_z - Int.ofNat k * context.angle_z },
            clip := clipToGroup
              { begin_n := W.begin_n - Int.ofNat k * context.angle_n,
                begin_x := W.begin_x - Int.ofNat k * context.angle_x,
                begin_y := W.begin_y - Int.ofNat k * context.angle_y,
                begin_z := W.begin_z - Int.ofNat k * context.angle_z,
                end_n := W.end_n - Int.ofNat k * context.angle_n,
                end_x := W.end_x - Int.ofNat k * context.angle_x,
                end_y := W.end_y - Int.ofNat k * context.angle_y,
                end_z := W.end_z - Int.ofNat k * context.angle_z } g,
            ran := (clipToGroup
              { begin_n := W.begin_n - Int.ofNat k * context.angle_n,
                begin_x := W.begin_x - Int.ofNat k * context.angle_x,
                begin_y := W.begin_y - Int.ofNat k * context.angle_y,
                begin_z := W.begin_z - Int.ofNat k * context.angle_z,
                end_n := W.end_n - Int.ofNat k * context.angle_n,
                end_x := W.end_x - Int.ofNat k * context.angle_x,
                end_y := W.end_y - Int.ofNat k * context.angle_y,
                end_z := W.end_z - Int.ofNat k * context.angle_z } g).nonempty } := by
  refine ⟨_, calc_region_returned context eqGroups start_dt stop_dt set W hbt, ?_, ?_⟩
  · rw [evalsFrom_length, schedule_times, length_flatMap_const _ _ _ (fun _ => List.length_map _ _),
      length_loopRange]
  · intro k t g hk
    rw [evalsFrom_getElem?, schedule_times, hk]
    simp only [Option.map_some', zero_add, evalAt, Box.shiftBy]

/-- Witness of C12: the third `calc_region` call of the run on `waveContext` and
`twoGroups` (two inner time steps, two groups) makes four evaluations; the last one is
the second group at `t = 1` on the window `[4 - 3, 6 - 3)` along `x`. -/
theorem calc_region_order_witness :
    (setAngles Consts.unit (init Consts.unit waveContext twoGroups).state.1).bt = 1 ∧
    (∃ evals, calc_region (setAngles Consts.unit (init Consts.unit waveContext twoGroups).state.1)
        (init Consts.unit waveContext twoGroups).state.2 0 2 [0, 1]
        { begin_n := 0, begin_x := 4, begin_y := 0, begin_z := 0,
          end_n := 1, end_x := 6, end_y := 1, end_z := 1 } = .returned evals ∧
      evals.length = (2 - 0 : Int).toNat *
        ((init Consts.unit waveContext twoGroups).state.2.filter
          (fun g => decide (g.addr ∈ [0, 1]))).length) ∧
    waveEvals.length = 4 ∧
    (waveEvals.map (fun ev => (ev.rt, ev.eg, ev.window.begin_x, ev.window.end_x, ev.ran))) =
      [(0, 0, 4, 6, false), (0, 1, 3, 5, true), (1, 0, 2, 4, false), (1, 1, 1, 3, true)] :=
  ⟨by decide,
    (calc_region_order (setAngles Consts.unit (init Consts.unit waveContext twoGroups).state.1)
      (init Consts.unit waveContext twoGroups).state.2 0 2 [0, 1]
      { begin_n := 0, begin_x := 4, begin_y := 0, begin_z := 0,
        end_n := 1, end_x := 6, end_y := 1, end_z := 1 } (by decide)).imp
      (fun _ h => ⟨h.1, h.2.1⟩),
    by decide, by decide⟩


/-! ## Re-running the bounding-box code -/

theorem find_bounding_box_valid (K : Consts) (context : StencilContext)
    (eg eg2 : EqGroupBase) (h : find_bounding_box K context eg = .returned eg2) :
    eg2.bb_valid = true := by
  by_cases hv : eg.bb_valid = true
  · unfold find_bounding_box at h
    rw [if_pos hv] at h
    cases h
    exact hv
  · have hf : eg.bb_valid = false := by simpa using hv
    rcases find_bounding_box_cases K context eg hf with ⟨h1, _⟩ | ⟨h1, h2⟩
    · rw [h1] at h
      cases h
    · rw [h1] at h
      cases h
      exact h2.2.2.2.2.2

theorem find_bounding_boxes_valid (K : Consts) (context : StencilContext)
    (eqGroups : List EqGroupBase) (c2 : StencilContext) (egs : List EqGroupBase)
    (h : find_bounding_boxes K context eqGroups = .returned (c2, egs)) :
    c2.bb_valid = true := by
  by_cases hv : context.bb_valid = true
  · unfold find_bounding_boxes at h
    rw [if_pos hv] at h
    cases h
    exact hv
  · have hf : context.bb_valid = false := by simpa using hv
    obtain ⟨c1, _, rfl⟩ := find_bounding_boxes_returned K context eqGroups c2 egs hf h
    exact (bbFinish_fields c1).2.2.2.2

/-- **C19.** Bounding-box idempotence.  After a call of `find_bounding_box` that returned
(normally) the group `eg2`, a second call, whatever the context is then, returns and
leaves the group as it is: `begin_bb*`, `end_bb*`, `len_bb*` and `bb_size` are unchanged.
After a call of `find_bounding_boxes` that returned the context `c2` and the groups `egs`,
a second call returns and leaves the context (its box and its region sizes) and the
groups as they are. -/
theorem find_bounding_box_idempotent (K : Consts) :
    (∀ (context context2 : StencilContext) (eg eg2 : EqGroupBase),
      find_bounding_box K context eg = .returned eg2 →
        find_bounding_box K context2 eg2 = .returned eg2 ∧
        (find_bounding_box K context2 eg2).state.begin_bbn = eg2.begin_bbn ∧
        (find_bounding_box K context2 eg2).state.end_bbn = eg2.end_bbn ∧
        (find_bounding_box K context2 eg2).state.len_bbn = eg2.len_bbn ∧
        (find_bounding_box K context2 eg2).state.begin_bbx = eg2.begin_bbx ∧
        (find_bounding_box K context2 eg2).state.end_bbx = eg2.end_bbx ∧
        (find_bounding_box K context2 eg2).state.len_bbx = eg2.len_bbx ∧
        (find_bounding_box K context2 eg2).state.begin_bby = eg2.begin_bby ∧
        (find_bounding_box K context2 eg2).state.end_bby = eg2.end_bby ∧
        (find_bounding_box K context2 eg2).state.len_bby = eg2.len_bby ∧
        (find_bounding_box K context2 eg2).state.begin_bbz = eg2.begin_bbz ∧
        (find_bounding_box K context2 eg2).state.end_bbz = eg2.end_bbz ∧
        (find_bounding_box K context2 eg2).state.len_bbz = eg2.len_bbz ∧
        (find_bounding_box K context2 eg2).state.bb_size = eg2.bb_size) ∧
    (∀ (context c2 : StencilContext) (eqGroups egs : List EqGroupBase),
      find_bounding_boxes K context eqGroups = .returned (c2, egs) →
        find_bounding_boxes K c2 egs = .returned (c2, egs)) := by
  constructor
  · intro context context2 eg eg2 h
    have hv := find_bounding_box_valid K context eg eg2 h
    have h2 : find_bounding_box K context2 eg2 = .returned eg2 := by
      unfold find_bounding_box
      rw [if_pos hv]
    rw [h2]
    exact ⟨rfl, rfl, rfl, rfl, rfl, rfl, rfl, rfl, rfl, rfl, rfl, rfl, rfl, rfl⟩
  · intro context c2 eqGroups egs h
    have hv := find_bounding_boxes_valid K context eqGroups c2 egs h
    unfold find_bounding_boxes
    rw [if_pos hv]

/-- Witness of C19: the two groups of `twoGroups` on a rank with `dx = 4`. -/
theorem find_bounding_box_idempotent_witness :
    find_bounding_boxes Consts.unit (StencilContext.ofSizes 1 4 1 1) twoGroups =
      .returned ((find_bounding_boxes Consts.unit (StencilContext.ofSizes 1 4 1 1)
          twoGroups).state.1,
        (find_bounding_boxes Consts.unit (StencilContext.ofSizes 1 4 1 1) twoGroups).state.2) ∧
    find_bounding_boxes Consts.unit
      (find_bounding_boxes Consts.unit (StencilContext.ofSizes 1 4 1 1) twoGroups).state.1
      (find_bounding_boxes Consts.unit (StencilContext.ofSizes 1 4 1 1) twoGroups).state.2 =
      .returned ((find_bounding_boxes Consts.unit (StencilContext.ofSizes 1 4 1 1)
          twoGroups).state.1,
        (find_bounding_boxes Consts.unit (StencilContext.ofSizes 1 4 1 1) twoGroups).state.2) :=
  ⟨rfl,
    (find_bounding_box_idempotent Consts.unit).2 (StencilContext.ofSizes 1 4 1 1) _ twoGroups _
      rfl⟩

theorem foldl_bbUnion_sizes (l : List EqGroupBase) (c : StencilContext) :
    ((l.foldl bbUnion c).rn = c.rn ∧ (l.foldl bbUnion c).rx = c.rx ∧
      (l.foldl bbUnion c).ry = c.ry ∧ (l.foldl bbUnion c).rz = c.rz) ∧
    ((l.foldl bbUnion c).dn = c.dn ∧ (l.foldl bbUnion c).dx = c.dx ∧
      (l.foldl bbUnion c).dy = c.dy ∧ (l.foldl bbUnion c).dz = c.dz) := by
  induction l generalizing c with
  | nil => exact ⟨⟨rfl, rfl, rfl, rfl⟩, ⟨rfl, rfl, rfl, rfl⟩⟩
  | cons g l ih =>
    rw [List.foldl_cons]
    exact ih (bbUnion c g)

theorem bbFinish_sizes (c1 : StencilContext) :
    ((bbFinish c1).rn = (if c1.rn = c1.dn then (bbFinish c1).len_bbn else c1.rn) ∧
      (bbFinish c1).rx = (if c1.rx = c1.dx then (bbFinish c1).len_bbx else c1.rx) ∧
      (bbFinish c1).ry = (if c1.ry = c1.dy then (bbFinish c1).len_bby else c1.ry) ∧
      (bbFinish c1).rz = (if c1.rz = c1.dz then (bbFinish c1).len_bbz else c1.rz)) ∧
    ((bbFinish c1).dn = c1.dn ∧ (bbFinish c1).dx = c1.dx ∧
      (bbFinish c1).dy = c1.dy ∧ (bbFinish c1).dz = c1.dz) := by
  unfold bbFinish
  simp only
  by_cases hn : c1.rn = c1.dn <;> by_cases hx : c1.rx = c1.dx <;>
    by_cases hy : c1.ry = c1.dy <;> by_cases hz : c1.rz = c1.dz <;>
    simp [hn, hx, hy, hz]

/-- **C20.** On its first run (the box of the context is not valid yet), when
`find_bounding_boxes` returns, each region size `r_d` that was equal to the rank size
`d_d` is now the length `len_bbd` of the rank bounding box, every region size that was
different from its rank size is unchanged, and the rank sizes are unchanged. -/
theorem find_bounding_boxes_region_sizes (K : Consts) (context : StencilContext)
    (eqGroups : List EqGroupBase) (c2 : StencilContext) (egs : List EqGroupBase)
    (hfresh : context.bb_valid = false)
    (hret : find_bounding_boxes K context eqGroups = .returned (c2, egs)) :
    (c2.rn = (if context.rn = context.dn then c2.len_bbn else context.rn) ∧
      c2.rx = (if context.rx = context.dx then c2.len_bbx else context.rx) ∧
      c2.ry = (if context.ry = context.dy then c2.len_bby else context.ry) ∧
      c2.rz = (if context.rz = context.dz then c2.len_bbz else context.rz)) ∧
    (c2.dn = context.dn ∧ c2.dx = context.dx ∧ c2.dy = context.dy ∧ c2.dz = context.dz) := by
  obtain ⟨c1, hloop, rfl⟩ := find_bounding_boxes_returned K context eqGroups c2 egs hfresh hret
  obtain ⟨new, _, hc1, _⟩ := find_bounding_boxes_loop_returned K eqGroups _ _ _ _ hloop
  obtain ⟨⟨r1, r2, r3, r4⟩, ⟨d1, d2, d3, d4⟩⟩ := foldl_bbUnion_sizes new (bbInit context)
  rw [← hc1] at r1 r2 r3 r4 d1 d2 d3 d4
  obtain ⟨⟨f1, f2, f3, f4⟩, ⟨g1, g2, g3, g4⟩⟩ := bbFinish_sizes c1
  have e1 : (bbInit context).rn = context.rn := rfl
  have e2 : (bbInit context).rx = context.rx := rfl
  have e3 : (bbInit context).ry = context.ry := rfl
  have e4 : (bbInit context).rz = context.rz := rfl
  have e5 : (bbInit context).dn = context.dn := rfl
  have e6 : (bbInit context).dx = context.dx := rfl
  have e7 : (bbInit context).dy = context.dy := rfl
  have e8 : (bbInit context).dz = context.dz := rfl
  rw [r1, d1, e1, e5] at f1
  rw [r2, d2, e2, e6] at f2
  rw [r3, d3, e3, e7] at f3
  rw [r4, d4, e4, e8] at f4
  exact ⟨⟨f1, f2, f3, f4⟩,
    ⟨by rw [g1, d1, e5], by rw [g2, d2, e6], by rw [g3, d3, e7], by rw [g4, d4, e8]⟩⟩

/-- Witness of C20: a rank of `1 x 4 x 1 x 1` points with region sizes `(1, 4, 1, 3)` and
one group valid where `x >= 1`: `rx = dx = 4` becomes `len_bbx = 3`, and `rz = 3`, which
differs from `dz = 1`, stays. -/
theorem find_bounding_boxes_region_sizes_witness :
    ((find_bounding_boxes Consts.unit regionContext aboveOne).state.1.rn =
        (if regionContext.rn = regionContext.dn then
          (find_bounding_boxes Consts.unit regionContext aboveOne).state.1.len_bbn
        else regionContext.rn) ∧
      (find_bounding_boxes Consts.unit regionContext aboveOne).state.1.rx =
        (if regionContext.rx = regionContext.dx then
          (find_bounding_boxes Consts.unit regionContext aboveOne).state.1.len_bbx
        else regionContext.rx) ∧
      (find_bounding_boxes Consts.unit regionContext aboveOne).state.1.ry =
        (if regionContext.ry = regionContext.dy then
          (find_bounding_boxes Consts.unit regionContext aboveOne).state.1.len_bby
        else regionContext.ry) ∧
      (find_bounding_boxes Consts.unit regionContext aboveOne).state.1.rz =
        (if regionContext.rz = regionContext.dz then
          (find_bounding_boxes Consts.unit regionContext aboveOne).state.1.len_bbz
        else regionContext.rz)) ∧
    (find_bounding_boxes Consts.unit regionContext aboveOne).state.1.rx = 3 ∧
    (find_bounding_boxes Consts.unit regionContext aboveOne).state.1.rz = 3 :=
  ⟨(find_bounding_boxes_region_sizes Consts.unit regionContext aboveOne _ _ rfl rfl).1,
    by decide, by decide⟩


/-! ## Windows of the halo exchange -/

theorem vec_in_window {V q r v e : Int} (hV : 0 < V) (h1 : q ≤ v) (h2 : v < r)
    (h3 : v * V ≤ e) (h4 : e < (v + 1) * V) : V * q ≤ e ∧ e < V * r := by
  have a1 : V * q ≤ V * v := Int.mul_le_mul_of_nonneg_left h1 (le_of_lt hV)
  have a2 : V * (v + 1) ≤ V * r := Int.mul_le_mul_of_nonneg_left (by omega) (le_of_lt hV)
  constructor
  · linarith
  · linarith

/-- The elements covered by the vectors of the halo loops over an element window that
begins and ends at multiples of the vector lengths are the elements of the window. -/
theorem mem_halo_elements (K : Consts) (W : Box)
    (hV : 0 < K.VLEN_N ∧ 0 < K.VLEN_X ∧ 0 < K.VLEN_Y ∧ 0 < K.VLEN_Z)
    (hb : K.VLEN_N ∣ W.begin_n ∧ K.VLEN_X ∣ W.begin_x ∧ K.VLEN_Y ∣ W.begin_y ∧
      K.VLEN_Z ∣ W.begin_z)
    (he : K.VLEN_N ∣ W.end_n ∧ K.VLEN_X ∣ W.end_x ∧ K.VLEN_Y ∣ W.end_y ∧ K.VLEN_Z ∣ W.end_z)
    (e : Pt) :
    e ∈ (haloPairs K W).flatMap (fun pr => (vecBox K pr.2).points) ↔ W.contains e := by
  simp only [List.mem_flatMap, Box.mem_points]
  constructor
  · rintro ⟨pr, hpr, hc⟩
    obtain ⟨⟨⟨n1, n2⟩, ⟨x1, x2⟩, ⟨y1, y2⟩, ⟨z1, z2⟩⟩, _⟩ := mem_haloPairs.mp hpr
    obtain ⟨⟨a1, a2⟩, ⟨b1, b2⟩, ⟨c1, c2⟩, ⟨d1, d2⟩⟩ := hc
    simp only [vecWindow, vecBox] at n1 n2 x1 x2 y1 y2 z1 z2 a1 a2 b1 b2 c1 c2 d1 d2
    obtain ⟨qn, hqn⟩ := hb.1
    obtain ⟨qx, hqx⟩ := hb.2.1
    obtain ⟨qy, hqy⟩ := hb.2.2.1
    obtain ⟨qz, hqz⟩ := hb.2.2.2
    obtain ⟨rn, hrn⟩ := he.1
    obtain ⟨rx, hrx⟩ := he.2.1
    obtain ⟨ry, hry⟩ := he.2.2.1
    obtain ⟨rz, hrz⟩ := he.2.2.2
    rw [hqn, Int.mul_tdiv_cancel_left _ (ne_of_gt hV.1)] at n1
    rw [hrn, Int.mul_tdiv_cancel_left _ (ne_of_gt hV.1)] at n2
    rw [hqx, Int.mul_tdiv_cancel_left _ (ne_of_gt hV.2.1)] at x1
    rw [hrx, Int.mul_tdiv_cancel_left _ (ne_of_gt hV.2.1)] at x2
    rw [hqy, Int.mul_tdiv_cancel_left _ (ne_of_gt hV.2.2.1)] at y1
    rw [hry, Int.mul_tdiv_cancel_left _ (ne_of_gt hV.2.2.1)] at y2
    rw [hqz, Int.mul_tdiv_cancel_left _ (ne_of_gt hV.2.2.2)] at z1
    rw [hrz, Int.mul_tdiv_cancel_left _ (ne_of_gt hV.2.2.2)] at z2
    unfold Box.contains
    rw [hqn, hqx, hqy, hqz, hrn, hrx, hry, hrz]
    exact ⟨vec_in_window hV.1 n1 n2 a1 a2, vec_in_window hV.2.1 x1 x2 b1 b2,
      vec_in_window hV.2.2.1 y1 y2 c1 c2, vec_in_window hV.2.2.2 z1 z2 d1 d2⟩
  · rintro ⟨⟨n1, n2⟩, ⟨x1, x2⟩, ⟨y1, y2⟩, ⟨z1, z2⟩⟩
    obtain ⟨⟨an, bn⟩, ⟨cn, dn⟩, _⟩ := vec_index hV.1 hb.1 he.1 n1 n2
    obtain ⟨⟨ax, bx⟩, ⟨cx, dx⟩, _⟩ := vec_index hV.2.1 hb.2.1 he.2.1 x1 x2
    obtain ⟨⟨ay, by2⟩, ⟨cy, dy⟩, _⟩ := vec_index hV.2.2.1 hb.2.2.1 he.2.2.1 y1 y2
    obtain ⟨⟨az, bz⟩, ⟨cz, dz⟩, _⟩ := vec_index hV.2.2.2 hb.2.2.2 he.2.2.2 z1 z2
    refine ⟨(⟨e.n / K.VLEN_N - (vecWindow K W).begin_n,
        e.x / K.VLEN_X - (vecWindow K W).begin_x,
        e.y / K.VLEN_Y - (vecWindow K W).begin_y,
        e.z / K.VLEN_Z - (vecWindow K W).begin_z⟩,
      ⟨e.n / K.VLEN_N, e.x / K.VLEN_X, e.y / K.VLEN_Y, e.z / K.VLEN_Z⟩), ?_, ?_⟩
    · rw [mem_haloPairs]
      exact ⟨⟨⟨an, bn⟩, ⟨ax, bx⟩, ⟨ay, by2⟩, ⟨az, bz⟩⟩, rfl⟩
    · exact ⟨⟨cn, dn⟩, ⟨cx, dx⟩, ⟨cy, dy⟩, ⟨cz, dz⟩⟩

theorem haloPairs_vectors (K : Consts) (W : Box) (v : Pt) :
    (∃ b, (b, v) ∈ haloPairs K W) ↔ (vecWindow K W).contains v := by
  constructor
  · rintro ⟨b, hb⟩
    exact (mem_haloPairs.mp hb).1
  · intro hv
    exact ⟨⟨v.n - (vecWindow K W).begin_n, v.x - (vecWindow K W).begin_x,
      v.y - (vecWindow K W).begin_y, v.z - (vecWindow K W).begin_z⟩,
      mem_haloPairs.mpr ⟨hv, rfl⟩⟩

/-! ## Rank topology and MPI buffers -/

theorem toInt_eq {v : Int} (h0 : 0 ≤ v) (h1 : v < 2147483648) : toInt v = v := by
  unfold toInt
  omega

theorem manhattan_nonneg (D : Pt) : 0 ≤ manhattan D := by
  simp only [manhattan, abs_eq_max_neg]
  omega

theorem manhattan_eq_zero {D : Pt} : manhattan D = 0 ↔ D = ⟨0, 0, 0, 0⟩ := by
  obtain ⟨a, b, c, d⟩ := D
  simp only [manhattan, abs_eq_max_neg, Pt.mk.injEq]
  omega

theorem manhattan_le_four {D : Pt} (h : |D.n| ≤ 1 ∧ |D.x| ≤ 1 ∧ |D.y| ≤ 1 ∧ |D.z| ≤ 1) :
    manhattan D ≤ 4 := by
  simp only [manhattan, abs_eq_max_neg] at h ⊢
  omega

theorem offsetFrom_self (own : Pt) : offsetFrom own own = ⟨0, 0, 0, 0⟩ := by
  simp [offsetFrom]

theorem offsetFrom_inj {own c1 c2 : Pt} (h : offsetFrom own c1 = offsetFrom own c2) :
    c1 = c2 := by
  obtain ⟨a1, b1, c1, d1⟩ := c1
  obtain ⟨a2, b2, c2, d2⟩ := c2
  simp only [offsetFrom, Pt.mk.injEq] at h ⊢
  omega

theorem neighborIndex_inj {D1 D2 : Pt} (h : neighborIndex D1 = neighborIndex D2) :
    D1 = D2 := by
  obtain ⟨a1, b1, c1, d1⟩ := D1
  obtain ⟨a2, b2, c2, d2⟩ := D2
  simp only [neighborIndex, Pt.mk.injEq] at h ⊢
  omega

theorem loopRange_nBufDirs : loopRange 0 nBufDirs = [0, 1] := by decide

/-- The buffers after the allocation loops for one neighbor. -/
theorem allocBufs_apply (gs : List Nat) (a b c d rsn rsx rsy rsz : Int) :
    ∀ (bufs : Nat → Int → Pt → Option BufDims) (g : Nat) (bd : Int) (idx : Pt),
      allocBufs gs bufs a b c d rsn rsx rsy rsz g bd idx =
        if g ∈ gs ∧ (0 ≤ bd ∧ bd < 2) ∧ idx = ⟨a, b, c, d⟩ then some ⟨rsn, rsx, rsy, rsz⟩
        else bufs g bd idx := by
  induction gs with
  | nil =>
    intro bufs g bd idx
    simp [allocBufs]
  | cons g0 gs ih =>
    intro bufs g bd idx
    have hstep : allocBufs (g0 :: gs) bufs a b c d rsn rsx rsy rsz =
        allocBufs gs (Function.update (Function.update bufs g0
            (allocBuf (bufs g0) 0 a b c d rsn rsx rsy rsz)) g0
          (allocBuf (Function.update bufs g0 (allocBuf (bufs g0) 0 a b c d rsn rsx rsy rsz) g0)
            1 a b c d rsn rsx rsy rsz)) a b c d rsn rsx rsy rsz := by
      simp only [allocBufs, List.foldl_cons, loopRange_nBufDirs, List.foldl_nil]
    rw [hstep, ih]
    by_cases hg : g = g0
    · subst hg
      simp only [List.mem_cons, true_or, true_and, Function.update_same, allocBuf]
      by_cases hi : idx = ⟨a, b, c, d⟩
      · by_cases h0 : bd = 0
        · simp [hi, h0]
        · by_cases h1 : bd = 1
          · simp [hi, h1]
          · have : ¬ (0 ≤ bd ∧ bd < 2) := by omega
            simp [this, h0, h1]
      · simp [hi]
    · simp only [List.mem_cons, hg, false_or, Function.update_noteq hg, ne_eq,
        not_false_eq_true]

theorem setupMPI_rank_self (MAX_EXCH_DIST : Int) (context : StencilContext)
    (gs : List Nat) (coords : Int → Pt) (st : MPIVars × Int) (r : Int)
    (hr : r = st.1.my_rank) (hc : coords r = st.1.own) :
    setupMPI_rank MAX_EXCH_DIST context gs coords st r = .returned st := by
  have h0 : toInt (|(coords r).n - st.1.rin| + |(coords r).x - st.1.rix| +
      |(coords r).y - st.1.riy| + |(coords r).z - st.1.riz|) = 0 := by
    rw [hc]
    simp [MPIVars.own, toInt]
  simp only [setupMPI_rank, hr, if_true]
  rw [hr] at h0
  simp only [h0, ne_eq, not_true_eq_false, if_false]

theorem setupMPI_rank_other (MAX_EXCH_DIST : Int) (context : StencilContext)
    (gs : List Nat) (coords : Int → Pt) (st : MPIVars × Int) (r : Int)
    (hr : r ≠ st.1.my_rank)
    (hD : manhattan (offsetFrom st.1.own (coords r)) ≠ 0)
    (hint : manhattan (offsetFrom st.1.own (coords r)) < 2147483648) :
    ∃ k, setupMPI_rank MAX_EXCH_DIST context gs coords st r =
      .returned (partnerStep MAX_EXCH_DIST context gs coords st.1.own st.1.my_rank st.1 r, k) := by
  have e : |(coords r).n - st.1.rin| + |(coords r).x - st.1.rix| +
      |(coords r).y - st.1.riy| + |(coords r).z - st.1.riz| =
      manhattan (offsetFrom st.1.own (coords r)) := by
    simp only [manhattan, offsetFrom, MPIVars.own]
  have hm : toInt (manhattan (offsetFrom st.1.own (coords r))) =
      manhattan (offsetFrom st.1.own (coords r)) :=
    toInt_eq (manhattan_nonneg _) hint
  simp only [setupMPI_rank, if_neg hr, e, hm, if_neg hD]
  by_cases h1 : |(coords r).n - st.1.rin| > 1 ∨ |(coords r).x - st.1.rix| > 1 ∨
      |(coords r).y - st.1.riy| > 1 ∨ |(coords r).z - st.1.riz| > 1
  · have hnp : ¬ (r ≠ st.1.my_rank ∧
        IsPartner MAX_EXCH_DIST context (offsetFrom st.1.own (coords r))) := by
      rintro ⟨_, ⟨a, b, c, d⟩, _⟩
      simp only [offsetFrom, MPIVars.own] at a b c d
      rcases h1 with h | h | h | h <;> omega
    rw [if_pos h1, partnerStep, if_neg hnp]
    exact ⟨st.2, rfl⟩
  · rw [if_neg h1]
    push_neg at h1
    by_cases h2 : manhattan (offsetFrom st.1.own (coords r)) > MAX_EXCH_DIST
    · have hnp : ¬ (r ≠ st.1.my_rank ∧
          IsPartner MAX_EXCH_DIST context (offsetFrom st.1.own (coords r))) := by
        rintro ⟨_, _, a, _⟩
        omega
      rw [if_pos h2, partnerStep, if_neg hnp]
      exact ⟨st.2, rfl⟩
    · rw [if_neg h2]
      by_cases h3 : (if (coords r).n - st.1.rin = 0 then context.dn else context.hn) *
          (if (coords r).x - st.1.rix = 0 then context.dx else context.hx) *
          (if (coords r).y - st.1.riy = 0 then context.dy else context.hy) *
          (if (coords r).z - st.1.riz = 0 then context.dz else context.hz) = 0
      · have hnp : ¬ (r ≠ st.1.my_rank ∧
            IsPartner MAX_EXCH_DIST context (offsetFrom st.1.own (coords r))) := by
          rintro ⟨_, _, _, a⟩
          exact a h3
        rw [if_pos h3, partnerStep, if_neg hnp]
        exact ⟨st.2 + 1, rfl⟩
      · have hp : r ≠ st.1.my_rank ∧
            IsPartner MAX_EXCH_DIST context (offsetFrom st.1.own (coords r)) :=
          ⟨hr, h1, by omega, h3⟩
        rw [if_neg h3, partnerStep, if_pos hp]
        exact ⟨st.2 + 1, rfl⟩

theorem partnerStep_frame (MAX_EXCH_DIST : Int) (context : StencilContext) (gs : List Nat)
    (coords : Int → Pt) (own : Pt) (me : Int) (m : MPIVars) (r : Int) :
    (partnerStep MAX_EXCH_DIST context gs coords own me m r).own = m.own ∧
    (partnerStep MAX_EXCH_DIST context gs coords own me m r).my_rank = m.my_rank ∧
    (partnerStep MAX_EXCH_DIST context gs coords own me m r).num_ranks = m.num_ranks := by
  unfold partnerStep
  split_ifs
  · exact ⟨rfl, rfl, rfl⟩
  · exact ⟨rfl, rfl, rfl⟩

theorem partnerStep_apply (MAX_EXCH_DIST : Int) (context : StencilContext) (gs : List Nat)
    (coords : Int → Pt) (own : Pt) (me : Int) (m : MPIVars) (r : Int) :
    (∀ idx, (partnerStep MAX_EXCH_DIST context gs coords own me m r).my_neighbors idx =
      if (r ≠ me ∧ IsPartner MAX_EXCH_DIST context (offsetFrom own (coords r))) ∧
          idx = neighborIndex (offsetFrom own (coords r)) then r
      else m.my_neighbors idx) ∧
    (∀ g bd idx, (partnerStep MAX_EXCH_DIST context gs coords own me m r).mpiBufs g bd idx =
      if (r ≠ me ∧ IsPartner MAX_EXCH_DIST context (offsetFrom own (coords r))) ∧
          g ∈ gs ∧ (0 ≤ bd ∧ bd < 2) ∧ idx = neighborIndex (offsetFrom own (coords r)) then
        some (slabDims context (offsetFrom own (coords r)))
      else m.mpiBufs g bd idx) := by
  unfold partnerStep
  by_cases hp : r ≠ me ∧ IsPartner MAX_EXCH_DIST context (offsetFrom own (coords r))
  · rw [if_pos hp]
    constructor
    · intro idx
      simp only [recordPartner, Function.update_apply, hp, true_and, ne_eq, not_false_eq_true,
        and_self]
    · intro g bd idx
      simp only [recordPartner, allocBufs_apply, hp, true_and, ne_eq, not_false_eq_true,
        and_self, neighborIndex]
  · rw [if_neg hp]
    constructor
    · intro idx
      rw [if_neg (fun h => hp h.1)]
    · intro g bd idx
      rw [if_neg (fun h => hp h.1)]

theorem forEach_partnerStep (MAX_EXCH_DIST : Int) (context : StencilContext)
    (gs : List Nat) (coords : Int → Pt) (L : List Int) :
    ∀ st : MPIVars × Int,
      (∀ r ∈ L, (r = st.1.my_rank ∧ coords r = st.1.own) ∨
        (r ≠ st.1.my_rank ∧ manhattan (offsetFrom st.1.own (coords r)) ≠ 0 ∧
          manhattan (offsetFrom st.1.own (coords r)) < 2147483648)) →
      ∃ k, forEach (setupMPI_rank MAX_EXCH_DIST context gs coords) st L =
        .returned (L.foldl (partnerStep MAX_EXCH_DIST context gs coords st.1.own st.1.my_rank)
          st.1, k) := by
  induction L with
  | nil =>
    intro st _
    exact ⟨st.2, rfl⟩
  | cons r L ih =>
    intro st h
    have hstep : ∃ k, setupMPI_rank MAX_EXCH_DIST context gs coords st r =
        .returned (partnerStep MAX_EXCH_DIST context gs coords st.1.own st.1.my_rank st.1 r,
          k) := by
      rcases h r (List.mem_cons_self _ _) with ⟨h1, h2⟩ | ⟨h1, h2, h3⟩
      · refine ⟨st.2, ?_⟩
        rw [setupMPI_rank_self MAX_EXCH_DIST context gs coords st r h1 h2, partnerStep,
          if_neg (fun hh => hh.1 h1)]
      · exact setupMPI_rank_other MAX_EXCH_DIST context gs coords st r h1 h2 h3
    obtain ⟨k, hk⟩ := hstep
    obtain ⟨f1, f2, _⟩ := partnerStep_frame MAX_EXCH_DIST context gs coords st.1.own
      st.1.my_rank st.1 r
    obtain ⟨k2, hk2⟩ := ih
      (partnerStep MAX_EXCH_DIST context gs coords st.1.own st.1.my_rank st.1 r, k)
      (by
        intro r2 hr2
        simp only [f1, f2]
        exact h r2 (List.mem_cons_of_mem _ hr2))
    refine ⟨k2, ?_⟩
    simp only [forEach, hk]
    rw [hk2]
    simp only [f1, f2, List.foldl_cons]

/-- Entries whose index is the index of no partner in the list keep their values. -/
theorem foldl_partnerStep_other (MAX_EXCH_DIST : Int) (context : StencilContext)
    (gs : List Nat) (coords : Int → Pt) (own : Pt) (me : Int) (L : List Int) (idx : Pt)
    (h : ∀ r ∈ L, r ≠ me → IsPartner MAX_EXCH_DIST context (offsetFrom own (coords r)) →
      neighborIndex (offsetFrom own (coords r)) ≠ idx) :
    ∀ m : MPIVars,
      (L.foldl (partnerStep MAX_EXCH_DIST context gs coords own me) m).my_neighbors idx =
        m.my_neighbors idx ∧
      ∀ g bd, (L.foldl (partnerStep MAX_EXCH_DIST context gs coords own me) m).mpiBufs g bd idx =
        m.mpiBufs g bd idx := by
  induction L with
  | nil =>
    intro m
    exact ⟨rfl, fun _ _ => rfl⟩
  | cons r L ih =>
    intro m
    rw [List.foldl_cons]
    obtain ⟨i1, i2⟩ := ih (fun r2 hr2 => h r2 (List.mem_cons_of_mem _ hr2))
      (partnerStep MAX_EXCH_DIST context gs coords own me m r)
    obtain ⟨a1, a2⟩ := partnerStep_apply MAX_EXCH_DIST context gs coords own me m r
    have hn : ¬ ((r ≠ me ∧ IsPartner MAX_EXCH_DIST context (offsetFrom own (coords r))) ∧
        idx = neighborIndex (offsetFrom own (coords r))) := by
      rintro ⟨⟨h1, h2⟩, h3⟩
      exact h r (List.mem_cons_self _ _) h1 h2 h3.symm
    constructor
    · rw [i1, a1, if_neg hn]
    · intro g bd
      rw [i2, a2, if_neg (fun hh => hn ⟨hh.1, hh.2.2.2⟩)]

/-- Buffers of grids that are not updated, or in a direction that is neither send nor
receive, keep their values. -/
theorem foldl_partnerStep_grid (MAX_EXCH_DIST : Int) (context : StencilContext)
    (gs : List Nat) (coords : Int → Pt) (own : Pt) (me : Int) (L : List Int) (g : Nat)
    (bd : Int) (h : g ∉ gs ∨ ¬ (0 ≤ bd ∧ bd < 2)) :
    ∀ (m : MPIVars) (idx : Pt),
      (L.foldl (partnerStep MAX_EXCH_DIST context gs coords own me) m).mpiBufs g bd idx =
        m.mpiBufs g bd idx := by
  induction L with
  | nil =>
    intro m idx
    rfl
  | cons r L ih =>
    intro m idx
    rw [List.foldl_cons, ih, (partnerStep_apply MAX_EXCH_DIST context gs coords own me m r).2,
      if_neg]
    rintro ⟨_, h1, h2, _⟩
    rcases h with h | h
    · exact h h1
    · exact h h2

/-- A partner of the list that is the only one at its index is recorded at that index,
with send and receive buffers of the slab sizes for every updated grid. -/
theorem foldl_partnerStep_partner (MAX_EXCH_DIST : Int) (context : StencilContext)
    (gs : List Nat) (coords : Int → Pt) (own : Pt) (me : Int) (L : List Int) (r : Int)
    (hr : r ∈ L) (hne : r ≠ me)
    (hp : IsPartner MAX_EXCH_DIST context (offsetFrom own (coords r)))
    (huniq : ∀ r2 ∈ L, r2 ≠ me → IsPartner MAX_EXCH_DIST context (offsetFrom own (coords r2)) →
      neighborIndex (offsetFrom own (coords r2)) = neighborIndex (offsetFrom own (coords r)) →
      r2 = r) :
    ∀ m : MPIVars,
      (L.foldl (partnerStep MAX_EXCH_DIST context gs coords own me) m).my_neighbors
        (neighborIndex (offsetFrom own (coords r))) = r ∧
      ∀ g ∈ gs, ∀ bd : Int, (0 ≤ bd ∧ bd < 2) →
        (L.foldl (partnerStep MAX_EXCH_DIST context gs coords own me) m).mpiBufs g bd
          (neighborIndex (offsetFrom own (coords r))) =
          some (slabDims context (offsetFrom own (coords r))) := by
  induction L with
  | nil => simp at hr
  | cons r0 L ih =>
    intro m
    rw [List.foldl_cons]
    by_cases hin : r ∈ L
    · exact ih hin (fun r2 hr2 => huniq r2 (List.mem_cons_of_mem _ hr2))
        (partnerStep MAX_EXCH_DIST context gs coords own me m r0)
    · have hr0 : r = r0 := by
        rcases List.mem_cons.mp hr with h | h
        · exact h
        · exact absurd h hin
      subst hr0
      obtain ⟨i1, i2⟩ := foldl_partnerStep_other MAX_EXCH_DIST context gs coords own me L
        (neighborIndex (offsetFrom own (coords r)))
        (by
          intro r2 hr2 h1 h2 h3
          have := huniq r2 (List.mem_cons_of_mem _ hr2) h1 h2 h3
          exact hin (this ▸ hr2))
        (partnerStep MAX_EXCH_DIST context gs coords own me m r)
      obtain ⟨a1, a2⟩ := partnerStep_apply MAX_EXCH_DIST context gs coords own me m r
      constructor
      · rw [i1, a1, if_pos ⟨⟨hne, hp⟩, rfl⟩]
      · intro g hg bd hbd
        rw [i2, a2, if_pos ⟨⟨hne, hp⟩, hg, hbd, rfl⟩]

theorem coordTable_me (m : MPIVars) (others : Int → Pt) :
    coordTable m others m.my_rank = m.own := by
  simp [coordTable, MPIVars.own]

/-- On a table of pairwise distinct coordinates `setupMPI_ranks` returns; every partner is
recorded at its index with buffers of the slab sizes; every other entry of the tables
keeps its value. -/
theorem setupMPI_ranks_tables (MAX_EXCH_DIST : Int) (context : StencilContext)
    (gs : List Nat) (others : Int → Pt) (m : MPIVars) (T : RankTable m others) :
    ∃ s, setupMPI_ranks MAX_EXCH_DIST context gs others m = .returned s ∧
      (∀ r : Int, (0 ≤ r ∧ r < m.num_ranks) → r ≠ m.my_rank →
        IsPartner MAX_EXCH_DIST context (offsetFrom m.own (coordTable m others r)) →
        s.my_neighbors (neighborIndex (offsetFrom m.own (coordTable m others r))) = r ∧
        ∀ g ∈ gs, ∀ bd : Int, (0 ≤ bd ∧ bd < 2) →
          s.mpiBufs g bd (neighborIndex (offsetFrom m.own (coordTable m others r))) =
            some (slabDims context (offsetFrom m.own (coordTable m others r)))) ∧
      (∀ idx : Pt,
        (∀ r : Int, (0 ≤ r ∧ r < m.num_ranks) → r ≠ m.my_rank →
          IsPartner MAX_EXCH_DIST context (offsetFrom m.own (coordTable m others r)) →
          neighborIndex (offsetFrom m.own (coordTable m others r)) ≠ idx) →
        s.my_neighbors idx = m.my_neighbors idx ∧
        ∀ g bd, s.mpiBufs g bd idx = m.mpiBufs g bd idx) ∧
      (∀ g bd, (g ∉ gs ∨ ¬ (0 ≤ bd ∧ bd < 2)) →
        ∀ idx, s.mpiBufs g bd idx = m.mpiBufs g bd idx) := by
  have hgood : ∀ r ∈ loopRange 0 m.num_ranks,
      (r = m.my_rank ∧ coordTable m others r = m.own) ∨
      (r ≠ m.my_rank ∧ manhattan (offsetFrom m.own (coordTable m others r)) ≠ 0 ∧
        manhattan (offsetFrom m.own (coordTable m others r)) < 2147483648) := by
    intro r hr
    have hr2 := mem_loopRange.mp hr
    by_cases h : r = m.my_rank
    · left
      exact ⟨h, by rw [h, coordTable_me]⟩
    · right
      refine ⟨h, ?_, T.int_dist r hr2⟩
      intro h0
      rw [manhattan_eq_zero, ← offsetFrom_self m.own] at h0
      have h1 := offsetFrom_inj h0
      rw [← coordTable_me m others] at h1
      exact h (T.distinct r m.my_rank hr2 T.me h1)
  obtain ⟨k, hk⟩ := forEach_partnerStep MAX_EXCH_DIST context gs (coordTable m others)
    (loopRange 0 m.num_ranks) (m, 0) hgood
  have hret : setupMPI_ranks MAX_EXCH_DIST context gs others m =
      .returned ((loopRange 0 m.num_ranks).foldl
        (partnerStep MAX_EXCH_DIST context gs (coordTable m others) m.own m.my_rank) m) := by
    simp only [setupMPI_ranks, hk]
  refine ⟨_, hret, ?_, ?_, ?_⟩
  · intro r hr hne hp
    exact foldl_partnerStep_partner MAX_EXCH_DIST context gs (coordTable m others) m.own
      m.my_rank (loopRange 0 m.num_ranks) r (mem_loopRange.mpr hr) hne hp
      (by
        intro r2 hr2 _ _ h3
        exact T.distinct r2 r (mem_loopRange.mp hr2) hr
          (offsetFrom_inj (neighborIndex_inj h3))) m
  · intro idx h
    exact foldl_partnerStep_other MAX_EXCH_DIST context gs (coordTable m others) m.own
      m.my_rank (loopRange 0 m.num_ranks) idx
      (fun r hr => h r (mem_loopRange.mp hr)) m
  · intro g bd h idx
    exact foldl_partnerStep_grid MAX_EXCH_DIST context gs (coordTable m others) m.own
      m.my_rank (loopRange 0 m.num_ranks) g bd h m idx

/-- One iteration of the loop of `setupMPI` either ends the process with status 1, leaving
the context as it is, or returns a context with the same position and rank in which the
entries of the tables at the index `(1,1,1,1)` of the offset zero are untouched. -/
theorem setupMPI_rank_cases (MAX_EXCH_DIST : Int) (context : StencilContext)
    (gs : List Nat) (coords : Int → Pt) (st : MPIVars × Int) (r : Int) :
    setupMPI_rank MAX_EXCH_DIST context gs coords st r = .exited 1 st ∨
    ∃ st2, setupMPI_rank MAX_EXCH_DIST context gs coords st r = .returned st2 ∧
      st2.1.own = st.1.own ∧ st2.1.my_rank = st.1.my_rank ∧
      st2.1.my_neighbors ⟨1, 1, 1, 1⟩ = st.1.my_neighbors ⟨1, 1, 1, 1⟩ ∧
      ∀ g bd, st2.1.mpiBufs g bd ⟨1, 1, 1, 1⟩ = st.1.mpiBufs g bd ⟨1, 1, 1, 1⟩ := by
  have e : |(coords r).n - st.1.rin| + |(coords r).x - st.1.rix| +
      |(coords r).y - st.1.riy| + |(coords r).z - st.1.riz| =
      manhattan (offsetFrom st.1.own (coords r)) := by
    simp only [manhattan, offsetFrom, MPIVars.own]
  simp only [setupMPI_rank, e]
  by_cases h0 : r = st.1.my_rank
  · rw [if_pos h0]
    by_cases h1 : toInt (manhattan (offsetFrom st.1.own (coords r))) ≠ 0
    · rw [if_pos h1]
      exact Or.inl rfl
    · rw [if_neg h1]
      exact Or.inr ⟨st, rfl, rfl, rfl, rfl, fun _ _ => rfl⟩
  · rw [if_neg h0]
    by_cases h1 : toInt (manhattan (offsetFrom st.1.own (coords r))) = 0
    · rw [if_pos h1]
      exact Or.inl rfl
    · rw [if_neg h1]
      by_cases h2 : |(coords r).n - st.1.rin| > 1 ∨ |(coords r).x - st.1.rix| > 1 ∨
          |(coords r).y - st.1.riy| > 1 ∨ |(coords r).z - st.1.riz| > 1
      · rw [if_pos h2]
        exact Or.inr ⟨st, rfl, rfl, rfl, rfl, fun _ _ => rfl⟩
      · rw [if_neg h2]
        by_cases h3 : toInt (manhattan (offsetFrom st.1.own (coords r))) > MAX_EXCH_DIST
        · rw [if_pos h3]
          exact Or.inr ⟨st, rfl, rfl, rfl, rfl, fun _ _ => rfl⟩
        · rw [if_neg h3]
          by_cases h4 : (if (coords r).n - st.1.rin = 0 then context.dn else context.hn) *
              (if (coords r).x - st.1.rix = 0 then context.dx else context.hx) *
              (if (coords r).y - st.1.riy = 0 then context.dy else context.hy) *
              (if (coords r).z - st.1.riz = 0 then context.dz else context.hz) = 0
          · rw [if_pos h4]
            exact Or.inr ⟨_, rfl, rfl, rfl, rfl, fun _ _ => rfl⟩
          · rw [if_neg h4]
            refine Or.inr ⟨_, rfl, rfl, rfl, ?_, ?_⟩
            all_goals
              have hidx : (⟨1, 1, 1, 1⟩ : Pt) ≠ ⟨(coords r).n - st.1.rin + 1,
                  (coords r).x - st.1.rix + 1, (coords r).y - st.1.riy + 1,
                  (coords r).z - st.1.riz + 1⟩ := by
                intro hc
                simp only [Pt.mk.injEq] at hc
                apply h1
                have hz : manhattan (offsetFrom st.1.own (coords r)) = 0 := by
                  rw [manhattan_eq_zero]
                  simp only [offsetFrom, MPIVars.own, Pt.mk.injEq]
                  omega
                rw [hz]
                decide
            · simp only [Function.update_noteq hidx]
            · intro g bd
              simp only [allocBufs_apply]
              rw [if_neg]
              rintro ⟨_, _, hc⟩
              exact hidx hc

theorem setupMPI_rank_duplicate (MAX_EXCH_DIST : Int) (context : StencilContext)
    (gs : List Nat) (coords : Int → Pt) (st : MPIVars × Int) (r : Int)
    (hne : r ≠ st.1.my_rank) (hsame : coords r = st.1.own) :
    setupMPI_rank MAX_EXCH_DIST context gs coords st r = .exited 1 st := by
  have h0 : toInt (|(coords r).n - st.1.rin| + |(coords r).x - st.1.rix| +
      |(coords r).y - st.1.riy| + |(coords r).z - st.1.riz|) = 0 := by
    rw [hsame]
    simp [MPIVars.own, toInt]
  simp only [setupMPI_rank, if_neg hne, h0, if_true]

/-- A loop of `setupMPI` over a list that holds a rank other than the rank itself with the
coordinates of the rank itself ends the process with status 1, in the state reached
after ranks that come before it in the list. -/
theorem forEach_duplicate (MAX_EXCH_DIST : Int) (context : StencilContext)
    (gs : List Nat) (coords : Int → Pt) (own : Pt) (me r : Int) (hne : r ≠ me)
    (hsame : coords r = own) (L : List Int) (hr : r ∈ L) :
    ∀ st : MPIVars × Int, st.1.own = own → st.1.my_rank = me →
      ∃ pre post st2, L = pre ++ post ∧ r ∉ pre ∧
        forEach (setupMPI_rank MAX_EXCH_DIST context gs coords) st pre = .returned st2 ∧
        forEach (setupMPI_rank MAX_EXCH_DIST context gs coords) st L = .exited 1 st2 ∧
        st2.1.my_neighbors ⟨1, 1, 1, 1⟩ = st.1.my_neighbors ⟨1, 1, 1, 1⟩ ∧
        ∀ g bd, st2.1.mpiBufs g bd ⟨1, 1, 1, 1⟩ = st.1.mpiBufs g bd ⟨1, 1, 1, 1⟩ := by
  induction L with
  | nil => simp at hr
  | cons r0 L ih =>
    intro st hown hme
    rcases setupMPI_rank_cases MAX_EXCH_DIST context gs coords st r0 with hx | ⟨st1, h1, h2, h3, h4, h5⟩
    · exact ⟨[], r0 :: L, st, rfl, by simp, rfl, by simp only [forEach, hx], rfl,
        fun _ _ => rfl⟩
    · have hr0 : r ≠ r0 := by
        intro hc
        subst hc
        rw [setupMPI_rank_duplicate MAX_EXCH_DIST context gs coords st r
          (by rw [hme]; exact hne) (by rw [hown]; exact hsame)] at h1
        cases h1
      have hin : r ∈ L := by
        rcases List.mem_cons.mp hr with h | h
        · exact absurd h hr0
        · exact h
      obtain ⟨pre, post, st2, e1, e2, e3, e4, e5, e6⟩ := ih hin st1 (by rw [h2, hown])
        (by rw [h3, hme])
      refine ⟨r0 :: pre, post, st2, by rw [e1]; rfl, ?_, ?_, ?_, by rw [e5, h4], ?_⟩
      · intro hc
        rcases List.mem_cons.mp hc with h | h
        · exact hr0 h
        · exact e2 h
      · simp only [forEach, h1]
        exact e3
      · simp only [forEach, h1]
        exact e4
      · intro g bd
        rw [e6, h5]

/-- **C15 (counterexample).** Two ranks, this one (rank 0) at `(0,0,0,0)` and rank 1 at
`(0,1,0,0)`, rank sizes `1 x 4 x 1 x 1`, halo width `hx = 0`, `MAX_EXCH_DIST = 4`, one
updated grid, `my_neighbors` filled with `-1`.  Rank 1 is not this rank, its offset
`(0,1,0,0)` has every `|D_d| <= 1` and Manhattan distance `1 <= 4`, but `setupMPI`
returns without recording it: the slab volume `rsn*rsx*rsy*rsz = 1*0*1*1` is zero and
the loop goes on to the next rank before `my_neighbors` is written.  A second table, with
`hx = 1`: the ranks 1 and 2 both at `(0,1,0,0)`; both meet the conditions, and the entry
for their offset holds rank 2 only. -/
theorem setupMPI_skips_empty_slab :
    (setupMPI noLayout 4 (haloContext 0) [0] alongX false twoRanks =
      .returned (setupMPI noLayout 4 (haloContext 0) [0] alongX false twoRanks).state ∧
    (1 : Int) ≠ twoRanks.my_rank ∧
    offsetFrom twoRanks.own (coordTable twoRanks alongX 1) = ⟨0, 1, 0, 0⟩ ∧
    manhattan (offsetFrom twoRanks.own (coordTable twoRanks alongX 1)) = 1 ∧
    (slabDims (haloContext 0) (offsetFrom twoRanks.own (coordTable twoRanks alongX 1))).volume
      = 0 ∧
    (setupMPI noLayout 4 (haloContext 0) [0] alongX false twoRanks).state.my_neighbors
      (neighborIndex (offsetFrom twoRanks.own (coordTable twoRanks alongX 1))) = -1 ∧
    (setupMPI noLayout 4 (haloContext 0) [0] alongX false twoRanks).state.my_neighbors
      (neighborIndex (offsetFrom twoRanks.own (coordTable twoRanks alongX 1))) ≠ 1) ∧
    (setupMPI noLayout 4 (haloContext 1) [0] bothRight false threeRanks =
      .returned (setupMPI noLayout 4 (haloContext 1) [0] bothRight false threeRanks).state ∧
    (1 : Int) ≠ threeRanks.my_rank ∧
    offsetFrom threeRanks.own (coordTable threeRanks bothRight 1) = ⟨0, 1, 0, 0⟩ ∧
    (slabDims (haloContext 1)
      (offsetFrom threeRanks.own (coordTable threeRanks bothRight 1))).volume = 1 ∧
    (setupMPI noLayout 4 (haloContext 1) [0] bothRight false threeRanks).state.my_neighbors
      (neighborIndex (offsetFrom threeRanks.own (coordTable threeRanks bothRight 1))) = 2 ∧
    (setupMPI noLayout 4 (haloContext 1) [0] bothRight false threeRanks).state.my_neighbors
      (neighborIndex (offsetFrom threeRanks.own (coordTable threeRanks bothRight 1))) ≠ 1) :=
  ⟨⟨rfl, by decide, by decide, by decide, by decide, by decide, by decide⟩,
    ⟨rfl, by decide, by decide, by decide, by decide, by decide⟩⟩

/-- **C15 (amended).** On a table of pairwise distinct rank coordinates (`RankTable`: the
rank itself is one of the ranks, every Manhattan distance is an `int` value) and a
`my_neighbors` table that holds no rank number at the start, `setupMPI` returns, and for
every rank `r` and every index `idx`: `my_neighbors[idx] == r` if and only if `r` is not
the rank itself, `idx` is the index of the offset `D = coords(r) - coords(self)`
(`D + 1` in every dimension), every `|D_d| <= 1`, the Manhattan distance of `D` is at most
`MAX_EXCH_DIST`, and the slab volume `rsn*rsx*rsy*rsz` for `D` is not zero. -/
theorem setupMPI_neighbors (unlayout : Int → Int → Int → Int → Int → Pt)
    (MAX_EXCH_DIST : Int) (context : StencilContext) (gs : List Nat) (others : Int → Pt)
    (findLocation : Bool) (m m1 : MPIVars)
    (hloc : setupMPI_locate unlayout findLocation m = m1) (T : RankTable m1 others)
    (hinit : ∀ idx, m1.my_neighbors idx < 0 ∨ m1.num_ranks ≤ m1.my_neighbors idx) :
    ∃ s, setupMPI unlayout MAX_EXCH_DIST context gs others findLocation m = .returned s ∧
      ∀ r : Int, (0 ≤ r ∧ r < m1.num_ranks) → ∀ idx : Pt,
        (s.my_neighbors idx = r ↔
          (r ≠ m1.my_rank ∧
            idx = neighborIndex (offsetFrom m1.own (coordTable m1 others r)) ∧
            IsPartner MAX_EXCH_DIST context (offsetFrom m1.own (coordTable m1 others r)))) := by
  obtain ⟨s, hs, h1, h2, _⟩ := setupMPI_ranks_tables MAX_EXCH_DIST context gs others m1 T
  refine ⟨s, by rw [setupMPI, hloc, hs], ?_⟩
  intro r hr idx
  constructor
  · intro hv
    by_cases hex : ∃ r2 : Int, (0 ≤ r2 ∧ r2 < m1.num_ranks) ∧ r2 ≠ m1.my_rank ∧
        IsPartner MAX_EXCH_DIST context (offsetFrom m1.own (coordTable m1 others r2)) ∧
        neighborIndex (offsetFrom m1.own (coordTable m1 others r2)) = idx
    · obtain ⟨r2, a1, a2, a3, a4⟩ := hex
      have := (h1 r2 a1 a2 a3).1
      rw [a4, hv] at this
      subst this
      exact ⟨a2, a4.symm, a3⟩
    · have := (h2 idx (fun r2 a1 a2 a3 a4 => hex ⟨r2, a1, a2, a3, a4⟩)).1
      rw [hv] at this
      rcases hinit idx with h | h
      · omega
      · omega
  · rintro ⟨a1, a2, a3⟩
    rw [a2]
    exact (h1 r hr a1 a3).1

theorem twoRanks_table : RankTable twoRanks alongX where
  me := by decide
  distinct := by
    intro r1 r2 h1 h2 h
    have e1 : r1 = 0 ∨ r1 = 1 := by
      have := h1
      simp only [twoRanks] at this
      omega
    have e2 : r2 = 0 ∨ r2 = 1 := by
      have := h2
      simp only [twoRanks] at this
      omega
    rcases e1 with rfl | rfl <;> rcases e2 with rfl | rfl <;> revert h <;> decide
  int_dist := by
    intro r h1
    have e1 : r = 0 ∨ r = 1 := by
      have := h1
      simp only [twoRanks] at this
      omega
    rcases e1 with rfl | rfl <;> decide

/-- Witness of the amended C15: two ranks side by side along `x` with `hx = 1`; rank 1 is
recorded at the index `(1,2,1,1)` of the offset `(0,1,0,0)`. -/
theorem setupMPI_neighbors_witness :
    RankTable twoRanks alongX ∧
    (∃ s, setupMPI noLayout 4 (haloContext 1) [0] alongX false twoRanks = .returned s ∧
      ∀ r : Int, (0 ≤ r ∧ r < twoRanks.num_ranks) → ∀ idx : Pt,
        (s.my_neighbors idx = r ↔
          (r ≠ twoRanks.my_rank ∧
            idx = neighborIndex (offsetFrom twoRanks.own (coordTable twoRanks alongX r)) ∧
            IsPartner 4 (haloContext 1)
              (offsetFrom twoRanks.own (coordTable twoRanks alongX r))))) ∧
    (setupMPI noLayout 4 (haloContext 1) [0] alongX false twoRanks).state.my_neighbors
      ⟨1, 2, 1, 1⟩ = 1 :=
  ⟨twoRanks_table,
    setupMPI_neighbors noLayout 4 (haloContext 1) [0] alongX false twoRanks twoRanks rfl
      twoRanks_table (fun _ => Or.inl (show (-1 : Int) < 0 by decide)),
    by decide⟩

/-- **C16.** On a table of pairwise distinct rank coordinates (`RankTable`), starting from
buffer tables that are all null, `setupMPI` returns, and for every updated grid `g`,
every direction `bd` (send or receive) and every index `idx` in `{0,1,2}^4` (the offset
`idx - 1` in `{prev,self,next}^4`): the buffer `mpiBufs[g][bd][idx]` is not null if and
only if some rank other than the rank itself sits at that offset, the Manhattan distance
of the offset is at most `MAX_EXCH_DIST`, and the slab volume `rsn*rsx*rsy*rsz` for the
offset is not zero. -/
theorem setupMPI_buffers (unlayout : Int → Int → Int → Int → Int → Pt)
    (MAX_EXCH_DIST : Int) (context : StencilContext) (gs : List Nat) (others : Int → Pt)
    (findLocation : Bool) (m m1 : MPIVars)
    (hloc : setupMPI_locate unlayout findLocation m = m1) (T : RankTable m1 others)
    (hnull : ∀ g bd idx, m1.mpiBufs g bd idx = none) :
    ∃ s, setupMPI unlayout MAX_EXCH_DIST context gs others findLocation m = .returned s ∧
      ∀ g ∈ gs, ∀ bd : Int, (bd = bufSend ∨ bd = bufRec) → ∀ idx : Pt,
        ((0 ≤ idx.n ∧ idx.n ≤ 2) ∧ (0 ≤ idx.x ∧ idx.x ≤ 2) ∧
          (0 ≤ idx.y ∧ idx.y ≤ 2) ∧ (0 ≤ idx.z ∧ idx.z ≤ 2)) →
        (s.mpiBufs g bd idx ≠ none ↔
          ∃ r : Int, (0 ≤ r ∧ r < m1.num_ranks) ∧ r ≠ m1.my_rank ∧
            neighborIndex (offsetFrom m1.own (coordTable m1 others r)) = idx ∧
            manhattan (offsetFrom m1.own (coordTable m1 others r)) ≤ MAX_EXCH_DIST ∧
            (slabDims context (offsetFrom m1.own (coordTable m1 others r))).volume ≠ 0) := by
  obtain ⟨s, hs, h1, h2, _⟩ := setupMPI_ranks_tables MAX_EXCH_DIST context gs others m1 T
  refine ⟨s, by rw [setupMPI, hloc, hs], ?_⟩
  intro g hg bd hbd idx hidx
  have hbd2 : 0 ≤ bd ∧ bd < 2 := by
    rcases hbd with rfl | rfl <;> decide
  constructor
  · intro hv
    by_contra hex
    apply hv
    rw [(h2 idx (fun r a1 a2 a3 a4 => hex ⟨r, a1, a2, a4, a3.2.1, a3.2.2⟩)).2 g bd]
    exact hnull g bd idx
  · rintro ⟨r, a1, a2, a3, a4, a5⟩
    have hp : IsPartner MAX_EXCH_DIST context (offsetFrom m1.own (coordTable m1 others r)) := by
      refine ⟨?_, a4, a5⟩
      obtain ⟨⟨n1, n2⟩, ⟨x1, x2⟩, ⟨y1, y2⟩, ⟨z1, z2⟩⟩ := hidx
      rw [← a3] at n1 n2 x1 x2 y1 y2 z1 z2
      simp only [neighborIndex] at n1 n2 x1 x2 y1 y2 z1 z2
      simp only [abs_le]
      omega
    rw [← a3, (h1 r a1 a2 hp).2 g hg bd hbd2]
    simp

/-- Witness of C16: two ranks side by side along `x` with `hx = 1` and one updated grid:
the send and the receive buffer exist at the index `(1,2,1,1)`. -/
theorem setupMPI_buffers_witness :
    (∃ s, setupMPI noLayout 4 (haloContext 1) [0] alongX false twoRanks = .returned s ∧
      ∀ g ∈ [0], ∀ bd : Int, (bd = bufSend ∨ bd = bufRec) → ∀ idx : Pt,
        ((0 ≤ idx.n ∧ idx.n ≤ 2) ∧ (0 ≤ idx.x ∧ idx.x ≤ 2) ∧
          (0 ≤ idx.y ∧ idx.y ≤ 2) ∧ (0 ≤ idx.z ∧ idx.z ≤ 2)) →
        (s.mpiBufs g bd idx ≠ none ↔
          ∃ r : Int, (0 ≤ r ∧ r < twoRanks.num_ranks) ∧ r ≠ twoRanks.my_rank ∧
            neighborIndex (offsetFrom twoRanks.own (coordTable twoRanks alongX r)) = idx ∧
            manhattan (offsetFrom twoRanks.own (coordTable twoRanks alongX r)) ≤ 4 ∧
            (slabDims (haloContext 1)
              (offsetFrom twoRanks.own (coordTable twoRanks alongX r))).volume ≠ 0)) ∧
    (setupMPI noLayout 4 (haloContext 1) [0] alongX false twoRanks).state.mpiBufs 0 bufSend
      ⟨1, 2, 1, 1⟩ = some ⟨1, 1, 1, 1⟩ ∧
    (setupMPI noLayout 4 (haloContext 1) [0] alongX false twoRanks).state.mpiBufs 0 bufRec
      ⟨1, 2, 1, 1⟩ = some ⟨1, 1, 1, 1⟩ ∧
    (setupMPI noLayout 4 (haloContext 1) [0] alongX false twoRanks).state.mpiBufs 0 bufSend
      ⟨1, 0, 1, 1⟩ = none :=
  ⟨setupMPI_buffers noLayout 4 (haloContext 1) [0] alongX false twoRanks twoRanks rfl
      twoRanks_table (fun _ _ _ => rfl),
    by decide, by decide, by decide⟩

/-- On a table of pairwise distinct rank coordinates and from null buffer tables: every
buffer has the slab sizes of the offset of its index, and the send and the receive
buffer of an updated grid at an index are alike. -/
theorem setupMPI_ranks_sizes (MAX_EXCH_DIST : Int) (context : StencilContext)
    (gs : List Nat) (others : Int → Pt) (m : MPIVars) (T : RankTable m others)
    (hnull : ∀ g bd idx, m.mpiBufs g bd idx = none) :
    ∃ s, setupMPI_ranks MAX_EXCH_DIST context gs others m = .returned s ∧
      (∀ g bd idx B, s.mpiBufs g bd idx = some B →
        B = slabDims context ⟨idx.n - 1, idx.x - 1, idx.y - 1, idx.z - 1⟩) ∧
      (∀ g ∈ gs, ∀ idx, s.mpiBufs g bufSend idx = s.mpiBufs g bufRec idx) := by
  obtain ⟨s, hs, h1, h2, h3⟩ := setupMPI_ranks_tables MAX_EXCH_DIST context gs others m T
  refine ⟨s, hs, ?_, ?_⟩
  · intro g bd idx B hB
    by_cases hg : g ∈ gs ∧ (0 ≤ bd ∧ bd < 2)
    · by_cases hex : ∃ r : Int, (0 ≤ r ∧ r < m.num_ranks) ∧ r ≠ m.my_rank ∧
          IsPartner MAX_EXCH_DIST context (offsetFrom m.own (coordTable m others r)) ∧
          neighborIndex (offsetFrom m.own (coordTable m others r)) = idx
      · obtain ⟨r, a1, a2, a3, a4⟩ := hex
        have := (h1 r a1 a2 a3).2 g hg.1 bd hg.2
        rw [a4, hB] at this
        simp only [Option.some.injEq] at this
        rw [this, ← a4]
        simp [neighborIndex]
      · rw [(h2 idx (fun r a1 a2 a3 a4 => hex ⟨r, a1, a2, a3, a4⟩)).2 g bd, hnull] at hB
        cases hB
    · rw [h3 g bd (by
        by_cases h : g ∈ gs
        · exact Or.inr (fun hh => hg ⟨h, hh⟩)
        · exact Or.inl h) idx, hnull] at hB
      cases hB
  · intro g hg idx
    by_cases hex : ∃ r : Int, (0 ≤ r ∧ r < m.num_ranks) ∧ r ≠ m.my_rank ∧
        IsPartner MAX_EXCH_DIST context (offsetFrom m.own (coordTable m others r)) ∧
        neighborIndex (offsetFrom m.own (coordTable m others r)) = idx
    · obtain ⟨r, a1, a2, a3, a4⟩ := hex
      have e1 := (h1 r a1 a2 a3).2 g hg bufSend (by decide)
      have e2 := (h1 r a1 a2 a3).2 g hg bufRec (by decide)
      rw [a4] at e1 e2
      rw [e1, e2]
    · have e := (h2 idx (fun r a1 a2 a3 a4 => hex ⟨r, a1, a2, a3, a4⟩)).2
      rw [e g bufSend, e g bufRec, hnull, hnull]

/-- **C17.** Two ranks A and B with equal rank sizes and halo widths, each on a table of
pairwise distinct rank coordinates and starting from null buffer tables.  Both runs of
`setupMPI` return.  Every buffer allocated at an index `idx` (offset `D = idx - 1`) has the
size `rs_d = (D_d == 0 ? d_d : h_d)` in every dimension, for the send and for the receive
direction alike; and a buffer that A holds at the index of an offset `D` has exactly the
sizes of a buffer that B holds at the index of the offset `-D`. -/
theorem setupMPI_buffer_sizes (unlayout : Int → Int → Int → Int → Int → Pt)
    (MAX_EXCH_DIST : Int) (contextA contextB : StencilContext) (gsA gsB : List Nat)
    (othersA othersB : Int → Pt) (findA findB : Bool) (mA mA1 mB mB1 : MPIVars)
    (hlocA : setupMPI_locate unlayout findA mA = mA1)
    (hlocB : setupMPI_locate unlayout findB mB = mB1)
    (TA : RankTable mA1 othersA) (TB : RankTable mB1 othersB)
    (hnullA : ∀ g bd idx, mA1.mpiBufs g bd idx = none)
    (hnullB : ∀ g bd idx, mB1.mpiBufs g bd idx = none)
    (hd : contextB.dn = contextA.dn ∧ contextB.dx = contextA.dx ∧
      contextB.dy = contextA.dy ∧ contextB.dz = contextA.dz)
    (hh : contextB.hn = contextA.hn ∧ contextB.hx = contextA.hx ∧
      contextB.hy = contextA.hy ∧ contextB.hz = contextA.hz) :
    ∃ sA sB,
      setupMPI unlayout MAX_EXCH_DIST contextA gsA othersA findA mA = .returned sA ∧
      setupMPI unlayout MAX_EXCH_DIST contextB gsB othersB findB mB = .returned sB ∧
      (∀ g bd idx B, sA.mpiBufs g bd idx = some B →
        B = { dn := if idx.n - 1 = 0 then contextA.dn else contextA.hn,
              dx := if idx.x - 1 = 0 then contextA.dx else contextA.hx,
              dy := if idx.y - 1 = 0 then contextA.dy else contextA.hy,
              dz := if idx.z - 1 = 0 then contextA.dz else contextA.hz }) ∧
      (∀ g ∈ gsA, ∀ idx, sA.mpiBufs g bufSend idx = sA.mpiBufs g bufRec idx) ∧
      (∀ g bd g2 bd2 idx BA BB, sA.mpiBufs g bd idx = some BA →
        sB.mpiBufs g2 bd2 ⟨2 - idx.n, 2 - idx.x, 2 - idx.y, 2 - idx.z⟩ = some BB →
        BA = BB) := by
  obtain ⟨sA, hA, a1, a2⟩ :=
    setupMPI_ranks_sizes MAX_EXCH_DIST contextA gsA othersA mA1 TA hnullA
  obtain ⟨sB, hB, b1, _⟩ :=
    setupMPI_ranks_sizes MAX_EXCH_DIST contextB gsB othersB mB1 TB hnullB
  refine ⟨sA, sB, by rw [setupMPI, hlocA, hA], by rw [setupMPI, hlocB, hB], ?_, a2, ?_⟩
  · intro g bd idx B h
    rw [a1 g bd idx B h]
    rfl
  · intro g bd g2 bd2 idx BA BB hBA hBB
    rw [a1 g bd idx BA hBA, b1 g2 bd2 _ BB hBB]
    simp only [slabDims, hd.1, hd.2.1, hd.2.2.1, hd.2.2.2, hh.1, hh.2.1, hh.2.2.1, hh.2.2.2,
      BufDims.mk.injEq]
    have e : ∀ a : Int, (2 - a - 1 = 0) = (a - 1 = 0) := by
      intro a
      apply propext
      omega
    simp only [e, and_self]

theorem secondRank_table : RankTable secondRank alongX where
  me := by decide
  distinct := by
    intro r1 r2 h1 h2 h
    have e1 : r1 = 0 ∨ r1 = 1 := by
      have := h1
      simp only [secondRank, twoRanks] at this
      omega
    have e2 : r2 = 0 ∨ r2 = 1 := by
      have := h2
      simp only [secondRank, twoRanks] at this
      omega
    rcases e1 with rfl | rfl <;> rcases e2 with rfl | rfl <;> revert h <;> decide
  int_dist := by
    intro r h1
    have e1 : r = 0 ∨ r = 1 := by
      have := h1
      simp only [secondRank, twoRanks] at this
      omega
    rcases e1 with rfl | rfl <;> decide

/-- Witness of C17: the two ranks side by side along `x` with `hx = 1`; the send buffer
of rank 0 for the offset `(0,1,0,0)` and the receive buffer of rank 1 for the offset
`(0,-1,0,0)` both have the sizes `1 x 1 x 1 x 1`. -/
theorem setupMPI_buffer_sizes_witness :
    (∃ sA sB,
      setupMPI noLayout 4 (haloContext 1) [0] alongX false twoRanks = .returned sA ∧
      setupMPI noLayout 4 (haloContext 1) [0] alongX false secondRank = .returned sB ∧
      (∀ g bd g2 bd2 idx BA BB, sA.mpiBufs g bd idx = some BA →
        sB.mpiBufs g2 bd2 ⟨2 - idx.n, 2 - idx.x, 2 - idx.y, 2 - idx.z⟩ = some BB →
        BA = BB)) ∧
    (setupMPI noLayout 4 (haloContext 1) [0] alongX false twoRanks).state.mpiBufs 0 bufSend
      ⟨1, 2, 1, 1⟩ = some ⟨1, 1, 1, 1⟩ ∧
    (setupMPI noLayout 4 (haloContext 1) [0] alongX false secondRank).state.mpiBufs 0 bufRec
      ⟨1, 0, 1, 1⟩ = some ⟨1, 1, 1, 1⟩ :=
  ⟨(setupMPI_buffer_sizes noLayout 4 (haloContext 1) (haloContext 1) [0] [0] alongX alongX
      false false twoRanks twoRanks secondRank secondRank rfl rfl twoRanks_table
      secondRank_table (fun _ _ _ => rfl) (fun _ _ _ => rfl) ⟨rfl, rfl, rfl, rfl⟩
      ⟨rfl, rfl, rfl, rfl⟩).imp
      (fun _ h => h.imp (fun _ h2 => ⟨h2.1, h2.2.1, h2.2.2.2.2⟩)),
    by decide, by decide⟩

/-- **C18.** When some rank `r` other than the rank itself has the coordinates of the rank
itself, `setupMPI` ends the process with exit status 1.  The state at that moment is the
one reached by the loop over ranks that come before `r` (`pre` does not hold `r`): no
iteration was made for `r`, so no neighbor entry and no buffer was created for it; in
particular the entries of `my_neighbors` and of the buffer tables at the index
`(1,1,1,1)` of its offset `(0,0,0,0)` are as they were. -/
theorem setupMPI_duplicate_exits (unlayout : Int → Int → Int → Int → Int → Pt)
    (MAX_EXCH_DIST : Int) (context : StencilContext) (gs : List Nat) (others : Int → Pt)
    (findLocation : Bool) (m m1 : MPIVars)
    (hloc : setupMPI_locate unlayout findLocation m = m1)
    (r : Int) (hr : 0 ≤ r ∧ r < m1.num_ranks) (hne : r ≠ m1.my_rank)
    (hsame : others r = ⟨m1.rin, m1.rix, m1.riy, m1.riz⟩) :
    ∃ pre post st,
      loopRange 0 m1.num_ranks = pre ++ post ∧ r ∉ pre ∧
      forEach (setupMPI_rank MAX_EXCH_DIST context gs (coordTable m1 others)) (m1, 0) pre =
        .returned st ∧
      setupMPI unlayout MAX_EXCH_DIST context gs others findLocation m = .exited 1 st.1 ∧
      st.1.my_neighbors ⟨1, 1, 1, 1⟩ = m1.my_neighbors ⟨1, 1, 1, 1⟩ ∧
      ∀ g bd, st.1.mpiBufs g bd ⟨1, 1, 1, 1⟩ = m1.mpiBufs g bd ⟨1, 1, 1, 1⟩ := by
  have hc : coordTable m1 others r = m1.own := by
    simp only [coordTable, if_neg hne, hsame, MPIVars.own]
  obtain ⟨pre, post, st, e1, e2, e3, e4, e5, e6⟩ :=
    forEach_duplicate MAX_EXCH_DIST context gs (coordTable m1 others) m1.own m1.my_rank r hne
      hc (loopRange 0 m1.num_ranks) (mem_loopRange.mpr hr) (m1, 0) rfl rfl
  refine ⟨pre, post, st, e1, e2, e3, ?_, e5, e6⟩
  rw [setupMPI, hloc]
  simp only [setupMPI_ranks, e4]

/-- Witness of C18: two ranks that both claim the position `(0,0,0,0)`; the run of rank 0
ends with status 1 and the tables are as at the start. -/
theorem setupMPI_duplicate_exits_witness :
    ((0 : Int) ≤ 1 ∧ (1 : Int) < twoRanks.num_ranks) ∧ (1 : Int) ≠ twoRanks.my_rank ∧
    allAtOrigin 1 = ⟨twoRanks.rin, twoRanks.rix, twoRanks.riy, twoRanks.riz⟩ ∧
    (∃ pre post st,
      loopRange 0 twoRanks.num_ranks = pre ++ post ∧ (1 : Int) ∉ pre ∧
      forEach (setupMPI_rank 4 (haloContext 1) [0] (coordTable twoRanks allAtOrigin))
        (twoRanks, 0) pre = .returned st ∧
      setupMPI noLayout 4 (haloContext 1) [0] allAtOrigin false twoRanks = .exited 1 st.1 ∧
      st.1.my_neighbors ⟨1, 1, 1, 1⟩ = twoRanks.my_neighbors ⟨1, 1, 1, 1⟩ ∧
      ∀ g bd, st.1.mpiBufs g bd ⟨1, 1, 1, 1⟩ = twoRanks.mpiBufs g bd ⟨1, 1, 1, 1⟩) ∧
    setupMPI noLayout 4 (haloContext 1) [0] allAtOrigin false twoRanks = .exited 1 twoRanks :=
  ⟨by decide, by decide, by decide,
    setupMPI_duplicate_exits noLayout 4 (haloContext 1) [0] allAtOrigin false twoRanks
      twoRanks rfl 1 (by decide) (by decide) (by decide),
    rfl⟩


/-! ## Time loops -/

/-- **C22.** When the block time size `bt` (`step_rt`) is not 1, `calc_region` ends the
process with exit status 1 before its time loop: no evaluation is made (no block sweep
runs, the region window is not shifted), and the call made from the rank loops passes
the exit on without any event. -/
theorem calc_region_temporal_blocking (K : Consts) (context : StencilContext)
    (eqGroups : List EqGroupBase) (start_dt stop_dt : Int) (set : List Nat) (W : Box)
    (hbt : context.bt ≠ 1) :
    calc_region context eqGroups start_dt stop_dt set W = .exited 1 [] ∧
    (calc_region context eqGroups start_dt stop_dt set W).state.flatMap
      (RegionEval.updates K context) = [] ∧
    callRegion context eqGroups start_dt stop_dt set W = .exited 1 [] := by
  have h : calc_region context eqGroups start_dt stop_dt set W = .exited 1 [] := by
    unfold calc_region
    simp only [ne_eq, hbt, not_false_eq_true, if_true]
  refine ⟨h, ?_, ?_⟩
  · rw [h]
    rfl
  · unfold callRegion
    rw [h]

/-- Witness of C22: `bt = 2` on a rank of `1 x 4 x 1 x 1` points. -/
theorem calc_region_temporal_blocking_witness :
    ({ waveContext with bt := 2 } : StencilContext).bt ≠ 1 ∧
    calc_region { waveContext with bt := 2 } twoGroups 0 2 [0, 1]
      { begin_n := 0, begin_x := 0, begin_y := 0, begin_z := 0,
        end_n := 1, end_x := 2, end_y := 1, end_z := 1 } = .exited 1 [] :=
  ⟨by decide,
    (calc_region_temporal_blocking Consts.unit { waveContext with bt := 2 } twoGroups 0 2
      [0, 1]
      { begin_n := 0, begin_x := 0, begin_y := 0, begin_z := 0,
        end_n := 1, end_x := 2, end_y := 1, end_z := 1 } (by decide)).1⟩

theorem loopWindows_getElem? (b e step : Int) (i : Nat)
    (hi : i < (loopWindows b e step).length) :
    (loopWindows b e step)[i]? =
      some (b + Int.ofNat i * step, min (b + Int.ofNat i * step + step) e) := by
  rw [length_loopWindows] at hi
  unfold loopWindows loopRange
  rw [List.getElem?_map, List.getElem?_map, List.getElem?_range (by simpa using hi)]
  simp

/-- The number of iterations of a generated loop over a range of length `len >= 0` with a
step `step >= 1` is the least `n` with `len <= n * step`. -/
theorem loop_count_ceil {len step : Int} (hlen : 0 ≤ len) (hstep : 1 ≤ step) :
    0 ≤ (len + (step - 1)).tdiv step ∧
    ((len + (step - 1)).tdiv step - 1) * step < len ∧
    len ≤ (len + (step - 1)).tdiv step * step := by
  rw [Int.tdiv_eq_ediv (by omega) (by omega)]
  have h1 := Int.ediv_mul_le (len + (step - 1)) (show step ≠ 0 by omega)
  have h2 := Int.lt_ediv_add_one_mul_self (len + (step - 1)) (show 0 < step by omega)
  have h3 : 0 ≤ (len + (step - 1)) / step := Int.ediv_nonneg (by omega) (by omega)
  refine ⟨h3, ?_, ?_⟩
  · linarith
  · linarith

/-- **C23.** The super-step windows `[start_dt, stop_dt)` of `calc_rank_opt` are the list
`loopWindows begin_dt (begin_dt + dt) rt`, on which the body of the loop over `index_dt`
is run.  For `dt >= 0` and `rt >= 1`: their number `n` is `ceil(dt / rt)` (the least `n`
with `dt <= n * rt`); window `i` is `[begin_dt + i*rt, min(begin_dt + i*rt + rt,
begin_dt + dt))`; each has a length between 1 and `rt`; each begins where the one before
it ends; and every time `t` lies in exactly one window when
`begin_dt <= t < begin_dt + dt` and in none otherwise. -/
theorem calc_rank_opt_super_steps (K : Consts) (context : StencilContext)
    (eqGroups : List EqGroupBase) (c : StencilContext) (egs : List EqGroupBase)
    (hinit : init K context eqGroups = .returned (c, egs))
    (hdt : 0 ≤ c.dt) (hrt : 1 ≤ c.rt) :
    (calc_rank_opt K context eqGroups).state.trace =
      (runList (super_step (setAngles K c) egs (sweepWindow (setAngles K c) egs))
        (loopWindows c.begin_dt (c.begin_dt + c.dt) c.rt)).state ∧
    ((Int.ofNat (loopWindows c.begin_dt (c.begin_dt + c.dt) c.rt).length - 1) * c.rt < c.dt ∧
      c.dt ≤ Int.ofNat (loopWindows c.begin_dt (c.begin_dt + c.dt) c.rt).length * c.rt) ∧
    (∀ i : Nat, i < (loopWindows c.begin_dt (c.begin_dt + c.dt) c.rt).length →
      (loopWindows c.begin_dt (c.begin_dt + c.dt) c.rt)[i]? =
        some (c.begin_dt + Int.ofNat i * c.rt,
          min (c.begin_dt + Int.ofNat i * c.rt + c.rt) (c.begin_dt + c.dt))) ∧
    (∀ w ∈ loopWindows c.begin_dt (c.begin_dt + c.dt) c.rt,
      1 ≤ w.2 - w.1 ∧ w.2 - w.1 ≤ c.rt) ∧
    (∀ (i : Nat) (w1 w2 : Int × Int),
      (loopWindows c.begin_dt (c.begin_dt + c.dt) c.rt)[i]? = some w1 →
      (loopWindows c.begin_dt (c.begin_dt + c.dt) c.rt)[i + 1]? = some w2 → w2.1 = w1.2) ∧
    (∀ t : Int, (loopWindows c.begin_dt (c.begin_dt + c.dt) c.rt).countP
      (fun w => decide (w.1 ≤ t ∧ t < w.2)) =
        if c.begin_dt ≤ t ∧ t < c.begin_dt + c.dt then 1 else 0) := by
  obtain ⟨n0, n1, n2⟩ := @loop_count_ceil (c.begin_dt + c.dt - c.begin_dt) c.rt
    (by omega) hrt
  have hlen : Int.ofNat (loopWindows c.begin_dt (c.begin_dt + c.dt) c.rt).length =
      (c.begin_dt + c.dt - c.begin_dt + (c.rt - 1)).tdiv c.rt := by
    rw [length_loopWindows]
    simp only [Int.ofNat_eq_coe]
    omega
  have hidx : ∀ i : Nat, i < (loopWindows c.begin_dt (c.begin_dt + c.dt) c.rt).length →
      c.begin_dt + Int.ofNat i * c.rt + c.rt ≤
        c.begin_dt + Int.ofNat (loopWindows c.begin_dt (c.begin_dt + c.dt) c.rt).length * c.rt ∧
      c.begin_dt + Int.ofNat i * c.rt < c.begin_dt + c.dt := by
    intro i hi
    have h1 : Int.ofNat i + 1 ≤
        Int.ofNat (loopWindows c.begin_dt (c.begin_dt + c.dt) c.rt).length := by
      simp only [Int.ofNat_eq_coe]
      omega
    have h2 := Int.mul_le_mul_of_nonneg_right h1 (show 0 ≤ c.rt by omega)
    rw [hlen] at h2 ⊢
    constructor
    · linarith
    · nlinarith
  refine ⟨(calc_rank_opt_state K context eqGroups c egs hinit).2.2, ⟨?_, ?_⟩, ?_, ?_, ?_, ?_⟩
  · rw [hlen]
    linarith
  · rw [hlen]
    linarith
  · intro i hi
    exact loopWindows_getElem? _ _ _ i hi
  · intro w hw
    obtain ⟨i, hw2⟩ := List.getElem?_of_mem hw
    have hlt : i < (loopWindows c.begin_dt (c.begin_dt + c.dt) c.rt).length := by
      by_contra hcon
      rw [List.getElem?_eq_none (by omega)] at hw2
      cases hw2
    rw [loopWindows_getElem? _ _ _ i hlt] at hw2
    cases hw2
    obtain ⟨_, h2⟩ := hidx i hlt
    simp only
    rcases min_choice (c.begin_dt + Int.ofNat i * c.rt + c.rt) (c.begin_dt + c.dt) with h | h
    · rw [h]
      omega
    · rw [h]
      have := min_le_left (c.begin_dt + Int.ofNat i * c.rt + c.rt) (c.begin_dt + c.dt)
      rw [h] at this
      omega
  · intro i w1 w2 h1 h2
    have hlt : i + 1 < (loopWindows c.begin_dt (c.begin_dt + c.dt) c.rt).length := by
      by_contra hcon
      rw [List.getElem?_eq_none (by omega)] at h2
      cases h2
    rw [loopWindows_getElem? _ _ _ i (by omega)] at h1
    rw [loopWindows_getElem? _ _ _ (i + 1) hlt] at h2
    cases h1
    cases h2
    obtain ⟨_, h4⟩ := hidx (i + 1) hlt
    simp only [Int.ofNat_eq_coe, Nat.cast_add, Nat.cast_one] at h4 ⊢
    rw [min_eq_left (by linarith)]
    ring
  · intro t
    exact countP_loopWindows_ite _ _ _ t (by omega)

/-- Witness of C23: `dt = 5`, `rt = 2` gives the three windows `[0,2)`, `[2,4)`, `[4,5)`. -/
theorem calc_rank_opt_super_steps_witness :
    (0 ≤ (init Consts.unit stepContext everywhere).state.1.dt ∧
      1 ≤ (init Consts.unit stepContext everywhere).state.1.rt) ∧
    ((Int.ofNat (loopWindows (init Consts.unit stepContext everywhere).state.1.begin_dt
        ((init Consts.unit stepContext everywhere).state.1.begin_dt +
          (init Consts.unit stepContext everywhere).state.1.dt)
        (init Consts.unit stepContext everywhere).state.1.rt).length - 1) *
        (init Consts.unit stepContext everywhere).state.1.rt <
        (init Consts.unit stepContext everywhere).state.1.dt ∧
      (init Consts.unit stepContext everywhere).state.1.dt ≤
        Int.ofNat (loopWindows (init Consts.unit stepContext everywhere).state.1.begin_dt
          ((init Consts.unit stepContext everywhere).state.1.begin_dt +
            (init Consts.unit stepContext everywhere).state.1.dt)
          (init Consts.unit stepContext everywhere).state.1.rt).length *
        (init Consts.unit stepContext everywhere).state.1.rt) ∧
    loopWindows (init Consts.unit stepContext everywhere).state.1.begin_dt
      ((init Consts.unit stepContext everywhere).state.1.begin_dt +
        (init Consts.unit stepContext everywhere).state.1.dt)
      (init Consts.unit stepContext everywhere).state.1.rt = [(0, 2), (2, 4), (4, 5)] :=
  ⟨by decide,
    (calc_rank_opt_super_steps Consts.unit stepContext everywhere
      (init Consts.unit stepContext everywhere).state.1
      (init Consts.unit stepContext everywhere).state.2 rfl (by decide) (by decide)).2.1,
    by decide⟩

theorem loopWindows_one_starts (b e : Int) :
    (loopWindows b e 1).map Prod.fst = loopRange b e := by
  unfold loopWindows loopRange
  simp only [List.map_map, sub_self, add_zero, Int.tdiv_one, sub_zero, mul_one, zero_add,
    Function.comp_def]

theorem loopRange_getElem? (b e : Int) (i : Nat) (hi : i < (e - b).toNat) :
    (loopRange b e)[i]? = some (b + Int.ofNat i) := by
  unfold loopRange
  rw [List.getElem?_map, List.getElem?_range hi]
  rfl

theorem map_rt_evalsFrom (c : StencilContext) (W : Box) (l : List (Int × EqGroupBase)) :
    ∀ j, (evalsFrom c W j l).map (fun ev => (ev.rt, ev.eg)) =
      l.map (fun tg => (tg.1, tg.2.addr)) := by
  induction l with
  | nil =>
    intro j
    rfl
  | cons a l ih =>
    intro j
    simp only [evalsFrom, List.map_cons, ih (j + 1), evalAt]

/-- **C24.** In `calc_region` with `bt == 1` (`step_rt == 1`), for every `start_dt` and
`stop_dt`: the call returns the evaluations of its time loop over the windows
`[start_rt, stop_rt)`; in every iteration `stop_rt == start_rt + 1`, so the assertion
holds; the values of `start_rt` are `start_dt, start_dt + 1, ..., stop_dt - 1`, in
increasing order; and these are the times the loop visits: the evaluations that the call
makes are, in this order of the times, one at `rt = t` for each `t` of the list and each
group of `eqGroups` that is in the set.  So when some group is in the set, the times at
which an evaluation is made are exactly those with `start_dt <= t < stop_dt`, and they
never decrease along the evaluations. -/
theorem calc_region_inner_times (context : StencilContext) (eqGroups : List EqGroupBase)
    (start_dt stop_dt : Int) (set : List Nat) (W : Box) (hbt : context.bt = 1) :
    calc_region context eqGroups start_dt stop_dt set W =
      .returned (calc_region_times context eqGroups set
        (loopWindows start_dt stop_dt context.bt) W) ∧
    (∀ w ∈ loopWindows start_dt stop_dt context.bt, w.2 = w.1 + 1) ∧
    (loopWindows start_dt stop_dt context.bt).map Prod.fst = loopRange start_dt stop_dt ∧
    (loopRange start_dt stop_dt).length = (stop_dt - start_dt).toNat ∧
    (∀ i : Nat, i < (stop_dt - start_dt).toNat →
      (loopRange start_dt stop_dt)[i]? = some (start_dt + Int.ofNat i)) ∧
    (calc_region context eqGroups start_dt stop_dt set W).state.map
        (fun ev => (ev.rt, ev.eg)) =
      (loopRange start_dt stop_dt).flatMap (fun t =>
        (eqGroups.filter (fun g => decide (g.addr ∈ set))).map (fun g => (t, g.addr))) ∧
    ((∃ g ∈ eqGroups, g.addr ∈ set) → ∀ t : Int,
      (∃ ev ∈ (calc_region context eqGroups start_dt stop_dt set W).state, ev.rt = t) ↔
        (start_dt ≤ t ∧ t < stop_dt)) ∧
    ((calc_region context eqGroups start_dt stop_dt set W).state.map
      (fun ev => ev.rt)).Pairwise (fun a b => a ≤ b) := by
  have hmap : (calc_region context eqGroups start_dt stop_dt set W).state.map
        (fun ev => (ev.rt, ev.eg)) =
      (loopRange start_dt stop_dt).flatMap (fun t =>
        (eqGroups.filter (fun g => decide (g.addr ∈ set))).map (fun g => (t, g.addr))) := by
    rw [calc_region_returned context eqGroups start_dt stop_dt set W hbt]
    simp only [Run.state]
    rw [map_rt_evalsFrom, schedule_times, List.map_flatMap]
    simp only [List.map_map, Function.comp_def]
  have hrts : (calc_region context eqGroups start_dt stop_dt set W).state.map
        (fun ev => ev.rt) =
      (loopRange start_dt stop_dt).flatMap (fun t =>
        (eqGroups.filter (fun g => decide (g.addr ∈ set))).map (fun _ => t)) := by
    have h := congrArg (List.map Prod.fst) hmap
    rw [List.map_map, List.map_flatMap] at h
    simp only [List.map_map, Function.comp_def] at h
    exact h
  refine ⟨?_, ?_, ?_, length_loopRange _ _, ?_, hmap, ?_, ?_⟩
  · unfold calc_region
    simp only [hbt, ne_eq, not_true_eq_false, if_false]
  · intro w hw
    rw [hbt] at hw
    exact loopWindows_one_full hw
  · rw [hbt]
    exact loopWindows_one_starts _ _
  · intro i hi
    exact loopRange_getElem? _ _ i hi
  · rintro ⟨g, hg, hs⟩ t
    have hiff : (∃ ev ∈ (calc_region context eqGroups start_dt stop_dt set W).state,
        ev.rt = t) ↔
        t ∈ (calc_region context eqGroups start_dt stop_dt set W).state.map
          (fun ev => ev.rt) := by
      rw [List.mem_map]
    rw [hiff, hrts]
    simp only [List.mem_flatMap, List.mem_map, List.mem_filter, decide_eq_true_eq,
      mem_loopRange]
    constructor
    · rintro ⟨t2, ht2, _, _, rfl⟩
      exact ht2
    · intro ht
      exact ⟨t, ht, g, ⟨hg, hs⟩, rfl⟩
  · rw [hrts]
    unfold loopRange
    rw [List.flatMap_map]
    generalize (stop_dt - start_dt).toNat = n
    rw [List.pairwise_flatMap]
    constructor
    · intro k _
      rw [List.pairwise_map]
      exact List.pairwise_of_forall (fun _ _ => le_refl _)
    · have hr : (List.range n).Pairwise (fun a b => a < b) := List.pairwise_lt_range n
      refine hr.imp ?_
      intro a b hab x hx y hy
      rw [List.mem_map] at hx hy
      obtain ⟨_, _, rfl⟩ := hx
      obtain ⟨_, _, rfl⟩ := hy
      simp only [Int.ofNat_eq_coe]
      omega

/-- Witness of C24: the time window `[3, 6)` on `waveContext` (`bt = 1`) with two groups
in the set has the inner windows `[3,4)`, `[4,5)`, `[5,6)`, and the six evaluations are
made at the times `3, 3, 4, 4, 5, 5`. -/
theorem calc_region_inner_times_witness :
    waveContext.bt = 1 ∧
    (∀ w ∈ loopWindows 3 6 waveContext.bt, w.2 = w.1 + 1) ∧
    (loopWindows 3 6 waveContext.bt).map Prod.fst = loopRange 3 6 ∧
    loopWindows 3 6 waveContext.bt = [(3, 4), (4, 5), (5, 6)] ∧
    (calc_region waveContext twoGroups 3 6 [0, 1]
      { begin_n := 0, begin_x := 0, begin_y := 0, begin_z := 0,
        end_n := 1, end_x := 2, end_y := 1, end_z := 1 }).state.map
        (fun ev => (ev.rt, ev.eg)) =
      (loopRange 3 6).flatMap (fun t =>
        (twoGroups.filter (fun g => decide (g.addr ∈ [0, 1]))).map (fun g => (t, g.addr))) ∧
    (calc_region waveContext twoGroups 3 6 [0, 1]
      { begin_n := 0, begin_x := 0, begin_y := 0, begin_z := 0,
        end_n := 1, end_x := 2, end_y := 1, end_z := 1 }).state.map (fun ev => ev.rt) =
      [3, 3, 4, 4, 5, 5] :=
  ⟨by decide,
    (calc_region_inner_times waveContext twoGroups 3 6 [0, 1]
      { begin_n := 0, begin_x := 0, begin_y := 0, begin_z := 0,
        end_n := 1, end_x := 2, end_y := 1, end_z := 1 } (by decide)).2.1,
    (calc_region_inner_times waveContext twoGroups 3 6 [0, 1]
      { begin_n := 0, begin_x := 0, begin_y := 0, begin_z := 0,
        end_n := 1, end_x := 2, end_y := 1, end_z := 1 } (by decide)).2.2.1,
    by decide,
    (calc_region_inner_times waveContext twoGroups 3 6 [0, 1]
      { begin_n := 0, begin_x := 0, begin_y := 0, begin_z := 0,
        end_n := 1, end_x := 2, end_y := 1, end_z := 1 } (by decide)).2.2.2.2.2.1,
    by decide⟩

/-! ## The reference run -/

/-- **C25.** With `CPTS_T == 1`, when `init` returns the context `c` and the groups `egs`,
`calc_rank_ref` returns, and what it does is, for each time step `t` of
`[begin_dt, begin_dt + dt)` in increasing order and for each group in list order:
`exchange_halos(t, t + 1)` for the group, then `calc_scalar` at the points of a list
without repetition that holds a point `p` if and only if `p` is in the bounding box of
the group and `is_in_valid_domain` holds at `(t, p)`. -/
theorem calc_rank_ref_order (K : Consts) (context : StencilContext)
    (eqGroups : List EqGroupBase) (c : StencilContext) (egs : List EqGroupBase)
    (hinit : init K context eqGroups = .returned (c, egs)) (hT : K.CPTS_T = 1) :
    calc_rank_ref K context eqGroups =
      .returned ((loopRange c.begin_dt (c.begin_dt + c.dt)).flatMap (fun t =>
        egs.flatMap (fun eg =>
          Update.exchange_halos eg.addr t (t + 1) ::
            (eg.box.points.filter
              (fun p => eg.is_in_valid_domain c t p.n p.x p.y p.z)).map
              (Update.calc_point eg.addr t)))) ∧
    ∀ (t : Int) (eg : EqGroupBase),
      (eg.box.points.filter (fun p => eg.is_in_valid_domain c t p.n p.x p.y p.z)).Nodup ∧
      ∀ p : Pt,
        p ∈ eg.box.points.filter (fun p => eg.is_in_valid_domain c t p.n p.x p.y p.z) ↔
          (eg.box.contains p ∧ eg.is_in_valid_domain c t p.n p.x p.y p.z = true) := by
  constructor
  · rw [calc_rank_ref_shape K context eqGroups c egs hinit hT, ← loopWindows_one_starts,
      List.flatMap_map]
    have hstep : ∀ t : Int, calc_rank_ref_step K c t = fun eg =>
        Update.exchange_halos eg.addr t (t + 1) ::
          (eg.box.points.filter (fun p => eg.is_in_valid_domain c t p.n p.x p.y p.z)).map
            (Update.calc_point eg.addr t) := by
      intro t
      funext eg
      simp only [calc_rank_ref_step, hT]
    simp only [hstep]
  · intro t eg
    refine ⟨List.Nodup.filter _ (Box.nodup_points _), ?_⟩
    intro p
    rw [List.mem_filter, Box.mem_points]

/-- Witness of C25: one group valid everywhere on a rank of `1 x 2 x 1 x 1` points, two
time steps. -/
theorem calc_rank_ref_order_witness :
    Consts.unit.CPTS_T = 1 ∧
    calc_rank_ref Consts.unit smallContext everywhere =
      .returned ((loopRange (init Consts.unit smallContext everywhere).state.1.begin_dt
          ((init Consts.unit smallContext everywhere).state.1.begin_dt +
            (init Consts.unit smallContext everywhere).state.1.dt)).flatMap (fun t =>
        (init Consts.unit smallContext everywhere).state.2.flatMap (fun eg =>
          Update.exchange_halos eg.addr t (t + 1) ::
            (eg.box.points.filter
              (fun p => eg.is_in_valid_domain
                (init Consts.unit smallContext everywhere).state.1 t p.n p.x p.y p.z)).map
              (Update.calc_point eg.addr t)))) ∧
    (calc_rank_ref Consts.unit smallContext everywhere).state =
      [Update.exchange_halos 0 0 1, Update.calc_point 0 0 ⟨0, 0, 0, 0⟩,
        Update.calc_point 0 0 ⟨0, 1, 0, 0⟩,
        Update.exchange_halos 0 1 2, Update.calc_point 0 1 ⟨0, 0, 0, 0⟩,
        Update.calc_point 0 1 ⟨0, 1, 0, 0⟩] :=
  ⟨rfl,
    (calc_rank_ref_order Consts.unit smallContext everywhere
      (init Consts.unit smallContext everywhere).state.1
      (init Consts.unit smallContext everywhere).state.2 rfl rfl).1,
    by decide⟩


/-! ## Solid boxes -/

/-- After a call of `find_bounding_box` that computed the box and returned, every valid
point of the rank domain lies in the box. -/
theorem find_bounding_box_encloses (K : Consts) (context : StencilContext)
    (eg eg2 : EqGroupBase) (hfresh : eg.bb_valid = false)
    (hn : context.dn ≤ idx_max) (hx : context.dx ≤ idx_max)
    (hy : context.dy ≤ idx_max) (hz : context.dz ≤ idx_max)
    (hret : find_bounding_box K context eg = .returned eg2) (p : Pt)
    (hp : p ∈ validPoints context eg) : eg2.box.contains p := by
  have hst : (find_bounding_box K context eg).state = eg2 := by
    rw [hret]
    rfl
  have hne : (validPoints context eg).Nonempty := ⟨p, hp⟩
  obtain ⟨s1, s2, s3, s4, s5, s6, s7, s8, s9, s10⟩ :=
    scanDomain_spec context eg hn hx hy hz hne
  obtain ⟨_, _, _, _, _, e6, _⟩ := find_bounding_box_state K context eg hfresh
  rw [hst] at e6
  obtain ⟨b1, b2, b3, b4, b5, b6, b7, b8⟩ := e6 s2
  have a1 := s3.2 ⟨p, hp, rfl⟩
  have a2 := s4.2 ⟨p, hp, rfl⟩
  have a3 := s5.2 ⟨p, hp, rfl⟩
  have a4 := s6.2 ⟨p, hp, rfl⟩
  have a5 := s7.2 ⟨p, hp, rfl⟩
  have a6 := s8.2 ⟨p, hp, rfl⟩
  have a7 := s9.2 ⟨p, hp, rfl⟩
  have a8 := s10.2 ⟨p, hp, rfl⟩
  simp only [Box.contains, EqGroupBase.box, b1, b2, b3, b4, b5, b6, b7, b8]
  refine ⟨⟨a1, ?_⟩, ⟨a3, ?_⟩, ⟨a5, ?_⟩, ⟨a7, ?_⟩⟩ <;> omega

/-- **C26.** After a call of `find_bounding_box` that computed the box (`bb_valid` was
false, rank sizes that are `idx_t` values) and returned normally, the box is solid: it
lies inside the rank domain, and for every point `p` of the rank domain
`is_in_valid_domain` holds at `t = 0` if and only if `p` lies in the box.  Hence, for a
context `c2` and a time `t` at which the predicate is what it was at `t = 0` in the call,
the domain check in the loop of `calc_rank_ref` over the box drops no point. -/
theorem find_bounding_box_box_solid (K : Consts) (context : StencilContext)
    (eg eg2 : EqGroupBase) (hfresh : eg.bb_valid = false)
    (hn : context.dn ≤ idx_max) (hx : context.dx ≤ idx_max)
    (hy : context.dy ≤ idx_max) (hz : context.dz ≤ idx_max)
    (hret : find_bounding_box K context eg = .returned eg2) :
    (∀ p : Pt, eg2.box.contains p → context.domain.contains p) ∧
    (∀ p : Pt, context.domain.contains p →
      (eg2.is_in_valid_domain context 0 p.n p.x p.y p.z = true ↔ eg2.box.contains p)) ∧
    (∀ (c2 : StencilContext) (t : Int),
      (∀ n x y z, eg2.is_in_valid_domain c2 t n x y z =
        eg2.is_in_valid_domain context 0 n x y z) →
      eg2.box.points.filter (fun p => eg2.is_in_valid_domain c2 t p.n p.x p.y p.z) =
        eg2.box.points) := by
  have hpred : eg2.is_in_valid_domain = eg.is_in_valid_domain := by
    have := (find_bounding_box_frame K context eg).2
    rw [hret] at this
    exact this
  have hin : ∀ p : Pt, eg2.box.contains p →
      context.domain.contains p ∧ eg.is_in_valid_domain context 0 p.n p.x p.y p.z = true := by
    intro p hp
    have := find_bounding_box_solid K context eg eg2 hfresh hn hx hy hz hret p hp
    simp only [validPoints, Set.mem_setOf_eq] at this
    obtain ⟨a, b, c, d, e⟩ := this
    exact ⟨⟨by simpa [StencilContext.domain] using a, by simpa [StencilContext.domain] using b,
      by simpa [StencilContext.domain] using c, by simpa [StencilContext.domain] using d⟩, e⟩
  refine ⟨fun p hp => (hin p hp).1, ?_, ?_⟩
  · intro p hp
    rw [hpred]
    constructor
    · intro hv
      apply find_bounding_box_encloses K context eg eg2 hfresh hn hx hy hz hret p
      obtain ⟨a, b, c, d⟩ := hp
      simp only [StencilContext.domain] at a b c d
      exact ⟨a, b, c, d, hv⟩
    · intro hb
      exact (hin p hb).2
  · intro c2 t hstat
    rw [List.filter_eq_self]
    intro p hp
    rw [hstat, hpred]
    exact (hin p (Box.mem_points.mp hp)).2

/-- Witness of C26: a `1 x 3 x 2 x 1` domain whose predicate holds where `x >= 1`; the box
is `[1,3)` along `x`, and the point `(0,0,0,0)` is neither valid nor in the box. -/
theorem find_bounding_box_box_solid_witness :
    (∀ p : Pt, (StencilContext.ofSizes 1 3 2 1).domain.contains p →
      ((find_bounding_box Consts.unit (StencilContext.ofSizes 1 3 2 1)
          (EqGroupBase.fresh 0 (fun _ _ _ x _ _ => decide (1 ≤ x)))).state.is_in_valid_domain
          (StencilContext.ofSizes 1 3 2 1) 0 p.n p.x p.y p.z = true ↔
        (find_bounding_box Consts.unit (StencilContext.ofSizes 1 3 2 1)
          (EqGroupBase.fresh 0 (fun _ _ _ x _ _ => decide (1 ≤ x)))).state.box.contains p)) ∧
    (find_bounding_box Consts.unit (StencilContext.ofSizes 1 3 2 1)
      (EqGroupBase.fresh 0 (fun _ _ _ x _ _ => decide (1 ≤ x)))).state.box =
      { begin_n := 0, begin_x := 1, begin_y := 0, begin_z := 0,
        end_n := 1, end_x := 3, end_y := 2, end_z := 1 } :=
  ⟨(find_bounding_box_box_solid Consts.unit (StencilContext.ofSizes 1 3 2 1)
      (EqGroupBase.fresh 0 (fun _ _ _ x _ _ => decide (1 ≤ x))) _ rfl
      (by decide) (by decide) (by decide) (by decide) rfl).2.1,
    by decide⟩


/-! ## Groups without valid points -/

theorem scanDomain_empty (context : StencilContext) (eg : EqGroupBase)
    (hempty : validPoints context eg = ∅) :
    (scanDomain (eg.is_in_valid_domain context 0)
      context.dn context.dx context.dy context.dz).npts = 0 := by
  rw [scanDomain_npts, hempty]
  simp

/-- A group without valid points: `find_bounding_box` returns with an all-zero box. -/
theorem find_bounding_box_empty (K : Consts) (context : StencilContext) (eg : EqGroupBase)
    (hfresh : eg.bb_valid = false) (hempty : validPoints context eg = ∅) :
    find_bounding_box K context eg =
      .returned { eg with
        begin_bbn := 0, end_bbn := 0, len_bbn := 0,
        begin_bbx := 0, end_bbx := 0, len_bbx := 0,
        begin_bby := 0, end_bby := 0, len_bby := 0,
        begin_bbz := 0, end_bbz := 0, len_bbz := 0,
        bb_size := 0, bb_valid := true } := by
  have h0 := scanDomain_empty context eg hempty
  unfold find_bounding_box
  simp only [hfresh, Bool.false_eq_true, if_false, h0, ne_eq, not_true_eq_false, sub_self,
    mul_zero, Int.zero_tmod, or_self]

/-- The box of a group computed by `find_bounding_box` does not begin below zero. -/
theorem find_bounding_box_begin_nonneg (K : Consts) (context : StencilContext)
    (eg eg2 : EqGroupBase) (hfresh : eg.bb_valid = false)
    (hn : context.dn ≤ idx_max) (hx : context.dx ≤ idx_max)
    (hy : context.dy ≤ idx_max) (hz : context.dz ≤ idx_max)
    (hret : find_bounding_box K context eg = .returned eg2) :
    0 ≤ eg2.begin_bbn ∧ 0 ≤ eg2.begin_bbx ∧ 0 ≤ eg2.begin_bby ∧ 0 ≤ eg2.begin_bbz := by
  have hst : (find_bounding_box K context eg).state = eg2 := by
    rw [hret]
    rfl
  obtain ⟨_, _, _, _, _, e6, e7⟩ := find_bounding_box_state K context eg hfresh
  rw [hst] at e6 e7
  by_cases h0 : (scanDomain (eg.is_in_valid_domain context 0)
      context.dn context.dx context.dy context.dz).npts = 0
  · obtain ⟨b1, _, b3, _, b5, _, b7, _⟩ := e7 h0
    rw [b1, b3, b5, b7]
    exact ⟨le_refl _, le_refl _, le_refl _, le_refl _⟩
  · have hne : (validPoints context eg).Nonempty := by
      by_contra hcon
      rw [Set.not_nonempty_iff_eq_empty] at hcon
      exact h0 (scanDomain_empty context eg hcon)
    obtain ⟨_, _, s3, _, s5, _, s7, _, s9, _⟩ := scanDomain_spec context eg hn hx hy hz hne
    obtain ⟨b1, _, b3, _, b5, _, b7, _⟩ := e6 h0
    obtain ⟨p1, hp1, q1⟩ := s3.1
    obtain ⟨p2, hp2, q2⟩ := s5.1
    obtain ⟨p3, hp3, q3⟩ := s7.1
    obtain ⟨p4, hp4, q4⟩ := s9.1
    simp only [validPoints, Set.mem_setOf_eq] at hp1 hp2 hp3 hp4
    rw [b1, b3, b5, b7, ← q1, ← q2, ← q3, ← q4]
    exact ⟨hp1.1.1, hp2.2.1.1, hp3.2.2.1.1, hp4.2.2.2.1.1⟩

theorem forall₂_mem_left {α β : Type} {R : α → β → Prop} {l1 : List α} {l2 : List β}
    (h : List.Forall₂ R l1 l2) {a : α} (ha : a ∈ l1) : ∃ b ∈ l2, R a b := by
  induction h with
  | nil => simp at ha
  | cons hab _ ih =>
    rcases List.mem_cons.mp ha with rfl | ha2
    · exact ⟨_, List.mem_cons_self _ _, hab⟩
    · obtain ⟨b, hb, hr⟩ := ih ha2
      exact ⟨b, List.mem_cons_of_mem _ hb, hr⟩

/-- **C30.** A list of groups whose boxes are all still to be computed, on a context whose
box is not valid, with rank sizes that are `idx_t` values; `eg` is a group of the list
whose predicate holds at no point of the rank domain at `t = 0`.  Then
`find_bounding_box` returns normally for `eg` with `begin_bbd = end_bbd = len_bbd = 0` in
every dimension, `bb_size = 0` and `bb_valid` set; and when `find_bounding_boxes`
returns, the group is in the result with that box, and the box of the rank has
`begin_bbd = 0` and `end_bbd >= 0` in every dimension, wherever the boxes of the other
groups lie. -/
theorem find_bounding_boxes_empty_group (K : Consts) (context : StencilContext)
    (eqGroups : List EqGroupBase) (c2 : StencilContext) (egs : List EqGroupBase)
    (eg : EqGroupBase)
    (hfresh : context.bb_valid = false) (hgf : ∀ g ∈ eqGroups, g.bb_valid = false)
    (hn : context.dn ≤ idx_max) (hx : context.dx ≤ idx_max)
    (hy : context.dy ≤ idx_max) (hz : context.dz ≤ idx_max)
    (heg : eg ∈ eqGroups)
    (hempty : ∀ cc : StencilContext, SameParams cc context → validPoints cc eg = ∅)
    (hret : find_bounding_boxes K context eqGroups = .returned (c2, egs)) :
    (∀ cc : StencilContext, SameParams cc context →
      find_bounding_box K cc eg =
        .returned { eg with
          begin_bbn := 0, end_bbn := 0, len_bbn := 0,
          begin_bbx := 0, end_bbx := 0, len_bbx := 0,
          begin_bby := 0, end_bby := 0, len_bby := 0,
          begin_bbz := 0, end_bbz := 0, len_bbz := 0,
          bb_size := 0, bb_valid := true }) ∧
    ({ eg with
        begin_bbn := 0, end_bbn := 0, len_bbn := 0,
        begin_bbx := 0, end_bbx := 0, len_bbx := 0,
        begin_bby := 0, end_bby := 0, len_bby := 0,
        begin_bbz := 0, end_bbz := 0, len_bbz := 0,
        bb_size := 0, bb_valid := true } ∈ egs) ∧
    (c2.begin_bbn = 0 ∧ 0 ≤ c2.end_bbn) ∧ (c2.begin_bbx = 0 ∧ 0 ≤ c2.end_bbx) ∧
    (c2.begin_bby = 0 ∧ 0 ≤ c2.end_bby) ∧ (c2.begin_bbz = 0 ∧ 0 ≤ c2.end_bbz) := by
  have hbox : ∀ cc : StencilContext, SameParams cc context →
      find_bounding_box K cc eg =
        .returned { eg with
          begin_bbn := 0, end_bbn := 0, len_bbn := 0,
          begin_bbx := 0, end_bbx := 0, len_bbx := 0,
          begin_bby := 0, end_bby := 0, len_bby := 0,
          begin_bbz := 0, end_bbz := 0, len_bbz := 0,
          bb_size := 0, bb_valid := true } :=
    fun cc hcc => find_bounding_box_empty K cc eg (hgf eg heg) (hempty cc hcc)
  have hgroups := init_groups K context eqGroups c2 egs hfresh hret
  obtain ⟨eg2, heg2, cc, hcc, hfb⟩ := forall₂_mem_left hgroups heg
  rw [hbox cc hcc] at hfb
  cases hfb
  have hnonneg : ∀ g ∈ egs,
      0 ≤ g.begin_bbn ∧ 0 ≤ g.begin_bbx ∧ 0 ≤ g.begin_bby ∧ 0 ≤ g.begin_bbz := by
    intro g hg
    obtain ⟨g0, hg0, cc2, hcc2, hfb2⟩ := forall₂_mem_right hgroups hg
    exact find_bounding_box_begin_nonneg K cc2 g0 g (hgf g0 hg0)
      (by rw [hcc2.dn]; exact hn) (by rw [hcc2.dx]; exact hx)
      (by rw [hcc2.dy]; exact hy) (by rw [hcc2.dz]; exact hz) hfb2
  obtain ⟨⟨c1, c2'⟩, ⟨c3, c4⟩, ⟨c5, c6⟩, ⟨c7, c8⟩⟩ :=
    init_box_contains K context eqGroups c2 egs hfresh hret _ heg2
  obtain ⟨⟨⟨g1, hg1, a1⟩, _⟩, ⟨⟨g2, hg2, a2⟩, _⟩, ⟨⟨g3, hg3, a3⟩, _⟩, ⟨⟨g4, hg4, a4⟩, _⟩⟩ :=
    init_box_attained K context eqGroups c2 egs hfresh hgf hret _ heg2
  have n1 := (hnonneg g1 hg1).1
  have n2 := (hnonneg g2 hg2).2.1
  have n3 := (hnonneg g3 hg3).2.2.1
  have n4 := (hnonneg g4 hg4).2.2.2
  simp only at c1 c2' c3 c4 c5 c6 c7 c8
  refine ⟨hbox, heg2, ⟨?_, c2'⟩, ⟨?_, c4⟩, ⟨?_, c6⟩, ⟨?_, c8⟩⟩ <;> omega

theorem find_bounding_boxes_empty_group_witness :
    ((find_bounding_boxes Consts.unit (StencilContext.ofSizes 1 4 1 1) oneEmpty).state.1.begin_bbx
        = 0 ∧
      0 ≤ (find_bounding_boxes Consts.unit (StencilContext.ofSizes 1 4 1 1)
        oneEmpty).state.1.end_bbx) ∧
    (find_bounding_boxes Consts.unit (StencilContext.ofSizes 1 4 1 1) oneEmpty).state.1.end_bbx
      = 4 ∧
    ((find_bounding_boxes Consts.unit (StencilContext.ofSizes 1 4 1 1) oneEmpty).state.2.map
      (fun g => (g.begin_bbx, g.end_bbx, g.bb_size, g.bb_valid))) =
      [(2, 4, 2, true), (0, 0, 0, true)] :=
  ⟨(find_bounding_boxes_empty_group Consts.unit (StencilContext.ofSizes 1 4 1 1) oneEmpty _ _
      (EqGroupBase.fresh 1 (fun _ _ _ _ _ _ => false)) rfl
      (by intro g hg; simp only [oneEmpty, List.mem_cons, List.mem_singleton,
            List.not_mem_nil, or_false] at hg; rcases hg with rfl | rfl <;> rfl)
      (by decide) (by decide) (by decide) (by decide)
      (by simp [oneEmpty])
      (fun cc _ => by ext p; simp [validPoints, EqGroupBase.fresh])
      rfl).2.2.2.1, by decide, by decide⟩


/-- **C28 (evaluation of the code).** Vectors of two elements along `x`, rank size
`dx = 4`, halo width `hx = 3` (the pad of the grid is 3 as well), neighbor `rank_prev`
along `x`.  The unpack phase sets `begin_x = -hx = -3`, a negative index, and divides it by
`VLEN_X` with C++ truncation: `begin_xv = -1`, where rounding down gives `-2`.  The vectors
written are `[-1, 0)`, that is the elements `x = -2` and `x = -1`; the element `x = -3`
of the unpack window is not written. -/
theorem exchange_halos_unpack_negative_begin :
    haloWidths (haloContext 3) 0 3 0 0 = (0, 3, 0, 0) ∧
    (unpackWindow (haloContext 3) (haloWidths (haloContext 3) 0 3 0 0) 1 0 1 1).begin_x = -3 ∧
    (unpackWindow (haloContext 3) (haloWidths (haloContext 3) 0 3 0 0) 1 0 1 1).end_x = 0 ∧
    (vecWindow foldX2
      (unpackWindow (haloContext 3) (haloWidths (haloContext 3) 0 3 0 0) 1 0 1 1)).begin_x
        = -1 ∧
    Int.fdiv
      (unpackWindow (haloContext 3) (haloWidths (haloContext 3) 0 3 0 0) 1 0 1 1).begin_x
      foldX2.VLEN_X = -2 ∧
    unpackWrites foldX2 (haloContext 3) 0 3 0 0 1 0 1 1 = [⟨0, -2, 0, 0⟩, ⟨0, -1, 0, 0⟩] ∧
    (unpackWindow (haloContext 3) (haloWidths (haloContext 3) 0 3 0 0) 1 0 1 1).contains
      ⟨0, -3, 0, 0⟩ ∧
    (⟨0, -3, 0, 0⟩ : Pt) ∉ unpackWrites foldX2 (haloContext 3) 0 3 0 0 1 0 1 1 :=
  ⟨by decide, by decide, by decide, by decide, by decide, by decide, by decide, by decide⟩


/-! ## Exactness of the division by the vector lengths -/

theorem loopWindows_nonneg {b e s : Int} {w : Int × Int} (hb : 0 ≤ b) (he : 0 ≤ e)
    (hs : 0 ≤ s) (hw : w ∈ loopWindows b e s) : 0 ≤ w.1 ∧ 0 ≤ w.2 := by
  obtain ⟨i, ⟨h0, _⟩, rfl⟩ := mem_loopWindows.mp hw
  have : 0 ≤ i * s := mul_nonneg h0 hs
  exact ⟨by simp only; omega, le_min (by omega) he⟩

theorem tileLoops_nonneg {WS W : Box} {sn sx sy sz : Int} (hWS : WS.NonNeg)
    (hn : 0 ≤ sn) (hx : 0 ≤ sx) (hy : 0 ≤ sy) (hz : 0 ≤ sz)
    (hW : W ∈ tileLoops WS sn sx sy sz) : W.NonNeg := by
  obtain ⟨tn, tx, ty, tz⟩ := mem_tileLoops.mp hW
  obtain ⟨⟨a1, a2⟩, ⟨b1, b2⟩, ⟨c1, c2⟩, ⟨d1, d2⟩⟩ := hWS
  exact ⟨loopWindows_nonneg a1 a2 hn tn, loopWindows_nonneg b1 b2 hx tx,
    loopWindows_nonneg c1 c2 hy ty, loopWindows_nonneg d1 d2 hz tz⟩

theorem tileLoops_vecAligned {K : Consts} {WS W : Box} {sn sx sy sz : Int}
    (hWS : WS.VecAligned K) (hn : K.VLEN_N ∣ sn) (hx : K.VLEN_X ∣ sx) (hy : K.VLEN_Y ∣ sy)
    (hz : K.VLEN_Z ∣ sz) (hW : W ∈ tileLoops WS sn sx sy sz) : W.VecAligned K := by
  obtain ⟨tn, tx, ty, tz⟩ := mem_tileLoops.mp hW
  obtain ⟨⟨a1, a2⟩, ⟨b1, b2⟩, ⟨c1, c2⟩, ⟨d1, d2⟩⟩ := hWS
  exact ⟨loopWindows_dvd a1 a2 hn tn, loopWindows_dvd b1 b2 hx tx,
    loopWindows_dvd c1 c2 hy ty, loopWindows_dvd d1 d2 hz tz⟩

theorem clipToGroup_vecAligned {K : Consts} {W : Box} {g : EqGroupBase}
    (hW : W.VecAligned K) (hg : g.box.VecAligned K) : (clipToGroup W g).VecAligned K := by
  obtain ⟨⟨a1, a2⟩, ⟨b1, b2⟩, ⟨c1, c2⟩, ⟨d1, d2⟩⟩ := hW
  obtain ⟨⟨e1, e2⟩, ⟨f1, f2⟩, ⟨g1, g2⟩, ⟨h1, h2⟩⟩ := hg
  simp only [EqGroupBase.box] at e1 e2 f1 f2 g1 g2 h1 h2
  unfold Box.VecAligned clipToGroup
  simp only
  refine ⟨⟨?_, ?_⟩, ⟨?_, ?_⟩, ⟨?_, ?_⟩, ⟨?_, ?_⟩⟩
  · rcases max_choice W.begin_n g.begin_bbn with h | h <;> rw [h] <;> assumption
  · rcases min_choice W.end_n g.end_bbn with h | h <;> rw [h] <;> assumption
  · rcases max_choice W.begin_x g.begin_bbx with h | h <;> rw [h] <;> assumption
  · rcases min_choice W.end_x g.end_bbx with h | h <;> rw [h] <;> assumption
  · rcases max_choice W.begin_y g.begin_bby with h | h <;> rw [h] <;> assumption
  · rcases min_choice W.end_y g.end_bby with h | h <;> rw [h] <;> assumption
  · rcases max_choice W.begin_z g.begin_bbz with h | h <;> rw [h] <;> assumption
  · rcases min_choice W.end_z g.end_bbz with h | h <;> rw [h] <;> assumption

theorem shiftBy_vecAligned {K : Consts} {W : Box} {c : StencilContext} (k : Nat)
    (hW : W.VecAligned K)
    (hang : K.VLEN_N ∣ c.angle_n ∧ K.VLEN_X ∣ c.angle_x ∧ K.VLEN_Y ∣ c.angle_y ∧
      K.VLEN_Z ∣ c.angle_z) : (W.shiftBy c k).VecAligned K := by
  obtain ⟨⟨a1, a2⟩, ⟨b1, b2⟩, ⟨c1, c2⟩, ⟨d1, d2⟩⟩ := hW
  obtain ⟨hn, hx, hy, hz⟩ := hang
  exact ⟨⟨dvd_sub a1 (Dvd.dvd.mul_left hn _), dvd_sub a2 (Dvd.dvd.mul_left hn _)⟩,
    ⟨dvd_sub b1 (Dvd.dvd.mul_left hx _), dvd_sub b2 (Dvd.dvd.mul_left hx _)⟩,
    ⟨dvd_sub c1 (Dvd.dvd.mul_left hy _), dvd_sub c2 (Dvd.dvd.mul_left hy _)⟩,
    ⟨dvd_sub d1 (Dvd.dvd.mul_left hz _), dvd_sub d2 (Dvd.dvd.mul_left hz _)⟩⟩

/-- On a window whose ends are multiples of the vector lengths the divisions of
`calc_block` are exact: the vectors of the vector window hold the elements of the window. -/
theorem vecWindow_exact {K : Consts} {B : Box} (hB : B.VecAligned K) :
    Box.ofVectors K (vecWindow K B) = B := by
  obtain ⟨⟨a1, a2⟩, ⟨b1, b2⟩, ⟨c1, c2⟩, ⟨d1, d2⟩⟩ := hB
  simp only [Box.ofVectors, vecWindow, Int.tdiv_mul_cancel a1, Int.tdiv_mul_cancel a2,
    Int.tdiv_mul_cancel b1, Int.tdiv_mul_cancel b2, Int.tdiv_mul_cancel c1,
    Int.tdiv_mul_cancel c2, Int.tdiv_mul_cancel d1, Int.tdiv_mul_cancel d2]

theorem setAngles_vlen_dvd (K : Consts) (c : StencilContext) :
    K.VLEN_N ∣ (setAngles K c).angle_n ∧ K.VLEN_X ∣ (setAngles K c).angle_x ∧
    K.VLEN_Y ∣ (setAngles K c).angle_y ∧ K.VLEN_Z ∣ (setAngles K c).angle_z := by
  obtain ⟨dn, dx, dy, dz⟩ := setAngles_dvd K c
  exact ⟨Dvd.dvd.trans (Dvd.intro_left _ rfl) dn, Dvd.dvd.trans (Dvd.intro_left _ rfl) dx,
    Dvd.dvd.trans (Dvd.intro_left _ rfl) dy, Dvd.dvd.trans (Dvd.intro_left _ rfl) dz⟩

/-- After `init`, when every group's box begins and ends at multiples of the vector
lengths and so do the region sizes given to `init`, the sweep window of the rank loops
and the region sizes used by them are multiples of the vector lengths. -/
theorem sweepWindow_vecAligned (K : Consts) (context : StencilContext)
    (eqGroups : List EqGroupBase) (c : StencilContext) (egs : List EqGroupBase)
    (hfresh : context.bb_valid = false) (hgf : ∀ g ∈ eqGroups, g.bb_valid = false)
    (hinit : init K context eqGroups = .returned (c, egs))
    (hr : K.VLEN_N ∣ context.rn ∧ K.VLEN_X ∣ context.rx ∧ K.VLEN_Y ∣ context.ry ∧
      K.VLEN_Z ∣ context.rz)
    (hbox : ∀ g ∈ egs, g.box.VecAligned K) (g : EqGroupBase) (hg : g ∈ egs) :
    (sweepWindow (setAngles K c) egs).VecAligned K ∧
    (K.VLEN_N ∣ c.rn ∧ K.VLEN_X ∣ c.rx ∧ K.VLEN_Y ∣ c.ry ∧ K.VLEN_Z ∣ c.rz) := by
  obtain ⟨⟨⟨g1, hg1, e1⟩, ⟨g2, hg2, e2⟩⟩, ⟨⟨g3, hg3, e3⟩, ⟨g4, hg4, e4⟩⟩,
    ⟨⟨g5, hg5, e5⟩, ⟨g6, hg6, e6⟩⟩, ⟨⟨g7, hg7, e7⟩, ⟨g8, hg8, e8⟩⟩⟩ :=
    init_box_attained K context eqGroups c egs hfresh hgf hinit g hg
  obtain ⟨dn, dx, dy, dz⟩ := setAngles_vlen_dvd K c
  have a1 := (hbox g1 hg1).1.1
  have a2 := (hbox g2 hg2).1.2
  have a3 := (hbox g3 hg3).2.1.1
  have a4 := (hbox g4 hg4).2.1.2
  have a5 := (hbox g5 hg5).2.2.1.1
  have a6 := (hbox g6 hg6).2.2.1.2
  have a7 := (hbox g7 hg7).2.2.2.1
  have a8 := (hbox g8 hg8).2.2.2.2
  simp only [EqGroupBase.box] at a1 a2 a3 a4 a5 a6 a7 a8
  rw [e1] at a1
  rw [e2] at a2
  rw [e3] at a3
  rw [e4] at a4
  rw [e5] at a5
  rw [e6] at a6
  rw [e7] at a7
  rw [e8] at a8
  refine ⟨⟨⟨a1, dvd_add a2 (Dvd.dvd.mul_right dn _)⟩, ⟨a3, dvd_add a4 (Dvd.dvd.mul_right dx _)⟩,
      ⟨a5, dvd_add a6 (Dvd.dvd.mul_right dy _)⟩, ⟨a7, dvd_add a8 (Dvd.dvd.mul_right dz _)⟩⟩, ?_⟩
  have hinit2 : find_bounding_boxes K context eqGroups = .returned (c, egs) := hinit
  obtain ⟨⟨r1, r2, r3, r4⟩, _⟩ :=
    find_bounding_boxes_region_sizes K context eqGroups c egs hfresh hinit2
  obtain ⟨c1, _, hc⟩ := find_bounding_boxes_returned K context eqGroups c egs hfresh hinit2
  obtain ⟨⟨n1, n2, n3⟩, ⟨x1, x2, x3⟩, ⟨y1, y2, y3⟩, ⟨z1, z2, z3⟩, _⟩ := bbFinish_fields c1
  rw [← hc] at n1 n2 n3 x1 x2 x3 y1 y2 y3 z1 z2 z3
  rw [← n1, ← n2] at n3
  rw [← x1, ← x2] at x3
  rw [← y1, ← y2] at y3
  rw [← z1, ← z2] at z3
  obtain ⟨hrn, hrx, hry, hrz⟩ := hr
  refine ⟨?_, ?_, ?_, ?_⟩
  · rw [r1]
    split_ifs
    · rw [n3]
      exact dvd_sub a2 a1
    · exact hrn
  · rw [r2]
    split_ifs
    · rw [x3]
      exact dvd_sub a4 a3
    · exact hrx
  · rw [r3]
    split_ifs
    · rw [y3]
      exact dvd_sub a6 a5
    · exact hry
  · rw [r4]
    split_ifs
    · rw [z3]
      exact dvd_sub a8 a7
    · exact hrz

/-- **C27 (counterexample).** Vectors of two elements along `x` (`CLEN_X = 1`, so
`CPTS_X = 2`), a rank of `1 x 4 x 1 x 1` points, blocks of two points along `x`, one
group valid where `1 <= x < 3`.  `init` returns: the box `[1,3)` is solid and its length
`2` is a multiple of `CLEN_X` and of `CPTS_X`.  The run of `calc_rank_opt` calls
`calc_region` once, and the window handed to the block-level sweep is `[1,3)` along `x`:
its begin index `1` is not divisible by `VLEN_X = 2`.  The region loops hand the block
`[1,3)` to `calc_block`, whose division gives the vector window `[0,1)`, which holds the
elements `x = 0` and `x = 1` and not `x = 2`. -/
theorem calc_region_unaligned_window :
    (∃ s, init foldX2 blockContext innerPair = .returned s) ∧
    (init foldX2 blockContext innerPair).state.2.map
      (fun g => (g.begin_bbx, g.end_bbx, g.len_bbx, g.bb_valid)) = [(1, 3, 2, true)] ∧
    foldX2.CLEN_X ∣ 2 ∧ foldX2.CPTS_X ∣ 2 ∧
    (calc_rank_opt foldX2 blockContext innerPair).state.trace =
      [Event.exchange_halos 0 0 1,
       Event.calc_region 0 1 [0] ⟨0, 1, 0, 0, 1, 3, 1, 1⟩
        [{ eg := 0, rt := 0, window := ⟨0, 1, 0, 0, 1, 3, 1, 1⟩,
           clip := ⟨0, 1, 0, 0, 1, 3, 1, 1⟩, ran := true }]] ∧
    ¬ (foldX2.VLEN_X ∣ (⟨0, 1, 0, 0, 1, 3, 1, 1⟩ : Box).begin_x) ∧
    tileLoops ⟨0, 1, 0, 0, 1, 3, 1, 1⟩
        (calc_rank_opt foldX2 blockContext innerPair).state.context.bn
        (calc_rank_opt foldX2 blockContext innerPair).state.context.bx
        (calc_rank_opt foldX2 blockContext innerPair).state.context.by_
        (calc_rank_opt foldX2 blockContext innerPair).state.context.bz =
      [⟨0, 1, 0, 0, 1, 3, 1, 1⟩] ∧
    vecWindow foldX2 ⟨0, 1, 0, 0, 1, 3, 1, 1⟩ = ⟨0, 0, 0, 0, 1, 1, 1, 1⟩ ∧
    Box.ofVectors foldX2 (vecWindow foldX2 ⟨0, 1, 0, 0, 1, 3, 1, 1⟩) =
      ⟨0, 0, 0, 0, 1, 2, 1, 1⟩ ∧
    calc_block foldX2 ⟨0, 1, 0, 0, 1, 3, 1, 1⟩ = [⟨0, 0, 0, 0⟩, ⟨0, 1, 0, 0⟩] :=
  ⟨⟨_, rfl⟩, by decide, by decide, by decide, by decide, by decide, by decide, by decide,
    by decide, by decide⟩

/-- **C27 (amended).** `init` computes all boxes (nothing valid before, rank sizes that
are `idx_t` values) and returns; the region sizes and the block sizes given to the run are
multiples of the vector lengths `VLEN_d`, the block sizes are not negative, and every
group's box begins and ends at multiples of `VLEN_d`.  Then for every evaluation of a
`calc_region` call of `calc_rank_opt` that runs the block-level sweep, the window handed
to the sweep, and every block that the region loops hand to `calc_block`, has begin and
end indices that are not negative and are divisible by `VLEN_d` in every dimension, and
the division by `VLEN_d` in `calc_block` is exact: the vectors of the vector window hold
the elements of the window and no others. -/
theorem calc_region_block_windows (K : Consts) (context : StencilContext)
    (eqGroups : List EqGroupBase) (c : StencilContext) (egs : List EqGroupBase)
    (hfresh : context.bb_valid = false) (hgf : ∀ g ∈ eqGroups, g.bb_valid = false)
    (hn : context.dn ≤ idx_max) (hx : context.dx ≤ idx_max)
    (hy : context.dy ≤ idx_max) (hz : context.dz ≤ idx_max)
    (hinit : init K context eqGroups = .returned (c, egs))
    (hr : K.VLEN_N ∣ context.rn ∧ K.VLEN_X ∣ context.rx ∧ K.VLEN_Y ∣ context.ry ∧
      K.VLEN_Z ∣ context.rz)
    (hb : K.VLEN_N ∣ context.bn ∧ K.VLEN_X ∣ context.bx ∧ K.VLEN_Y ∣ context.by_ ∧
      K.VLEN_Z ∣ context.bz)
    (hbpos : 0 ≤ context.bn ∧ 0 ≤ context.bx ∧ 0 ≤ context.by_ ∧ 0 ≤ context.bz)
    (hbox : ∀ g ∈ egs, g.box.VecAligned K)
    (start_dt stop_dt : Int) (set : List Nat) (W : Box) (evals : List RegionEval)
    (ev : RegionEval)
    (htr : Event.calc_region start_dt stop_dt set W evals ∈
      (calc_rank_opt K context eqGroups).state.trace)
    (hev : ev ∈ evals) (hran : ev.ran = true) :
    (ev.clip.NonNeg ∧ ev.clip.VecAligned K ∧
      Box.ofVectors K (vecWindow K ev.clip) = ev.clip) ∧
    ((calc_rank_opt K context eqGroups).state.context.bn = context.bn ∧
      (calc_rank_opt K context eqGroups).state.context.bx = context.bx ∧
      (calc_rank_opt K context eqGroups).state.context.by_ = context.by_ ∧
      (calc_rank_opt K context eqGroups).state.context.bz = context.bz) ∧
    ∀ B ∈ tileLoops ev.clip context.bn context.bx context.by_ context.bz,
      B.NonNeg ∧ B.VecAligned K ∧ Box.ofVectors K (vecWindow K B) = B := by
  obtain ⟨_, hW, _, hevals, _⟩ := mem_trace_calc_region K context eqGroups c egs hinit
    start_dt stop_dt set W evals htr
  rw [hevals, calc_region_times_eq] at hev
  obtain ⟨k, tg, htg, rfl⟩ := mem_evalsFrom _ 0 hev
  obtain ⟨t, g⟩ := tg
  obtain ⟨hg, _, _⟩ := mem_schedule htg
  have hpar := init_sameParams K context eqGroups c egs hinit
  obtain ⟨hsw, hrn, hrx, hry, hrz⟩ :=
    sweepWindow_vecAligned K context eqGroups c egs hfresh hgf hinit hr hbox g hg
  have hWa : W.VecAligned K := tileLoops_vecAligned hsw hrn hrx hry hrz hW
  have hclipA : (clipToGroup (W.shiftBy (setAngles K c) k) g).VecAligned K :=
    clipToGroup_vecAligned (shiftBy_vecAligned k hWa (setAngles_vlen_dvd K c)) (hbox g hg)
  obtain ⟨g0, hg0, cc, hcc, hfb⟩ :=
    forall₂_mem_right (init_groups K context eqGroups c egs hfresh hinit) hg
  obtain ⟨p1, p2, p3, p4⟩ := find_bounding_box_begin_nonneg K cc g0 g (hgf g0 hg0)
    (by rw [hcc.dn]; exact hn) (by rw [hcc.dx]; exact hx)
    (by rw [hcc.dy]; exact hy) (by rw [hcc.dz]; exact hz) hfb
  have hran2 : (clipToGroup (W.shiftBy (setAngles K c) k) g).nonempty = true := hran
  simp only [Box.nonempty, Bool.and_eq_true, decide_eq_true_eq, gt_iff_lt] at hran2
  obtain ⟨⟨⟨q1, q2⟩, q3⟩, q4⟩ := hran2
  have hclipN : (clipToGroup (W.shiftBy (setAngles K c) k) g).NonNeg := by
    have m1 := le_max_right (W.shiftBy (setAngles K c) k).begin_n g.begin_bbn
    have m2 := le_max_right (W.shiftBy (setAngles K c) k).begin_x g.begin_bbx
    have m3 := le_max_right (W.shiftBy (setAngles K c) k).begin_y g.begin_bby
    have m4 := le_max_right (W.shiftBy (setAngles K c) k).begin_z g.begin_bbz
    simp only [clipToGroup] at q1 q2 q3 q4
    simp only [Box.NonNeg, clipToGroup]
    refine ⟨⟨?_, ?_⟩, ⟨?_, ?_⟩, ⟨?_, ?_⟩, ⟨?_, ?_⟩⟩ <;> omega
  have hst := (calc_rank_opt_state K context eqGroups c egs hinit).1
  refine ⟨⟨hclipN, hclipA, vecWindow_exact hclipA⟩, ?_, ?_⟩
  · rw [hst]
    exact ⟨hpar.bn, hpar.bx, hpar.by_, hpar.bz⟩
  · intro B hB
    have hBA : B.VecAligned K := tileLoops_vecAligned hclipA hb.1 hb.2.1 hb.2.2.1 hb.2.2.2 hB
    exact ⟨tileLoops_nonneg hclipN hbpos.1 hbpos.2.1 hbpos.2.2.1 hbpos.2.2.2 hB, hBA,
      vecWindow_exact hBA⟩

theorem calc_region_block_windows_witness :
    (∀ B ∈ tileLoops ⟨0, 2, 0, 0, 1, 4, 1, 1⟩ blockContext.bn blockContext.bx
        blockContext.by_ blockContext.bz,
      B.NonNeg ∧ B.VecAligned foldX2 ∧ Box.ofVectors foldX2 (vecWindow foldX2 B) = B) ∧
    tileLoops ⟨0, 2, 0, 0, 1, 4, 1, 1⟩ blockContext.bn blockContext.bx
        blockContext.by_ blockContext.bz = [⟨0, 2, 0, 0, 1, 4, 1, 1⟩] ∧
    vecWindow foldX2 ⟨0, 2, 0, 0, 1, 4, 1, 1⟩ = ⟨0, 1, 0, 0, 1, 2, 1, 1⟩ ∧
    calc_block foldX2 ⟨0, 2, 0, 0, 1, 4, 1, 1⟩ = [⟨0, 2, 0, 0⟩, ⟨0, 3, 0, 0⟩] :=
  ⟨(calc_region_block_windows foldX2 blockContext aboveTwo
      (init foldX2 blockContext aboveTwo).state.1 (init foldX2 blockContext aboveTwo).state.2
      rfl (by decide) (by decide) (by decide) (by decide) (by decide) rfl
      (by decide) (by decide) (by decide) (by decide)
      0 1 [0] ⟨0, 2, 0, 0, 1, 4, 1, 1⟩
      [{ eg := 0, rt := 0, window := ⟨0, 2, 0, 0, 1, 4, 1, 1⟩,
         clip := ⟨0, 2, 0, 0, 1, 4, 1, 1⟩, ran := true }]
      { eg := 0, rt := 0, window := ⟨0, 2, 0, 0, 1, 4, 1, 1⟩,
        clip := ⟨0, 2, 0, 0, 1, 4, 1, 1⟩, ran := true }
      (by decide) (by decide) rfl).2.2, by decide, by decide, by decide⟩


/-! ## The unpack phase and the interior of the grid -/

theorem foldl_writeVecNorm_frame {α : Type} (K : Consts) (rcv : Pt → α) (L : List (Pt × Pt))
    (e : Pt) (h : ∀ p ∈ L, ¬ (vecBox K p.2).contains e) (g : Pt → α) :
    (L.foldl (fun g pr => writeVecNorm K g pr.2 (readVecNorm K rcv pr.1)) g) e = g e := by
  induction L generalizing g with
  | nil => rfl
  | cons p L ih =>
    rw [List.foldl_cons, ih (fun q hq => h q (List.mem_cons_of_mem _ hq))]
    simp only [writeVecNorm]
    rw [if_neg (h p (List.mem_cons_self _ _))]

/-- One dimension of the unpack window for a neighbor index `n` that is `rank_prev` or
`rank_next`: the elements of a vector `v` of the vector window are outside `[0, d)` when
the vector length divides `d`. -/
theorem unpack_outside {V d h n v e : Int} (hV : 0 < V) (hd : V ∣ d)
    (hn : n = rank_prev ∨ n = rank_next)
    (h1 : (if n = rank_next then d else if n = rank_prev then -h else 0).tdiv V ≤ v)
    (h2 : v < (if n = rank_next then d + h else if n = rank_prev then 0 else d).tdiv V)
    (h3 : v * V ≤ e) (h4 : e < (v + 1) * V) : ¬ (0 ≤ e ∧ e < d) := by
  rcases hn with rfl | rfl
  · simp only [rank_prev, rank_next] at h2
    norm_num at h2
    have : (v + 1) * V ≤ 0 := mul_nonpos_of_nonpos_of_nonneg (by omega) (le_of_lt hV)
    omega
  · simp only [rank_next] at h1
    norm_num at h1
    have hc : d.tdiv V * V = d := Int.tdiv_mul_cancel hd
    have : d.tdiv V * V ≤ v * V := Int.mul_le_mul_of_nonneg_right h1 (le_of_lt hV)
    omega

/-- The element window of the unpack phase for a neighbor index other than the rank itself
has no element in the rank domain. -/
theorem unpackWindow_disjoint (context : StencilContext) (h : Int × Int × Int × Int)
    (idx : Pt) (hidx : idx.offSelf) (e : Pt)
    (he : (unpackWindow context h idx.n idx.x idx.y idx.z).contains e) :
    ¬ context.domain.contains e := by
  obtain ⟨⟨n1, n2⟩, ⟨x1, x2⟩, ⟨y1, y2⟩, ⟨z1, z2⟩⟩ := he
  rintro ⟨⟨a1, a2⟩, ⟨b1, b2⟩, ⟨c1, c2⟩, ⟨d1, d2⟩⟩
  simp only [StencilContext.domain] at a1 a2 b1 b2 c1 c2 d1 d2
  simp only [unpackWindow] at n1 n2 x1 x2 y1 y2 z1 z2
  rcases hidx with (hp | hp) | (hp | hp) | (hp | hp) | (hp | hp)
  · rw [hp] at n2
    simp only [rank_prev, rank_next] at n2
    norm_num at n2
    omega
  · rw [hp] at n1
    simp only [rank_next] at n1
    norm_num at n1
    omega
  · rw [hp] at x2
    simp only [rank_prev, rank_next] at x2
    norm_num at x2
    omega
  · rw [hp] at x1
    simp only [rank_next] at x1
    norm_num at x1
    omega
  · rw [hp] at y2
    simp only [rank_prev, rank_next] at y2
    norm_num at y2
    omega
  · rw [hp] at y1
    simp only [rank_next] at y1
    norm_num at y1
    omega
  · rw [hp] at z2
    simp only [rank_prev, rank_next] at z2
    norm_num at z2
    omega
  · rw [hp] at z1
    simp only [rank_next] at z1
    norm_num at z1
    omega

/-- When the vector lengths are positive and divide the rank sizes, the unpack for a
neighbor index other than the rank itself leaves the elements of the rank domain as they
are. -/
theorem unpack_halo_interior {α : Type} (K : Consts) (context : StencilContext)
    (pn px py pz : Int) (grid : Int → Pt → α) (start_dt : Int) (idx : Pt) (rcvBuf : Pt → α)
    (hV : 0 < K.VLEN_N ∧ 0 < K.VLEN_X ∧ 0 < K.VLEN_Y ∧ 0 < K.VLEN_Z)
    (hd : K.VLEN_N ∣ context.dn ∧ K.VLEN_X ∣ context.dx ∧ K.VLEN_Y ∣ context.dy ∧
      K.VLEN_Z ∣ context.dz)
    (hidx : idx.offSelf) (t : Int) (e : Pt) (he : context.domain.contains e) :
    unpack_halo K context pn px py pz grid start_dt idx.n idx.x idx.y idx.z rcvBuf t e =
      grid t e := by
  simp only [unpack_halo]
  by_cases ht : t = start_dt
  · rw [if_pos ht, foldl_writeVecNorm_frame, ht]
    intro p hp hc
    obtain ⟨⟨⟨n1, n2⟩, ⟨x1, x2⟩, ⟨y1, y2⟩, ⟨z1, z2⟩⟩, _⟩ := mem_haloPairs.mp hp
    obtain ⟨⟨a1, a2⟩, ⟨b1, b2⟩, ⟨c1, c2⟩, ⟨d1, d2⟩⟩ := hc
    obtain ⟨en, ex, ey, ez⟩ := he
    simp only [StencilContext.domain] at en ex ey ez
    simp only [vecWindow, unpackWindow] at n1 n2 x1 x2 y1 y2 z1 z2
    simp only [vecBox] at a1 a2 b1 b2 c1 c2 d1 d2
    rcases hidx with hp | hp | hp | hp
    · exact unpack_outside hV.1 hd.1 hp n1 n2 a1 a2 en
    · exact unpack_outside hV.2.1 hd.2.1 hp x1 x2 b1 b2 ex
    · exact unpack_outside hV.2.2.1 hd.2.2.1 hp y1 y2 c1 c2 ey
    · exact unpack_outside hV.2.2.2 hd.2.2.2 hp z1 z2 d1 d2 ez
  · rw [if_neg ht]

theorem mem_visitNeighbors {idx : Pt} (h : idx ∈ visitNeighbors) :
    idx = ⟨rank_self, rank_self, rank_self, rank_self⟩ ∨ idx.offSelf := by
  unfold visitNeighbors at h
  simp only [List.mem_flatMap, List.mem_map, mem_loopRange, num_neighbors] at h
  obtain ⟨nn, ⟨n1, n2⟩, nx, ⟨x1, x2⟩, ny, ⟨y1, y2⟩, nz, ⟨z1, z2⟩, rfl⟩ := h
  simp only [Pt.offSelf, rank_prev, rank_next, rank_self, Pt.mk.injEq]
  omega

theorem forEach_setupMPI_rank_self (MAX_EXCH_DIST : Int) (context : StencilContext)
    (gs : List Nat) (coords : Int → Pt) (rs : List Int) :
    ∀ (st : MPIVars × Int) (g : Nat) (bd : Int),
      (forEach (setupMPI_rank MAX_EXCH_DIST context gs coords) st rs).state.1.mpiBufs g bd
        ⟨1, 1, 1, 1⟩ = st.1.mpiBufs g bd ⟨1, 1, 1, 1⟩ := by
  induction rs with
  | nil =>
    intro st g bd
    rfl
  | cons r rs ih =>
    intro st g bd
    simp only [forEach]
    rcases setupMPI_rank_cases MAX_EXCH_DIST context gs coords st r with h | ⟨st2, h, _, _, _, hb⟩
    · rw [h]
      rfl
    · rw [h]
      simp only
      rw [ih st2, hb]

/-- Whatever the outcome of `setupMPI`, the buffer pointers at the index of the rank itself
are what they were before. -/
theorem setupMPI_self_buffers (unlayout : Int → Int → Int → Int → Int → Pt)
    (MAX_EXCH_DIST : Int) (context : StencilContext) (gs : List Nat) (others : Int → Pt)
    (findLocation : Bool) (m : MPIVars) (g : Nat) (bd : Int) :
    (setupMPI unlayout MAX_EXCH_DIST context gs others findLocation m).state.mpiBufs g bd
      ⟨1, 1, 1, 1⟩ = m.mpiBufs g bd ⟨1, 1, 1, 1⟩ := by
  have hloc : (setupMPI_locate unlayout findLocation m).mpiBufs = m.mpiBufs := by
    unfold setupMPI_locate
    split_ifs <;> rfl
  have key := forEach_setupMPI_rank_self MAX_EXCH_DIST context gs
    (coordTable (setupMPI_locate unlayout findLocation m) others)
    (loopRange 0 (setupMPI_locate unlayout findLocation m).num_ranks)
    (setupMPI_locate unlayout findLocation m, 0) g bd
  simp only [hloc] at key
  rw [← key]
  unfold setupMPI setupMPI_ranks
  simp only
  cases forEach (setupMPI_rank MAX_EXCH_DIST context gs
    (coordTable (setupMPI_locate unlayout findLocation m) others))
    (setupMPI_locate unlayout findLocation m, 0)
    (loopRange 0 (setupMPI_locate unlayout findLocation m).num_ranks) <;> rfl

theorem foldl_unpack_visit_interior {α : Type} (K : Consts) (context : StencilContext)
    (pn px py pz : Int) (start_dt : Int) (rcvBufs : Pt → Option BufDims)
    (content : Pt → Pt → α)
    (hV : 0 < K.VLEN_N ∧ 0 < K.VLEN_X ∧ 0 < K.VLEN_Y ∧ 0 < K.VLEN_Z)
    (hd : K.VLEN_N ∣ context.dn ∧ K.VLEN_X ∣ context.dx ∧ K.VLEN_Y ∣ context.dy ∧
      K.VLEN_Z ∣ context.dz)
    (hself : rcvBufs ⟨rank_self, rank_self, rank_self, rank_self⟩ = none)
    (t : Int) (e : Pt) (he : context.domain.contains e) (L : List Pt)
    (hL : ∀ idx ∈ L, idx = ⟨rank_self, rank_self, rank_self, rank_self⟩ ∨ idx.offSelf) :
    ∀ grid : Int → Pt → α,
      (L.foldl (unpack_visit K context pn px py pz start_dt rcvBufs content) grid) t e =
        grid t e := by
  induction L with
  | nil =>
    intro grid
    rfl
  | cons idx L ih =>
    intro grid
    rw [List.foldl_cons, ih (fun q hq => hL q (List.mem_cons_of_mem _ hq))]
    unfold unpack_visit
    rcases hL idx (List.mem_cons_self _ _) with h | h
    · rw [h, hself]
      rfl
    · split_ifs
      · exact unpack_halo_interior K context pn px py pz grid start_dt idx _ hV hd h t e he
      · rfl

/-- **C29 (counterexample).** Vectors of two elements along `x`, a rank of `1 x 3 x 1 x 1`
points with `hx = 1`, rank 0 of two ranks side by side along `x`.  `setupMPI` leaves the
buffers of the rank itself null and allocates a receive buffer for the neighbor
`rank_next` along `x`.  The element window of the unpack for that neighbor is `[3,4)`,
outside the interior `[0,3)`; divided by `VLEN_X` it is the vector `1`, which holds the
elements `x = 2` and `x = 3`.  The unpack writes the interior element `x = 2`: it held
`12` and holds the buffer's `-1` afterwards. -/
theorem exchange_halos_unpack_writes_interior :
    (setupMPI noLayout 4 oddContext [0] alongX false twoRanks).state.mpiBufs 0 bufRec
      ⟨rank_self, rank_self, rank_self, rank_self⟩ = none ∧
    ((setupMPI noLayout 4 oddContext [0] alongX false twoRanks).state.mpiBufs 0 bufRec
      ⟨rank_self, rank_next, rank_self, rank_self⟩).isSome = true ∧
    (unpackWindow oddContext (haloWidths oddContext 0 1 0 0)
      rank_self rank_next rank_self rank_self) = ⟨0, 3, 0, 0, 1, 4, 1, 1⟩ ∧
    unpackWrites foldX2 oddContext 0 1 0 0 rank_self rank_next rank_self rank_self =
      [⟨0, 2, 0, 0⟩, ⟨0, 3, 0, 0⟩] ∧
    oddContext.domain.contains ⟨0, 2, 0, 0⟩ ∧
    sendGrid 0 ⟨0, 2, 0, 0⟩ = 12 ∧
    unpack_halo foldX2 oddContext 0 1 0 0 sendGrid 0
      rank_self rank_next rank_self rank_self freshBuf 0 ⟨0, 2, 0, 0⟩ = -1 ∧
    unpack_phase foldX2 oddContext 0 1 0 0 0
      ((setupMPI noLayout 4 oddContext [0] alongX false twoRanks).state.mpiBufs 0 bufRec)
      (fun _ => freshBuf) sendGrid 0 ⟨0, 2, 0, 0⟩ = -1 :=
  ⟨by decide, by decide, by decide, by decide, by decide, by decide, by decide, by decide⟩

/-- **C29 (amended).** `setupMPI` starts from tables in which the buffers at the index of
the rank itself are null; the vector lengths `VLEN_d` are positive and divide the rank
sizes `d_d`.  Then, whatever the outcome of `setupMPI`, the index
`(rank_self, rank_self, rank_self, rank_self)` has no send or receive buffer; for every
other neighbor index the element window of the unpack has no element in the interior
`[0,dn) x [0,dx) x [0,dy) x [0,dz)` and the unpack for that neighbor leaves every interior
element at every time index as it is; and the whole unpack phase of a grid (all neighbor
indices that `visitNeighbors` goes through, each with a receive buffer or not as
`setupMPI` left it) leaves every interior element unchanged. -/
theorem exchange_halos_unpack_interior {α : Type}
    (unlayout : Int → Int → Int → Int → Int → Pt) (MAX_EXCH_DIST : Int)
    (context : StencilContext) (gs : List Nat) (others : Int → Pt) (findLocation : Bool)
    (m : MPIVars) (K : Consts) (pn px py pz : Int) (start_dt : Int)
    (hnull : ∀ g bd, m.mpiBufs g bd ⟨rank_self, rank_self, rank_self, rank_self⟩ = none)
    (hV : 0 < K.VLEN_N ∧ 0 < K.VLEN_X ∧ 0 < K.VLEN_Y ∧ 0 < K.VLEN_Z)
    (hd : K.VLEN_N ∣ context.dn ∧ K.VLEN_X ∣ context.dx ∧ K.VLEN_Y ∣ context.dy ∧
      K.VLEN_Z ∣ context.dz) :
    (∀ g bd, (setupMPI unlayout MAX_EXCH_DIST context gs others findLocation m).state.mpiBufs
      g bd ⟨rank_self, rank_self, rank_self, rank_self⟩ = none) ∧
    (∀ idx : Pt, idx.offSelf → ∀ e : Pt,
      (unpackWindow context (haloWidths context pn px py pz) idx.n idx.x idx.y idx.z).contains e →
        ¬ context.domain.contains e) ∧
    (∀ idx : Pt, idx.offSelf → ∀ (grid : Int → Pt → α) (rcvBuf : Pt → α) (t : Int) (e : Pt),
      context.domain.contains e →
        unpack_halo K context pn px py pz grid start_dt idx.n idx.x idx.y idx.z rcvBuf t e =
          grid t e) ∧
    (∀ (g : Nat) (content : Pt → Pt → α) (grid : Int → Pt → α) (t : Int) (e : Pt),
      context.domain.contains e →
        unpack_phase K context pn px py pz start_dt
          ((setupMPI unlayout MAX_EXCH_DIST context gs others findLocation m).state.mpiBufs
            g bufRec) content grid t e = grid t e) := by
  have hself : ∀ g bd,
      (setupMPI unlayout MAX_EXCH_DIST context gs others findLocation m).state.mpiBufs
        g bd ⟨rank_self, rank_self, rank_self, rank_self⟩ = none := by
    intro g bd
    exact (setupMPI_self_buffers unlayout MAX_EXCH_DIST context gs others findLocation m
      g bd).trans (hnull g bd)
  refine ⟨hself, ?_, ?_, ?_⟩
  · intro idx hidx e he
    exact unpackWindow_disjoint context _ idx hidx e he
  · intro idx hidx grid rcvBuf t e he
    exact unpack_halo_interior K context pn px py pz grid start_dt idx rcvBuf hV hd hidx t e he
  · intro g content grid t e he
    exact foldl_unpack_visit_interior K context pn px py pz start_dt _ content hV hd
      (hself g bufRec) t e he visitNeighbors (fun idx h => mem_visitNeighbors h) grid

theorem exchange_halos_unpack_interior_witness :
    (setupMPI noLayout 4 (haloContext 2) [0] alongX false twoRanks).state.mpiBufs 0 bufRec
      ⟨rank_self, rank_self, rank_self, rank_self⟩ = none ∧
    ((setupMPI noLayout 4 (haloContext 2) [0] alongX false twoRanks).state.mpiBufs 0 bufRec
      ⟨rank_self, rank_next, rank_self, rank_self⟩).isSome = true ∧
    unpackWrites foldX2 (haloContext 2) 0 2 0 0 rank_self rank_next rank_self rank_self =
      [⟨0, 4, 0, 0⟩, ⟨0, 5, 0, 0⟩] ∧
    unpack_phase foldX2 (haloContext 2) 0 2 0 0 0
      ((setupMPI noLayout 4 (haloContext 2) [0] alongX false twoRanks).state.mpiBufs 0 bufRec)
      (fun _ => freshBuf) sendGrid 0 ⟨0, 3, 0, 0⟩ = sendGrid 0 ⟨0, 3, 0, 0⟩ ∧
    unpack_phase foldX2 (haloContext 2) 0 2 0 0 0
      ((setupMPI noLayout 4 (haloContext 2) [0] alongX false twoRanks).state.mpiBufs 0 bufRec)
      (fun _ => freshBuf) sendGrid 0 ⟨0, 4, 0, 0⟩ = -1 :=
  ⟨by decide, by decide, by decide,
    (exchange_halos_unpack_interior noLayout 4 (haloContext 2) [0] alongX false twoRanks
      foldX2 0 2 0 0 0 (fun _ _ => rfl)
      ⟨by decide, by decide, by decide, by decide⟩
      ⟨by decide, by decide, by decide, by decide⟩).2.2.2 0 (fun _ => freshBuf) sendGrid 0
        ⟨0, 3, 0, 0⟩ (by decide),
    by decide⟩


/-! ## Comparison of two contexts -/

theorem foldl_add_sum {α : Type} (f : α → Int) (L : List α) :
    ∀ init : Int, L.foldl (fun errs p => errs + f p) init = init + (L.map f).sum := by
  induction L with
  | nil =>
    intro init
    simp
  | cons a L ih =>
    intro init
    rw [List.foldl_cons, ih, List.map_cons, List.sum_cons]
    ring

theorem compare_eq_sums {G P : Type} (gridCompare : G → G → Int)
    (paramCompare : P → P → Int) (gridPtrs refGridPtrs : List G)
    (paramPtrs refParamPtrs : List P) (hg : gridPtrs.length = refGridPtrs.length)
    (hp : paramPtrs.length = refParamPtrs.length) :
    StencilContext.compare gridCompare paramCompare gridPtrs paramPtrs refGridPtrs
        refParamPtrs =
      ((gridPtrs.zip refGridPtrs).map (fun p => gridCompare p.1 p.2)).sum +
      ((paramPtrs.zip refParamPtrs).map (fun p => paramCompare p.1 p.2)).sum := by
  unfold StencilContext.compare
  rw [if_neg (by simp [hg])]
  simp only
  rw [if_neg (by simp [hp]), foldl_add_sum, foldl_add_sum, zero_add]

theorem elementCompare_self (EPSILON : ℚ) (h0 : 0 ≤ EPSILON) (a : List ℚ) :
    elementCompare EPSILON a a = 0 := by
  unfold elementCompare
  induction a with
  | nil => rfl
  | cons x a ih =>
    rw [List.zip_cons_cons, List.countP_cons_of_neg]
    · exact ih
    · simp only [sub_self, abs_zero, decide_eq_true_eq, not_lt]
      exact h0

theorem elementCompare_set (EPSILON : ℚ) (h0 : 0 ≤ EPSILON) (a : List ℚ) :
    ∀ (i : Nat) (x v : ℚ), a[i]? = some x → EPSILON < |x - v| →
      elementCompare EPSILON a (a.set i v) = 1 := by
  induction a with
  | nil =>
    intro i x v hx
    simp at hx
  | cons y a ih =>
    intro i x v hx hv
    cases i with
    | zero =>
      simp only [List.getElem?_cons_zero, Option.some.injEq] at hx
      subst hx
      have hs := elementCompare_self EPSILON h0 a
      unfold elementCompare at hs ⊢
      rw [List.set_cons_zero, List.zip_cons_cons, List.countP_cons_of_pos]
      · simp only [Int.ofNat_eq_coe, Nat.cast_eq_zero] at hs
        rw [hs]
        rfl
      · simpa using hv
    | succ i =>
      simp only [List.getElem?_cons_succ] at hx
      have hs := ih i x v hx hv
      unfold elementCompare at hs ⊢
      rw [List.set_cons_succ, List.zip_cons_cons, List.countP_cons_of_neg]
      · exact hs
      · simp only [sub_self, abs_zero, decide_eq_true_eq, not_lt]
        exact h0

theorem sum_zip_self {α : Type} (f : α → α → Int) (hf : ∀ a, f a a = 0) (l : List α) :
    ((l.zip l).map (fun p => f p.1 p.2)).sum = 0 := by
  induction l with
  | nil => rfl
  | cons a l ih =>
    rw [List.zip_cons_cons, List.map_cons, List.sum_cons, ih, hf]
    rfl

theorem sum_zip_set {α : Type} (f : α → α → Int) (hf : ∀ a, f a a = 0) (l : List α) :
    ∀ (i : Nat) (a b : α), l[i]? = some a →
      ((l.zip (l.set i b)).map (fun p => f p.1 p.2)).sum = f a b := by
  induction l with
  | nil =>
    intro i a b ha
    simp at ha
  | cons y l ih =>
    intro i a b ha
    cases i with
    | zero =>
      simp only [List.getElem?_cons_zero, Option.some.injEq] at ha
      subst ha
      rw [List.set_cons_zero, List.zip_cons_cons, List.map_cons, List.sum_cons,
        sum_zip_self f hf l, add_zero]
    | succ i =>
      simp only [List.getElem?_cons_succ] at ha
      rw [List.set_cons_succ, List.zip_cons_cons, List.map_cons, List.sum_cons, ih i a b ha,
        hf, zero_add]

/-- **C21.** For two contexts with the same number of grids and the same number of
parameters, `StencilContext::compare` returns the sum of the per-grid compare results plus
the sum of the per-parameter compare results.  With the element-wise compare of the grids
and parameters (the number of elements that differ by more than `EPSILON`, for an
`EPSILON` that is not negative): comparing a context with itself returns `0`, and
comparing it with a copy in which exactly one element of one grid, or of one parameter,
differs by more than `EPSILON` returns `1`. -/
theorem compare_mismatch_count (EPSILON : ℚ) (h0 : 0 ≤ EPSILON) :
    (∀ (G P : Type) (gridCompare : G → G → Int) (paramCompare : P → P → Int)
        (gridPtrs refGridPtrs : List G) (paramPtrs refParamPtrs : List P),
      gridPtrs.length = refGridPtrs.length → paramPtrs.length = refParamPtrs.length →
      StencilContext.compare gridCompare paramCompare gridPtrs paramPtrs refGridPtrs
          refParamPtrs =
        ((gridPtrs.zip refGridPtrs).map (fun p => gridCompare p.1 p.2)).sum +
        ((paramPtrs.zip refParamPtrs).map (fun p => paramCompare p.1 p.2)).sum) ∧
    (∀ gridPtrs paramPtrs : List (List ℚ),
      StencilContext.compare (elementCompare EPSILON) (elementCompare EPSILON)
        gridPtrs paramPtrs gridPtrs paramPtrs = 0) ∧
    (∀ (gridPtrs paramPtrs : List (List ℚ)) (gi i : Nat) (g : List ℚ) (x v : ℚ),
      gridPtrs[gi]? = some g → g[i]? = some x → EPSILON < |x - v| →
      StencilContext.compare (elementCompare EPSILON) (elementCompare EPSILON)
        gridPtrs paramPtrs (gridPtrs.set gi (g.set i v)) paramPtrs = 1) ∧
    (∀ (gridPtrs paramPtrs : List (List ℚ)) (pi i : Nat) (p : List ℚ) (x v : ℚ),
      paramPtrs[pi]? = some p → p[i]? = some x → EPSILON < |x - v| →
      StencilContext.compare (elementCompare EPSILON) (elementCompare EPSILON)
        gridPtrs paramPtrs gridPtrs (paramPtrs.set pi (p.set i v)) = 1) := by
  have hself := elementCompare_self EPSILON h0
  refine ⟨?_, ?_, ?_, ?_⟩
  · intro G P gc pc gs rgs ps rps hg hp
    exact compare_eq_sums gc pc gs rgs ps rps hg hp
  · intro gs ps
    rw [compare_eq_sums _ _ _ _ _ _ rfl rfl, sum_zip_self _ hself, sum_zip_self _ hself]
    rfl
  · intro gs ps gi i g x v hg hx hv
    rw [compare_eq_sums _ _ _ _ _ _ (List.length_set _ _ _).symm rfl,
      sum_zip_set _ hself gs gi g _ hg, sum_zip_self _ hself,
      elementCompare_set EPSILON h0 g i x v hx hv]
    rfl
  · intro gs ps pi i p x v hp hx hv
    rw [compare_eq_sums _ _ _ _ _ _ rfl (List.length_set _ _ _).symm,
      sum_zip_set _ hself ps pi p _ hp, sum_zip_self _ hself,
      elementCompare_set EPSILON h0 p i x v hx hv]
    rfl

theorem compare_mismatch_count_witness :
    (0 : ℚ) ≤ 1 / 1000 ∧
    StencilContext.compare (elementCompare (1 / 1000)) (elementCompare (1 / 1000))
      [[1, 2], [3]] [[5]] [[1, 2], [3]] [[5]] = 0 ∧
    StencilContext.compare (elementCompare (1 / 1000)) (elementCompare (1 / 1000))
      [[1, 2], [3]] [[5]] ([[1, 2], [3]].set 0 ([1, 2].set 1 (2 + 2 / 1000))) [[5]] = 1 :=
  ⟨by norm_num,
    (compare_mismatch_count (1 / 1000) (by norm_num)).2.1 [[1, 2], [3]] [[5]],
    (compare_mismatch_count (1 / 1000) (by norm_num)).2.2.1 [[1, 2], [3]] [[5]] 0 1 [1, 2]
      2 (2 + 2 / 1000) rfl rfl (by norm_num [abs_of_neg])⟩

theorem packWindow_vecAligned (K : Consts) (context : StencilContext)
    (pn px py pz nn nx ny nz : Int)
    (hd : K.VLEN_N ∣ context.dn ∧ K.VLEN_X ∣ context.dx ∧ K.VLEN_Y ∣ context.dy ∧
      K.VLEN_Z ∣ context.dz)
    (hh : K.VLEN_N ∣ min context.hn pn ∧ K.VLEN_X ∣ min context.hx px ∧
      K.VLEN_Y ∣ min context.hy py ∧ K.VLEN_Z ∣ min context.hz pz) :
    (packWindow context (haloWidths context pn px py pz) nn nx ny nz).VecAligned K := by
  obtain ⟨d1, d2, d3, d4⟩ := hd
  obtain ⟨h1, h2, h3, h4⟩ := hh
  simp only [Box.VecAligned, packWindow, haloWidths]
  refine ⟨⟨?_, ?_⟩, ⟨?_, ?_⟩, ⟨?_, ?_⟩, ⟨?_, ?_⟩⟩ <;> split_ifs <;>
    first | exact dvd_zero _ | assumption | exact dvd_sub (by assumption) (by assumption)

theorem unpackWindow_vecAligned (K : Consts) (context : StencilContext)
    (pn px py pz nn nx ny nz : Int)
    (hd : K.VLEN_N ∣ context.dn ∧ K.VLEN_X ∣ context.dx ∧ K.VLEN_Y ∣ context.dy ∧
      K.VLEN_Z ∣ context.dz)
    (hh : K.VLEN_N ∣ min context.hn pn ∧ K.VLEN_X ∣ min context.hx px ∧
      K.VLEN_Y ∣ min context.hy py ∧ K.VLEN_Z ∣ min context.hz pz) :
    (unpackWindow context (haloWidths context pn px py pz) nn nx ny nz).VecAligned K := by
  obtain ⟨d1, d2, d3, d4⟩ := hd
  obtain ⟨h1, h2, h3, h4⟩ := hh
  simp only [Box.VecAligned, unpackWindow, haloWidths]
  refine ⟨⟨?_, ?_⟩, ⟨?_, ?_⟩, ⟨?_, ?_⟩, ⟨?_, ?_⟩⟩ <;> split_ifs <;>
    first | exact dvd_zero _ | assumption | exact dvd_add (by assumption) (by assumption) |
      exact (dvd_neg.mpr (by assumption))

/-- A buffer element written by the pack loops comes from an element of the window: for a
pair of the halo loops and an element `b` of the buffer vector, the grid element
`b + begin` lies in the window. -/
theorem pack_pair_in_window (K : Consts) (W : Box)
    (hV : 0 < K.VLEN_N ∧ 0 < K.VLEN_X ∧ 0 < K.VLEN_Y ∧ 0 < K.VLEN_Z) (hW : W.VecAligned K)
    (p : Pt × Pt) (hp : p ∈ haloPairs K W) (b : Pt) (hb : (vecBox K p.1).contains b) :
    W.contains ⟨b.n + W.begin_n, b.x + W.begin_x, b.y + W.begin_y, b.z + W.begin_z⟩ := by
  obtain ⟨⟨a1, a2⟩, ⟨b1, b2⟩, ⟨c1, c2⟩, ⟨d1, d2⟩⟩ := hW
  rw [← mem_halo_elements K W hV ⟨a1, b1, c1, d1⟩ ⟨a2, b2, c2, d2⟩, List.mem_flatMap]
  refine ⟨p, hp, Box.mem_points.mpr ?_⟩
  obtain ⟨_, h2⟩ := mem_haloPairs.mp hp
  rw [h2] at hb
  obtain ⟨⟨n1, n2⟩, ⟨x1, x2⟩, ⟨y1, y2⟩, ⟨z1, z2⟩⟩ := hb
  simp only [vecBox, vecWindow] at n1 n2 x1 x2 y1 y2 z1 z2
  have en := Int.tdiv_mul_cancel a1
  have ex := Int.tdiv_mul_cancel b1
  have ey := Int.tdiv_mul_cancel c1
  have ez := Int.tdiv_mul_cancel d1
  simp only [vecBox, Box.contains]
  refine ⟨⟨?_, ?_⟩, ⟨?_, ?_⟩, ⟨?_, ?_⟩, ⟨?_, ?_⟩⟩ <;> linarith

/-- The pack loops as a function of the grid: a buffer element whose position is in the
zero-based window holds the grid element at that position of the window, any other
buffer element keeps its value. -/
theorem pack_fold_cases {α : Type} (K : Consts) (W : Box)
    (hV : 0 < K.VLEN_N ∧ 0 < K.VLEN_X ∧ 0 < K.VLEN_Y ∧ 0 < K.VLEN_Z) (hW : W.VecAligned K)
    (src buf : Pt → α) (b : Pt) :
    ((haloPairs K W).foldl
      (fun buf pr => writeVecNorm K buf pr.1 (readVecNorm K src pr.2)) buf) b =
      if W.contains ⟨b.n + W.begin_n, b.x + W.begin_x, b.y + W.begin_y, b.z + W.begin_z⟩
      then src ⟨b.n + W.begin_n, b.x + W.begin_x, b.y + W.begin_y, b.z + W.begin_z⟩
      else buf b := by
  by_cases hin : W.contains
      ⟨b.n + W.begin_n, b.x + W.begin_x, b.y + W.begin_y, b.z + W.begin_z⟩
  · rw [if_pos hin]
    obtain ⟨⟨a1, a2⟩, ⟨b1, b2⟩, ⟨c1, c2⟩, ⟨d1, d2⟩⟩ := hW
    exact pack_fold_spec K W hV ⟨a1, b1, c1, d1⟩ ⟨a2, b2, c2, d2⟩ src buf b hin
  · rw [if_neg hin]
    have key := foldl_writeVecNorm K src
      ⟨(vecWindow K W).begin_n, (vecWindow K W).begin_x, (vecWindow K W).begin_y,
        (vecWindow K W).begin_z⟩ Prod.fst Prod.snd (haloPairs K W)
      (by
        intro p hp
        obtain ⟨_, h2⟩ := mem_haloPairs.mp hp
        rw [h2]
        simp) buf b
    rw [key, if_neg]
    rintro ⟨p, hp, hc⟩
    exact hin (pack_pair_in_window K W hV hW p hp b hc)

/-- The unpack loops: an element of the window holds the buffer element at its zero-based
position, any other element keeps its value. -/
theorem unpack_fold_cases {α : Type} (K : Consts) (W : Box)
    (hV : 0 < K.VLEN_N ∧ 0 < K.VLEN_X ∧ 0 < K.VLEN_Y ∧ 0 < K.VLEN_Z) (hW : W.VecAligned K)
    (rcv g : Pt → α) (e : Pt) :
    ((haloPairs K W).foldl
      (fun g pr => writeVecNorm K g pr.2 (readVecNorm K rcv pr.1)) g) e =
      if W.contains e
      then rcv ⟨e.n - W.begin_n, e.x - W.begin_x, e.y - W.begin_y, e.z - W.begin_z⟩
      else g e := by
  obtain ⟨⟨a1, a2⟩, ⟨b1, b2⟩, ⟨c1, c2⟩, ⟨d1, d2⟩⟩ := hW
  by_cases hin : W.contains e
  · rw [if_pos hin]
    exact unpack_fold_spec K W hV ⟨a1, b1, c1, d1⟩ ⟨a2, b2, c2, d2⟩ rcv g e hin
  · rw [if_neg hin]
    apply foldl_writeVecNorm_frame
    intro p hp hc
    apply hin
    rw [← mem_halo_elements K W hV ⟨a1, b1, c1, d1⟩ ⟨a2, b2, c2, d2⟩, List.mem_flatMap]
    exact ⟨p, hp, Box.mem_points.mpr hc⟩

/-! ## The pack and unpack phases as copies of the halo windows -/

/-- **C13 (counterexample).** Vectors of two elements along `x`, rank size `dx = 4`, halo
width `hx = 3` (the pad of the grid is 3 as well).  For the neighbor `rank_next` along `x`
the element window of the pack phase is `[1,4)`, but the vectors read are `[1/2, 4/2)`,
that is `[0,2)`, which hold the elements `x = 0, 1, 2, 3`: the element `x = 0`, outside
the window, is read and is what the first buffer element holds after the pack.  For the
neighbor `rank_prev` the window is `[0,3)` and the vectors read are `[0,1)`: the element
`x = 2` of the window is not read. -/
theorem exchange_halos_pack_reads_outside :
    haloWidths (haloContext 3) 0 3 0 0 = (0, 3, 0, 0) ∧
    packWindow (haloContext 3) (haloWidths (haloContext 3) 0 3 0 0)
      rank_self rank_next rank_self rank_self = ⟨0, 1, 0, 0, 1, 4, 1, 1⟩ ∧
    packReads foldX2 (haloContext 3) 0 3 0 0 rank_self rank_next rank_self rank_self =
      [⟨0, 0, 0, 0⟩, ⟨0, 1, 0, 0⟩, ⟨0, 2, 0, 0⟩, ⟨0, 3, 0, 0⟩] ∧
    ¬ (packWindow (haloContext 3) (haloWidths (haloContext 3) 0 3 0 0)
      rank_self rank_next rank_self rank_self).contains ⟨0, 0, 0, 0⟩ ∧
    pack_halo foldX2 (haloContext 3) 0 3 0 0 sendGrid 0
      rank_self rank_next rank_self rank_self freshBuf ⟨0, 0, 0, 0⟩ =
        sendGrid 0 ⟨0, 0, 0, 0⟩ ∧
    sendGrid 0 ⟨0, 0, 0, 0⟩ ≠ sendGrid 0 ⟨0, 1, 0, 0⟩ ∧
    packWindow (haloContext 3) (haloWidths (haloContext 3) 0 3 0 0)
      rank_self rank_prev rank_self rank_self = ⟨0, 0, 0, 0, 1, 3, 1, 1⟩ ∧
    packReads foldX2 (haloContext 3) 0 3 0 0 rank_self rank_prev rank_self rank_self =
      [⟨0, 0, 0, 0⟩, ⟨0, 1, 0, 0⟩] ∧
    pack_halo foldX2 (haloContext 3) 0 3 0 0 sendGrid 0
      rank_self rank_prev rank_self rank_self freshBuf ⟨0, 2, 0, 0⟩ = -1 :=
  ⟨by decide, by decide, by decide, by decide, by decide, by decide, by decide, by decide,
    by decide⟩

/-- **C13 (amended).** Pack phase of `exchange_halos` for a neighbor `(nn,nx,ny,nz)` with a
send buffer, when every vector length `VLEN_d` is positive and divides the rank size
`d_d` and the halo width `h_d = min(context.h_d, get_p_d())`.  The element window
`[begin_d, end_d)` is `[0, h_d)` when the neighbor index is `rank_prev`,
`[d_d - h_d, d_d)` when it is `rank_next` and `[0, d_d)` when it is `rank_self`; the
vectors read are those of the window with its bounds divided by the vector lengths, and
the elements read are exactly the elements of the window.  After the pack the send buffer
holds, at the zero-based position `e - begin` of every element `e` of the window, the
grid element `e` at the time index `start_dt`; the other buffer elements keep their
values; and the result depends on nothing but the elements of the window at `start_dt`. -/
theorem exchange_halos_pack_window (K : Consts) (context : StencilContext)
    (pn px py pz nn nx ny nz : Int)
    (hV : 0 < K.VLEN_N ∧ 0 < K.VLEN_X ∧ 0 < K.VLEN_Y ∧ 0 < K.VLEN_Z)
    (hd : K.VLEN_N ∣ context.dn ∧ K.VLEN_X ∣ context.dx ∧ K.VLEN_Y ∣ context.dy ∧
      K.VLEN_Z ∣ context.dz)
    (hh : K.VLEN_N ∣ min context.hn pn ∧ K.VLEN_X ∣ min context.hx px ∧
      K.VLEN_Y ∣ min context.hy py ∧ K.VLEN_Z ∣ min context.hz pz) :
    haloWidths context pn px py pz =
      (min context.hn pn, min context.hx px, min context.hy py, min context.hz pz) ∧
    ((nn = rank_prev →
        (packWindow context (haloWidths context pn px py pz) nn nx ny nz).begin_n = 0 ∧
        (packWindow context (haloWidths context pn px py pz) nn nx ny nz).end_n =
          min context.hn pn) ∧
      (nn = rank_next →
        (packWindow context (haloWidths context pn px py pz) nn nx ny nz).begin_n =
          context.dn - min context.hn pn ∧
        (packWindow context (haloWidths context pn px py pz) nn nx ny nz).end_n = context.dn) ∧
      (nn = rank_self →
        (packWindow context (haloWidths context pn px py pz) nn nx ny nz).begin_n = 0 ∧
        (packWindow context (haloWidths context pn px py pz) nn nx ny nz).end_n = context.dn)) ∧
    ((nx = rank_prev →
        (packWindow context (haloWidths context pn px py pz) nn nx ny nz).begin_x = 0 ∧
        (packWindow context (haloWidths context pn px py pz) nn nx ny nz).end_x =
          min context.hx px) ∧
      (nx = rank_next →
        (packWindow context (haloWidths context pn px py pz) nn nx ny nz).begin_x =
          context.dx - min context.hx px ∧
        (packWindow context (haloWidths context pn px py pz) nn nx ny nz).end_x = context.dx) ∧
      (nx = rank_self →
        (packWindow context (haloWidths context pn px py pz) nn nx ny nz).begin_x = 0 ∧
        (packWindow context (haloWidths context pn px py pz) nn nx ny nz).end_x = context.dx)) ∧
    ((ny = rank_prev →
        (packWindow context (haloWidths context pn px py pz) nn nx ny nz).begin_y = 0 ∧
        (packWindow context (haloWidths context pn px py pz) nn nx ny nz).end_y =
          min context.hy py) ∧
      (ny = rank_next →
        (packWindow context (haloWidths context pn px py pz) nn nx ny nz).begin_y =
          context.dy - min context.hy py ∧
        (packWindow context (haloWidths context pn px py pz) nn nx ny nz).end_y = context.dy) ∧
      (ny = rank_self →
        (packWindow context (haloWidths context pn px py pz) nn nx ny nz).begin_y = 0 ∧
        (packWindow context (haloWidths context pn px py pz) nn nx ny nz).end_y = context.dy)) ∧
    ((nz = rank_prev →
        (packWindow context (haloWidths context pn px py pz) nn nx ny nz).begin_z = 0 ∧
        (packWindow context (haloWidths context pn px py pz) nn nx ny nz).end_z =
          min context.hz pz) ∧
      (nz = rank_next →
        (packWindow context (haloWidths context pn px py pz) nn nx ny nz).begin_z =
          context.dz - min context.hz pz ∧
        (packWindow context (haloWidths context pn px py pz) nn nx ny nz).end_z = context.dz) ∧
      (nz = rank_self →
        (packWindow context (haloWidths context pn px py pz) nn nx ny nz).begin_z = 0 ∧
        (packWindow context (haloWidths context pn px py pz) nn nx ny nz).end_z = context.dz)) ∧
    (∀ v : Pt,
      (∃ b, (b, v) ∈
        haloPairs K (packWindow context (haloWidths context pn px py pz) nn nx ny nz)) ↔
      (vecWindow K
        (packWindow context (haloWidths context pn px py pz) nn nx ny nz)).contains v) ∧
    (∀ e : Pt, e ∈ packReads K context pn px py pz nn nx ny nz ↔
      (packWindow context (haloWidths context pn px py pz) nn nx ny nz).contains e) ∧
    (∀ (α : Type) (grid : Int → Pt → α) (start_dt : Int) (sendBuf : Pt → α) (e : Pt),
      (packWindow context (haloWidths context pn px py pz) nn nx ny nz).contains e →
        pack_halo K context pn px py pz grid start_dt nn nx ny nz sendBuf
          ⟨e.n - (packWindow context (haloWidths context pn px py pz) nn nx ny nz).begin_n,
            e.x - (packWindow context (haloWidths context pn px py pz) nn nx ny nz).begin_x,
            e.y - (packWindow context (haloWidths context pn px py pz) nn nx ny nz).begin_y,
            e.z - (packWindow context (haloWidths context pn px py pz) nn nx ny nz).begin_z⟩ =
          grid start_dt e) ∧
    (∀ (α : Type) (grid : Int → Pt → α) (start_dt : Int) (sendBuf : Pt → α) (b : Pt),
      ¬ (packWindow context (haloWidths context pn px py pz) nn nx ny nz).contains
          ⟨b.n + (packWindow context (haloWidths context pn px py pz) nn nx ny nz).begin_n,
            b.x + (packWindow context (haloWidths context pn px py pz) nn nx ny nz).begin_x,
            b.y + (packWindow context (haloWidths context pn px py pz) nn nx ny nz).begin_y,
            b.z + (packWindow context (haloWidths context pn px py pz) nn nx ny nz).begin_z⟩ →
        pack_halo K context pn px py pz grid start_dt nn nx ny nz sendBuf b = sendBuf b) ∧
    (∀ (α : Type) (grid grid2 : Int → Pt → α) (start_dt : Int) (sendBuf : Pt → α),
      (∀ e : Pt, (packWindow context (haloWidths context pn px py pz) nn nx ny nz).contains e →
        grid2 start_dt e = grid start_dt e) →
        pack_halo K context pn px py pz grid2 start_dt nn nx ny nz sendBuf =
          pack_halo K context pn px py pz grid start_dt nn nx ny nz sendBuf) := by
  have hW := packWindow_vecAligned K context pn px py pz nn nx ny nz hd hh
  have hcases : ∀ (α : Type) (grid : Int → Pt → α) (start_dt : Int) (sendBuf : Pt → α)
      (b : Pt),
      pack_halo K context pn px py pz grid start_dt nn nx ny nz sendBuf b =
        if (packWindow context (haloWidths context pn px py pz) nn nx ny nz).contains
            ⟨b.n + (packWindow context (haloWidths context pn px py pz) nn nx ny nz).begin_n,
              b.x + (packWindow context (haloWidths context pn px py pz) nn nx ny nz).begin_x,
              b.y + (packWindow context (haloWidths context pn px py pz) nn nx ny nz).begin_y,
              b.z + (packWindow context (haloWidths context pn px py pz) nn nx ny nz).begin_z⟩
        then grid start_dt
            ⟨b.n + (packWindow context (haloWidths context pn px py pz) nn nx ny nz).begin_n,
              b.x + (packWindow context (haloWidths context pn px py pz) nn nx ny nz).begin_x,
              b.y + (packWindow context (haloWidths context pn px py pz) nn nx ny nz).begin_y,
              b.z + (packWindow context (haloWidths context pn px py pz) nn nx ny nz).begin_z⟩
        else sendBuf b := by
    intro α grid start_dt sendBuf b
    exact pack_fold_cases K _ hV hW (grid start_dt) sendBuf b
  have hne1 : rank_prev ≠ rank_next := by decide
  have hne2 : rank_self ≠ rank_next := by decide
  have hne3 : rank_self ≠ rank_prev := by decide
  refine ⟨rfl, ⟨?_, ?_, ?_⟩, ⟨?_, ?_, ?_⟩, ⟨?_, ?_, ?_⟩, ⟨?_, ?_, ?_⟩, ?_, ?_, ?_, ?_,
    ?_⟩
  · rintro rfl
    simp [packWindow, haloWidths, hne1]
  · rintro rfl
    simp [packWindow, haloWidths, hne1.symm]
  · rintro rfl
    simp [packWindow, haloWidths, hne2, hne3]
  · rintro rfl
    simp [packWindow, haloWidths, hne1]
  · rintro rfl
    simp [packWindow, haloWidths, hne1.symm]
  · rintro rfl
    simp [packWindow, haloWidths, hne2, hne3]
  · rintro rfl
    simp [packWindow, haloWidths, hne1]
  · rintro rfl
    simp [packWindow, haloWidths, hne1.symm]
  · rintro rfl
    simp [packWindow, haloWidths, hne2, hne3]
  · rintro rfl
    simp [packWindow, haloWidths, hne1]
  · rintro rfl
    simp [packWindow, haloWidths, hne1.symm]
  · rintro rfl
    simp [packWindow, haloWidths, hne2, hne3]
  · intro v
    exact haloPairs_vectors K _ v
  · intro e
    obtain ⟨⟨a1, a2⟩, ⟨b1, b2⟩, ⟨c1, c2⟩, ⟨d1, d2⟩⟩ := hW
    exact mem_halo_elements K _ hV ⟨a1, b1, c1, d1⟩ ⟨a2, b2, c2, d2⟩ e
  · intro α grid start_dt sendBuf e he
    rw [hcases]
    simp only [sub_add_cancel]
    rw [if_pos he]
  · intro α grid start_dt sendBuf b hb
    rw [hcases, if_neg hb]
  · intro α grid grid2 start_dt sendBuf h
    funext b
    rw [hcases, hcases]
    split_ifs with hc
    · exact h _ hc
    · rfl

/-- Witness of the amended C13: vectors of two elements along `x`, `dx = 4`,
`context.hx = 3`, pad `get_px() = 2`, so `h_x = 2`; for the neighbor `rank_next` along `x`
the window is `[2,4)`, the elements read are `x = 2` and `x = 3`, and the buffer holds
them at the positions `0` and `1`. -/
theorem exchange_halos_pack_window_witness :
    haloWidths padContext 0 2 0 0 = (0, 2, 0, 0) ∧
    packWindow padContext (haloWidths padContext 0 2 0 0) 1 2 1 1 =
      { begin_n := 0, begin_x := 2, begin_y := 0, begin_z := 0,
        end_n := 1, end_x := 4, end_y := 1, end_z := 1 } ∧
    (∀ e : Pt, e ∈ packReads foldX2 padContext 0 2 0 0 1 2 1 1 ↔
      (packWindow padContext (haloWidths padContext 0 2 0 0) 1 2 1 1).contains e) ∧
    packReads foldX2 padContext 0 2 0 0 1 2 1 1 = [⟨0, 2, 0, 0⟩, ⟨0, 3, 0, 0⟩] ∧
    pack_halo foldX2 padContext 0 2 0 0 sendGrid 0 1 2 1 1 freshBuf
      ⟨(0 : Int) - (packWindow padContext (haloWidths padContext 0 2 0 0) 1 2 1 1).begin_n,
        3 - (packWindow padContext (haloWidths padContext 0 2 0 0) 1 2 1 1).begin_x,
        0 - (packWindow padContext (haloWidths padContext 0 2 0 0) 1 2 1 1).begin_y,
        0 - (packWindow padContext (haloWidths padContext 0 2 0 0) 1 2 1 1).begin_z⟩ =
      sendGrid 0 ⟨0, 3, 0, 0⟩ ∧
    pack_halo foldX2 padContext 0 2 0 0 sendGrid 0 1 2 1 1 freshBuf ⟨0, 1, 0, 0⟩ = 13 ∧
    pack_halo foldX2 padContext 0 2 0 0 sendGrid 0 1 2 1 1 freshBuf ⟨0, 2, 0, 0⟩ = -1 :=
  ⟨by decide, by decide,
    (exchange_halos_pack_window foldX2 padContext 0 2 0 0 1 2 1 1
      ⟨by decide, by decide, by decide, by decide⟩
      ⟨by decide, by decide, by decide, by decide⟩
      ⟨by decide, by decide, by decide, by decide⟩).2.2.2.2.2.2.1,
    by decide,
    (exchange_halos_pack_window foldX2 padContext 0 2 0 0 1 2 1 1
      ⟨by decide, by decide, by decide, by decide⟩
      ⟨by decide, by decide, by decide, by decide⟩
      ⟨by decide, by decide, by decide, by decide⟩).2.2.2.2.2.2.2.1 Int sendGrid 0 freshBuf
        ⟨0, 3, 0, 0⟩ (by decide),
    by decide, by decide⟩

/-- **C14 (counterexample).** Vectors of two elements along `x`, rank size `dx = 4`, halo
width `hx = 3` (the pad of the grid is 3 as well).  For the neighbor `rank_next` along `x`
the element window of the unpack phase is `[4,7)`, but the vectors written are
`[4/2, 7/2)`, that is `[2,3)`, which hold the elements `x = 4` and `x = 5`: the element
`x = 6` of the window is not written and keeps its old value `0`. -/
theorem exchange_halos_unpack_partial_window :
    haloWidths (haloContext 3) 0 3 0 0 = (0, 3, 0, 0) ∧
    unpackWindow (haloContext 3) (haloWidths (haloContext 3) 0 3 0 0)
      rank_self rank_next rank_self rank_self = ⟨0, 4, 0, 0, 1, 7, 1, 1⟩ ∧
    unpackWrites foldX2 (haloContext 3) 0 3 0 0 rank_self rank_next rank_self rank_self =
      [⟨0, 4, 0, 0⟩, ⟨0, 5, 0, 0⟩] ∧
    (unpackWindow (haloContext 3) (haloWidths (haloContext 3) 0 3 0 0)
      rank_self rank_next rank_self rank_self).contains ⟨0, 6, 0, 0⟩ ∧
    unpack_halo foldX2 (haloContext 3) 0 3 0 0 recvGrid 0
      rank_self rank_next rank_self rank_self freshBuf 0 ⟨0, 5, 0, 0⟩ = -1 ∧
    unpack_halo foldX2 (haloContext 3) 0 3 0 0 recvGrid 0
      rank_self rank_next rank_self rank_self freshBuf 0 ⟨0, 6, 0, 0⟩ = 0 ∧
    recvGrid 0 ⟨0, 6, 0, 0⟩ = 0 :=
  ⟨by decide, by decide, by decide, by decide, by decide, by decide, by decide⟩

/-- **C14 (amended).** Unpack phase of `exchange_halos` for a neighbor `(nn,nx,ny,nz)` with
a receive buffer, when every vector length `VLEN_d` is positive and divides the rank size
`d_d` and the halo width `h_d = min(context.h_d, get_p_d())` (the same widths as in the
pack phase).  The element window `[begin_d, end_d)` is `[-h_d, 0)` when the neighbor index
is `rank_prev`, `[d_d, d_d + h_d)` when it is `rank_next` and `[0, d_d)` when it is
`rank_self`; the vectors written are those of the window with its bounds divided by the
vector lengths, and the elements written are exactly the elements of the window.  After
the unpack every element `e` of the window holds, at the time index `start_dt`, the
buffer element at the zero-based position `e - begin`; the elements outside the window
and the grid at other time indices keep their values. -/
theorem exchange_halos_unpack_window (K : Consts) (context : StencilContext)
    (pn px py pz nn nx ny nz : Int)
    (hV : 0 < K.VLEN_N ∧ 0 < K.VLEN_X ∧ 0 < K.VLEN_Y ∧ 0 < K.VLEN_Z)
    (hd : K.VLEN_N ∣ context.dn ∧ K.VLEN_X ∣ context.dx ∧ K.VLEN_Y ∣ context.dy ∧
      K.VLEN_Z ∣ context.dz)
    (hh : K.VLEN_N ∣ min context.hn pn ∧ K.VLEN_X ∣ min context.hx px ∧
      K.VLEN_Y ∣ min context.hy py ∧ K.VLEN_Z ∣ min context.hz pz) :
    haloWidths context pn px py pz =
      (min context.hn pn, min context.hx px, min context.hy py, min context.hz pz) ∧
    ((nn = rank_prev →
        (unpackWindow context (haloWidths context pn px py pz) nn nx ny nz).begin_n =
          -min context.hn pn ∧
        (unpackWindow context (haloWidths context pn px py pz) nn nx ny nz).end_n = 0) ∧
      (nn = rank_next →
        (unpackWindow context (haloWidths context pn px py pz) nn nx ny nz).begin_n =
          context.dn ∧
        (unpackWindow context (haloWidths context pn px py pz) nn nx ny nz).end_n =
          context.dn + min context.hn pn) ∧
      (nn = rank_self →
        (unpackWindow context (haloWidths context pn px py pz) nn nx ny nz).begin_n = 0 ∧
        (unpackWindow context (haloWidths context pn px py pz) nn nx ny nz).end_n = context.dn)) ∧
    ((nx = rank_prev →
        (unpackWindow context (haloWidths context pn px py pz) nn nx ny nz).begin_x =
          -min context.hx px ∧
        (unpackWindow context (haloWidths context pn px py pz) nn nx ny nz).end_x = 0) ∧
      (nx = rank_next →
        (unpackWindow context (haloWidths context pn px py pz) nn nx ny nz).begin_x =
          context.dx ∧
        (unpackWindow context (haloWidths context pn px py pz) nn nx ny nz).end_x =
          context.dx + min context.hx px) ∧
      (nx = rank_self →
        (unpackWindow context (haloWidths context pn px py pz) nn nx ny nz).begin_x = 0 ∧
        (unpackWindow context (haloWidths context pn px py pz) nn nx ny nz).end_x = context.dx)) ∧
    ((ny = rank_prev →
        (unpackWindow context (haloWidths context pn px py pz) nn nx ny nz).begin_y =
          -min context.hy py ∧
        (unpackWindow context (haloWidths context pn px py pz) nn nx ny nz).end_y = 0) ∧
      (ny = rank_next →
        (unpackWindow context (haloWidths context pn px py pz) nn nx ny nz).begin_y =
          context.dy ∧
        (unpackWindow context (haloWidths context pn px py pz) nn nx ny nz).end_y =
          context.dy + min context.hy py) ∧
      (ny = rank_self →
        (unpackWindow context (haloWidths context pn px py pz) nn nx ny nz).begin_y = 0 ∧
        (unpackWindow context (haloWidths context pn px py pz) nn nx ny nz).end_y = context.dy)) ∧
    ((nz = rank_prev →
        (unpackWindow context (haloWidths context pn px py pz) nn nx ny nz).begin_z =
          -min context.hz pz ∧
        (unpackWindow context (haloWidths context pn px py pz) nn nx ny nz).end_z = 0) ∧
      (nz = rank_next →
        (unpackWindow context (haloWidths context pn px py pz) nn nx ny nz).begin_z =
          context.dz ∧
        (unpackWindow context (haloWidths context pn px py pz) nn nx ny nz).end_z =
          context.dz + min context.hz pz) ∧
      (nz = rank_self →
        (unpackWindow context (haloWidths context pn px py pz) nn nx ny nz).begin_z = 0 ∧
        (unpackWindow context (haloWidths context pn px py pz) nn nx ny nz).end_z = context.dz)) ∧
    (∀ v : Pt,
      (∃ b, (b, v) ∈
        haloPairs K (unpackWindow context (haloWidths context pn px py pz) nn nx ny nz)) ↔
      (vecWindow K
        (unpackWindow context (haloWidths context pn px py pz) nn nx ny nz)).contains v) ∧
    (∀ e : Pt, e ∈ unpackWrites K context pn px py pz nn nx ny nz ↔
      (unpackWindow context (haloWidths context pn px py pz) nn nx ny nz).contains e) ∧
    (∀ (α : Type) (grid : Int → Pt → α) (start_dt : Int) (rcvBuf : Pt → α) (e : Pt),
      (unpackWindow context (haloWidths context pn px py pz) nn nx ny nz).contains e →
        unpack_halo K context pn px py pz grid start_dt nn nx ny nz rcvBuf start_dt e =
          rcvBuf
            ⟨e.n - (unpackWindow context (haloWidths context pn px py pz) nn nx ny nz).begin_n,
              e.x - (unpackWindow context (haloWidths context pn px py pz) nn nx ny nz).begin_x,
              e.y - (unpackWindow context (haloWidths context pn px py pz) nn nx ny nz).begin_y,
              e.z - (unpackWindow context (haloWidths context pn px py pz) nn nx ny nz).begin_z⟩) ∧
    (∀ (α : Type) (grid : Int → Pt → α) (start_dt : Int) (rcvBuf : Pt → α),
      (∀ t, t ≠ start_dt →
        unpack_halo K context pn px py pz grid start_dt nn nx ny nz rcvBuf t = grid t) ∧
      (∀ e, ¬ (unpackWindow context (haloWidths context pn px py pz) nn nx ny nz).contains e →
        unpack_halo K context pn px py pz grid start_dt nn nx ny nz rcvBuf start_dt e =
          grid start_dt e)) := by
  have hW := unpackWindow_vecAligned K context pn px py pz nn nx ny nz hd hh
  have hcases : ∀ (α : Type) (grid : Int → Pt → α) (start_dt : Int) (rcvBuf : Pt → α)
      (e : Pt),
      unpack_halo K context pn px py pz grid start_dt nn nx ny nz rcvBuf start_dt e =
        if (unpackWindow context (haloWidths context pn px py pz) nn nx ny nz).contains e
        then rcvBuf
            ⟨e.n - (unpackWindow context (haloWidths context pn px py pz) nn nx ny nz).begin_n,
              e.x - (unpackWindow context (haloWidths context pn px py pz) nn nx ny nz).begin_x,
              e.y - (unpackWindow context (haloWidths context pn px py pz) nn nx ny nz).begin_y,
              e.z - (unpackWindow context (haloWidths context pn px py pz) nn nx ny nz).begin_z⟩
        else grid start_dt e := by
    intro α grid start_dt rcvBuf e
    simp only [unpack_halo, eq_self_iff_true, if_true]
    exact unpack_fold_cases K _ hV hW rcvBuf (grid start_dt) e
  have hne1 : rank_prev ≠ rank_next := by decide
  have hne2 : rank_self ≠ rank_next := by decide
  have hne3 : rank_self ≠ rank_prev := by decide
  refine ⟨rfl, ⟨?_, ?_, ?_⟩, ⟨?_, ?_, ?_⟩, ⟨?_, ?_, ?_⟩, ⟨?_, ?_, ?_⟩, ?_, ?_, ?_, ?_⟩
  · rintro rfl
    simp [unpackWindow, haloWidths, hne1]
  · rintro rfl
    simp [unpackWindow, haloWidths, hne1.symm]
  · rintro rfl
    simp [unpackWindow, haloWidths, hne2, hne3]
  · rintro rfl
    simp [unpackWindow, haloWidths, hne1]
  · rintro rfl
    simp [unpackWindow, haloWidths, hne1.symm]
  · rintro rfl
    simp [unpackWindow, haloWidths, hne2, hne3]
  · rintro rfl
    simp [unpackWindow, haloWidths, hne1]
  · rintro rfl
    simp [unpackWindow, haloWidths, hne1.symm]
  · rintro rfl
    simp [unpackWindow, haloWidths, hne2, hne3]
  · rintro rfl
    simp [unpackWindow, haloWidths, hne1]
  · rintro rfl
    simp [unpackWindow, haloWidths, hne1.symm]
  · rintro rfl
    simp [unpackWindow, haloWidths, hne2, hne3]
  · intro v
    exact haloPairs_vectors K _ v
  · intro e
    obtain ⟨⟨a1, a2⟩, ⟨b1, b2⟩, ⟨c1, c2⟩, ⟨d1, d2⟩⟩ := hW
    exact mem_halo_elements K _ hV ⟨a1, b1, c1, d1⟩ ⟨a2, b2, c2, d2⟩ e
  · intro α grid start_dt rcvBuf e he
    rw [hcases, if_pos he]
  · intro α grid start_dt rcvBuf
    constructor
    · intro t ht
      simp only [unpack_halo, if_neg ht]
    · intro e he
      rw [hcases, if_neg he]

/-- Witness of the amended C14: the same setting as for C13; for the neighbor `rank_prev`
along `x` the window is `[-2,0)`, the elements written are `x = -2` and `x = -1`, and
they hold the buffer elements `0` and `1`. -/
theorem exchange_halos_unpack_window_witness :
    haloWidths padContext 0 2 0 0 = (0, 2, 0, 0) ∧
    unpackWindow padContext (haloWidths padContext 0 2 0 0) 1 0 1 1 =
      { begin_n := 0, begin_x := -2, begin_y := 0, begin_z := 0,
        end_n := 1, end_x := 0, end_y := 1, end_z := 1 } ∧
    (∀ e : Pt, e ∈ unpackWrites foldX2 padContext 0 2 0 0 1 0 1 1 ↔
      (unpackWindow padContext (haloWidths padContext 0 2 0 0) 1 0 1 1).contains e) ∧
    unpackWrites foldX2 padContext 0 2 0 0 1 0 1 1 = [⟨0, -2, 0, 0⟩, ⟨0, -1, 0, 0⟩] ∧
    unpack_halo foldX2 padContext 0 2 0 0 recvGrid 0 1 0 1 1 (fun b => 20 + b.x) 0
        ⟨0, -1, 0, 0⟩ =
      (fun b : Pt => 20 + b.x)
        ⟨(0 : Int) - (unpackWindow padContext (haloWidths padContext 0 2 0 0) 1 0 1 1).begin_n,
          -1 - (unpackWindow padContext (haloWidths padContext 0 2 0 0) 1 0 1 1).begin_x,
          0 - (unpackWindow padContext (haloWidths padContext 0 2 0 0) 1 0 1 1).begin_y,
          0 - (unpackWindow padContext (haloWidths padContext 0 2 0 0) 1 0 1 1).begin_z⟩ ∧
    unpack_halo foldX2 padContext 0 2 0 0 recvGrid 0 1 0 1 1 (fun b => 20 + b.x) 0
      ⟨0, -1, 0, 0⟩ = 21 ∧
    unpack_halo foldX2 padContext 0 2 0 0 recvGrid 0 1 0 1 1 (fun b => 20 + b.x) 0
      ⟨0, 0, 0, 0⟩ = 0 :=
  ⟨by decide, by decide,
    (exchange_halos_unpack_window foldX2 padContext 0 2 0 0 1 0 1 1
      ⟨by decide, by decide, by decide, by decide⟩
      ⟨by decide, by decide, by decide, by decide⟩
      ⟨by decide, by decide, by decide, by decide⟩).2.2.2.2.2.2.1,
    by decide,
    (exchange_halos_unpack_window foldX2 padContext 0 2 0 0 1 0 1 1
      ⟨by decide, by decide, by decide, by decide⟩
      ⟨by decide, by decide, by decide, by decide⟩
      ⟨by decide, by decide, by decide, by decide⟩).2.2.2.2.2.2.2.1 Int recvGrid 0
        (fun b => 20 + b.x) ⟨0, -1, 0, 0⟩ (by decide),
    by decide, by decide⟩


/-! ## Reordering of updates that commute -/

theorem runUpdates_nil {γ : Type} (halo : Nat → Int → Int → γ → γ)
    (kern : Nat → Int → Pt → γ → γ) (s : γ) : runUpdates halo kern [] s = s := rfl

theorem runUpdates_cons {γ : Type} (halo : Nat → Int → Int → γ → γ)
    (kern : Nat → Int → Pt → γ → γ) (a : Update) (B : List Update) (s : γ) :
    runUpdates halo kern (a :: B) s =
      runUpdates halo kern B (Update.apply halo kern s a) := rfl

theorem runUpdates_comm_one {γ : Type} (halo : Nat → Int → Int → γ → γ)
    (kern : Nat → Int → Pt → γ → γ) (a : Update) (B : List Update)
    (h : ∀ b ∈ B, Update.Commute halo kern a b) :
    ∀ s, runUpdates halo kern B (Update.apply halo kern s a) =
      Update.apply halo kern (runUpdates halo kern B s) a := by
  induction B with
  | nil =>
    intro s
    rfl
  | cons b B ih =>
    intro s
    rw [runUpdates_cons, runUpdates_cons, h b (List.mem_cons_self _ _) s,
      ih (fun x hx => h x (List.mem_cons_of_mem _ hx))]

theorem runUpdates_comm {γ : Type} (halo : Nat → Int → Int → γ → γ)
    (kern : Nat → Int → Pt → γ → γ) (A B : List Update)
    (h : ∀ a ∈ A, ∀ b ∈ B, Update.Commute halo kern a b) :
    ∀ s, runUpdates halo kern B (runUpdates halo kern A s) =
      runUpdates halo kern A (runUpdates halo kern B s) := by
  induction A with
  | nil =>
    intro s
    rfl
  | cons a A ih =>
    intro s
    rw [runUpdates_cons, runUpdates_cons,
      ih (fun x hx => h x (List.mem_cons_of_mem _ hx)),
      runUpdates_comm_one halo kern a B (h a (List.mem_cons_self _ _))]

theorem pairwise_forall_mem {ι κ : Type} (I : List ι) (J : List κ) (R : ι → κ → κ → Prop)
    (h : ∀ i ∈ I, J.Pairwise (R i)) : J.Pairwise (fun x y => ∀ i ∈ I, R i x y) := by
  induction J with
  | nil => exact List.Pairwise.nil
  | cons j J ih =>
    rw [List.pairwise_cons]
    constructor
    · intro y hy i hi
      exact (List.pairwise_cons.mp (h i hi)).1 y hy
    · exact ih (fun i hi => (List.pairwise_cons.mp (h i hi)).2)

/-- Two sweeps over the same list, the second after the first, give the same grids as one
sweep that does both steps for each entry, when every first step commutes with the
second steps of the entries before it. -/
theorem runUpdates_interleave {γ κ : Type} (halo : Nat → Int → Int → γ → γ)
    (kern : Nat → Int → Pt → γ → γ) (J : List κ) (A B : κ → List Update)
    (h : J.Pairwise (fun j' j => ∀ a ∈ A j, ∀ b ∈ B j', Update.Commute halo kern a b)) :
    ∀ s, runUpdates halo kern (J.flatMap A ++ J.flatMap B) s =
      runUpdates halo kern (J.flatMap (fun j => A j ++ B j)) s := by
  induction J with
  | nil =>
    intro s
    rfl
  | cons j0 J ih =>
    intro s
    obtain ⟨h1, h2⟩ := List.pairwise_cons.mp h
    simp only [List.flatMap_cons, runUpdates_append]
    rw [runUpdates_comm halo kern (J.flatMap A) (B j0)]
    · rw [← runUpdates_append halo kern (J.flatMap A) (J.flatMap B), ih h2]
    · intro a ha b hb
      obtain ⟨j, hj, haj⟩ := List.mem_flatMap.mp ha
      exact h1 j hj a haj b hb

/-- Exchange of two nested sweeps: doing, for each `i` in order, all `j` in order gives the
same grids as doing, for each `j` in order, all `i` in order, when the step `(i, j)`
commutes with every step `(i', j')` that has `i` before `i'` and `j'` before `j`. -/
theorem runUpdates_transpose {γ ι κ : Type} (halo : Nat → Int → Int → γ → γ)
    (kern : Nat → Int → Pt → γ → γ) (I : List ι) (J : List κ) (U : ι → κ → List Update)
    (h : I.Pairwise (fun i i' => J.Pairwise (fun j' j =>
      ∀ a ∈ U i j, ∀ b ∈ U i' j', Update.Commute halo kern a b))) :
    ∀ s, runUpdates halo kern (I.flatMap (fun i => J.flatMap (U i))) s =
      runUpdates halo kern (J.flatMap (fun j => I.flatMap (fun i => U i j))) s := by
  induction I with
  | nil =>
    intro s
    have : J.flatMap (fun j => ([] : List ι).flatMap (fun i => U i j)) = [] := by
      rw [List.flatMap_eq_nil_iff]
      intro j _
      rfl
    rw [this]
    rfl
  | cons i0 I ih =>
    intro s
    obtain ⟨h1, h2⟩ := List.pairwise_cons.mp h
    have hJ : J.Pairwise (fun j' j => ∀ a ∈ U i0 j,
        ∀ b ∈ I.flatMap (fun i => U i j'), Update.Commute halo kern a b) := by
      refine (pairwise_forall_mem I J
        (fun i j' j => ∀ a ∈ U i0 j, ∀ b ∈ U i j', Update.Commute halo kern a b) h1).imp ?_
      intro j' j hij a ha b hb
      obtain ⟨i, hi, hbi⟩ := List.mem_flatMap.mp hb
      exact hij i hi a ha b hbi
    rw [List.flatMap_cons, runUpdates_append, ih h2, ← runUpdates_append,
      runUpdates_interleave halo kern J (U i0) (fun j => I.flatMap (fun i => U i j)) hJ]
    simp only [List.flatMap_cons]

theorem perm_transpose {β ι κ : Type} (I : List ι) (J : List κ) (U : ι → κ → List β) :
    (I.flatMap (fun i => J.flatMap (U i))).Perm
      (J.flatMap (fun j => I.flatMap (fun i => U i j))) := by
  induction I with
  | nil =>
    have : J.flatMap (fun j => ([] : List ι).flatMap (fun i => U i j)) = [] := by
      rw [List.flatMap_eq_nil_iff]
      intro j _
      rfl
    rw [this]
    exact List.Perm.refl _
  | cons i0 I ih =>
    simp only [List.flatMap_cons]
    exact ((List.Perm.append_left _ ih).trans (List.flatMap_append_perm J _ _))

/-! ## Order of the regions of a sweep -/

theorem loopWindows_pairwise (b e s : Int) (hs : 0 < s) :
    (loopWindows b e s).Pairwise (fun w w2 => w.2 ≤ w2.1) := by
  unfold loopWindows loopRange
  rw [List.map_map, List.pairwise_map]
  refine (List.pairwise_lt_range _).imp ?_
  intro i j hij
  simp only [Function.comp_apply, Int.ofNat_eq_coe, zero_add]
  refine le_trans (min_le_left _ _) ?_
  have h1 : ((i : Int) + 1) * s ≤ (j : Int) * s :=
    Int.mul_le_mul_of_nonneg_right (by omega) (le_of_lt hs)
  linarith

theorem tileLoops_pairwise (WS : Box) (sn sx sy sz : Int)
    (hn : 0 < sn) (hx : 0 < sx) (hy : 0 < sy) (hz : 0 < sz) :
    (tileLoops WS sn sx sy sz).Pairwise Box.Before := by
  unfold tileLoops
  rw [List.pairwise_flatMap]
  refine ⟨?_, ?_⟩
  · intro wn _
    rw [List.pairwise_flatMap]
    refine ⟨?_, ?_⟩
    · intro wx _
      rw [List.pairwise_flatMap]
      refine ⟨?_, ?_⟩
      · intro wy _
        rw [List.pairwise_map]
        refine (loopWindows_pairwise _ _ _ hz).imp ?_
        intro a b hab
        exact Or.inr (Or.inr (Or.inr hab))
      · refine (loopWindows_pairwise _ _ _ hy).imp ?_
        intro a b hab W hW W2 hW2
        obtain ⟨_, _, rfl⟩ := List.mem_map.mp hW
        obtain ⟨_, _, rfl⟩ := List.mem_map.mp hW2
        exact Or.inr (Or.inr (Or.inl hab))
    · refine (loopWindows_pairwise _ _ _ hx).imp ?_
      intro a b hab W hW W2 hW2
      obtain ⟨_, _, hW⟩ := List.mem_flatMap.mp hW
      obtain ⟨_, _, hW2⟩ := List.mem_flatMap.mp hW2
      obtain ⟨_, _, rfl⟩ := List.mem_map.mp hW
      obtain ⟨_, _, rfl⟩ := List.mem_map.mp hW2
      exact Or.inr (Or.inl hab)
  · refine (loopWindows_pairwise _ _ _ hn).imp ?_
    intro a b hab W hW W2 hW2
    obtain ⟨_, _, hW⟩ := List.mem_flatMap.mp hW
    obtain ⟨_, _, hW2⟩ := List.mem_flatMap.mp hW2
    obtain ⟨_, _, hW⟩ := List.mem_flatMap.mp hW
    obtain ⟨_, _, hW2⟩ := List.mem_flatMap.mp hW2
    obtain ⟨_, _, rfl⟩ := List.mem_map.mp hW
    obtain ⟨_, _, rfl⟩ := List.mem_map.mp hW2
    exact Or.inl hab

/-- A loop whose step is at least the length of its range has at most one window, the
whole range. -/
theorem loopWindows_single_tile {b e r : Int} (hr : 0 < r) (hlen : e - b ≤ r)
    {w w2 : Int × Int} (hw : w ∈ loopWindows b e r) (hw2 : w2 ∈ loopWindows b e r) :
    w2.1 < w.2 := by
  obtain ⟨i, ⟨hi0, hi1⟩, rfl⟩ := mem_loopWindows.mp hw
  obtain ⟨j, ⟨hj0, hj1⟩, rfl⟩ := mem_loopWindows.mp hw2
  have hcount : (e - b + (r - 1)).tdiv r < 2 := by
    by_cases hx : 0 ≤ e - b + (r - 1)
    · rw [Int.tdiv_eq_ediv hx (le_of_lt hr)]
      exact Int.ediv_lt_of_lt_mul hr (by omega)
    · have := tdiv_nonpos_of_nonpos (le_of_lt (not_le.mp hx)) (le_of_lt hr)
      omega
  have hpos : r ≤ e - b + (r - 1) := by
    by_contra hlt
    have hlt2 : e - b + (r - 1) < r := not_le.mp hlt
    by_cases hx : 0 ≤ e - b + (r - 1)
    · have := Int.tdiv_eq_zero_of_lt hx hlt2
      omega
    · have := tdiv_nonpos_of_nonpos (le_of_lt (not_le.mp hx)) (le_of_lt hr)
      omega
  have hi : i = 0 := by omega
  have hj : j = 0 := by omega
  subst hi hj
  simp only [zero_mul, add_zero]
  exact lt_min (by omega) (by omega)

/-- Two regions of a sweep, the first before the second in the order of the loops, at two
evaluations `k2 < k` of the wavefront: a point of the first region's window at the later
evaluation `k` and a point of the second region's window at the earlier evaluation `k2`
are more than the halo width apart in some dimension.  In each dimension either the angle
is at least the halo width, or the step of the regions is at least the length of the
sweep window (there is one region along that dimension). -/
theorem shifted_regions_far (sc : StencilContext) (WS W W2 : Box)
    (hW : W ∈ tileLoops WS sc.rn sc.rx sc.ry sc.rz)
    (hW2 : W2 ∈ tileLoops WS sc.rn sc.rx sc.ry sc.rz) (hbef : W.Before W2)
    (hrn : 0 < sc.rn) (hrx : 0 < sc.rx) (hry : 0 < sc.ry) (hrz : 0 < sc.rz)
    (han : 0 ≤ sc.angle_n) (hax : 0 ≤ sc.angle_x) (hay : 0 ≤ sc.angle_y)
    (haz : 0 ≤ sc.angle_z)
    (gn : sc.hn ≤ sc.angle_n ∨ WS.end_n - WS.begin_n ≤ sc.rn)
    (gx : sc.hx ≤ sc.angle_x ∨ WS.end_x - WS.begin_x ≤ sc.rx)
    (gy : sc.hy ≤ sc.angle_y ∨ WS.end_y - WS.begin_y ≤ sc.ry)
    (gz : sc.hz ≤ sc.angle_z ∨ WS.end_z - WS.begin_z ≤ sc.rz)
    (k k2 : Nat) (hk : k2 < k) (p q : Pt) (hp : (W.shiftBy sc k).contains p)
    (hq : (W2.shiftBy sc k2).contains q) : farApart sc p q := by
  obtain ⟨tn, tx, ty, tz⟩ := mem_tileLoops.mp hW
  obtain ⟨tn2, tx2, ty2, tz2⟩ := mem_tileLoops.mp hW2
  obtain ⟨⟨p1, p2⟩, ⟨p3, p4⟩, ⟨p5, p6⟩, ⟨p7, p8⟩⟩ := hp
  obtain ⟨⟨q1, q2⟩, ⟨q3, q4⟩, ⟨q5, q6⟩, ⟨q7, q8⟩⟩ := hq
  simp only [Box.shiftBy, Int.ofNat_eq_coe] at p1 p2 p3 p4 p5 p6 p7 p8 q1 q2 q3 q4 q5 q6 q7 q8
  have hkk : (k2 : Int) + 1 ≤ (k : Int) := by omega
  have key : ∀ a : Int, 0 ≤ a → (k2 : Int) * a + a ≤ (k : Int) * a := by
    intro a ha
    have := Int.mul_le_mul_of_nonneg_right hkk ha
    linarith
  rcases hbef with hb | hb | hb | hb
  · rcases gn with g | g
    · refine Or.inl ?_
      have := key _ han
      have hlt : sc.hn < q.n - p.n := by linarith
      rw [abs_sub_comm]
      exact lt_of_lt_of_le hlt (le_abs_self _)
    · have := loopWindows_single_tile hrn g tn tn2
      simp only at this
      omega
  · rcases gx with g | g
    · refine Or.inr (Or.inl ?_)
      have := key _ hax
      have hlt : sc.hx < q.x - p.x := by linarith
      rw [abs_sub_comm]
      exact lt_of_lt_of_le hlt (le_abs_self _)
    · have := loopWindows_single_tile hrx g tx tx2
      simp only at this
      omega
  · rcases gy with g | g
    · refine Or.inr (Or.inr (Or.inl ?_))
      have := key _ hay
      have hlt : sc.hy < q.y - p.y := by linarith
      rw [abs_sub_comm]
      exact lt_of_lt_of_le hlt (le_abs_self _)
    · have := loopWindows_single_tile hry g ty ty2
      simp only at this
      omega
  · rcases gz with g | g
    · refine Or.inr (Or.inr (Or.inr ?_))
      have := key _ haz
      have hlt : sc.hz < q.z - p.z := by linarith
      rw [abs_sub_comm]
      exact lt_of_lt_of_le hlt (le_abs_self _)
    · have := loopWindows_single_tile hrz g tz tz2
      simp only at this
      omega

/-! ## The kernel calls of a region sweep -/

theorem evalsFrom_enumFrom (c : StencilContext) (W : Box) (l : List (Int × EqGroupBase)) :
    ∀ j, evalsFrom c W j l = (l.enumFrom j).map (fun kt => evalAt c W kt.1 kt.2) := by
  induction l with
  | nil =>
    intro j
    rfl
  | cons a l ih =>
    intro j
    simp only [evalsFrom, List.enumFrom_cons, List.map_cons, ih (j + 1)]

theorem evalAt_updates (K : Consts) (sc : StencilContext) (W : Box) (k : Nat) (t : Int)
    (g : EqGroupBase) :
    (evalAt sc W k (t, g)).updates K sc =
      (if (clipToGroup (W.shiftBy sc k) g).nonempty then
        region_loops K sc (clipToGroup (W.shiftBy sc k) g)
      else []).map (Update.calc_point g.addr t) := by
  unfold RegionEval.updates evalAt
  simp only
  split_ifs <;> rfl

theorem shiftBy_contains (W : Box) (sc : StencilContext) (k : Nat) (p : Pt) :
    (W.shiftBy sc k).contains p ↔
      W.contains ⟨p.n + Int.ofNat k * sc.angle_n, p.x + Int.ofNat k * sc.angle_x,
        p.y + Int.ofNat k * sc.angle_y, p.z + Int.ofNat k * sc.angle_z⟩ := by
  simp only [Box.contains, Box.shiftBy]
  constructor
  · rintro ⟨⟨a1, a2⟩, ⟨b1, b2⟩, ⟨c1, c2⟩, ⟨d1, d2⟩⟩
    refine ⟨⟨?_, ?_⟩, ⟨?_, ?_⟩, ⟨?_, ?_⟩, ⟨?_, ?_⟩⟩ <;> linarith
  · rintro ⟨⟨a1, a2⟩, ⟨b1, b2⟩, ⟨c1, c2⟩, ⟨d1, d2⟩⟩
    refine ⟨⟨?_, ?_⟩, ⟨?_, ?_⟩, ⟨?_, ?_⟩, ⟨?_, ?_⟩⟩ <;> linarith

theorem shiftBy_aligned {K : Consts} {W : Box} {sc : StencilContext} (k : Nat)
    (hW : W.Aligned K)
    (hang : K.CPTS_N ∣ sc.angle_n ∧ K.CPTS_X ∣ sc.angle_x ∧ K.CPTS_Y ∣ sc.angle_y ∧
      K.CPTS_Z ∣ sc.angle_z) : (W.shiftBy sc k).Aligned K := by
  obtain ⟨⟨a1, a2⟩, ⟨b1, b2⟩, ⟨c1, c2⟩, ⟨d1, d2⟩⟩ := hW
  obtain ⟨hn, hx, hy, hz⟩ := hang
  exact ⟨⟨dvd_sub a1 (Dvd.dvd.mul_left hn _), dvd_sub a2 (Dvd.dvd.mul_left hn _)⟩,
    ⟨dvd_sub b1 (Dvd.dvd.mul_left hx _), dvd_sub b2 (Dvd.dvd.mul_left hx _)⟩,
    ⟨dvd_sub c1 (Dvd.dvd.mul_left hy _), dvd_sub c2 (Dvd.dvd.mul_left hy _)⟩,
    ⟨dvd_sub d1 (Dvd.dvd.mul_left hz _), dvd_sub d2 (Dvd.dvd.mul_left hz _)⟩⟩

/-- Evaluation `k` of a sweep calls the kernel exactly once at every point of the group's
box and nowhere else, when the windows are aligned to the cluster sizes and the sweep
window shifted back `k` times still contains the box. -/
theorem count_sweepPoints (K : Consts) (sc : StencilContext) (WS : Box) (k : Nat)
    (g : EqGroupBase) (p : Pt)
    (hVn : 0 < K.VLEN_N) (hVx : 0 < K.VLEN_X) (hVy : 0 < K.VLEN_Y) (hVz : 0 < K.VLEN_Z)
    (hCn : 0 < K.CLEN_N) (hCx : 0 < K.CLEN_X) (hCy : 0 < K.CLEN_Y) (hCz : 0 < K.CLEN_Z)
    (hrn : 0 < sc.rn) (hrx : 0 < sc.rx) (hry : 0 < sc.ry) (hrz : 0 < sc.rz)
    (drn : K.CPTS_N ∣ sc.rn) (drx : K.CPTS_X ∣ sc.rx) (dry : K.CPTS_Y ∣ sc.ry)
    (drz : K.CPTS_Z ∣ sc.rz)
    (hbn : 0 < sc.bn) (hbx : 0 < sc.bx) (hby : 0 < sc.by_) (hbz : 0 < sc.bz)
    (dbn : K.CPTS_N ∣ sc.bn) (dbx : K.CPTS_X ∣ sc.bx) (dby : K.CPTS_Y ∣ sc.by_)
    (dbz : K.CPTS_Z ∣ sc.bz)
    (hang : K.CPTS_N ∣ sc.angle_n ∧ K.CPTS_X ∣ sc.angle_x ∧ K.CPTS_Y ∣ sc.angle_y ∧
      K.CPTS_Z ∣ sc.angle_z)
    (hWS : WS.Aligned K) (hg : g.box.Aligned K)
    (hin : ∀ q, g.box.contains q → (WS.shiftBy sc k).contains q) :
    (sweepPoints K sc WS k g).count p = if g.box.contains p then 1 else 0 := by
  unfold sweepPoints List.count
  rw [countP_flatMap_ite_mem _ _ _
    (fun W => decide ((clipToGroup (W.shiftBy sc k) g).contains p)) 1]
  · rw [Nat.mul_one]
    by_cases hp : g.box.contains p
    · rw [if_pos hp]
      have := countP_tileLoops_contains WS sc.rn sc.rx sc.ry sc.rz
        ⟨p.n + Int.ofNat k * sc.angle_n, p.x + Int.ofNat k * sc.angle_x,
          p.y + Int.ofNat k * sc.angle_y, p.z + Int.ofNat k * sc.angle_z⟩ hrn hrx hry hrz
      rw [if_pos ((shiftBy_contains WS sc k p).mp (hin p hp))] at this
      rw [← this]
      apply List.countP_congr
      intro W _
      simp only [decide_eq_true_eq, clipToGroup_contains, hp, and_true, shiftBy_contains]
    · rw [if_neg hp, List.countP_eq_zero]
      intro W _
      simp only [decide_eq_true_eq, clipToGroup_contains, hp, and_false, not_false_eq_true]
  · intro W hW
    by_cases hne : (clipToGroup (W.shiftBy sc k) g).nonempty = true
    · rw [if_pos hne]
      have := count_region_loops K sc (clipToGroup (W.shiftBy sc k) g) p
        hVn hVx hVy hVz hCn hCx hCy hCz hbn hbx hby hbz dbn dbx dby dbz
        (clipToGroup_aligned
          (shiftBy_aligned k (tileLoops_aligned hWS drn drx dry drz hW) hang) hg)
      unfold List.count at this
      rw [this]
      by_cases h : (clipToGroup (W.shiftBy sc k) g).contains p <;> simp [h]
    · rw [if_neg hne]
      have : ¬ (clipToGroup (W.shiftBy sc k) g).contains p :=
        fun h => hne (Box.nonempty_of_contains h)
      simp [this]

/-- The kernel calls of evaluation `k` over all regions, as updates. -/
theorem sweep_column (K : Consts) (sc : StencilContext) (WS : Box) (k : Nat) (t : Int)
    (g : EqGroupBase) :
    (tileLoops WS sc.rn sc.rx sc.ry sc.rz).flatMap
        (fun W => (evalAt sc W k (t, g)).updates K sc) =
      (sweepPoints K sc WS k g).map (Update.calc_point g.addr t) := by
  unfold sweepPoints
  rw [List.map_flatMap]
  apply List.flatMap_congr
  intro W _
  exact evalAt_updates K sc W k t g

/-- The updates behind the region sweep of a super-step, region by region and, within a
region, evaluation by evaluation. -/
theorem regionSweep_updates_enum (K : Consts) (sc : StencilContext) (egs : List EqGroupBase)
    (WS : Box) (start_dt stop_dt : Int) (set : List Nat) :
    (regionSweep sc egs start_dt stop_dt set WS).flatMap (Event.updates K sc) =
      (tileLoops WS sc.rn sc.rx sc.ry sc.rz).flatMap (fun W =>
        (schedule egs set (loopWindows start_dt stop_dt 1)).enum.flatMap
          (fun kt => (evalAt sc W kt.1 kt.2).updates K sc)) := by
  unfold regionSweep
  rw [List.flatMap_map]
  apply List.flatMap_congr
  intro W _
  simp only [Event.updates, calc_region_times_eq, evalsFrom_enumFrom, List.flatMap_map,
    List.enum]

/-! ## The optimized run for any `rt` -/

theorem ROUND_UP_ge (h c : Int) (hh : 0 ≤ h) (hc : 0 < c) : h ≤ ROUND_UP h c :=
  (ROUND_UP_isLeast h c hh hc).1.2

theorem init_len (K : Consts) (context : StencilContext) (eqGroups : List EqGroupBase)
    (c : StencilContext) (egs : List EqGroupBase) (hfresh : context.bb_valid = false)
    (hinit : init K context eqGroups = .returned (c, egs)) :
    c.len_bbn = c.end_bbn - c.begin_bbn ∧ c.len_bbx = c.end_bbx - c.begin_bbx ∧
    c.len_bby = c.end_bby - c.begin_bby ∧ c.len_bbz = c.end_bbz - c.begin_bbz := by
  have hinit2 : find_bounding_boxes K context eqGroups = .returned (c, egs) := hinit
  obtain ⟨c1, _, hc⟩ := find_bounding_boxes_returned K context eqGroups c egs hfresh hinit2
  obtain ⟨⟨n1, n2, n3⟩, ⟨x1, x2, x3⟩, ⟨y1, y2, y3⟩, ⟨z1, z2, z3⟩, _⟩ := bbFinish_fields c1
  rw [← hc] at n1 n2 n3 x1 x2 x3 y1 y2 y3 z1 z2 z3
  rw [n1, n2, n3, x1, x2, x3, y1, y2, y3, z1, z2, z3]
  exact ⟨rfl, rfl, rfl, rfl⟩

/-- In the setting of the sweep, in each dimension either the angle of the wavefront
is at least the halo width, or the region size is at least the length of the sweep
window. -/
theorem setting_gaps (K : Consts) (context : StencilContext)
    (eqGroups : List EqGroupBase) (c : StencilContext) (egs : List EqGroupBase)
    (S : SweepSetting K context eqGroups c egs) :
    ((setAngles K c).hn ≤ (setAngles K c).angle_n ∨
      (sweepWindow (setAngles K c) egs).end_n - (sweepWindow (setAngles K c) egs).begin_n ≤
        (setAngles K c).rn) ∧
    ((setAngles K c).hx ≤ (setAngles K c).angle_x ∨
      (sweepWindow (setAngles K c) egs).end_x - (sweepWindow (setAngles K c) egs).begin_x ≤
        (setAngles K c).rx) ∧
    ((setAngles K c).hy ≤ (setAngles K c).angle_y ∨
      (sweepWindow (setAngles K c) egs).end_y - (sweepWindow (setAngles K c) egs).begin_y ≤
        (setAngles K c).ry) ∧
    ((setAngles K c).hz ≤ (setAngles K c).angle_z ∨
      (sweepWindow (setAngles K c) egs).end_z - (sweepWindow (setAngles K c) egs).begin_z ≤
        (setAngles K c).rz) := by
  have hpar := init_sameParams K context eqGroups c egs S.init_ok
  obtain ⟨l1, l2, l3, l4⟩ := init_len K context eqGroups c egs S.fresh S.init_ok
  have hcn : 0 < K.CPTS_N := mul_pos S.clen_n S.vlen_n
  have hcx : 0 < K.CPTS_X := mul_pos S.clen_x S.vlen_x
  have hcy : 0 < K.CPTS_Y := mul_pos S.clen_y S.vlen_y
  have hcz : 0 < K.CPTS_Z := mul_pos S.clen_z S.vlen_z
  have h1 : 0 ≤ c.hn := by rw [hpar.hn]; exact S.hn_nonneg
  have h2 : 0 ≤ c.hx := by rw [hpar.hx]; exact S.hx_nonneg
  have h3 : 0 ≤ c.hy := by rw [hpar.hy]; exact S.hy_nonneg
  have h4 : 0 ≤ c.hz := by rw [hpar.hz]; exact S.hz_nonneg
  simp only [sweepWindow, setAngles]
  refine ⟨?_, ?_, ?_, ?_⟩
  · by_cases h : c.rn < c.len_bbn
    · rw [if_pos h]
      exact Or.inl (ROUND_UP_ge _ _ h1 hcn)
    · rw [if_neg h]
      right
      rw [zero_mul]
      omega
  · by_cases h : c.rx < c.len_bbx
    · rw [if_pos h]
      exact Or.inl (ROUND_UP_ge _ _ h2 hcx)
    · rw [if_neg h]
      right
      rw [zero_mul]
      omega
  · by_cases h : c.ry < c.len_bby
    · rw [if_pos h]
      exact Or.inl (ROUND_UP_ge _ _ h3 hcy)
    · rw [if_neg h]
      right
      rw [zero_mul]
      omega
  · by_cases h : c.rz < c.len_bbz
    · rw [if_pos h]
      exact Or.inl (ROUND_UP_ge _ _ h4 hcz)
    · rw [if_neg h]
      right
      rw [zero_mul]
      omega

/-- In the setting of the sweep the sweep window shifted back `k` times, for `k` up
to the number of shifts `|G| * rt - 1`, still contains the box of every group. -/
theorem setting_shifted_contains (K : Consts) (context : StencilContext)
    (eqGroups : List EqGroupBase) (c : StencilContext) (egs : List EqGroupBase)
    (S : SweepSetting K context eqGroups c egs) (g : EqGroupBase) (hg : g ∈ egs)
    (k : Nat) (hk : Int.ofNat k + 1 ≤ Int.ofNat egs.length * c.rt) (q : Pt)
    (hq : g.box.contains q) :
    ((sweepWindow (setAngles K c) egs).shiftBy (setAngles K c) k).contains q := by
  have hpar := init_sameParams K context eqGroups c egs S.init_ok
  have hcn : 0 < K.CPTS_N := mul_pos S.clen_n S.vlen_n
  have hcx : 0 < K.CPTS_X := mul_pos S.clen_x S.vlen_x
  have hcy : 0 < K.CPTS_Y := mul_pos S.clen_y S.vlen_y
  have hcz : 0 < K.CPTS_Z := mul_pos S.clen_z S.vlen_z
  obtain ⟨an, ax, ay, az⟩ := setAngles_nonneg K c (by rw [hpar.hn]; exact S.hn_nonneg)
    (by rw [hpar.hx]; exact S.hx_nonneg) (by rw [hpar.hy]; exact S.hy_nonneg)
    (by rw [hpar.hz]; exact S.hz_nonneg) hcn hcx hcy hcz
  obtain ⟨⟨bn1, bn2⟩, ⟨bx1, bx2⟩, ⟨by1, by2⟩, ⟨bz1, bz2⟩⟩ :=
    init_box_contains K context eqGroups c egs S.fresh S.init_ok g hg
  simp only [Box.contains, EqGroupBase.box] at hq
  obtain ⟨⟨n1, n2⟩, ⟨x1, x2⟩, ⟨y1, y2⟩, ⟨z1, z2⟩⟩ := hq
  have hk0 : (0 : Int) ≤ Int.ofNat k := Int.ofNat_nonneg k
  have sn0 := mul_nonneg hk0 an
  have sx0 := mul_nonneg hk0 ax
  have sy0 := mul_nonneg hk0 ay
  have sz0 := mul_nonneg hk0 az
  have hrt : (setAngles K c).rt = c.rt := rfl
  have sn1 : Int.ofNat k * (setAngles K c).angle_n ≤
      (setAngles K c).angle_n * ((Int.ofNat egs.length) * c.rt - 1) := by
    rw [mul_comm]
    exact Int.mul_le_mul_of_nonneg_left (by omega) an
  have sx1 : Int.ofNat k * (setAngles K c).angle_x ≤
      (setAngles K c).angle_x * ((Int.ofNat egs.length) * c.rt - 1) := by
    rw [mul_comm]
    exact Int.mul_le_mul_of_nonneg_left (by omega) ax
  have sy1 : Int.ofNat k * (setAngles K c).angle_y ≤
      (setAngles K c).angle_y * ((Int.ofNat egs.length) * c.rt - 1) := by
    rw [mul_comm]
    exact Int.mul_le_mul_of_nonneg_left (by omega) ay
  have sz1 : Int.ofNat k * (setAngles K c).angle_z ≤
      (setAngles K c).angle_z * ((Int.ofNat egs.length) * c.rt - 1) := by
    rw [mul_comm]
    exact Int.mul_le_mul_of_nonneg_left (by omega) az
  have q1 : (setAngles K c).begin_bbn = c.begin_bbn := rfl
  have q2 : (setAngles K c).end_bbn = c.end_bbn := rfl
  have q3 : (setAngles K c).begin_bbx = c.begin_bbx := rfl
  have q4 : (setAngles K c).end_bbx = c.end_bbx := rfl
  have q5 : (setAngles K c).begin_bby = c.begin_bby := rfl
  have q6 : (setAngles K c).end_bby = c.end_bby := rfl
  have q7 : (setAngles K c).begin_bbz = c.begin_bbz := rfl
  have q8 : (setAngles K c).end_bbz = c.end_bbz := rfl
  simp only [Box.contains, Box.shiftBy, sweepWindow]
  rw [q1, q2, q3, q4, q5, q6, q7, q8, hrt]
  refine ⟨⟨?_, ?_⟩, ⟨?_, ?_⟩, ⟨?_, ?_⟩, ⟨?_, ?_⟩⟩ <;> linarith

/-- In the setting of the sweep, evaluation `k` of a sweep calls the kernel at the
points of the group's box, each once, in some order. -/
theorem setting_sweepPoints_perm (K : Consts) (context : StencilContext)
    (eqGroups : List EqGroupBase) (c : StencilContext) (egs : List EqGroupBase)
    (S : SweepSetting K context eqGroups c egs) (g : EqGroupBase) (hg : g ∈ egs)
    (k : Nat) (hk : Int.ofNat k + 1 ≤ Int.ofNat egs.length * c.rt) :
    (sweepPoints K (setAngles K c) (sweepWindow (setAngles K c) egs) k g).Perm
      g.box.points := by
  have hpar := init_sameParams K context eqGroups c egs S.init_ok
  rw [List.perm_iff_count]
  intro p
  rw [Box.count_points]
  exact count_sweepPoints K (setAngles K c) _ k g p S.vlen_n S.vlen_x S.vlen_y S.vlen_z
    S.clen_n S.clen_x S.clen_y S.clen_z S.rn_pos S.rx_pos S.ry_pos S.rz_pos
    S.rn_dvd S.rx_dvd S.ry_dvd S.rz_dvd
    (by show 0 < c.bn; rw [hpar.bn]; exact S.bn_pos)
    (by show 0 < c.bx; rw [hpar.bx]; exact S.bx_pos)
    (by show 0 < c.by_; rw [hpar.by_]; exact S.by_pos)
    (by show 0 < c.bz; rw [hpar.bz]; exact S.bz_pos)
    (by show K.CPTS_N ∣ c.bn; rw [hpar.bn]; exact S.bn_dvd)
    (by show K.CPTS_X ∣ c.bx; rw [hpar.bx]; exact S.bx_dvd)
    (by show K.CPTS_Y ∣ c.by_; rw [hpar.by_]; exact S.by_dvd)
    (by show K.CPTS_Z ∣ c.bz; rw [hpar.bz]; exact S.bz_dvd)
    (setAngles_dvd K c)
    (sweepWindow_setting K context eqGroups c egs S g hg).1 (S.aligned g hg)
    (fun q hq => setting_shifted_contains K context eqGroups c egs S g hg k hk q hq)

theorem enumFrom_pairwise_lt {α : Type} (l : List α) :
    ∀ n, (l.enumFrom n).Pairwise (fun a b => a.1 < b.1) := by
  induction l with
  | nil =>
    intro n
    exact List.Pairwise.nil
  | cons a l ih =>
    intro n
    rw [List.enumFrom_cons, List.pairwise_cons]
    refine ⟨?_, ih (n + 1)⟩
    intro b hb
    have := List.le_fst_of_mem_enumFrom hb
    simp only
    omega

theorem mem_region_loops_contains (K : Consts) (sc : StencilContext) (clip : Box) (p : Pt)
    (hVn : 0 < K.VLEN_N) (hVx : 0 < K.VLEN_X) (hVy : 0 < K.VLEN_Y) (hVz : 0 < K.VLEN_Z)
    (hCn : 0 < K.CLEN_N) (hCx : 0 < K.CLEN_X) (hCy : 0 < K.CLEN_Y) (hCz : 0 < K.CLEN_Z)
    (hbn : 0 < sc.bn) (hbx : 0 < sc.bx) (hby : 0 < sc.by_) (hbz : 0 < sc.bz)
    (dbn : K.CPTS_N ∣ sc.bn) (dbx : K.CPTS_X ∣ sc.bx) (dby : K.CPTS_Y ∣ sc.by_)
    (dbz : K.CPTS_Z ∣ sc.bz) (hclip : clip.Aligned K) (hp : p ∈ region_loops K sc clip) :
    clip.contains p := by
  have h := count_region_loops K sc clip p hVn hVx hVy hVz hCn hCx hCy hCz
    hbn hbx hby hbz dbn dbx dby dbz hclip
  by_contra hc
  rw [if_neg hc] at h
  exact (List.count_eq_zero.mp h) hp

/-- In the setting of the comparison, an update made by evaluation `k` of the region `W`
is a kernel call of the scheduled group and time at a point of the window of `W` shifted
back `k` times. -/
theorem setting_mem_updates (K : Consts) (context : StencilContext)
    (eqGroups : List EqGroupBase) (c : StencilContext) (egs : List EqGroupBase)
    (S : SweepSetting K context eqGroups c egs) (W : Box)
    (hW : W ∈ tileLoops (sweepWindow (setAngles K c) egs) (setAngles K c).rn
      (setAngles K c).rx (setAngles K c).ry (setAngles K c).rz)
    (k : Nat) (t : Int) (g : EqGroupBase) (hg : g ∈ egs) (u : Update)
    (hu : u ∈ (evalAt (setAngles K c) W k (t, g)).updates K (setAngles K c)) :
    ∃ p, u = Update.calc_point g.addr t p ∧ (W.shiftBy (setAngles K c) k).contains p := by
  have hpar := init_sameParams K context eqGroups c egs S.init_ok
  rw [evalAt_updates, List.mem_map] at hu
  obtain ⟨p, hp, rfl⟩ := hu
  refine ⟨p, rfl, ?_⟩
  by_cases hne : (clipToGroup (W.shiftBy (setAngles K c) k) g).nonempty = true
  · rw [if_pos hne] at hp
    have hc := mem_region_loops_contains K (setAngles K c) _ p
      S.vlen_n S.vlen_x S.vlen_y S.vlen_z S.clen_n S.clen_x S.clen_y S.clen_z
      (by show 0 < c.bn; rw [hpar.bn]; exact S.bn_pos)
      (by show 0 < c.bx; rw [hpar.bx]; exact S.bx_pos)
      (by show 0 < c.by_; rw [hpar.by_]; exact S.by_pos)
      (by show 0 < c.bz; rw [hpar.bz]; exact S.bz_pos)
      (by show K.CPTS_N ∣ c.bn; rw [hpar.bn]; exact S.bn_dvd)
      (by show K.CPTS_X ∣ c.bx; rw [hpar.bx]; exact S.bx_dvd)
      (by show K.CPTS_Y ∣ c.by_; rw [hpar.by_]; exact S.by_dvd)
      (by show K.CPTS_Z ∣ c.bz; rw [hpar.bz]; exact S.bz_dvd)
      (clipToGroup_aligned
        (shiftBy_aligned k
          (tileLoops_aligned (sweepWindow_setting K context eqGroups c egs S g hg).1
            S.rn_dvd S.rx_dvd S.ry_dvd S.rz_dvd hW) (setAngles_dvd K c))
        (S.aligned g hg)) hp
    exact (clipToGroup_contains.mp hc).1
  · rw [if_neg hne] at hp
    simp at hp

/-- The schedule of a super-step with the set of all groups: every time of the window, and
for each time every group of the list. -/
theorem schedule_all (egs : List EqGroupBase) (s e : Int) :
    schedule egs (egs.map EqGroupBase.addr) (loopWindows s e 1) =
      (loopRange s e).flatMap (fun t => egs.map (fun g => (t, g))) := by
  rw [schedule_times]
  have hf : egs.filter (fun g => decide (g.addr ∈ egs.map EqGroupBase.addr)) = egs := by
    rw [List.filter_eq_self]
    intro g hg
    simp only [decide_eq_true_eq]
    exact List.mem_map_of_mem _ hg
  rw [hf]

theorem runUpdates_halos_id {γ : Type} (halo : Nat → Int → Int → γ → γ)
    (kern : Nat → Int → Pt → γ → γ) (hid : ∀ g a b s, halo g a b s = s)
    (K : Consts) (sc : StencilContext) (egs : List EqGroupBase) (a b : Int) (s : γ) :
    runUpdates halo kern ((egs.map (fun g => Event.exchange_halos g.addr a b)).flatMap
      (Event.updates K sc)) s = s := by
  induction egs with
  | nil => rfl
  | cons g egs ih =>
    rw [List.map_cons, List.flatMap_cons, runUpdates_append]
    have h1 : runUpdates halo kern
        (Event.updates K sc (Event.exchange_halos g.addr a b)) s = s := by
      simp only [Event.updates, runUpdates_cons, runUpdates_nil, Update.apply, hid]
    rw [h1, ih]

theorem flatMap_enum_snd {α β : Type} (l : List α) (f : α → List β) :
    l.enum.flatMap (fun kt => f kt.2) = l.flatMap f := by
  have h := List.flatMap_map Prod.snd f l.enum
  rw [List.enum_map_snd] at h
  rw [h]

/-- In the setting of the comparison, with `rt != 1`, a kernel whose calls at two points
commute when they are for the same group and time or when the points are farther apart
than the halo widths, and a halo exchange that changes nothing: the updates of one
super-step of the optimized run give the same grids as the reference steps of the times
of the super-step. -/
theorem setting_super_step_run {γ : Type} (K : Consts) (context : StencilContext)
    (eqGroups : List EqGroupBase) (c : StencilContext) (egs : List EqGroupBase)
    (S : RefinementSetting K context eqGroups c egs) (hrt : c.rt ≠ 1)
    (halo : Nat → Int → Int → γ → γ) (kern : Nat → Int → Pt → γ → γ)
    (hsame : ∀ g t p q s, kern g t p (kern g t q s) = kern g t q (kern g t p s))
    (hfar : ∀ g t p g2 t2 q s, farApart context p q →
      kern g t p (kern g2 t2 q s) = kern g2 t2 q (kern g t p s))
    (hid : ∀ g a b s, halo g a b s = s)
    (w : Int × Int) (hw : w ∈ loopWindows c.begin_dt (c.begin_dt + c.dt) c.rt) (s : γ) :
    runUpdates halo kern
      ((superStepTrace (setAngles K c) egs (sweepWindow (setAngles K c) egs) w).flatMap
        (Event.updates K (setAngles K c))) s =
    runUpdates halo kern
      ((loopRange w.1 w.2).flatMap (fun t => egs.flatMap (calc_rank_ref_step K c t))) s := by
  have hpar := init_sameParams K context eqGroups c egs S.init_ok
  have hcn : 0 < K.CPTS_N := mul_pos S.clen_n S.vlen_n
  have hcx : 0 < K.CPTS_X := mul_pos S.clen_x S.vlen_x
  have hcy : 0 < K.CPTS_Y := mul_pos S.clen_y S.vlen_y
  have hcz : 0 < K.CPTS_Z := mul_pos S.clen_z S.vlen_z
  obtain ⟨an, ax, ay, az⟩ := setAngles_nonneg K c (by rw [hpar.hn]; exact S.hn_nonneg)
    (by rw [hpar.hx]; exact S.hx_nonneg) (by rw [hpar.hy]; exact S.hy_nonneg)
    (by rw [hpar.hz]; exact S.hz_nonneg) hcn hcx hcy hcz
  obtain ⟨gn, gx, gy, gz⟩ := setting_gaps K context eqGroups c egs S.toSweepSetting
  -- the entries of the schedule
  have hsched : ∀ kt ∈ (schedule egs (egs.map EqGroupBase.addr) (loopWindows w.1 w.2 1)).enum,
      kt.2.2 ∈ egs ∧ Int.ofNat kt.1 + 1 ≤ Int.ofNat egs.length * c.rt := by
    intro kt hkt
    obtain ⟨k, t, g⟩ := kt
    have hget := List.mk_mem_enum_iff_getElem?.mp hkt
    have hmem : (t, g) ∈ schedule egs (egs.map EqGroupBase.addr) (loopWindows w.1 w.2 1) :=
      List.getElem?_mem hget
    refine ⟨(mem_schedule hmem).1, ?_⟩
    have hlen : k < (calc_region_times (setAngles K c) egs (egs.map EqGroupBase.addr)
        (loopWindows w.1 w.2 1)
        { begin_n := 0, begin_x := 0, begin_y := 0, begin_z := 0,
          end_n := 0, end_x := 0, end_y := 0, end_z := 0 }).length := by
      rw [calc_region_times_eq, evalsFrom_length]
      exact List.fst_lt_of_mem_enum hkt
    exact evals_index_bound (setAngles K c) egs _ _ c.begin_dt (c.begin_dt + c.dt) c.rt
      w.1 w.2 hw k hlen
  -- the halo exchanges change nothing
  have hrt2 : ¬ (setAngles K c).rt = 1 := hrt
  simp only [superStepTrace, if_neg hrt2]
  rw [List.flatMap_append, runUpdates_append, runUpdates_halos_id halo kern hid,
    regionSweep_updates_enum]
  -- region by region becomes evaluation by evaluation
  rw [runUpdates_transpose halo kern]
  · -- each evaluation updates the points of the box of its group
    have hcol : ∀ s2, runUpdates halo kern
        ((schedule egs (egs.map EqGroupBase.addr) (loopWindows w.1 w.2 1)).enum.flatMap
          (fun kt => (tileLoops (sweepWindow (setAngles K c) egs) (setAngles K c).rn
            (setAngles K c).rx (setAngles K c).ry (setAngles K c).rz).flatMap
            (fun W => (evalAt (setAngles K c) W kt.1 kt.2).updates K (setAngles K c)))) s2 =
        runUpdates halo kern
          ((schedule egs (egs.map EqGroupBase.addr) (loopWindows w.1 w.2 1)).enum.flatMap
            (fun kt => kt.2.2.box.points.map (Update.calc_point kt.2.2.addr kt.2.1))) s2 := by
      apply runUpdates_flatMap_congr
      intro kt hkt s2
      obtain ⟨hg, hk⟩ := hsched kt hkt
      obtain ⟨k, t, g⟩ := kt
      rw [sweep_column]
      exact runUpdates_points_perm halo kern hsame _ _ _ _
        (setting_sweepPoints_perm K context eqGroups c egs S.toSweepSetting g hg k hk) s2
    rw [hcol, flatMap_enum_snd _
      (fun tg : Int × EqGroupBase => tg.2.box.points.map (Update.calc_point tg.2.addr tg.1)),
      schedule_all, List.flatMap_assoc]
    apply runUpdates_flatMap_congr
    intro t _ s2
    rw [List.flatMap_map]
    apply runUpdates_flatMap_congr
    intro g hg s3
    unfold calc_rank_ref_step
    rw [ref_filter_all K context eqGroups c egs S g hg, runUpdates_cons]
    simp only [Update.apply, hid]
  · -- updates of different regions at evaluations out of order commute
    refine (tileLoops_pairwise _ _ _ _ _ S.rn_pos S.rx_pos S.ry_pos S.rz_pos).imp_of_mem ?_
    intro W W2 hW hW2 hbef
    refine (enumFrom_pairwise_lt _ 0).imp_of_mem ?_
    intro kt2 kt hkt2 hkt hlt a ha b hb
    obtain ⟨hg, _⟩ := hsched kt hkt
    obtain ⟨hg2, _⟩ := hsched kt2 hkt2
    obtain ⟨k, t, g⟩ := kt
    obtain ⟨k2, t2, g2⟩ := kt2
    obtain ⟨p, rfl, hp⟩ := setting_mem_updates K context eqGroups c egs S.toSweepSetting W hW k t g hg a ha
    obtain ⟨q, rfl, hq⟩ :=
      setting_mem_updates K context eqGroups c egs S.toSweepSetting W2 hW2 k2 t2 g2 hg2 b hb
    have hf := shifted_regions_far (setAngles K c) _ W W2 hW hW2 hbef
      S.rn_pos S.rx_pos S.ry_pos S.rz_pos an ax ay az gn gx gy gz k k2 hlt p q hp hq
    have hf2 : farApart context p q := by
      simp only [farApart] at hf ⊢
      have e1 : (setAngles K c).hn = context.hn := hpar.hn
      have e2 : (setAngles K c).hx = context.hx := hpar.hx
      have e3 : (setAngles K c).hy = context.hy := hpar.hy
      have e4 : (setAngles K c).hz = context.hz := hpar.hz
      rw [e1, e2, e3, e4] at hf
      exact hf
    intro s2
    simp only [Update.apply]
    exact (hfar g.addr t p g2.addr t2 q s2 hf2).symm

theorem loopRange_pairwise (b e : Int) : (loopRange b e).Pairwise (fun x y => x < y) := by
  unfold loopRange
  rw [List.pairwise_map]
  refine (List.pairwise_lt_range _).imp ?_
  intro i j hij
  simp only [Int.ofNat_eq_coe]
  omega

/-- The windows of a loop with a positive step cut its range into consecutive pieces. -/
theorem loopRange_windows (b e s : Int) (hs : 0 < s) :
    (loopWindows b e s).flatMap (fun w => loopRange w.1 w.2) = loopRange b e := by
  have hsorted1 : ((loopWindows b e s).flatMap (fun w => loopRange w.1 w.2)).Pairwise
      (fun x y => x < y) := by
    rw [List.pairwise_flatMap]
    refine ⟨fun w _ => loopRange_pairwise _ _, ?_⟩
    refine (loopWindows_pairwise b e s hs).imp ?_
    intro w w2 hww x hx y hy
    rw [mem_loopRange] at hx hy
    omega
  have hsorted2 := loopRange_pairwise b e
  have hmem : ∀ x, x ∈ (loopWindows b e s).flatMap (fun w => loopRange w.1 w.2) ↔
      x ∈ loopRange b e := by
    intro x
    have hc := countP_loopWindows_ite b e s x hs
    rw [List.mem_flatMap, mem_loopRange]
    constructor
    · rintro ⟨w, hw, hx⟩
      rw [mem_loopRange] at hx
      by_contra hcon
      rw [if_neg hcon, List.countP_eq_zero] at hc
      exact hc w hw (by simpa using hx)
    · intro hx
      rw [if_pos hx] at hc
      have hpos : 0 < (loopWindows b e s).countP (fun w => decide (w.1 ≤ x ∧ x < w.2)) := by
        omega
      obtain ⟨w, hw, hwx⟩ := List.countP_pos_iff.mp hpos
      exact ⟨w, hw, mem_loopRange.mpr (by simpa using hwx)⟩
  have hperm : ((loopWindows b e s).flatMap (fun w => loopRange w.1 w.2)).Perm
      (loopRange b e) :=
    (List.perm_ext_iff_of_nodup (hsorted1.imp (fun h => ne_of_lt h))
      (hsorted2.imp (fun h => ne_of_lt h))).mpr hmem
  exact List.eq_of_perm_of_sorted hperm (hsorted1.imp (fun h => le_of_lt h))
    (hsorted2.imp (fun h => le_of_lt h))

theorem count_flatMap_congr {α β : Type} [DecidableEq β] (l : List α) (f g : α → List β)
    (u : β) (h : ∀ a ∈ l, (f a).count u = (g a).count u) :
    (l.flatMap f).count u = (l.flatMap g).count u := by
  induction l with
  | nil => rfl
  | cons a l ih =>
    rw [List.flatMap_cons, List.flatMap_cons, List.count_append, List.count_append,
      h a (List.mem_cons_self _ _), ih (fun b hb => h b (List.mem_cons_of_mem _ hb))]

theorem optUpdates_windows (K : Consts) (context : StencilContext)
    (eqGroups : List EqGroupBase) (c : StencilContext) (egs : List EqGroupBase)
    (hinit : init K context eqGroups = .returned (c, egs)) (hbt : c.bt = 1) :
    optUpdates K context eqGroups =
      (loopWindows c.begin_dt (c.begin_dt + c.dt) c.rt).flatMap (fun w =>
        (superStepTrace (setAngles K c) egs (sweepWindow (setAngles K c) egs) w).flatMap
          (Event.updates K (setAngles K c))) := by
  unfold optUpdates
  rw [calc_rank_opt_returned K context eqGroups c egs hinit hbt]
  simp only [Run.state]
  rw [List.flatMap_assoc]

theorem calc_rank_ref_times (K : Consts) (context : StencilContext)
    (eqGroups : List EqGroupBase) (c : StencilContext) (egs : List EqGroupBase)
    (hinit : init K context eqGroups = .returned (c, egs)) (hT : K.CPTS_T = 1) :
    calc_rank_ref K context eqGroups =
      .returned ((loopRange c.begin_dt (c.begin_dt + c.dt)).flatMap (fun t =>
        egs.flatMap (calc_rank_ref_step K c t))) := by
  rw [calc_rank_ref_shape K context eqGroups c egs hinit hT,
    ← loopWindows_one_starts, List.flatMap_map]

/-- In the setting of the sweep, with `rt != 1`, one super-step of the optimized run calls
the kernel as many times as there are entries for the call in the list of all times of
the super-step, groups and points of the group's box. -/
theorem sweep_super_step_count (K : Consts) (context : StencilContext)
    (eqGroups : List EqGroupBase) (c : StencilContext) (egs : List EqGroupBase)
    (S : SweepSetting K context eqGroups c egs) (hrt : c.rt ≠ 1)
    (w : Int × Int) (hw : w ∈ loopWindows c.begin_dt (c.begin_dt + c.dt) c.rt)
    (a : Nat) (t : Int) (p : Pt) :
    ((superStepTrace (setAngles K c) egs (sweepWindow (setAngles K c) egs) w).flatMap
        (Event.updates K (setAngles K c))).count (Update.calc_point a t p) =
    ((loopRange w.1 w.2).flatMap (fun t2 => egs.flatMap (fun g =>
      g.box.points.map (Update.calc_point g.addr t2)))).count (Update.calc_point a t p) := by
  have hsched : ∀ kt ∈ (schedule egs (egs.map EqGroupBase.addr) (loopWindows w.1 w.2 1)).enum,
      kt.2.2 ∈ egs ∧ Int.ofNat kt.1 + 1 ≤ Int.ofNat egs.length * c.rt := by
    intro kt hkt
    obtain ⟨k, t, g⟩ := kt
    have hget := List.mk_mem_enum_iff_getElem?.mp hkt
    have hmem : (t, g) ∈ schedule egs (egs.map EqGroupBase.addr) (loopWindows w.1 w.2 1) :=
      List.getElem?_mem hget
    refine ⟨(mem_schedule hmem).1, ?_⟩
    have hlen : k < (calc_region_times (setAngles K c) egs (egs.map EqGroupBase.addr)
        (loopWindows w.1 w.2 1)
        { begin_n := 0, begin_x := 0, begin_y := 0, begin_z := 0,
          end_n := 0, end_x := 0, end_y := 0, end_z := 0 }).length := by
      rw [calc_region_times_eq, evalsFrom_length]
      exact List.fst_lt_of_mem_enum hkt
    exact evals_index_bound (setAngles K c) egs _ _ c.begin_dt (c.begin_dt + c.dt) c.rt
      w.1 w.2 hw k hlen
  have hrt2 : ¬ (setAngles K c).rt = 1 := hrt
  simp only [superStepTrace, if_neg hrt2]
  rw [List.flatMap_append, List.count_append, regionSweep_updates_enum]
  have hhalo : ((egs.map (fun g => Event.exchange_halos g.addr w.1 w.2)).flatMap
      (Event.updates K (setAngles K c))).count (Update.calc_point a t p) = 0 := by
    rw [List.count_eq_zero, List.mem_flatMap]
    rintro ⟨e, he, hu⟩
    obtain ⟨g, _, rfl⟩ := List.mem_map.mp he
    simp [Event.updates] at hu
  rw [hhalo, zero_add, (perm_transpose _ _ _).count_eq]
  have hcol : ((schedule egs (egs.map EqGroupBase.addr) (loopWindows w.1 w.2 1)).enum.flatMap
        (fun kt => (tileLoops (sweepWindow (setAngles K c) egs) (setAngles K c).rn
          (setAngles K c).rx (setAngles K c).ry (setAngles K c).rz).flatMap
          (fun W => (evalAt (setAngles K c) W kt.1 kt.2).updates K (setAngles K c)))).count
        (Update.calc_point a t p) =
      ((schedule egs (egs.map EqGroupBase.addr) (loopWindows w.1 w.2 1)).enum.flatMap
        (fun kt => kt.2.2.box.points.map (Update.calc_point kt.2.2.addr kt.2.1))).count
        (Update.calc_point a t p) := by
    apply count_flatMap_congr
    intro kt hkt
    obtain ⟨hg, hk⟩ := hsched kt hkt
    obtain ⟨k, t2, g⟩ := kt
    rw [sweep_column]
    exact ((setting_sweepPoints_perm K context eqGroups c egs S g hg k hk).map _).count_eq _
  rw [hcol, flatMap_enum_snd _
    (fun tg : Int × EqGroupBase => tg.2.box.points.map (Update.calc_point tg.2.addr tg.1)),
    schedule_all, List.flatMap_assoc]
  apply count_flatMap_congr
  intro t2 _
  rw [List.flatMap_map]

/-- In the setting of the sweep, for any `rt >= 1`, the optimized run calls the kernel as
many times as there are entries for the call in the list of all times of the run, groups
and points of the group's box. -/
theorem sweep_count (K : Consts) (context : StencilContext)
    (eqGroups : List EqGroupBase) (c : StencilContext) (egs : List EqGroupBase)
    (S : SweepSetting K context eqGroups c egs) (a : Nat) (t : Int) (p : Pt) :
    (optUpdates K context eqGroups).count (Update.calc_point a t p) =
      ((loopRange c.begin_dt (c.begin_dt + c.dt)).flatMap (fun t2 => egs.flatMap (fun g =>
        g.box.points.map (Update.calc_point g.addr t2)))).count (Update.calc_point a t p) := by
  have hpar := init_sameParams K context eqGroups c egs S.init_ok
  have hbt : c.bt = 1 := by rw [hpar.bt]; exact S.bt_one
  by_cases hone : c.rt = 1
  · rw [optUpdates_shape K context eqGroups c egs S.init_ok hone hbt,
      ← loopWindows_one_starts, List.flatMap_map]
    apply count_flatMap_congr
    intro w hw
    apply count_flatMap_congr
    intro g hg
    obtain ⟨P, h1, h2⟩ := sweep_step_perm K context eqGroups c egs S w hw g hg
    rw [h1, List.count_cons_of_ne (by simp)]
    exact (h2.map _).count_eq _
  · have hpos : 0 < c.rt := by
      have := S.rt_pos
      rw [hpar.rt]
      omega
    rw [optUpdates_windows K context eqGroups c egs S.init_ok hbt,
      ← loopRange_windows c.begin_dt (c.begin_dt + c.dt) c.rt hpos, List.flatMap_assoc]
    apply count_flatMap_congr
    intro w hw
    exact sweep_super_step_count K context eqGroups c egs S hone w hw a t p

/-- In the setting of the comparison the reference run calls the kernel as many times as
there are entries for the call in the list of all times of the run, groups and points of
the group's box. -/
theorem ref_count (K : Consts) (context : StencilContext)
    (eqGroups : List EqGroupBase) (c : StencilContext) (egs : List EqGroupBase)
    (S : RefinementSetting K context eqGroups c egs) (a : Nat) (t : Int) (p : Pt) :
    (calc_rank_ref K context eqGroups).state.count (Update.calc_point a t p) =
      ((loopRange c.begin_dt (c.begin_dt + c.dt)).flatMap (fun t2 => egs.flatMap (fun g =>
        g.box.points.map (Update.calc_point g.addr t2)))).count (Update.calc_point a t p) := by
  rw [calc_rank_ref_times K context eqGroups c egs S.init_ok S.cpts_t]
  simp only [Run.state]
  apply count_flatMap_congr
  intro t2 _
  apply count_flatMap_congr
  intro g hg
  unfold calc_rank_ref_step
  rw [ref_filter_all K context eqGroups c egs S g hg, List.count_cons_of_ne (by simp)]

/-- In the setting of the comparison, for any `rt >= 1`: with a kernel whose calls at two
points commute when they are for the same group and time, and, unless `rt == 1`, also
when the points are farther apart than the halo widths, and a halo exchange that, unless
`rt == 1`, changes nothing, the two runs give the same grids. -/
theorem setting_run {γ : Type} (K : Consts) (context : StencilContext)
    (eqGroups : List EqGroupBase) (c : StencilContext) (egs : List EqGroupBase)
    (S : RefinementSetting K context eqGroups c egs)
    (halo : Nat → Int → Int → γ → γ) (kern : Nat → Int → Pt → γ → γ)
    (hsame : ∀ g t p q s, kern g t p (kern g t q s) = kern g t q (kern g t p s))
    (hfar : context.rt ≠ 1 → ∀ g t p g2 t2 q s, farApart context p q →
      kern g t p (kern g2 t2 q s) = kern g2 t2 q (kern g t p s))
    (hid : context.rt ≠ 1 → ∀ g a b s, halo g a b s = s) (s0 : γ) :
    runUpdates halo kern (optUpdates K context eqGroups) s0 =
      runUpdates halo kern (calc_rank_ref K context eqGroups).state s0 := by
  have hpar := init_sameParams K context eqGroups c egs S.init_ok
  by_cases hone : context.rt = 1
  · exact (refines_ref_rt_one K context eqGroups c egs S hone).2.2.2 γ halo kern hsame s0
  · have hrt : c.rt ≠ 1 := by rw [hpar.rt]; exact hone
    have hbt : c.bt = 1 := by rw [hpar.bt]; exact S.bt_one
    have hpos : 0 < c.rt := by
      have := S.rt_pos
      rw [hpar.rt]
      omega
    rw [optUpdates_windows K context eqGroups c egs S.init_ok hbt,
      calc_rank_ref_times K context eqGroups c egs S.init_ok S.cpts_t]
    simp only [Run.state]
    rw [← loopRange_windows c.begin_dt (c.begin_dt + c.dt) c.rt hpos, List.flatMap_assoc]
    apply runUpdates_flatMap_congr
    intro w hw s
    exact setting_super_step_run K context eqGroups c egs S hrt halo kern hsame (hfar hone)
      (hid hone) w hw s

theorem count_flatMap_zero {α β : Type} [DecidableEq β] (l : List α) (f : α → List β)
    (u : β) (h : ∀ a ∈ l, (f a).count u = 0) : (l.flatMap f).count u = 0 := by
  induction l with
  | nil => rfl
  | cons a l ih =>
    rw [List.flatMap_cons, List.count_append, h a (List.mem_cons_self _ _),
      ih (fun b hb => h b (List.mem_cons_of_mem _ hb))]

theorem count_flatMap_single {α β : Type} [DecidableEq β] (l : List α) (f : α → List β)
    (u : β) (a0 : α) (hnd : l.Nodup) (ha : a0 ∈ l)
    (hne : ∀ a ∈ l, a ≠ a0 → (f a).count u = 0) :
    (l.flatMap f).count u = (f a0).count u := by
  induction l with
  | nil => cases ha
  | cons a l ih =>
    rw [List.nodup_cons] at hnd
    rw [List.flatMap_cons, List.count_append]
    by_cases h : a = a0
    · subst h
      rw [count_flatMap_zero l f u (fun b hb => hne b (List.mem_cons_of_mem _ hb)
        (fun hba => hnd.1 (hba ▸ hb)))]
      rfl
    · have ha2 : a0 ∈ l := by
        rcases List.mem_cons.mp ha with h2 | h2
        · exact absurd h2.symm h
        · exact h2
      rw [hne a (List.mem_cons_self _ _) h, zero_add,
        ih hnd.2 ha2 (fun b hb => hne b (List.mem_cons_of_mem _ hb))]

/-- In the list of all times of a range, groups with distinct addresses and points of the
group's box, the kernel call of a group at a time and a point stands once when the time
is in the range and the point in the box, and not at all otherwise. -/
theorem count_all_points (egs : List EqGroupBase) (hnd : (egs.map EqGroupBase.addr).Nodup)
    (b e : Int) (g : EqGroupBase) (hg : g ∈ egs) (t : Int) (p : Pt) :
    ((loopRange b e).flatMap (fun t2 => egs.flatMap (fun g2 =>
      g2.box.points.map (Update.calc_point g2.addr t2)))).count
        (Update.calc_point g.addr t p) =
      if (b ≤ t ∧ t < e) ∧ g.box.contains p then 1 else 0 := by
  have hzero : ∀ t2, ∀ g2 ∈ egs, (t2 ≠ t ∨ g2 ≠ g) →
      (g2.box.points.map (Update.calc_point g2.addr t2)).count
        (Update.calc_point g.addr t p) = 0 := by
    intro t2 g2 hg2 hne
    rw [List.count_eq_zero]
    intro hm
    obtain ⟨q, _, hq⟩ := List.mem_map.mp hm
    injection hq with h1 h2 h3
    rcases hne with hne | hne
    · exact hne h2
    · exact hne (List.inj_on_of_nodup_map hnd hg2 hg h1)
  by_cases ht : b ≤ t ∧ t < e
  · rw [count_flatMap_single _ _ _ t (nodup_loopRange _ _) (mem_loopRange.mpr ht)
        (fun t2 _ hne => count_flatMap_zero _ _ _ (fun g2 hg2 => hzero t2 g2 hg2 (Or.inl hne))),
      count_flatMap_single _ _ _ g hnd.of_map hg
        (fun g2 hg2 hne => hzero t g2 hg2 (Or.inr hne)),
      List.count_map_of_injective _ _ (fun a b h => by injection h), Box.count_points]
    simp only [ht, true_and]
  · rw [if_neg (fun h => ht h.1)]
    apply count_flatMap_zero
    intro t2 ht2
    apply count_flatMap_zero
    intro g2 hg2
    apply hzero t2 g2 hg2
    left
    rintro rfl
    exact ht (mem_loopRange.mp ht2)

/-- In the setting of the sweep, for any `rt >= 1`, the optimized run calls the kernel of
a group once at every time of the run and every point of the group's box, and at no
other time or point. -/
theorem setting_opt_count (K : Consts) (context : StencilContext)
    (eqGroups : List EqGroupBase) (c : StencilContext) (egs : List EqGroupBase)
    (S : SweepSetting K context eqGroups c egs) (g : EqGroupBase) (hg : g ∈ egs)
    (t : Int) (p : Pt) :
    (optUpdates K context eqGroups).count (Update.calc_point g.addr t p) =
      if (c.begin_dt ≤ t ∧ t < c.begin_dt + c.dt) ∧ g.box.contains p then 1 else 0 := by
  have hnd : (egs.map EqGroupBase.addr).Nodup := by
    rw [init_addrs K context eqGroups c egs S.fresh S.init_ok]
    exact S.distinct
  rw [sweep_count K context eqGroups c egs S, count_all_points egs hnd _ _ g hg]

/-- In the setting of the sweep the optimized run calls no kernel for an address that is
not a group's. -/
theorem setting_opt_no_other (K : Consts) (context : StencilContext)
    (eqGroups : List EqGroupBase) (c : StencilContext) (egs : List EqGroupBase)
    (S : SweepSetting K context eqGroups c egs) (a : Nat)
    (ha : a ∉ egs.map EqGroupBase.addr) (t : Int) (p : Pt) :
    (optUpdates K context eqGroups).count (Update.calc_point a t p) = 0 := by
  rw [sweep_count K context eqGroups c egs S]
  apply count_flatMap_zero
  intro t2 _
  apply count_flatMap_zero
  intro g hg
  rw [List.count_eq_zero]
  intro hm
  obtain ⟨q, _, hq⟩ := List.mem_map.mp hm
  injection hq with h1 h2 h3
  exact ha (h1 ▸ List.mem_map_of_mem _ hg)

theorem stencilKernel_same (g : Nat) (t : Int) (p q : Pt) (s : Int → Pt → Int) :
    stencilKernel g t p (stencilKernel g t q s) =
      stencilKernel g t q (stencilKernel g t p s) := by
  have ht : ¬ (t = t + 1) := by omega
  funext t3 r
  simp only [stencilKernel, ht, false_and, if_false]
  by_cases hpq : p = q
  · subst hpq
    rfl
  · by_cases h1 : t3 = t + 1 ∧ r = p
    · have h2 : ¬ (t3 = t + 1 ∧ r = q) := fun h => hpq (h1.2.symm.trans h.2)
      rw [if_pos h1, if_neg h2, if_pos h1]
    · by_cases h2 : t3 = t + 1 ∧ r = q
      · rw [if_neg h1, if_pos h2, if_pos h2]
      · rw [if_neg h1, if_neg h2, if_neg h2, if_neg h1]

theorem stencilKernel_far (g : Nat) (t : Int) (p : Pt) (g2 : Nat) (t2 : Int) (q : Pt)
    (s : Int → Pt → Int) (hf : farApart foldContext p q) :
    stencilKernel g t p (stencilKernel g2 t2 q s) =
      stencilKernel g2 t2 q (stencilKernel g t p s) := by
  have key : p.n ≠ q.n ∨ 1 < p.x - q.x ∨ 1 < q.x - p.x ∨ p.y ≠ q.y ∨ p.z ≠ q.z := by
    simp only [farApart, foldContext, StencilContext.ofSizes, abs_eq_max_neg] at hf
    omega
  have hpq : p ≠ q := by
    rintro rfl
    omega
  have h1 : (⟨p.n, p.x - 1, p.y, p.z⟩ : Pt) ≠ q := by
    rintro rfl
    simp only at key
    omega
  have h2 : (⟨p.n, p.x + 1, p.y, p.z⟩ : Pt) ≠ q := by
    rintro rfl
    simp only at key
    omega
  have h3 : (⟨q.n, q.x - 1, q.y, q.z⟩ : Pt) ≠ p := by
    rintro rfl
    simp only at key
    omega
  have h4 : (⟨q.n, q.x + 1, q.y, q.z⟩ : Pt) ≠ p := by
    rintro rfl
    simp only at key
    omega
  funext t3 r
  simp only [stencilKernel, h1, h2, h3, h4, and_false, if_false]
  by_cases a1 : t3 = t + 1 ∧ r = p
  · have a2 : ¬ (t3 = t2 + 1 ∧ r = q) := fun h => hpq (a1.2.symm.trans h.2)
    rw [if_pos a1, if_neg a2, if_pos a1]
  · by_cases a2 : t3 = t2 + 1 ∧ r = q
    · rw [if_neg a1, if_pos a2, if_pos a2]
    · rw [if_neg a1, if_neg a2, if_neg a2, if_neg a1]

/-- The setting of the comparison holds for `foldContext` (`rt = 2`, `VLEN_X = 2`) with
`foldGroups`. -/
theorem foldSetting :
    RefinementSetting foldX2 foldContext foldGroups
      (init foldX2 foldContext foldGroups).state.1
      (init foldX2 foldContext foldGroups).state.2 where
  fresh := rfl
  groups_fresh := by decide
  distinct := by decide
  pred_static := by
    intro g hg c1 c2 t1 t2 n x y z _
    simp only [foldGroups, List.mem_cons, List.mem_singleton, List.not_mem_nil,
      or_false] at hg
    rcases hg with rfl | rfl <;> rfl
  dn_idx := by decide
  dx_idx := by decide
  dy_idx := by decide
  dz_idx := by decide
  init_ok := rfl
  rt_pos := by decide
  bt_one := rfl
  cpts_t := rfl
  vlen_n := by decide
  vlen_x := by decide
  vlen_y := by decide
  vlen_z := by decide
  clen_n := by decide
  clen_x := by decide
  clen_y := by decide
  clen_z := by decide
  hn_nonneg := by decide
  hx_nonneg := by decide
  hy_nonneg := by decide
  hz_nonneg := by decide
  rn_pos := by decide
  rx_pos := by decide
  ry_pos := by decide
  rz_pos := by decide
  rn_dvd := by decide
  rx_dvd := by decide
  ry_dvd := by decide
  rz_dvd := by decide
  bn_pos := by decide
  bx_pos := by decide
  by_pos := by decide
  bz_pos := by decide
  bn_dvd := by decide
  bx_dvd := by decide
  by_dvd := by decide
  bz_dvd := by decide
  aligned := by decide


/-! ## The two runs for any `rt` -/

/-- **C5 (amended).** In the setting of the comparison (`RefinementSetting`: boxes
computed by `init`, domain predicates that do not depend on the time, `rt >= 1`,
`bt == 1`, `CPTS_T == 1`, and region sizes, block sizes and box begins and ends that
are positive multiples of the cluster sizes `CPTS_d`), for `rt == 1` and for `rt > 1`
alike: `calc_rank_opt` and `calc_rank_ref` both return; every kernel call (group, time,
point) is made the same number of times by both; with `rt == 1` the two update lists are
permutations of each other; and the two runs give the same grids from the same grids, for
every kernel whose calls at two points commute when they are made for the same group and
time, and, unless `rt == 1`, also when the two points are farther apart than the halo
width in some dimension, with a halo exchange that, unless `rt == 1`, changes nothing (a
single rank). -/
theorem calc_rank_opt_refines_ref (K : Consts) (context : StencilContext)
    (eqGroups : List EqGroupBase) (c : StencilContext) (egs : List EqGroupBase)
    (S : RefinementSetting K context eqGroups c egs) :
    calc_rank_opt K context eqGroups = .returned (calc_rank_opt K context eqGroups).state ∧
    calc_rank_ref K context eqGroups = .returned (calc_rank_ref K context eqGroups).state ∧
    (∀ (a : Nat) (t : Int) (p : Pt),
      (optUpdates K context eqGroups).count (Update.calc_point a t p) =
        (calc_rank_ref K context eqGroups).state.count (Update.calc_point a t p)) ∧
    (context.rt = 1 →
      (optUpdates K context eqGroups).Perm (calc_rank_ref K context eqGroups).state) ∧
    ∀ (γ : Type) (halo : Nat → Int → Int → γ → γ) (kern : Nat → Int → Pt → γ → γ),
      (∀ g t p q s, kern g t p (kern g t q s) = kern g t q (kern g t p s)) →
      (context.rt ≠ 1 → ∀ g t p g2 t2 q s, farApart context p q →
        kern g t p (kern g2 t2 q s) = kern g2 t2 q (kern g t p s)) →
      (context.rt ≠ 1 → ∀ g a b s, halo g a b s = s) →
      ∀ s0 : γ, runUpdates halo kern (optUpdates K context eqGroups) s0 =
        runUpdates halo kern (calc_rank_ref K context eqGroups).state s0 := by
  have hpar := init_sameParams K context eqGroups c egs S.init_ok
  have hbt : c.bt = 1 := by rw [hpar.bt]; exact S.bt_one
  have hopt := calc_rank_opt_returned K context eqGroups c egs S.init_ok hbt
  have href := calc_rank_ref_shape K context eqGroups c egs S.init_ok S.cpts_t
  refine ⟨by rw [hopt]; rfl, by rw [href]; rfl, ?_, ?_, ?_⟩
  · intro a t p
    rw [sweep_count K context eqGroups c egs S.toSweepSetting a t p,
      ref_count K context eqGroups c egs S a t p]
  · intro hone
    exact (refines_ref_rt_one K context eqGroups c egs S hone).2.2.1
  · intro γ halo kern hsame hfar hid s0
    exact setting_run K context eqGroups c egs S halo kern hsame hfar hid s0

/-- Witness of the amended C5 with `rt = 2` and `VLEN_X = 2`: on `foldContext` (three time
steps in super-steps of two) with `foldGroups` the two runs make every kernel call the
same number of times and, with the kernel that adds the two neighbors along `x`, give the
same grids from `rampGrid`. -/
theorem calc_rank_opt_refines_ref_witness :
    RefinementSetting foldX2 foldContext foldGroups
      (init foldX2 foldContext foldGroups).state.1
      (init foldX2 foldContext foldGroups).state.2 ∧
    foldContext.rt = 2 ∧
    (∀ (a : Nat) (t : Int) (p : Pt),
      (optUpdates foldX2 foldContext foldGroups).count (Update.calc_point a t p) =
        (calc_rank_ref foldX2 foldContext foldGroups).state.count
          (Update.calc_point a t p)) ∧
    runUpdates (fun _ _ _ s => s) stencilKernel
      (optUpdates foldX2 foldContext foldGroups) rampGrid =
    runUpdates (fun _ _ _ s => s) stencilKernel
      (calc_rank_ref foldX2 foldContext foldGroups).state rampGrid :=
  ⟨foldSetting, rfl,
    (calc_rank_opt_refines_ref foldX2 foldContext foldGroups _ _ foldSetting).2.2.1,
    (calc_rank_opt_refines_ref foldX2 foldContext foldGroups _ _ foldSetting).2.2.2.2
      (Int → Pt → Int) (fun _ _ _ s => s) stencilKernel stencilKernel_same
      (fun _ => stencilKernel_far) (fun _ _ _ _ _ => rfl) rampGrid⟩

/-! ## Wavefront coverage -/

/-- **C6 (counterexample).** Counterexamples to the claim as stated, both with `rt = 2`,
positive region sizes and regions that tile the extended window.
(1) `VLEN_X = 2`, one group with the box `[1,3)` along `x`, blocks of two points: the run
returns, the point `x = 2` of the box lies in the clipped window of exactly one region at
evaluation `0` (the group at `t = 0`), and still the kernel is never called at `x = 2`
for `t = 0`, while it is called at `x = 0`, which is not a point of the box.
(2) `CLEN_X = 2`, `VLEN_X = 1`, blocks of one point along `x`: the point `x = 1` of the
box is visited twice at `t = 0`. -/
theorem wavefront_misses_point :
    (pairContext.rt = 2 ∧
    calc_rank_opt foldX2 pairContext innerPair =
      .returned (calc_rank_opt foldX2 pairContext innerPair).state ∧
    (∀ g ∈ (init foldX2 pairContext innerPair).state.2,
      g.box.contains ⟨0, 2, 0, 0⟩ ∧ ¬ g.box.contains ⟨0, 0, 0, 0⟩) ∧
    ((calc_rank_opt foldX2 pairContext innerPair).state.trace.countP
      (Event.visits 0 ⟨0, 2, 0, 0⟩) = 1) ∧
    (optUpdates foldX2 pairContext innerPair).count
      (Update.calc_point 0 0 ⟨0, 2, 0, 0⟩) = 0 ∧
    (optUpdates foldX2 pairContext innerPair).count
      (Update.calc_point 0 0 ⟨0, 0, 0, 0⟩) = 1) ∧
    (({ clusterContext with dt := 2, rt := 2 } : StencilContext).rt = 2 ∧
    calc_rank_opt { Consts.unit with CLEN_X := 2 } { clusterContext with dt := 2, rt := 2 }
        everywhere =
      .returned (calc_rank_opt { Consts.unit with CLEN_X := 2 }
        { clusterContext with dt := 2, rt := 2 } everywhere).state ∧
    (∀ g ∈ (init { Consts.unit with CLEN_X := 2 } { clusterContext with dt := 2, rt := 2 }
        everywhere).state.2, g.box.contains ⟨0, 1, 0, 0⟩) ∧
    (optUpdates { Consts.unit with CLEN_X := 2 } { clusterContext with dt := 2, rt := 2 }
      everywhere).count (Update.calc_point 0 0 ⟨0, 1, 0, 0⟩) = 2) := by
  refine ⟨⟨rfl, rfl, by decide, by decide, by decide, by decide⟩,
    ⟨rfl, rfl, by decide, by decide⟩⟩

/-- **C6 (amended).** In the setting of the sweep (`SweepSetting`: boxes computed by
`init`, `rt >= 1`, `bt == 1`, and region sizes, block sizes and box begins and ends that
are positive multiples of the cluster sizes `CPTS_d`), for `rt > 1` as for `rt == 1`:
the trace of the run is, super-step by super-step, the halo exchanges and the region
sweeps over the extended window; for every inner time step `t` of a super-step and every
group `g`, each point `p` of the box of `g` lies in the skewed and clipped window of
exactly one region of the sweep; and the run calls the kernel of `g` at `t` and `p`
exactly once when `t` is a time of the run and `p` a point of the box of `g`, never
otherwise, and calls no kernel for another group. -/
theorem wavefront_coverage (K : Consts) (context : StencilContext)
    (eqGroups : List EqGroupBase) (c : StencilContext) (egs : List EqGroupBase)
    (S : SweepSetting K context eqGroups c egs) (g : EqGroupBase) (hg : g ∈ egs)
    (t : Int) (p : Pt) :
    (calc_rank_opt K context eqGroups).state.trace =
      (loopWindows c.begin_dt (c.begin_dt + c.dt) c.rt).flatMap
        (superStepTrace (calc_rank_opt K context eqGroups).state.context egs
          (sweepWindow (calc_rank_opt K context eqGroups).state.context egs)) ∧
    (∀ w ∈ loopWindows c.begin_dt (c.begin_dt + c.dt) c.rt, ∀ k : Nat,
      (schedule egs (egs.map EqGroupBase.addr) (loopWindows w.1 w.2 1))[k]? = some (t, g) →
      g.box.contains p →
      (regionSweep (calc_rank_opt K context eqGroups).state.context egs w.1 w.2
        (egs.map EqGroupBase.addr)
        (sweepWindow (calc_rank_opt K context eqGroups).state.context egs)).countP
          (Event.visits k p) = 1) ∧
    (optUpdates K context eqGroups).count (Update.calc_point g.addr t p) =
      (if (c.begin_dt ≤ t ∧ t < c.begin_dt + c.dt) ∧ g.box.contains p then 1 else 0) ∧
    ∀ a : Nat, a ∉ egs.map EqGroupBase.addr →
      (optUpdates K context eqGroups).count (Update.calc_point a t p) = 0 := by
  have hpar := init_sameParams K context eqGroups c egs S.init_ok
  have hbt : c.bt = 1 := by rw [hpar.bt]; exact S.bt_one
  have hopt := calc_rank_opt_returned K context eqGroups c egs S.init_ok hbt
  refine ⟨by rw [hopt]; rfl, ?_, ?_, ?_⟩
  · intro w hw k hk hp
    exact (region_window_coverage K context eqGroups c egs S.fresh S.init_ok S.hn_nonneg
      S.hx_nonneg S.hy_nonneg S.hz_nonneg (mul_pos S.clen_n S.vlen_n)
      (mul_pos S.clen_x S.vlen_x) (mul_pos S.clen_y S.vlen_y) (mul_pos S.clen_z S.vlen_z)
      S.rn_pos S.rx_pos S.ry_pos S.rz_pos w hw _ k t g hk p hp).2
  · exact setting_opt_count K context eqGroups c egs S g hg t p
  · intro a ha
    exact setting_opt_no_other K context eqGroups c egs S a ha t p

/-- Witness of the amended C6 with `rt = 2` and `VLEN_X = 2`: on `foldContext` with
`foldGroups` the second group has the box `[2,4)` along `x`; at `t = 2`, in the second
super-step, its kernel is called once at `x = 3` and never at `x = 1`. -/
theorem wavefront_coverage_witness :
    foldGroup ∈ (init foldX2 foldContext foldGroups).state.2 ∧
    foldGroup.box.contains ⟨0, 3, 0, 0⟩ ∧
    (optUpdates foldX2 foldContext foldGroups).count
      (Update.calc_point foldGroup.addr 2 ⟨0, 3, 0, 0⟩) = 1 ∧
    (optUpdates foldX2 foldContext foldGroups).count
      (Update.calc_point foldGroup.addr 2 ⟨0, 1, 0, 0⟩) = 0 :=
  ⟨List.getElem?_mem (by rfl : (init foldX2 foldContext foldGroups).state.2[1]? =
      some foldGroup), by decide,
    (wavefront_coverage foldX2 foldContext foldGroups _ _ foldSetting.toSweepSetting
      foldGroup (List.getElem?_mem (by rfl :
        (init foldX2 foldContext foldGroups).state.2[1]? = some foldGroup))
      2 ⟨0, 3, 0, 0⟩).2.2.1.trans (if_pos (by decide)),
    (wavefront_coverage foldX2 foldContext foldGroups _ _ foldSetting.toSweepSetting
      foldGroup (List.getElem?_mem (by rfl :
        (init foldX2 foldContext foldGroups).state.2[1]? = some foldGroup))
      2 ⟨0, 1, 0, 0⟩).2.2.1.trans (if_neg (by decide))⟩

end Yask
